import Mathlib

/-!
# GEM3 mapper: approximate-string-matching core

A shallow embedding of the parts of the GEM3 mapper that the specification
talks about, together with the theorems that settle the specification's
claims against the code.

Conventions of the embedding

* `uint64_t` / `uint16_t` values are natural numbers; every operation that can
  wrap in C carries its explicit `% 2^64` / `% 2^16`.
* C arrays that are only read are lists, read with `List.getD _ _ 0`
  (the claims only concern in-bounds reads); histogram arrays indexed by a
  masked k-mer index are functions `Nat → Nat`.
* `for`/`while` loops are recursive functions over the number of remaining
  iterations; an early `return` is the left summand of the loop result.
-/

namespace Gem

/-! ## Machine arithmetic -/

/-- The modulus of `uint64_t` arithmetic. -/
def U64 : Nat := 2 ^ 64

/-- The modulus of `uint16_t` arithmetic. -/
def U16 : Nat := 2 ^ 16

/-- Subtraction of `uint64_t` values, `a - b` in C. -/
def sub64 (a b : Nat) : Nat := (a % U64 + (U64 - b % U64)) % U64

/-- Multiplication of `uint64_t` values, `a * b` in C. -/
def mul64 (a b : Nat) : Nat := (a * b) % U64

/-- Post-decrement target of a `uint64_t`, `x - 1` in C. -/
def dec64 (x : Nat) : Nat := sub64 x 1

/-- Increment of a `uint16_t`, `x + 1` in C. -/
def inc16 (x : Nat) : Nat := (x + 1) % U16

/-- Decrement of a `uint16_t`, `x - 1` in C. -/
def dec16 (x : Nat) : Nat := (x % U16 + (U16 - 1)) % U16

/-! ## kmer_counting.c -/

/-- The constant `KMER_COUNTING_LENGTH` (kmer_counting.c:34). -/
def KMER_COUNTING_LENGTH : Nat := 5

/-- The constant `KMER_COUNTING_MASK` (kmer_counting.c:35). -/
def KMER_COUNTING_MASK : Nat := 0x3FF

/-- The constant `KMER_COUNTING_EFFECTIVE_THRESHOLD` (kmer_counting.c:44). -/
def KMER_COUNTING_EFFECTIVE_THRESHOLD : Nat := 12

/-- Modelled from the spec: the constant `ALIGN_DISTANCE_INF` is declared in
`bpm_align.h`, which is not part of the sources; the spec only calls it
"ALIGN_DISTANCE_INF (reject)" / "∞".  It is taken to be the largest 32-bit
value; the theorems only use that it is not `0`. -/
def ALIGN_DISTANCE_INF : Nat := 2 ^ 32 - 1

/-- The macro `KMER_COUNTING_ADD_INDEX` (kmer_counting.c:41) on a `uint64_t`. -/
def KMER_COUNTING_ADD_INDEX (kmer_idx enc_char : Nat) : Nat :=
  ((kmer_idx <<< 2) ||| enc_char) % U64

/-- The macro `KMER_COUNTING_ADD_INDEX__MASK` (kmer_counting.c:42). -/
def KMER_COUNTING_ADD_INDEX__MASK (kmer_idx enc_char : Nat) : Nat :=
  ((kmer_idx <<< 2) ||| enc_char) &&& KMER_COUNTING_MASK

/-- The struct `kmer_counting_t`, as far as kmer_counting.c uses it. -/
structure kmer_counting_t where
  enabled : Bool
  kmer_count_text : Nat → Nat
  kmer_count_pattern : Nat → Nat
  pattern_length : Nat

/-- The "Initial Fill" loop of `kmer_counting_compile` (kmer_counting.c:67-70):
`n` iterations from position `pos`. -/
def kmer_counting_compile_fill (pattern : List Nat) : Nat → Nat → Nat → Nat
  | 0, _, kmer_idx => kmer_idx
  | n + 1, pos, kmer_idx =>
    kmer_counting_compile_fill pattern n (pos + 1)
      (KMER_COUNTING_ADD_INDEX__MASK kmer_idx (pattern.getD pos 0))

/-- The "Compile all k-mers" loop of `kmer_counting_compile`
(kmer_counting.c:72-76): `n` iterations from position `pos`. -/
def kmer_counting_compile_count (pattern : List Nat) :
    Nat → Nat → Nat → (Nat → Nat) → (Nat → Nat)
  | 0, _, _, count => count
  | n + 1, pos, kmer_idx, count =>
    let kmer_idx := KMER_COUNTING_ADD_INDEX__MASK kmer_idx (pattern.getD pos 0)
    kmer_counting_compile_count pattern n (pos + 1) kmer_idx
      (Function.update count kmer_idx (inc16 (count kmer_idx)))

/-- The value of a `kmer_counting_t` whose filter is disabled. -/
def kmer_counting_disabled : kmer_counting_t :=
  { enabled := false, kmer_count_text := fun _ => 0,
    kmer_count_pattern := fun _ => 0, pattern_length := 0 }

/-- The function `kmer_counting_compile` (kmer_counting.c:49-77).  The result is
`none` when `effective_filtering_max_error = 0` makes the C code divide by
zero (the division is only evaluated when the first two tests fail). -/
def kmer_counting_compile (pattern : List Nat) (pattern_length : Nat)
    (num_non_canonical_bases effective_filtering_max_error : Nat) :
    Option kmer_counting_t :=
  if num_non_canonical_bases > 0 ∨ pattern_length < KMER_COUNTING_LENGTH then
    some kmer_counting_disabled
  else if effective_filtering_max_error = 0 then none
  else if pattern_length / effective_filtering_max_error
      < KMER_COUNTING_EFFECTIVE_THRESHOLD then
    some kmer_counting_disabled
  else
    let kmer_idx := kmer_counting_compile_fill pattern (KMER_COUNTING_LENGTH - 1) 0 0
    some
      { enabled := true
        kmer_count_text := fun _ => 0
        kmer_count_pattern :=
          kmer_counting_compile_count pattern
            (pattern_length - (KMER_COUNTING_LENGTH - 1)) (KMER_COUNTING_LENGTH - 1)
            kmer_idx (fun _ => 0)
        pattern_length := pattern_length }

/-- The local variables of `kmer_counting_filter` that its loops update. -/
structure kmer_filter_state where
  end_pos : Nat
  kmer_idx_end : Nat
  begin_pos : Nat
  kmer_idx_begin : Nat
  kmers_in_text : Nat
  kmers_left : Nat
  kmer_count_text : Nat → Nat

/-- The "Initial fill" loop of the first count (kmer_counting.c:104-107):
`n` iterations, each consuming `text[end_pos]` and decrementing `kmers_left`. -/
def kmer_counting_filter_fill_end (text : List Nat) :
    Nat → kmer_filter_state → kmer_filter_state
  | 0, s => s
  | n + 1, s =>
    kmer_counting_filter_fill_end text n
      { s with
        end_pos := s.end_pos + 1
        kmers_left := dec64 s.kmers_left
        kmer_idx_end := KMER_COUNTING_ADD_INDEX__MASK s.kmer_idx_end (text.getD s.end_pos 0) }

/-- The "End (Increment kmer-count)" step shared by both counting loops
(kmer_counting.c:109-113 and 148-151): the text counter is only touched when
the pattern has the k-mer, and `kmers_in_text` grows when the old text count
is below the pattern count. -/
def kmer_counting_filter_increment (kmer_count_pattern : Nat → Nat) (text : List Nat)
    (s : kmer_filter_state) : kmer_filter_state :=
  let kmer_idx_end := KMER_COUNTING_ADD_INDEX__MASK s.kmer_idx_end (text.getD s.end_pos 0)
  let count_pattern := kmer_count_pattern kmer_idx_end
  if count_pattern > 0 then
    let old := s.kmer_count_text kmer_idx_end
    { s with
      kmer_idx_end := kmer_idx_end
      kmer_count_text := Function.update s.kmer_count_text kmer_idx_end (inc16 old)
      kmers_in_text := if old < count_pattern then (s.kmers_in_text + 1) % U64
                       else s.kmers_in_text }
  else { s with kmer_idx_end := kmer_idx_end }

/-- The "Begin (Decrement kmer-count)" step of the sliding window
(kmer_counting.c:143-146). -/
def kmer_counting_filter_decrement (kmer_count_pattern : Nat → Nat) (text : List Nat)
    (s : kmer_filter_state) : kmer_filter_state :=
  let kmer_idx_begin :=
    KMER_COUNTING_ADD_INDEX__MASK s.kmer_idx_begin (text.getD s.begin_pos 0)
  let count_pattern_begin := kmer_count_pattern kmer_idx_begin
  if count_pattern_begin > 0 then
    let old := s.kmer_count_text kmer_idx_begin
    { s with
      kmer_idx_begin := kmer_idx_begin
      kmer_count_text := Function.update s.kmer_count_text kmer_idx_begin (dec16 old)
      kmers_in_text := if old ≤ count_pattern_begin then dec64 s.kmers_in_text
                       else s.kmers_in_text }
  else { s with kmer_idx_begin := kmer_idx_begin }

/-- The first counting loop (kmer_counting.c:108-122), `n` iterations.  The
left summand is the value of an early `return`. -/
def kmer_counting_filter_load (kmer_count_pattern : Nat → Nat) (text : List Nat)
    (kmers_required : Nat) : Nat → kmer_filter_state → Nat ⊕ kmer_filter_state
  | 0, s => Sum.inr s
  | n + 1, s =>
    let s := kmer_counting_filter_increment kmer_count_pattern text s
    if s.kmers_in_text ≥ kmers_required then Sum.inl 0
    else if sub64 kmers_required s.kmers_in_text > s.kmers_left then
      Sum.inl ALIGN_DISTANCE_INF
    else
      kmer_counting_filter_load kmer_count_pattern text kmers_required n
        { s with end_pos := s.end_pos + 1, kmers_left := dec64 s.kmers_left }

/-- The "Initial fill" loop of the sliding window (kmer_counting.c:137-140),
which uses the unmasked `KMER_COUNTING_ADD_INDEX`. -/
def kmer_counting_filter_fill_begin (text : List Nat) :
    Nat → kmer_filter_state → kmer_filter_state
  | 0, s => s
  | n + 1, s =>
    kmer_counting_filter_fill_begin text n
      { s with
        begin_pos := s.begin_pos + 1
        kmer_idx_begin := KMER_COUNTING_ADD_INDEX s.kmer_idx_begin (text.getD s.begin_pos 0) }

/-- The sliding-window loop (kmer_counting.c:141-176), `n` iterations; running
out of iterations is the final `return ALIGN_DISTANCE_INF` (line 179). -/
def kmer_counting_filter_slide (kmer_count_pattern : Nat → Nat) (text : List Nat)
    (kmers_required : Nat) : Nat → kmer_filter_state → Nat
  | 0, _ => ALIGN_DISTANCE_INF
  | n + 1, s =>
    let s := kmer_counting_filter_decrement kmer_count_pattern text s
    let s := kmer_counting_filter_increment kmer_count_pattern text s
    if s.kmers_in_text ≥ kmers_required then 0
    else if sub64 kmers_required s.kmers_in_text > s.kmers_left then ALIGN_DISTANCE_INF
    else
      kmer_counting_filter_slide kmer_count_pattern text kmers_required n
        { s with
          end_pos := s.end_pos + 1
          begin_pos := s.begin_pos + 1
          kmers_left := dec64 s.kmers_left }

/-- The function `kmer_counting_filter` (kmer_counting.c:81-180).  `text` is the
memory behind the `text` pointer and `text_length` the length argument. -/
def kmer_counting_filter (kmer_counting : kmer_counting_t) (text : List Nat)
    (text_length max_error : Nat) : Nat :=
  if !kmer_counting.enabled then 0
  else
    let kmers_error := mul64 KMER_COUNTING_LENGTH max_error
    let kmers_max := sub64 kmer_counting.pattern_length (KMER_COUNTING_LENGTH - 1)
    if kmers_error ≥ kmers_max then 0
    else
      let kmers_required :=
        sub64 (sub64 kmer_counting.pattern_length (KMER_COUNTING_LENGTH - 1))
          (mul64 KMER_COUNTING_LENGTH max_error)
      let kmer_count_pattern := kmer_counting.kmer_count_pattern
      let init_chunk := min text_length kmer_counting.pattern_length
      let total_kmers_text := max text_length kmer_counting.pattern_length
      let s0 : kmer_filter_state :=
        { end_pos := 0, kmer_idx_end := 0, begin_pos := 0, kmer_idx_begin := 0,
          kmers_in_text := 0, kmers_left := total_kmers_text,
          kmer_count_text := fun _ => 0 }
      let s1 := kmer_counting_filter_fill_end text (KMER_COUNTING_LENGTH - 1) s0
      match kmer_counting_filter_load kmer_count_pattern text kmers_required
          (init_chunk - s1.end_pos) s1 with
      | Sum.inl r => r
      | Sum.inr s2 =>
        if s2.kmers_in_text ≥ kmers_required then 0
        else if init_chunk = text_length then ALIGN_DISTANCE_INF
        else
          let s3 := kmer_counting_filter_fill_begin text (KMER_COUNTING_LENGTH - 1) s2
          kmer_counting_filter_slide kmer_count_pattern text kmers_required
            (text_length - s3.end_pos) s3

/-! ## rank_mtable.h and fm_index.c -/

/-- The constant `RANK_MTABLE_SEARCH_DEPTH` (rank_mtable.h:18). -/
def RANK_MTABLE_SEARCH_DEPTH : Nat := 11

/-- Modelled from the spec: `rank_mquery_t` and the functions on it are only
declared in rank_mtable.h; their bodies are missing.  The spec (4.3) says
that characters are added right-to-left, that a fetch depends on the
characters added, and that "exhausted" means that the maximal depth was
reached.  A query is therefore represented by the characters added so far,
the most recent one first (which is the text order of the key). -/
structure rank_mquery_t where
  chars : List Nat
deriving DecidableEq, Repr

/-- Modelled from the spec: `rank_mquery_new` starts an empty query. -/
def rank_mquery_new : rank_mquery_t := { chars := [] }

/-- Modelled from the spec: `rank_mquery_add_char` adds one character. -/
def rank_mquery_add_char (query : rank_mquery_t) (enc_char : Nat) : rank_mquery_t :=
  { chars := enc_char :: query.chars }

/-- Modelled from the spec: `rank_mquery_get_level`, the number of characters
added. -/
def rank_mquery_get_level (query : rank_mquery_t) : Nat := query.chars.length

/-- Modelled from the spec: `rank_mquery_is_exhausted`, "the max-depth was
reached". -/
def rank_mquery_is_exhausted (query : rank_mquery_t) : Bool :=
  decide (RANK_MTABLE_SEARCH_DEPTH ≤ rank_mquery_get_level query)

/-- The struct `fm_index_t`.  The rank table and the BWT are only reached
through `rank_mtable_fetch` and `bwt_erank`, whose bodies are not part of the
sources; both are carried as the functions they compute: `rank_table` maps the
characters of a query to the `(lo, hi)` that `rank_mtable_fetch` stores, and
`bwt c i` is `bwt_erank(bwt, c, i)`. -/
structure fm_index_t where
  text_length : Nat
  proper_length : Nat
  rank_table : List Nat → Nat × Nat
  bwt : Nat → Nat → Nat

/-- The function `fm_index_get_length` (fm_index.c:102-105). -/
def fm_index_get_length (fm_index : fm_index_t) : Nat := fm_index.text_length

/-- The function `fm_index_lookup` (fm_index.c:120-141): the body is
`return 0`. -/
def fm_index_lookup (_fm_index : fm_index_t) (_bwt_position : Nat) : Nat := 0

/-- The function `fm_index_inverse_lookup` (fm_index.c:143-159): the body is
`return 0`. -/
def fm_index_inverse_lookup (_fm_index : fm_index_t) (_text_position : Nat) : Nat := 0

/-- The first loop of `fm_index_bsearch` (fm_index.c:251-253): while
`key_length > 0` and the query is not exhausted, add `key[--key_length]`.
The recursion is on `key_length`; the result is the final `key_length` and
query. -/
def fm_index_bsearch_query (key : List Nat) : Nat → rank_mquery_t → Nat × rank_mquery_t
  | 0, query => (0, query)
  | key_length + 1, query =>
    if rank_mquery_is_exhausted query then (key_length + 1, query)
    else fm_index_bsearch_query key key_length
      (rank_mquery_add_char query (key.getD key_length 0))

/-- The second loop of `fm_index_bsearch` (fm_index.c:263-267): while
`key_length > 0 && hi > lo`, one `bwt_erank` step on both ends.  The result is
`(lo, hi)`. -/
def fm_index_bsearch_ranks (fm_index : fm_index_t) (key : List Nat) :
    Nat → Nat → Nat → Nat × Nat
  | 0, lo, hi => (lo, hi)
  | key_length + 1, lo, hi =>
    if hi > lo then
      let c := key.getD key_length 0
      fm_index_bsearch_ranks fm_index key key_length (fm_index.bwt c lo) (fm_index.bwt c hi)
    else (lo, hi)

/-- The function `fm_index_bsearch` (fm_index.c:240-272); the result is the
pair `(lo_out, hi_out)`. -/
def fm_index_bsearch (fm_index : fm_index_t) (key : List Nat) (key_length : Nat) :
    Nat × Nat :=
  let r := fm_index_bsearch_query key key_length rank_mquery_new
  let key_length := r.1
  let query := r.2
  let lohi := fm_index.rank_table query.chars
  let lo := lohi.1
  let hi := lohi.2
  if hi = lo ∨ key_length = 0 then (lo, hi)
  else fm_index_bsearch_ranks fm_index key key_length lo hi

/-- Number of occurrences of `s` in the reference `ref`: the number of
suffixes of `ref` that start with `s`. -/
def occurrences (ref s : List Nat) : Nat :=
  (ref.tails.filter (fun t => s.isPrefixOf t)).length

/-- Lexicographic order on encoded strings, a proper prefix being smaller (so
that the empty suffix plays the part of the end-of-text sentinel). -/
def lex_lt : List Nat → List Nat → Bool
  | _, [] => false
  | [], _ :: _ => true
  | a :: as, b :: bs => decide (a < b) || (decide (a = b) && lex_lt as bs)

/-- The backward-search (suffix-array) interval of `s` in the reference `ref`:
`lo` is the number of suffixes of `ref` (the empty one included) that are
lexicographically smaller than `s`, and `hi - lo` the number of suffixes that
start with `s`. -/
def sa_interval (ref s : List Nat) : Nat × Nat :=
  let lo := (ref.tails.filter (fun t => lex_lt t s)).length
  (lo, lo + occurrences ref s)

/-! ## match_align.c: CIGAR curation -/

/-- The CIGAR element types that match_align.c names (the enum itself is
declared in a header that is not part of the sources). -/
inductive cigar_t where
  | cigar_match
  | cigar_mismatch
  | cigar_ins
  | cigar_del
deriving DecidableEq, Repr

/-- The CIGAR attributes that match_align.c names. -/
inductive cigar_attr_t where
  | cigar_attr_none
  | cigar_attr_trim
deriving DecidableEq, Repr

/-- The struct `cigar_element_t` with the three fields match_align.c uses
(match_align.c:85).  The width of the field `length` is declared in a missing
header: lengths are natural numbers, and the additions of one element length to
another (match_align.c:77, 94, 97) carry no wrap.  The `uint64_t` accumulators
of `match_align_curate_cigar_trim` do wrap. -/
structure cigar_element_t where
  type : cigar_t
  attributes : cigar_attr_t
  length : Nat
deriving DecidableEq, Repr

open cigar_t cigar_attr_t

/-- The fields of `match_align_parameters_t` that the curation reads. -/
structure match_align_parameters_t where
  left_gap_alignment : Bool
  cigar_curation : Bool
  cigar_curation_min_end_context : Nat
  min_identity : Nat
  swg_threshold : Int

/-- The function `match_align_curate_cigar_trim` (match_align.c:15-45).  The
nullable pointer `match_position` is an `Option`; the result is the returned
flag with the updated `*trim_length` and `*match_position`.  Both are
`uint64_t`, so `+=` and `++` wrap. -/
def match_align_curate_cigar_trim (align_parameters : match_align_parameters_t)
    (cigar_element : cigar_element_t) (trim_length : Nat) (match_position : Option Nat) :
    Bool × Nat × Option Nat :=
  match cigar_element.type with
  | cigar_match =>
    if cigar_element.length < align_parameters.cigar_curation_min_end_context then
      (true, (trim_length + cigar_element.length) % U64,
        match_position.map (fun p => (p + cigar_element.length) % U64))
    else (false, trim_length, match_position)
  | cigar_mismatch =>
    (true, (trim_length + 1) % U64, match_position.map (fun p => (p + 1) % U64))
  | cigar_del => (true, (trim_length + cigar_element.length) % U64, match_position)
  | cigar_ins =>
    (true, trim_length, match_position.map (fun p => (p + cigar_element.length) % U64))

/-- The element that the trimming loops write: a deletion marked `trim`. -/
def cigar_trim_element (length : Nat) : cigar_element_t :=
  { type := cigar_del, attributes := cigar_attr_trim, length := length }

/-- The loop "Trim the beginning of the read" (match_align.c:56-66) on the
elements from index `j` on.  `trimmed` tells whether an earlier iteration has
run (`j > 0`).  The result is the part of the buffer from index `i` on, as the
second loop will read it (when something was trimmed, `cigar_buffer[i]` is the
trim deletion carrying `indel_length`), with the final `indel_length` and
`match_position`. -/
def match_align_curate_cigar_begin (align_parameters : match_align_parameters_t) :
    List cigar_element_t → Bool → Nat → Nat → List cigar_element_t × Nat × Nat
  | [], trimmed, indel_length, match_position =>
    (if trimmed then [cigar_trim_element indel_length] else [], indel_length, match_position)
  | cigar_element :: rest, trimmed, indel_length, match_position =>
    match match_align_curate_cigar_trim align_parameters cigar_element indel_length
        (some match_position) with
    | (true, indel_length', match_position') =>
      match_align_curate_cigar_begin align_parameters rest true indel_length'
        (match_position'.getD match_position)
    | (false, _, _) =>
      (if trimmed then cigar_trim_element indel_length :: cigar_element :: rest
       else cigar_element :: rest, indel_length, match_position)

/-- The loop "Compact all deletions/insertions in a row" (match_align.c:91-102):
returns the lengths accumulated in `accum_del` and `accum_ins` and the elements
left from the first one that is neither. -/
def match_align_curate_cigar_indels :
    List cigar_element_t → Nat → Nat → Nat × Nat × List cigar_element_t
  | [], accum_del, accum_ins => (accum_del, accum_ins, [])
  | cigar_element :: rest, accum_del, accum_ins =>
    if cigar_element.type = cigar_del then
      match_align_curate_cigar_indels rest (accum_del + cigar_element.length) accum_ins
    else if cigar_element.type = cigar_ins then
      match_align_curate_cigar_indels rest accum_del (accum_ins + cigar_element.length)
    else (accum_del, accum_ins, cigar_element :: rest)

/-- The block "Copy curated Ins/Del" (match_align.c:104-110): the elements
appended to the curated CIGAR for one run of indels. -/
def match_align_curate_cigar_copy_indels (left_gap_alignment : Bool)
    (accum_del accum_ins : cigar_element_t) : List cigar_element_t :=
  if left_gap_alignment then
    (if accum_del.length > 0 then [accum_del] else []) ++
      (if accum_ins.length > 0 then [accum_ins] else [])
  else
    (if accum_ins.length > 0 then [accum_ins] else []) ++
      (if accum_del.length > 0 then [accum_del] else [])

/-- The loop "Traverse all CIGAR elements" (match_align.c:68-117) on the
elements from index `i` on; the result lists the elements written to
`cigar_buffer[curated_cigar_length++]`, in order.  Every iteration consumes at
least one element, so `fuel` = number of elements left is always enough
(`match_align_curate_cigar` passes exactly that). -/
def match_align_curate_cigar_traverse (left_gap_alignment : Bool) :
    Nat → List cigar_element_t → List cigar_element_t
  | 0, _ => []
  | _ + 1, [] => []
  | fuel + 1, cigar_element :: rest =>
    match cigar_element.type with
    | cigar_mismatch =>
      cigar_element :: match_align_curate_cigar_traverse left_gap_alignment fuel rest
    | cigar_match =>
      match rest with
      | next :: rest' =>
        if next.type = cigar_match then
          match_align_curate_cigar_traverse left_gap_alignment fuel
            ({ next with length := next.length + cigar_element.length } :: rest')
        else
          cigar_element :: match_align_curate_cigar_traverse left_gap_alignment fuel rest
      | [] => cigar_element :: match_align_curate_cigar_traverse left_gap_alignment fuel rest
    | cigar_del | cigar_ins =>
      let accum_del : cigar_element_t :=
        { type := cigar_del
          attributes :=
            if cigar_element.type = cigar_del ∧ cigar_element.attributes = cigar_attr_trim
            then cigar_attr_trim else cigar_attr_none
          length := 0 }
      let accum_ins : cigar_element_t :=
        { type := cigar_ins, attributes := cigar_attr_none, length := 0 }
      let r := match_align_curate_cigar_indels (cigar_element :: rest) 0 0
      match_align_curate_cigar_copy_indels left_gap_alignment
          { accum_del with length := r.1 } { accum_ins with length := r.2.1 } ++
        match_align_curate_cigar_traverse left_gap_alignment fuel r.2.2

/-- The loop "Chain all the mismatches & deletions at the end"
(match_align.c:125-129) over the curated elements that precede
`last_cigar_element`, the nearest one first; the result is the final
`indel_length` and `curated_cigar_length`. -/
def match_align_curate_cigar_chain (align_parameters : match_align_parameters_t) :
    List cigar_element_t → Nat → Nat → Nat × Nat
  | [], indel_length, curated_cigar_length => (indel_length, curated_cigar_length)
  | cigar_element :: before, indel_length, curated_cigar_length =>
    match match_align_curate_cigar_trim align_parameters cigar_element indel_length none with
    | (true, indel_length', _) =>
      match_align_curate_cigar_chain align_parameters before indel_length'
        (curated_cigar_length - 1)
    | (false, _, _) => (indel_length, curated_cigar_length)

/-- The block "Handle last CIGAR element(s)" (match_align.c:119-137) on the
curated elements `cigar_buffer[0 .. curated_cigar_length)`; the result is the
curated CIGAR of the final length. -/
def match_align_curate_cigar_end (align_parameters : match_align_parameters_t)
    (curated : List cigar_element_t) : List cigar_element_t :=
  match curated.reverse with
  | [] => curated
  | last_cigar_element :: before =>
    match match_align_curate_cigar_trim align_parameters last_cigar_element 0 none with
    | (true, indel_length, _) =>
      let r := match_align_curate_cigar_chain align_parameters before indel_length
        curated.length
      let indel_length := r.1
      let curated_cigar_length := r.2
      let buffer := curated.set (curated_cigar_length - 1) (cigar_trim_element indel_length)
      buffer.take (if indel_length = 0 then curated_cigar_length - 1 else curated_cigar_length)
    | (false, _, _) => curated

/-- The function `match_align_curate_cigar` (match_align.c:46-140) on the
`cigar_length` elements of the alignment (`cigar_buffer[0 .. cigar_length)`) and
its `match_position`; the result is the curated CIGAR
(`cigar_buffer[0 .. curated_cigar_length)`) and the new `match_position`.
The curated elements are written at indices that the traversal has already
read, so the in-place compaction is a map from the list read to the list
written. -/
def match_align_curate_cigar (align_parameters : match_align_parameters_t)
    (cigar : List cigar_element_t) (match_position : Nat) :
    List cigar_element_t × Nat :=
  let b := match_align_curate_cigar_begin align_parameters cigar false 0 match_position
  let curated :=
    match_align_curate_cigar_traverse align_parameters.left_gap_alignment b.1.length b.1
  (match_align_curate_cigar_end align_parameters curated, b.2.2)

/-! ## match_align.c: post-alignment checks -/

/-- Modelled from the spec: the constant `SWG_SCORE_MIN` is declared in a
header that is not part of the sources; the spec only names it.  It is taken
to be the smallest 16-bit value; the theorems do not depend on the value. -/
def SWG_SCORE_MIN : Int := -32768

/-- The struct `match_alignment_t`, as far as match_align.c uses it; `cigar`
stands for the `cigar_length` elements at `cigar_offset` of the CIGAR
vector. -/
structure match_alignment_t where
  match_position : Nat
  cigar : List cigar_element_t
  effective_length : Nat
  score : Int

/-- The fields of `match_trace_t` that `match_align_swg_post_alignment`
writes. -/
structure match_trace_t where
  match_alignment : match_alignment_t
  swg_score : Int
  distance : Nat
  edit_distance : Nat

/-- The CIGAR metrics that `match_align_swg_post_alignment` calls and whose
bodies are not part of the sources (`matches_cigar_compute_matching_bases`,
`matches_cigar_compute_edit_distance`, `swg_score_cigar` with the penalties of
the parameters, `matches_cigar_compute_event_distance`,
`matches_cigar_effective_length`), taken as parameters. -/
structure matches_cigar_metrics where
  matches_cigar_compute_matching_bases : List cigar_element_t → Nat
  matches_cigar_compute_edit_distance : List cigar_element_t → Nat
  swg_score_cigar : List cigar_element_t → Int
  matches_cigar_compute_event_distance : List cigar_element_t → Nat
  matches_cigar_effective_length : List cigar_element_t → Nat

/-- The step "Curate alignment" of `match_align_swg_post_alignment`
(match_align.c:514-516): the curation runs only when `cigar_curation` is
set. -/
def match_align_swg_post_alignment_curate (match_trace : match_trace_t)
    (align_parameters : match_align_parameters_t) : match_trace_t :=
  if align_parameters.cigar_curation then
    let r := match_align_curate_cigar align_parameters match_trace.match_alignment.cigar
      match_trace.match_alignment.match_position
    { match_trace with
      match_alignment :=
        { match_trace.match_alignment with cigar := r.1, match_position := r.2 } }
  else match_trace

/-- The function `match_align_swg_post_alignment` (match_align.c:500-542). -/
def match_align_swg_post_alignment (metrics : matches_cigar_metrics)
    (match_trace : match_trace_t) (align_parameters : match_align_parameters_t)
    (local_alignment : Bool) : match_trace_t :=
  if match_trace.match_alignment.score = SWG_SCORE_MIN then
    { match_trace with swg_score := SWG_SCORE_MIN, distance := ALIGN_DISTANCE_INF }
  else
    let match_trace := match_align_swg_post_alignment_curate match_trace align_parameters
    let cigar := match_trace.match_alignment.cigar
    let matching_bases := metrics.matches_cigar_compute_matching_bases cigar
    if matching_bases < align_parameters.min_identity then
      { match_trace with swg_score := SWG_SCORE_MIN, distance := ALIGN_DISTANCE_INF }
    else
      let match_trace :=
        { match_trace with
          edit_distance := metrics.matches_cigar_compute_edit_distance cigar }
      let match_trace := { match_trace with swg_score := metrics.swg_score_cigar cigar }
      if !local_alignment ∧ match_trace.swg_score < align_parameters.swg_threshold then
        { match_trace with swg_score := SWG_SCORE_MIN, distance := ALIGN_DISTANCE_INF }
      else
        { match_trace with
          distance := metrics.matches_cigar_compute_event_distance cigar
          match_alignment :=
            { match_trace.match_alignment with
              effective_length := metrics.matches_cigar_effective_length cigar } }

/-! ## region_profile.h and region_profile_adaptive.c -/

/-- The enum `region_type` (region_profile.h:32). -/
inductive region_type where
  | region_unique
  | region_standard
  | region_gap
deriving DecidableEq, Repr

/-- The struct `region_profile_model_t` (region_profile.h:33-38). -/
structure region_profile_model_t where
  region_th : Nat
  max_steps : Nat
  dec_factor : Nat
  region_type_th : Nat

/-- The struct `region_search_t` with the fields region_profile_adaptive.c
uses (`end` is a reserved word, hence `end_`). -/
structure region_search_t where
  begin : Nat
  end_ : Nat
  type : region_type
  min : Nat
  hi : Nat
  lo : Nat
deriving DecidableEq, Repr

/-- The struct `region_profile_t` with the fields region_profile_adaptive.c
uses.  `filtering_region` holds the array slots `0 .. num_filtering_regions`
(the closed regions, in the order they were closed) and `current_region` the
slot `filtering_region[num_filtering_regions]` that
`region_profile_generator_restart` prepares. -/
structure region_profile_t where
  filtering_region : List region_search_t
  current_region : region_search_t
  num_standard_regions : Nat
  num_unique_regions : Nat
  num_zero_regions : Nat
  max_region_length : Nat
  total_candidates : Nat

/-- The counter `num_filtering_regions` of `region_profile_t`. -/
def region_profile_t.num_filtering_regions (region_profile : region_profile_t) : Nat :=
  region_profile.filtering_region.length

/-- Modelled from the spec: `region_profile_clear` is not part of the sources;
it is taken to empty the profile and zero its counters. -/
def region_profile_clear : region_profile_t :=
  { filtering_region := []
    current_region :=
      { begin := 0, end_ := 0, type := region_type.region_unique, min := 0, hi := 0, lo := 0 }
    num_standard_regions := 0, num_unique_regions := 0, num_zero_regions := 0
    max_region_length := 0, total_candidates := 0 }

/-- The struct `region_profile_generator_t`, with one ghost field:
`rank_queries` counts the calls of `region_profile_query_character`. -/
structure region_profile_generator_t where
  region_profile : region_profile_t
  begin_position : Nat
  last_cut : Nat
  lo_cut : Nat
  hi_cut : Nat
  expected_count : Nat
  max_steps : Nat
  fm_index : fm_index_t
  key : List Nat
  key_length : Nat
  allowed_enc : Nat → Bool
  allow_zero_regions : Bool
  key_position : Nat
  rank_mquery : rank_mquery_t
  lo : Nat
  hi : Nat
  rank_queries : Nat

/-- Modelled from the spec: `region_profile_query_character` is not part of
the sources.  The spec (4.6): "consume one encoded character at a time,
updating (lo,hi) via either the memoization table (while its depth is not
exhausted) or BWT rank". -/
def region_profile_query_character (generator : region_profile_generator_t)
    (enc_char : Nat) : region_profile_generator_t :=
  if rank_mquery_is_exhausted generator.rank_mquery then
    { generator with
      lo := generator.fm_index.bwt enc_char generator.lo % U64
      hi := generator.fm_index.bwt enc_char generator.hi % U64
      rank_queries := generator.rank_queries + 1 }
  else
    let query := rank_mquery_add_char generator.rank_mquery enc_char
    { generator with
      rank_mquery := query
      lo := (generator.fm_index.rank_table query.chars).1 % U64
      hi := (generator.fm_index.rank_table query.chars).2 % U64
      rank_queries := generator.rank_queries + 1 }

/-- The function `region_profile_generator_save_cut_point`
(region_profile_adaptive.c:45-49). -/
def region_profile_generator_save_cut_point (generator : region_profile_generator_t) :
    region_profile_generator_t :=
  { generator with
    last_cut := generator.key_position
    lo_cut := generator.lo
    hi_cut := generator.hi }

/-- The function `region_profile_generator_restart`
(region_profile_adaptive.c:50-60). -/
def region_profile_generator_restart (generator : region_profile_generator_t) :
    region_profile_generator_t :=
  { generator with
    region_profile :=
      { generator.region_profile with
        current_region :=
          { generator.region_profile.current_region with
            end_ := generator.key_position, min := 0 } }
    last_cut := 0
    lo := 0
    hi := fm_index_get_length generator.fm_index % U64
    rank_mquery := rank_mquery_new }

/-- The function `region_profile_generator_init`
(region_profile_adaptive.c:64-87). -/
def region_profile_generator_init (fm_index : fm_index_t) (key : List Nat)
    (key_length : Nat) (allowed_enc : Nat → Bool) (allow_zero_regions : Bool) :
    region_profile_generator_t :=
  region_profile_generator_restart
    { region_profile := region_profile_clear
      begin_position := 0, last_cut := 0, lo_cut := 0, hi_cut := 0
      expected_count := 0, max_steps := 0
      fm_index := fm_index, key := key, key_length := key_length
      allowed_enc := allowed_enc, allow_zero_regions := allow_zero_regions
      key_position := key_length
      rank_mquery := rank_mquery_new, lo := 0, hi := 0
      rank_queries := 0 }

/-- The function `region_profile_generator_close_region`
(region_profile_adaptive.c:88-112). -/
def region_profile_generator_close_region (generator : region_profile_generator_t)
    (profile_model : region_profile_model_t) (lo hi : Nat) : region_profile_generator_t :=
  let region_profile := generator.region_profile
  let current_region := region_profile.current_region
  let region_length := sub64 current_region.end_ generator.key_position
  let candidates_region := sub64 hi lo
  let unique := decide (candidates_region ≤ profile_model.region_type_th)
  let closed : region_search_t :=
    { current_region with
      begin := generator.key_position
      lo := lo
      hi := hi
      type := if unique then region_type.region_unique else region_type.region_standard }
  { generator with
    region_profile :=
      { region_profile with
        filtering_region := region_profile.filtering_region ++ [closed]
        max_region_length := max region_profile.max_region_length region_length
        num_zero_regions :=
          if unique ∧ candidates_region = 0 then region_profile.num_zero_regions + 1
          else region_profile.num_zero_regions
        num_standard_regions :=
          if unique then region_profile.num_standard_regions
          else region_profile.num_standard_regions + 1
        total_candidates := (region_profile.total_candidates + candidates_region) % U64 } }

/-- The function `region_profile_generator_add_character`
(region_profile_adaptive.c:143-193), returning the flag with the new generator
state.  The result is `none` when `expected_count /= dec_factor` divides by
zero. -/
def region_profile_generator_add_character (generator : region_profile_generator_t)
    (profile_model : region_profile_model_t) :
    Option (Bool × region_profile_generator_t) :=
  let lo := generator.lo
  let hi := generator.hi
  let num_candidates := sub64 hi lo
  if num_candidates > profile_model.region_th then some (false, generator)
  else if num_candidates > 0 then
    if generator.key_position = 0 then
      let generator := region_profile_generator_close_region generator profile_model lo hi
      some (true, region_profile_generator_restart generator)
    else if generator.last_cut = 0 then
      let generator := region_profile_generator_save_cut_point generator
      some (false,
        { generator with
          expected_count := num_candidates
          max_steps := profile_model.max_steps })
    else if profile_model.dec_factor = 0 then none
    else
      let generator :=
        { generator with
          expected_count := generator.expected_count / profile_model.dec_factor }
      let generator :=
        if num_candidates ≤ generator.expected_count ∨
            num_candidates ≤ profile_model.region_type_th then
          region_profile_generator_save_cut_point generator
        else generator
      let generator := { generator with max_steps := dec64 generator.max_steps }
      if generator.max_steps = 0 then
        let generator := { generator with key_position := generator.last_cut }
        let generator := region_profile_generator_close_region generator profile_model
          generator.lo_cut generator.hi_cut
        some (true, region_profile_generator_restart generator)
      else some (false, generator)
  else
    if generator.allow_zero_regions ∨ generator.last_cut = 0 then
      let generator := region_profile_generator_close_region generator profile_model lo hi
      some (true, region_profile_generator_restart generator)
    else
      let generator := { generator with key_position := generator.last_cut }
      let generator := region_profile_generator_close_region generator profile_model
        generator.lo_cut generator.hi_cut
      some (true, region_profile_generator_restart generator)

/-- The skipping loop of `region_profile_generator_disallow_character`
(region_profile_adaptive.c:203-205), by recursion on `key_position`; the
result is the final `key_position`. -/
def region_profile_generator_skip_disallowed (key : List Nat) (allowed_enc : Nat → Bool) :
    Nat → Nat
  | 0 => 0
  | key_position + 1 =>
    if !allowed_enc (key.getD key_position 0) then
      region_profile_generator_skip_disallowed key allowed_enc key_position
    else key_position + 1

/-- The function `region_profile_generator_disallow_character`
(region_profile_adaptive.c:194-208), returning the flag with the new generator
state. -/
def region_profile_generator_disallow_character (generator : region_profile_generator_t)
    (profile_model : region_profile_model_t) : Bool × region_profile_generator_t :=
  let r : Bool × region_profile_generator_t :=
    if generator.last_cut ≠ 0 then
      let generator := { generator with key_position := generator.key_position + 1 }
      let generator := region_profile_generator_close_region generator profile_model
        generator.lo generator.hi
      (true, { generator with key_position := generator.key_position - 1 })
    else (false, generator)
  let generator := r.2
  let generator :=
    { generator with
      key_position :=
        region_profile_generator_skip_disallowed generator.key generator.allowed_enc
          generator.key_position }
  (r.1, region_profile_generator_restart generator)

/-- Modelled from the spec: `region_profile_extend_last_region` is not part of
the sources; the spec (4.6) only says that "the last region may be extended
leftward if zero-regions are allowed".  `extension` stands for what the missing
routine computes from the last region; the model keeps the region's `end` and
lets `begin` move leftward only. -/
def region_profile_extend_last_region (extension : region_search_t → region_search_t)
    (region_profile : region_profile_t) : region_profile_t :=
  match region_profile.filtering_region.reverse with
  | [] => region_profile
  | last_region :: before =>
    let extended := extension last_region
    { region_profile with
      filtering_region :=
        (({ extended with
            end_ := last_region.end_
            begin := min last_region.begin extended.begin } : region_search_t)
          :: before).reverse }

/-- The function `region_profile_generator_close_profile`
(region_profile_adaptive.c:113-142). -/
def region_profile_generator_close_profile (extension : region_search_t → region_search_t)
    (generator : region_profile_generator_t) (_profile_model : region_profile_model_t) :
    region_profile_generator_t :=
  let region_profile := generator.region_profile
  if region_profile.num_filtering_regions = 0 then
    let first_region := region_profile.current_region
    if first_region.end_ = generator.key_length then
      { generator with
        region_profile :=
          { region_profile with
            filtering_region :=
              [{ first_region with begin := 0, lo := generator.lo, hi := generator.hi }]
            num_standard_regions := 1
            num_unique_regions := 0
            num_zero_regions := 0 } }
    else
      { generator with
        region_profile :=
          { region_profile with
            filtering_region := []
            num_standard_regions := 0
            num_unique_regions := 0
            num_zero_regions := 0 } }
  else
    let region_profile :=
      if generator.allow_zero_regions then
        region_profile_extend_last_region extension region_profile
      else region_profile
    let last_begin :=
      match region_profile.filtering_region.getLast? with
      | some last_region => last_region.begin
      | none => 0
    { generator with
      region_profile :=
        { region_profile with
          max_region_length := max region_profile.max_region_length last_begin } }

/-- The body of the loop "Delimit regions" of `region_profile_generate_adaptive`
after the cut-off test (region_profile_adaptive.c:270-281): take the next
character, then handle a wildcard or query and add the character.  The result
is `none` when `region_profile_generator_add_character` divides by zero. -/
def region_profile_generate_adaptive_iteration (profile_model : region_profile_model_t)
    (generator : region_profile_generator_t) : Option region_profile_generator_t :=
  let generator := { generator with key_position := generator.key_position - 1 }
  let enc_char := generator.key.getD generator.key_position 0
  if !generator.allowed_enc enc_char then
    some (region_profile_generator_disallow_character generator profile_model).2
  else
    let generator := region_profile_query_character generator enc_char
    match region_profile_generator_add_character generator profile_model with
    | none => none
    | some r => some r.2

/-- The loop "Delimit regions" of `region_profile_generate_adaptive`
(region_profile_adaptive.c:264-282).  `fuel` bounds the number of iterations;
the result is `none` when the fuel runs out before the loop ends, or when
`region_profile_generator_add_character` divides by zero. -/
def region_profile_generate_adaptive_loop (profile_model : region_profile_model_t)
    (max_regions : Nat) :
    Nat → region_profile_generator_t → Option region_profile_generator_t
  | 0, generator =>
    if generator.key_position > 0 ∧
        ¬ generator.region_profile.num_filtering_regions ≥ max_regions then none
    else some generator
  | fuel + 1, generator =>
    if generator.key_position > 0 then
      if generator.region_profile.num_filtering_regions ≥ max_regions then some generator
      else
        match region_profile_generate_adaptive_iteration profile_model generator with
        | none => none
        | some generator =>
          region_profile_generate_adaptive_loop profile_model max_regions fuel generator
    else some generator

/-- The function `region_profile_generate_adaptive`
(region_profile_adaptive.c:246-287); the result is the generator state at the
end, whose `region_profile` is the profile produced.  The loop is given
`(key_length + 1)^2` iterations, which is always enough. -/
def region_profile_generate_adaptive (extension : region_search_t → region_search_t)
    (fm_index : fm_index_t) (key : List Nat) (key_length : Nat) (allowed_enc : Nat → Bool)
    (profile_model : region_profile_model_t) (max_regions : Nat)
    (allow_zero_regions : Bool) : Option region_profile_generator_t :=
  let generator :=
    region_profile_generator_init fm_index key key_length allowed_enc allow_zero_regions
  match region_profile_generate_adaptive_loop profile_model max_regions
      ((key_length + 1) * (key_length + 1)) generator with
  | none => none
  | some generator =>
    some (region_profile_generator_close_profile extension generator profile_model)

/-- The body of the loop "Delimit regions" of
`region_profile_generate_adaptive_limited` (region_profile_adaptive.c:313-330)
on the generator and the local `region_length`. -/
def region_profile_generate_adaptive_limited_iteration
    (profile_model : region_profile_model_t) (max_region_length : Nat)
    (s : region_profile_generator_t × Nat) : region_profile_generator_t × Nat :=
  let generator := { s.1 with key_position := s.1.key_position - 1 }
  let enc_char := generator.key.getD generator.key_position 0
  if !generator.allowed_enc enc_char then
    ((region_profile_generator_disallow_character generator profile_model).2, 0)
  else
    let generator := region_profile_query_character generator enc_char
    let region_length := (s.2 + 1) % U64
    let num_candidates := sub64 generator.hi generator.lo
    if num_candidates ≤ profile_model.region_th ∨ region_length ≥ max_region_length then
      let generator := region_profile_generator_close_region generator profile_model
        generator.lo generator.hi
      (region_profile_generator_restart generator, 0)
    else (generator, region_length)

/-- The loop "Delimit regions" of `region_profile_generate_adaptive_limited`
(region_profile_adaptive.c:312-331).  `fuel` bounds the number of iterations;
the result is `none` when the fuel runs out before the loop ends. -/
def region_profile_generate_adaptive_limited_loop (profile_model : region_profile_model_t)
    (max_region_length : Nat) :
    Nat → region_profile_generator_t × Nat → Option (region_profile_generator_t × Nat)
  | 0, s => if s.1.key_position > 0 then none else some s
  | fuel + 1, s =>
    if s.1.key_position > 0 then
      region_profile_generate_adaptive_limited_loop profile_model max_region_length fuel
        (region_profile_generate_adaptive_limited_iteration profile_model max_region_length s)
    else some s

/-- The function `region_profile_generate_adaptive_limited`
(region_profile_adaptive.c:291-335); the result is the generator state at the
end.  It is `none` when `key_length/min_regions` divides by zero.  The loop is
given `key_length` iterations, which is always enough because every iteration
moves `key_position` leftward. -/
def region_profile_generate_adaptive_limited (extension : region_search_t → region_search_t)
    (fm_index : fm_index_t) (key : List Nat) (key_length : Nat) (allowed_enc : Nat → Bool)
    (profile_model : region_profile_model_t) (min_regions : Nat) :
    Option region_profile_generator_t :=
  if min_regions = 0 then none
  else
    let max_region_length := key_length / min_regions
    let generator := region_profile_generator_init fm_index key key_length allowed_enc true
    let generator := region_profile_generator_restart generator
    match region_profile_generate_adaptive_limited_loop profile_model max_region_length
        key_length (generator, 0) with
    | none => none
    | some s => some (region_profile_generator_close_profile extension s.1 profile_model)

/-! ## cdna_bitwise_text.c: the builder of the packed DNA text -/

/-- The encoded nucleotide `ENC_DNA_CHAR_A` (dna_text.h:43). -/
def ENC_DNA_CHAR_A : Nat := 0

/-- The encoded nucleotide `ENC_DNA_CHAR_C` (dna_text.h:44). -/
def ENC_DNA_CHAR_C : Nat := 1

/-- The encoded nucleotide `ENC_DNA_CHAR_G` (dna_text.h:45). -/
def ENC_DNA_CHAR_G : Nat := 2

/-- The encoded nucleotide `ENC_DNA_CHAR_T` (dna_text.h:46). -/
def ENC_DNA_CHAR_T : Nat := 3

/-- The encoded symbol `ENC_DNA_CHAR_N` (dna_text.h:48). -/
def ENC_DNA_CHAR_N : Nat := 4

/-- The encoded symbol `ENC_DNA_CHAR_SEP` (dna_text.h:49). -/
def ENC_DNA_CHAR_SEP : Nat := 5

/-- The encoded symbol `ENC_DNA_CHAR_JUMP` (dna_text.h:50). -/
def ENC_DNA_CHAR_JUMP : Nat := 6

/-- Modelled from the spec: the macro `UINT64_ONE_LAST_MASK` behind
`CDNA_BITWISE_WRITE_LAST_MASK` (cdna_bitwise_text.c:20) is defined in
commons.h, which is not part of the sources.  The spec (5) gives the layers
"64-bit-per-block"; the mask is taken to be the last bit of a 64-bit word.  The
theorems on the builder do not depend on its value. -/
def CDNA_BITWISE_WRITE_LAST_MASK : Nat := 2 ^ 63

/-- Modelled from the spec: the macro `UINT64_LENGTH` behind
`CDNA_BITWISE_BLOCK_CHARS` (cdna_bitwise_text.c:15) is defined in commons.h,
which is not part of the sources; the spec (5) gives 64 characters per
block. -/
def CDNA_BITWISE_BLOCK_CHARS : Nat := 64

/-- The struct `cdna_bitwise_text_builder_t`, as far as cdna_bitwise_text.c
uses it.  The file manager is represented by the 64-bit words written to it
(`written`), the sparse-bitmap builder by the bitmaps it was given (`none` for
a skipped bitmap). -/
structure cdna_bitwise_text_builder_t where
  layer_0 : Nat
  layer_1 : Nat
  layer_2 : Nat
  position_mod64 : Nat
  written : List Nat
  sparse_bitmap_builder : List (Option Nat)
deriving DecidableEq, Repr

/-- The builder that `cdna_bitwise_text_builder_new`
(cdna_bitwise_text.c:85-106) leaves, after the header of `text_length` and
`text_size` (the 4KB alignment of the file is not represented). -/
def cdna_bitwise_text_builder_new (text_length : Nat) : cdna_bitwise_text_builder_t :=
  { layer_0 := 0, layer_1 := 0, layer_2 := 0, position_mod64 := 0
    written := [text_length % U64,
      mul64 (mul64 ((text_length + 63) / 64) 2) 8]
    sparse_bitmap_builder := [] }

/-- The function `cdna_bitwise_text_builder_flush`
(cdna_bitwise_text.c:107-123). -/
def cdna_bitwise_text_builder_flush (cdna_text : cdna_bitwise_text_builder_t) :
    cdna_bitwise_text_builder_t :=
  { layer_0 := 0, layer_1 := 0, layer_2 := 0, position_mod64 := 0
    written := cdna_text.written ++ [cdna_text.layer_0, cdna_text.layer_1]
    sparse_bitmap_builder :=
      cdna_text.sparse_bitmap_builder ++
        [if cdna_text.layer_2 = 0 then none else some cdna_text.layer_2] }

/-- The `switch` of `cdna_bitwise_text_builder_add_char`
(cdna_bitwise_text.c:127-166): the layers that receive the mask for each
symbol; `none` is the fatal error `CDNA_BITWISE_NOT_VALID_CHARACTER` of the
`default` case. -/
def cdna_bitwise_text_builder_write_char (cdna_text : cdna_bitwise_text_builder_t)
    (enc_char : Nat) : Option cdna_bitwise_text_builder_t :=
  if enc_char = ENC_DNA_CHAR_A then some cdna_text
  else if enc_char = ENC_DNA_CHAR_C then
    some { cdna_text with layer_0 := cdna_text.layer_0 ||| CDNA_BITWISE_WRITE_LAST_MASK }
  else if enc_char = ENC_DNA_CHAR_G then
    some { cdna_text with layer_1 := cdna_text.layer_1 ||| CDNA_BITWISE_WRITE_LAST_MASK }
  else if enc_char = ENC_DNA_CHAR_T then
    some { cdna_text with
      layer_1 := cdna_text.layer_1 ||| CDNA_BITWISE_WRITE_LAST_MASK
      layer_0 := cdna_text.layer_0 ||| CDNA_BITWISE_WRITE_LAST_MASK }
  else if enc_char = ENC_DNA_CHAR_N then
    some { cdna_text with layer_2 := cdna_text.layer_2 ||| CDNA_BITWISE_WRITE_LAST_MASK }
  else if enc_char = ENC_DNA_CHAR_SEP then
    some { cdna_text with
      layer_2 := cdna_text.layer_2 ||| CDNA_BITWISE_WRITE_LAST_MASK
      layer_0 := cdna_text.layer_0 ||| CDNA_BITWISE_WRITE_LAST_MASK }
  else if enc_char = ENC_DNA_CHAR_JUMP then
    some { cdna_text with
      layer_1 := cdna_text.layer_1 ||| CDNA_BITWISE_WRITE_LAST_MASK
      layer_0 := cdna_text.layer_0 ||| CDNA_BITWISE_WRITE_LAST_MASK }
  else none

/-- The function `cdna_bitwise_text_builder_add_char`
(cdna_bitwise_text.c:124-178): write the character into the last bit of the
layers, then flush a full block or shift the layers for the next character.
The result is `none` on the fatal error of an invalid character. -/
def cdna_bitwise_text_builder_add_char (cdna_text : cdna_bitwise_text_builder_t)
    (enc_char : Nat) : Option cdna_bitwise_text_builder_t :=
  match cdna_bitwise_text_builder_write_char cdna_text enc_char with
  | none => none
  | some cdna_text =>
    let cdna_text :=
      { cdna_text with position_mod64 := (cdna_text.position_mod64 + 1) % U64 }
    if cdna_text.position_mod64 = CDNA_BITWISE_BLOCK_CHARS then
      some (cdna_bitwise_text_builder_flush cdna_text)
    else
      some { cdna_text with
        layer_0 := cdna_text.layer_0 >>> 1
        layer_1 := cdna_text.layer_1 >>> 1
        layer_2 := cdna_text.layer_2 >>> 1 }

/-! ## mm_stack.c: the stack allocator -/

/-- The struct `mm_stack_segment_t`, as far as mm_stack.c uses it: `memory` is
the offset of the cursor from the base of the slab unit of the segment. -/
structure mm_stack_segment_t where
  memory : Nat
  memory_available : Nat
deriving DecidableEq, Repr

/-- The struct `mm_stack_t`: the segment size and the used part of the vector
of segments. -/
structure mm_stack_t where
  segment_size : Nat
  segments : List mm_stack_segment_t
deriving DecidableEq, Repr

/-- The ways in which `mm_stack_memory_allocate` does not return:
the fatal error `MM_STACK_CANNOT_ALLOCATE`, and the read of the last element
of an empty vector of segments. -/
inductive mm_stack_error where
  | MM_STACK_CANNOT_ALLOCATE
  | no_segment
deriving DecidableEq, Repr

/-- The function `mm_stack_new` (mm_stack.c:22-39) on a slab whose units have
`slab_size` bytes: one segment, all of it available. -/
def mm_stack_new (slab_size : Nat) : mm_stack_t :=
  { segment_size := slab_size
    segments := [{ memory := 0, memory_available := slab_size }] }

/-- The function `mm_stack_add_segment` (mm_stack.c:57-68): the new segment is
the second component. -/
def mm_stack_add_segment (mm_stack : mm_stack_t) : mm_stack_t × mm_stack_segment_t :=
  let stack_segment : mm_stack_segment_t :=
    { memory := 0, memory_available := mm_stack.segment_size }
  ({ mm_stack with segments := mm_stack.segments ++ [stack_segment] }, stack_segment)

/-- The function `mm_stack_memory_allocate` (mm_stack.c:69-89).  The block
returned is given by the index of its segment and its offset from the base of
that segment; `zero_mem` only clears the block. -/
def mm_stack_memory_allocate (mm_stack : mm_stack_t) (num_bytes : Nat) (_zero_mem : Bool) :
    Except mm_stack_error (mm_stack_t × (Nat × Nat)) :=
  match mm_stack.segments.getLast? with
  | none => Except.error mm_stack_error.no_segment
  | some last_segment =>
    let served (mm_stack : mm_stack_t) (mm_stack_segment : mm_stack_segment_t) :
        mm_stack_t × (Nat × Nat) :=
      let memory := mm_stack_segment.memory
      ({ mm_stack with
          segments := mm_stack.segments.dropLast ++
            [{ memory := mm_stack_segment.memory + num_bytes
               memory_available := sub64 mm_stack_segment.memory_available num_bytes }] },
        (mm_stack.segments.length - 1, memory))
    if num_bytes > last_segment.memory_available then
      if num_bytes > mm_stack.segment_size then
        Except.error mm_stack_error.MM_STACK_CANNOT_ALLOCATE
      else
        let r := mm_stack_add_segment mm_stack
        Except.ok (served r.1 r.2)
    else Except.ok (served mm_stack last_segment)

/-- The function `mm_stack_free` (mm_stack.c:90-105): the first segment is
cleared and becomes the only one. -/
def mm_stack_free (mm_stack : mm_stack_t) : mm_stack_t :=
  { mm_stack with
    segments := [{ memory := 0, memory_available := mm_stack.segment_size }] }

/-- A sequence of allocations of the given sizes; the result holds the blocks
returned, in order. -/
def mm_stack_memory_allocate_all :
    mm_stack_t → List Nat → Except mm_stack_error (mm_stack_t × List (Nat × Nat))
  | mm_stack, [] => Except.ok (mm_stack, [])
  | mm_stack, num_bytes :: sizes =>
    match mm_stack_memory_allocate mm_stack num_bytes false with
    | Except.error e => Except.error e
    | Except.ok (mm_stack, block) =>
      match mm_stack_memory_allocate_all mm_stack sizes with
      | Except.error e => Except.error e
      | Except.ok (mm_stack, blocks) => Except.ok (mm_stack, block :: blocks)

/-- The arena states that the functions of mm_stack.c reach from a new
stack; the slab size is a `uint64_t`. -/
inductive mm_stack_reachable : mm_stack_t → Prop where
  | new (slab_size : Nat) : slab_size < U64 → mm_stack_reachable (mm_stack_new slab_size)
  | allocate (mm_stack mm_stack' : mm_stack_t) (num_bytes : Nat) (zero_mem : Bool)
      (block : Nat × Nat) :
      mm_stack_reachable mm_stack →
      mm_stack_memory_allocate mm_stack num_bytes zero_mem = Except.ok (mm_stack', block) →
      mm_stack_reachable mm_stack'
  | free (mm_stack : mm_stack_t) :
      mm_stack_reachable mm_stack → mm_stack_reachable (mm_stack_free mm_stack)

/-- The invariant of the reachable arena states: the segment size is a
`uint64_t`, there is a segment, and in every segment the cursor and the bytes
available add up to the segment size. -/
def mm_stack_inv (mm_stack : mm_stack_t) : Prop :=
  mm_stack.segment_size < U64 ∧ mm_stack.segments ≠ [] ∧
  ∀ s ∈ mm_stack.segments, s.memory + s.memory_available = mm_stack.segment_size

/-- The layers `(layer_2, layer_1, layer_0)` of a new builder after
`cdna_bitwise_text_builder_add_char` has added the one character `enc_char`. -/
def cdna_bitwise_text_builder_char_layers (enc_char : Nat) : Option (Nat × Nat × Nat) :=
  (cdna_bitwise_text_builder_add_char (cdna_bitwise_text_builder_new 1) enc_char).map
    (fun cdna_text => (cdna_text.layer_2, cdna_text.layer_1, cdna_text.layer_0))

/-! ## mm_stack.c: what `mm_stack_free` hands back -/

/-- The calls of `mm_slab_put` in `mm_stack_free` (mm_stack.c:97-101): the
positions, in the vector of segments, of the segments whose slab unit is put
back into the slab.  `VECTOR_OFFSET_ITERATE` (vector.h:105-108) runs from the
offset `1` up to the last used position. -/
def mm_stack_free_slab_put (mm_stack : mm_stack_t) : List Nat :=
  (List.range mm_stack.segments.length).drop 1

/-! ## approximate_search_stepwise.c: the limit on exact matches -/

/-- The fields of `select_parameters_t` that
`approximate_search_stepwise_region_profile_limit_exact_matches` reads. -/
structure select_parameters_t where
  min_reported_strata_nominal : Nat
  max_reported_matches : Nat
deriving DecidableEq, Repr

/-- The fields of `region_profile_t` that approximate_search_stepwise.c uses.
This file belongs to a later version of the mapper than
region_profile_adaptive.c: its `region_profile_t` has the flag
`candidates_limited`, and the header that declares it is not part of the
sources.  `filtering_region` is the array of regions, whose slot 0 the
function reads and writes. -/
structure asearch_region_profile_t where
  filtering_region : List region_search_t
  total_candidates : Nat
  candidates_limited : Bool
deriving DecidableEq, Repr

/-- The fields of `approximate_search_t` that
`approximate_search_stepwise_region_profile_limit_exact_matches` uses;
`select_parameters_align` is reached through `search_parameters`. -/
structure approximate_search_t where
  region_profile : asearch_region_profile_t
  select_parameters_align : select_parameters_t
deriving DecidableEq, Repr

/-- The function
`approximate_search_stepwise_region_profile_limit_exact_matches`
(approximate_search_stepwise.c:62-79).  `region_profile_has_exact_matches` is
only declared (region_profile.h:86), its body is not part of the sources, and
it is a parameter.  The result is `none` when the profile is said to have exact
matches but the array of regions has no slot 0. -/
def approximate_search_stepwise_region_profile_limit_exact_matches
    (region_profile_has_exact_matches : asearch_region_profile_t → Bool)
    (search : approximate_search_t) : Option approximate_search_t :=
  let region_profile := { search.region_profile with candidates_limited := false }
  if region_profile_has_exact_matches region_profile then
    let select_parameters := search.select_parameters_align
    match region_profile.filtering_region with
    | [] => none
    | filtering_region :: regions =>
      let total_candidates := sub64 filtering_region.hi filtering_region.lo
      if select_parameters.min_reported_strata_nominal = 0 ∧
          total_candidates > select_parameters.max_reported_matches then
        some { search with
          region_profile :=
            { filtering_region :=
                { filtering_region with
                  hi := (filtering_region.lo + select_parameters.max_reported_matches) % U64 }
                  :: regions
              total_candidates := select_parameters.max_reported_matches
              candidates_limited := true } }
      else some { search with region_profile := region_profile }
  else some { search with region_profile := region_profile }

/-! ## match_align.c: aligning or bridging the gap between two anchors -/

/-- The state that the SWG region aligners share: the used elements of the
CIGAR vector of `matches` (`matches->cigar_vector`) and the fields
`cigar_length` and `score` of `match_alignment`. -/
structure match_align_swg_t where
  cigar_vector : List cigar_element_t
  cigar_length : Nat
  score : Int
deriving DecidableEq, Repr

/-- Modelled from the spec: `matches_cigar_vector_append_deletion` is not part
of the sources.  The spec (4.8) has the bridged gap hold "a synthetic
deletion+insertion pair of the correct lengths": the function is taken to add
one deletion of the given length to the vector and to count it in
`cigar_length`. -/
def matches_cigar_vector_append_deletion (s : match_align_swg_t) (length : Nat)
    (attributes : cigar_attr_t) : match_align_swg_t :=
  { s with
    cigar_vector :=
      s.cigar_vector ++ [{ type := cigar_del, attributes := attributes, length := length }]
    cigar_length := (s.cigar_length + 1) % U64 }

/-- Modelled from the spec: `matches_cigar_vector_append_insertion` is not part
of the sources; it is taken to add one insertion of the given length to the
vector and to count it in `cigar_length`. -/
def matches_cigar_vector_append_insertion (s : match_align_swg_t) (length : Nat)
    (attributes : cigar_attr_t) : match_align_swg_t :=
  { s with
    cigar_vector :=
      s.cigar_vector ++ [{ type := cigar_ins, attributes := attributes, length := length }]
    cigar_length := (s.cigar_length + 1) % U64 }

/-- The function `match_align_swg_bride_gap` (match_align.c:337-359). -/
def match_align_swg_bride_gap (s : match_align_swg_t)
    (key_chunk_length text_chunk_length : Nat) (trim : Bool) : match_align_swg_t :=
  if trim then
    if key_chunk_length > 0 then
      matches_cigar_vector_append_deletion s key_chunk_length cigar_attr_trim
    else s
  else
    let s :=
      if key_chunk_length > 0 then
        matches_cigar_vector_append_deletion s key_chunk_length cigar_attr_none
      else s
    if text_chunk_length > 0 then
      matches_cigar_vector_append_insertion s text_chunk_length cigar_attr_none
    else s

/-- The function `match_align_swg_region` (match_align.c:363-393).
`swg_align_match` is not part of the sources and is a parameter: from the
offsets and lengths of the two chunks, the alignment parameters and the two
flags it computes the new CIGAR vector, `cigar_length` and `score`.
`vector_set_used` keeps the first `cigar_vector_used` elements. -/
def match_align_swg_region
    (swg_align_match : Nat → Nat → Nat → Nat → match_align_parameters_t → Bool → Bool →
      match_align_swg_t → match_align_swg_t)
    (s : match_align_swg_t) (align_parameters : match_align_parameters_t)
    (key_chunk_begin_offset key_chunk_length : Nat)
    (text_chunk_begin_offset text_chunk_length : Nat)
    (begin_free end_free force_swg_threshold : Bool) : Bool × match_align_swg_t :=
  let cigar_length := s.cigar_length
  let cigar_vector_used := s.cigar_vector.length
  let s := swg_align_match key_chunk_begin_offset key_chunk_length text_chunk_begin_offset
    text_chunk_length align_parameters begin_free end_free s
  if s.score = SWG_SCORE_MIN ∨
      (force_swg_threshold = true ∧ s.score < align_parameters.swg_threshold) then
    let s :=
      { s with
        cigar_length := cigar_length
        cigar_vector := s.cigar_vector.take cigar_vector_used }
    (false, match_align_swg_bride_gap s key_chunk_length text_chunk_length
      (begin_free || end_free))
  else (true, s)

/-- The function `match_align_swg_middle_region` (match_align.c:394-403). -/
def match_align_swg_middle_region
    (swg_align_match : Nat → Nat → Nat → Nat → match_align_parameters_t → Bool → Bool →
      match_align_swg_t → match_align_swg_t)
    (s : match_align_swg_t) (align_parameters : match_align_parameters_t)
    (key_chunk_begin_offset key_chunk_length : Nat)
    (text_chunk_begin_offset text_chunk_length : Nat)
    (force_swg_threshold : Bool) : Bool × match_align_swg_t :=
  match_align_swg_region swg_align_match s align_parameters key_chunk_begin_offset
    key_chunk_length text_chunk_begin_offset text_chunk_length false false force_swg_threshold

/-! ## filtering_candidates_verify_buffered.c: retrieving the tile distances -/

/-- The width of `uint32_t`. -/
def U32 : Nat := 2 ^ 32

/-- Modelled from the spec: the macro `BOUNDED_SUBTRACTION` is defined in
commons.h, which is not part of the sources.  It is taken to be the
subtraction that stops at `limit`:
`minuend > limit + subtrahend ? minuend - subtrahend : limit`. -/
def BOUNDED_SUBTRACTION (minuend subtrahend limit : Nat) : Nat :=
  if minuend > (limit + subtrahend) % U64 then sub64 minuend subtrahend else limit

/-- The fields of `alignment_tile_t` that
`filtering_candidates_verify_buffered_retrieve_alignment` writes. -/
structure alignment_tile_t where
  distance : Nat
  text_begin_offset : Nat
  text_end_offset : Nat
deriving DecidableEq, Repr

/-- The fields of `alignment_t` that
`filtering_candidates_verify_buffered_retrieve_alignment` uses; `num_tiles` is
the length of `alignment_tiles`. -/
structure alignment_t where
  alignment_tiles : List alignment_tile_t
  distance_min_bound : Nat
deriving DecidableEq, Repr

/-- The loop "Traverse all tiles" of
`filtering_candidates_verify_buffered_retrieve_alignment`
(filtering_candidates_verify_buffered.c:312-338), by recursion on the tiles
that are left; the result is the tiles written and the final
`global_distance`.  `bpm_pattern_tiles` gives the `pattern_length` of the tile
at a position.  `gpu_buffer_align_bpm_get_result` is not part of the sources
and is a parameter: the `(tile_distance, tile_match_column)` stored for a
candidate index, two `uint32_t` values. -/
def filtering_candidates_verify_buffered_retrieve_alignment_tiles (max_error : Nat)
    (bpm_pattern_tiles : Nat → Nat) (gpu_buffer_align_bpm_get_result : Nat → Nat × Nat) :
    List alignment_tile_t → Nat → Nat → Nat → List alignment_tile_t × Nat
  | [], _, _, global_distance => ([], global_distance)
  | alignment_tile :: alignment_tiles, tile_pos, candidate_idx, global_distance =>
    if global_distance > max_error then
      let r := filtering_candidates_verify_buffered_retrieve_alignment_tiles max_error
        bpm_pattern_tiles gpu_buffer_align_bpm_get_result alignment_tiles (tile_pos + 1)
        ((candidate_idx + 1) % U64) ALIGN_DISTANCE_INF
      ({ alignment_tile with distance := ALIGN_DISTANCE_INF } :: r.1, r.2)
    else
      let tile_distance := (gpu_buffer_align_bpm_get_result candidate_idx).1 % U32
      let tile_match_column := (gpu_buffer_align_bpm_get_result candidate_idx).2 % U32
      let tile_offset := alignment_tile.text_begin_offset
      let tile_end_offset := (tile_match_column + 1) % U32
      let tile_tall := bpm_pattern_tiles tile_pos
      let tile_begin_offset :=
        BOUNDED_SUBTRACTION tile_end_offset ((tile_tall + tile_distance) % U64) 0
      let r := filtering_candidates_verify_buffered_retrieve_alignment_tiles max_error
        bpm_pattern_tiles gpu_buffer_align_bpm_get_result alignment_tiles (tile_pos + 1)
        ((candidate_idx + 1) % U64) ((global_distance + tile_distance) % U64)
      ({ distance := tile_distance
         text_end_offset := (tile_offset + tile_end_offset) % U64
         text_begin_offset := (tile_offset + tile_begin_offset) % U64 } :: r.1, r.2)

/-- The function `filtering_candidates_verify_buffered_retrieve_alignment`
(filtering_candidates_verify_buffered.c:298-346), without the debug checks
that `CUDA_CHECK_BUFFERED_VERIFY_CANDIDATES` compiles in. -/
def filtering_candidates_verify_buffered_retrieve_alignment (alignment : alignment_t)
    (max_error : Nat) (bpm_pattern_tiles : Nat → Nat)
    (gpu_buffer_align_bpm_get_result : Nat → Nat × Nat) (candidate_idx : Nat) :
    alignment_t :=
  let r := filtering_candidates_verify_buffered_retrieve_alignment_tiles max_error
    bpm_pattern_tiles gpu_buffer_align_bpm_get_result alignment.alignment_tiles 0
    candidate_idx 0
  { alignment_tiles := r.1, distance_min_bound := r.2 }

/-! ## archive_search_pe.c: the paired-end controller -/

/-- The states of the paired-end search that archive_search_pe.c names (the
enum is declared in a header that is not part of the sources). -/
inductive archive_search_pe_state_t where
  | archive_search_pe_begin
  | archive_search_pe_search_end1
  | archive_search_pe_search_end2
  | archive_search_pe_recovery
  | archive_search_pe_find_pairs
  | archive_search_pe_end
deriving DecidableEq, Repr

/-- The two ends of a pair, `sequence_end_t`. -/
inductive sequence_end_t where
  | paired_end1
  | paired_end2
deriving DecidableEq, Repr

/-- The classes that `matches_classify` returns: archive_search_pe.c names
`matches_class_unique` only; every other class is `matches_class_other`. -/
inductive matches_class_t where
  | matches_class_unique
  | matches_class_other
deriving DecidableEq, Repr

open archive_search_pe_state_t sequence_end_t matches_class_t

/-- Modelled from the spec: the constant `ALL` is defined in a header that is
not part of the sources, and the spec does not name it.  In
`archive_search_paired_end_continue` it is the value of a
`max_complete_stratum` that is not added to the sum; it is taken to be the
largest `uint64_t`. -/
def ALL : Nat := 2 ^ 64 - 1

/-- What `archive_search_paired_end_continue` does, in order; a ghost record
of the run. -/
inductive archive_search_pe_event_t where
  | search_end1
  | extend_shortcut (num_matches_found : Nat)
  | search_end2
  | extend_recovery (candidate_end : sequence_end_t)
  | find_pairs (num_maps : Nat)
  | callback_search_end2
deriving DecidableEq, Repr

open archive_search_pe_event_t

/-- The fields of `archive_search_t` that archive_search_pe.c reads and
writes. -/
structure archive_search_t where
  pe_search_state : archive_search_pe_state_t
  pair_searched : Bool
  pair_extended : Bool
  pair_extended_shortcut : Bool
  end_class : matches_class_t
deriving DecidableEq, Repr

/-- The routines that archive_search_pe.c calls and whose bodies are not part
of the sources, as functions on the data `σ` they work on (the matches of the
two ends, the paired matches, the filtering candidates, the mapper
statistics).  `archive_search_paired_end_extend_matches`
(archive_search_pe.c:33-81) is carried whole, because the body of its loop,
`filtering_candidates_extend_match`, is missing; `matches_classify_unique`
stands for `archive_search_compute_predictors` followed by
`matches_classify_unique`, a `double` that is taken to be a number. -/
structure archive_search_pe_routines (σ : Type) where
  archive_search_reset : sequence_end_t → σ → σ
  archive_search_finish_search : sequence_end_t → σ → σ
  archive_select_matches : sequence_end_t → σ → σ
  matches_classify : sequence_end_t → σ → matches_class_t
  mapper_stats_template_length_estimation_within_ci : sequence_end_t → σ → Bool
  max_complete_stratum : sequence_end_t → σ → Nat
  matches_classify_unique : sequence_end_t → σ → Rat
  MATCHES_UNIQUE_CI : Rat
  archive_search_paired_end_extend_matches : sequence_end_t → σ → σ × Nat
  matches_get_num_match_traces : sequence_end_t → σ → Nat
  paired_matches_find_pairs : σ → σ
  paired_matches_find_discordant_pairs : σ → σ
  paired_matches_get_num_maps : σ → Nat

/-- The state of a paired-end search: the two `archive_search_t`, the field
`max_complete_stratum` of `paired_matches`, the data of the missing routines,
and the ghost record of the run. -/
structure archive_search_pe_t (σ : Type) where
  archive_search_end1 : archive_search_t
  archive_search_end2 : archive_search_t
  paired_matches_max_complete_stratum : Nat
  data : σ
  events : List archive_search_pe_event_t

/-- The function `archive_search_paired_end_use_shortcut_extension`
(archive_search_pe.c:116-128) on the end `archive_search` and its matches. -/
def archive_search_paired_end_use_shortcut_extension {σ : Type}
    (routines : archive_search_pe_routines σ) (archive_search : sequence_end_t) (data : σ) :
    Bool :=
  if !routines.mapper_stats_template_length_estimation_within_ci archive_search data then
    false
  else if routines.max_complete_stratum archive_search data ≤ 1 then false
  else if routines.matches_classify archive_search data = matches_class_unique then
    decide (routines.matches_classify_unique archive_search data ≥ routines.MATCHES_UNIQUE_CI)
  else false

/-- The function `archive_search_paired_end_use_recovery_extension`
(archive_search_pe.c:129-146) on the end `archive_search` and its matches. -/
def archive_search_paired_end_use_recovery_extension {σ : Type}
    (routines : archive_search_pe_routines σ) (archive_search : sequence_end_t) (data : σ) :
    Bool :=
  if !routines.mapper_stats_template_length_estimation_within_ci archive_search data then
    false
  else if routines.max_complete_stratum archive_search data ≤ 1 then true
  else
    match routines.matches_classify archive_search data with
    | matches_class_unique =>
      decide (routines.matches_classify_unique archive_search data < routines.MATCHES_UNIQUE_CI)
    | _ => true

/-- The case `archive_search_pe_find_pairs` of
`archive_search_paired_end_continue` (archive_search_pe.c:229-253), up to its
`break`. -/
def archive_search_paired_end_continue_find_pairs {σ : Type}
    (routines : archive_search_pe_routines σ) (s : archive_search_pe_t σ) :
    archive_search_pe_t σ :=
  let num_matches_end1 := routines.matches_get_num_match_traces paired_end1 s.data
  let num_matches_end2 := routines.matches_get_num_match_traces paired_end2 s.data
  let data :=
    if num_matches_end1 > 0 ∧ num_matches_end2 > 0 then
      routines.paired_matches_find_discordant_pairs (routines.paired_matches_find_pairs s.data)
    else s.data
  let num_maps := routines.paired_matches_get_num_maps data
  let s :=
    { s with data := data, events := s.events ++ [archive_search_pe_event_t.find_pairs num_maps] }
  if num_maps = 0 ∧ s.archive_search_end2.pair_searched = false then
    { s with
      archive_search_end1 :=
        { s.archive_search_end1 with pe_search_state := archive_search_pe_search_end2 }
      events := s.events ++ [archive_search_pe_event_t.callback_search_end2] }
  else
    let max_complete_stratum_end1 := routines.max_complete_stratum paired_end1 s.data
    let max_complete_stratum_end2 := routines.max_complete_stratum paired_end2 s.data
    { s with
      paired_matches_max_complete_stratum :=
        ((if max_complete_stratum_end1 ≠ ALL then max_complete_stratum_end1 else 0) +
          (if max_complete_stratum_end2 ≠ ALL then max_complete_stratum_end2 else 0)) % U64
      archive_search_end1 :=
        { s.archive_search_end1 with pe_search_state := archive_search_pe_end } }

/-- The case `archive_search_pe_recovery` of
`archive_search_paired_end_continue` (archive_search_pe.c:208-228), which
falls through to the case `archive_search_pe_find_pairs`. -/
def archive_search_paired_end_continue_recovery {σ : Type}
    (routines : archive_search_pe_routines σ) (s : archive_search_pe_t σ) :
    archive_search_pe_t σ :=
  let s :=
    if s.archive_search_end1.pair_extended = false ∧
        archive_search_paired_end_use_recovery_extension routines paired_end2 s.data = true then
      { s with
        data := (routines.archive_search_paired_end_extend_matches paired_end2 s.data).1
        archive_search_end1 := { s.archive_search_end1 with pair_extended := true }
        events := s.events ++ [archive_search_pe_event_t.extend_recovery paired_end2] }
    else s
  let s :=
    if s.archive_search_end2.pair_extended = false ∧
        archive_search_paired_end_use_recovery_extension routines paired_end1 s.data = true then
      { s with
        data := (routines.archive_search_paired_end_extend_matches paired_end1 s.data).1
        archive_search_end2 := { s.archive_search_end2 with pair_extended := true }
        events := s.events ++ [archive_search_pe_event_t.extend_recovery paired_end1] }
    else s
  archive_search_paired_end_continue_find_pairs routines s

/-- The case `archive_search_pe_search_end2` of
`archive_search_paired_end_continue` (archive_search_pe.c:201-207), which
falls through to the case `archive_search_pe_recovery`. -/
def archive_search_paired_end_continue_search_end2 {σ : Type}
    (routines : archive_search_pe_routines σ) (s : archive_search_pe_t σ) :
    archive_search_pe_t σ :=
  let data := routines.archive_select_matches paired_end2
    (routines.archive_search_finish_search paired_end2 s.data)
  let s :=
    { s with
      data := data
      archive_search_end2 :=
        { s.archive_search_end2 with
          pair_searched := true
          end_class := routines.matches_classify paired_end2 data }
      events := s.events ++ [archive_search_pe_event_t.search_end2] }
  archive_search_paired_end_continue_recovery routines s

/-- The case `archive_search_pe_search_end1` of
`archive_search_paired_end_continue` (archive_search_pe.c:172-200): it breaks
with the state `archive_search_pe_find_pairs` after a shortcut extension that
found matches, and falls through to the case `archive_search_pe_search_end2`
otherwise. -/
def archive_search_paired_end_continue_search_end1 {σ : Type}
    (routines : archive_search_pe_routines σ) (s : archive_search_pe_t σ) :
    archive_search_pe_t σ :=
  let data := routines.archive_select_matches paired_end1
    (routines.archive_search_finish_search paired_end1 s.data)
  let s :=
    { s with
      data := data
      archive_search_end1 :=
        { s.archive_search_end1 with
          pair_searched := true
          end_class := routines.matches_classify paired_end1 data
          pair_extended :=
            archive_search_paired_end_use_shortcut_extension routines paired_end1 data }
      events := s.events ++ [archive_search_pe_event_t.search_end1] }
  if s.archive_search_end1.pair_extended = true then
    let r := routines.archive_search_paired_end_extend_matches paired_end2 s.data
    let num_matches_found := r.2
    let s :=
      { s with
        data := r.1
        archive_search_end1 := { s.archive_search_end1 with pair_extended_shortcut := true }
        events := s.events ++ [archive_search_pe_event_t.extend_shortcut num_matches_found] }
    if num_matches_found > 0 then
      { s with
        archive_search_end1 :=
          { s.archive_search_end1 with pe_search_state := archive_search_pe_find_pairs } }
    else archive_search_paired_end_continue_search_end2 routines s
  else archive_search_paired_end_continue_search_end2 routines s

/-- The case `archive_search_pe_begin` of `archive_search_paired_end_continue`
(archive_search_pe.c:163-171), which falls through to the case
`archive_search_pe_search_end1`. -/
def archive_search_paired_end_continue_begin {σ : Type}
    (routines : archive_search_pe_routines σ) (s : archive_search_pe_t σ) :
    archive_search_pe_t σ :=
  let s :=
    { s with
      archive_search_end1 :=
        { s.archive_search_end1 with
          pair_searched := false, pair_extended := false, pair_extended_shortcut := false }
      archive_search_end2 :=
        { s.archive_search_end2 with pair_searched := false, pair_extended := false }
      data := routines.archive_search_reset paired_end2
        (routines.archive_search_reset paired_end1 s.data) }
  archive_search_paired_end_continue_search_end1 routines s

/-- The `switch` of `archive_search_paired_end_continue`
(archive_search_pe.c:162-257); `none` is the fatal error of
`GEM_INVALID_CASE` in the `default` case. -/
def archive_search_paired_end_continue_switch {σ : Type}
    (routines : archive_search_pe_routines σ) (s : archive_search_pe_t σ) :
    Option (archive_search_pe_t σ) :=
  match s.archive_search_end1.pe_search_state with
  | archive_search_pe_begin => some (archive_search_paired_end_continue_begin routines s)
  | archive_search_pe_search_end1 =>
    some (archive_search_paired_end_continue_search_end1 routines s)
  | archive_search_pe_search_end2 =>
    some (archive_search_paired_end_continue_search_end2 routines s)
  | archive_search_pe_recovery => some (archive_search_paired_end_continue_recovery routines s)
  | archive_search_pe_find_pairs =>
    some (archive_search_paired_end_continue_find_pairs routines s)
  | archive_search_pe_end => none

/-- The function `archive_search_paired_end_continue`
(archive_search_pe.c:150-260): the loop `while (pe_search_state != end)` with
at most `fuel` iterations.  The result is `none` when the fuel runs out before
the state `archive_search_pe_end` is reached, or on `GEM_INVALID_CASE`. -/
def archive_search_paired_end_continue {σ : Type} (routines : archive_search_pe_routines σ) :
    Nat → archive_search_pe_t σ → Option (archive_search_pe_t σ)
  | 0, s =>
    if s.archive_search_end1.pe_search_state ≠ archive_search_pe_end then none else some s
  | fuel + 1, s =>
    if s.archive_search_end1.pe_search_state ≠ archive_search_pe_end then
      match archive_search_paired_end_continue_switch routines s with
      | none => none
      | some s => archive_search_paired_end_continue routines fuel s
    else some s

/-- The function `archive_search_paired_end` (archive_search_pe.c:314-322):
both ends are put into the state `archive_search_pe_begin`, then the search
runs. -/
def archive_search_paired_end {σ : Type} (routines : archive_search_pe_routines σ)
    (fuel : Nat) (s : archive_search_pe_t σ) : Option (archive_search_pe_t σ) :=
  archive_search_paired_end_continue routines fuel
    { s with
      archive_search_end1 :=
        { s.archive_search_end1 with pe_search_state := archive_search_pe_begin }
      archive_search_end2 :=
        { s.archive_search_end2 with pe_search_state := archive_search_pe_begin } }

/-! ## match_align.c: the Hamming alignment -/

/-- The fields of `match_align_input_t` that `match_align_hamming` reads
(match_align.c:192-202); `key` and `text` are the memory behind the two
pointers. -/
structure match_align_input_t where
  key : List Nat
  key_length : Nat
  text_position : Nat
  text_trace_offset : Nat
  text : List Nat
  text_offset_begin : Nat
  text_offset_end : Nat

/-- What `match_align_hamming` writes into the match trace and into the CIGAR
vector of `matches` (match_align.c:203-230): `text` is the offset of
`match_trace->text` from `align_input->text`, `cigar_vector` holds the elements
appended from `cigar_offset` on.  `sequence_name`, `text_position`,
`emulated_rc_search` and `swg_score` (computed by `swg_score_cigar`, which is
not part of the sources) are left out. -/
structure match_align_hamming_t where
  trace_offset : Nat
  text : Nat
  text_length : Nat
  match_position : Nat
  cigar_vector : List cigar_element_t
  cigar_length : Nat
  effective_length : Nat
  distance : Nat
  edit_distance : Nat
deriving DecidableEq, Repr

/-- Modelled from the spec: `matches_cigar_vector_append_mismatch` is not part
of the sources; it is taken to add one mismatch element to the vector and to
count it in `cigar_length`.  The mismatching character shares the storage of
`length` in the element. -/
def matches_cigar_vector_append_mismatch (s : match_align_swg_t) (mismatch : Nat)
    (attributes : cigar_attr_t) : match_align_swg_t :=
  { s with
    cigar_vector :=
      s.cigar_vector ++ [{ type := cigar_mismatch, attributes := attributes, length := mismatch }]
    cigar_length := (s.cigar_length + 1) % U64 }

/-- Modelled from the spec: `matches_cigar_vector_append_match` is not part of
the sources; it is taken to add one match element of the given length to the
vector and to count it in `cigar_length`. -/
def matches_cigar_vector_append_match (s : match_align_swg_t) (match_length : Nat)
    (attributes : cigar_attr_t) : match_align_swg_t :=
  { s with
    cigar_vector :=
      s.cigar_vector ++ [{ type := cigar_match, attributes := attributes, length := match_length }]
    cigar_length := (s.cigar_length + 1) % U64 }

/-- The loop "Hamming Alignment" of `match_align_hamming` (match_align.c:216-225):
`n` iterations from the index `i`, which runs over the text and over the key
alike; the result is `mismatches` and the CIGAR state. -/
def match_align_hamming_loop (key text : List Nat) (allowed_enc : Nat → Bool) :
    Nat → Nat → Nat → match_align_swg_t → Nat × match_align_swg_t
  | 0, _, mismatches, s => (mismatches, s)
  | n + 1, i, mismatches, s =>
    let candidate_enc := text.getD i 0
    if !allowed_enc candidate_enc ∨ candidate_enc ≠ key.getD i 0 then
      match_align_hamming_loop key text allowed_enc n (i + 1) ((mismatches + 1) % U64)
        (matches_cigar_vector_append_mismatch s candidate_enc cigar_attr_none)
    else
      match_align_hamming_loop key text allowed_enc n (i + 1) mismatches
        (matches_cigar_vector_append_match s 1 cigar_attr_none)

/-- The function `match_align_hamming` (match_align.c:192-232).  The loop runs
for `i` from `text_offset_begin` while `i < text_offset_end`. -/
def match_align_hamming (align_input : match_align_input_t) (allowed_enc : Nat → Bool) :
    match_align_hamming_t :=
  let r := match_align_hamming_loop align_input.key align_input.text allowed_enc
    (align_input.text_offset_end - align_input.text_offset_begin)
    align_input.text_offset_begin 0 { cigar_vector := [], cigar_length := 0, score := 0 }
  { trace_offset := align_input.text_trace_offset
    text := align_input.text_offset_begin
    text_length := align_input.key_length
    match_position := align_input.text_position
    cigar_vector := r.2.cigar_vector
    cigar_length := r.2.cigar_length
    effective_length := align_input.key_length
    distance := r.1
    edit_distance := r.1 }

/-! ## kmer_counting.c: the indices at which the filter reads the text -/

/-- The indices at which the "Initial fill" loop of the first count reads `text`
(kmer_counting.c:104-107), in order: `text[end_pos]` in each of its `n`
iterations. -/
def kmer_counting_filter_fill_end_reads (text : List Nat) :
    Nat → kmer_filter_state → List Nat
  | 0, _ => []
  | n + 1, s =>
    s.end_pos ::
      kmer_counting_filter_fill_end_reads text n
        { s with
          end_pos := s.end_pos + 1
          kmers_left := dec64 s.kmers_left
          kmer_idx_end :=
            KMER_COUNTING_ADD_INDEX__MASK s.kmer_idx_end (text.getD s.end_pos 0) }

/-- The indices at which the first counting loop reads `text`
(kmer_counting.c:108-122): `text[end_pos]` in each iteration that it runs, up to
an early `return`. -/
def kmer_counting_filter_load_reads (kmer_count_pattern : Nat → Nat) (text : List Nat)
    (kmers_required : Nat) : Nat → kmer_filter_state → List Nat
  | 0, _ => []
  | n + 1, s =>
    s.end_pos ::
      (let s := kmer_counting_filter_increment kmer_count_pattern text s
       if s.kmers_in_text ≥ kmers_required then []
       else if sub64 kmers_required s.kmers_in_text > s.kmers_left then []
       else
         kmer_counting_filter_load_reads kmer_count_pattern text kmers_required n
           { s with end_pos := s.end_pos + 1, kmers_left := dec64 s.kmers_left })

/-- The indices at which the "Initial fill" loop of the sliding window reads
`text` (kmer_counting.c:137-140): `text[begin_pos]` in each of its `n`
iterations. -/
def kmer_counting_filter_fill_begin_reads (text : List Nat) :
    Nat → kmer_filter_state → List Nat
  | 0, _ => []
  | n + 1, s =>
    s.begin_pos ::
      kmer_counting_filter_fill_begin_reads text n
        { s with
          begin_pos := s.begin_pos + 1
          kmer_idx_begin :=
            KMER_COUNTING_ADD_INDEX s.kmer_idx_begin (text.getD s.begin_pos 0) }

/-- The indices at which the sliding-window loop reads `text`
(kmer_counting.c:141-176): `text[begin_pos]` and `text[end_pos]` in each
iteration that it runs, up to an early `return`. -/
def kmer_counting_filter_slide_reads (kmer_count_pattern : Nat → Nat) (text : List Nat)
    (kmers_required : Nat) : Nat → kmer_filter_state → List Nat
  | 0, _ => []
  | n + 1, s =>
    s.begin_pos :: s.end_pos ::
      (let s := kmer_counting_filter_decrement kmer_count_pattern text s
       let s := kmer_counting_filter_increment kmer_count_pattern text s
       if s.kmers_in_text ≥ kmers_required then []
       else if sub64 kmers_required s.kmers_in_text > s.kmers_left then []
       else
         kmer_counting_filter_slide_reads kmer_count_pattern text kmers_required n
           { s with
             end_pos := s.end_pos + 1
             begin_pos := s.begin_pos + 1
             kmers_left := dec64 s.kmers_left })

/-- The indices at which `kmer_counting_filter` (kmer_counting.c:81-180) reads
`text`, in the order of the reads; the control flow is that of
`kmer_counting_filter`. -/
def kmer_counting_filter_reads (kmer_counting : kmer_counting_t) (text : List Nat)
    (text_length max_error : Nat) : List Nat :=
  if !kmer_counting.enabled then []
  else
    let kmers_error := mul64 KMER_COUNTING_LENGTH max_error
    let kmers_max := sub64 kmer_counting.pattern_length (KMER_COUNTING_LENGTH - 1)
    if kmers_error ≥ kmers_max then []
    else
      let kmers_required :=
        sub64 (sub64 kmer_counting.pattern_length (KMER_COUNTING_LENGTH - 1))
          (mul64 KMER_COUNTING_LENGTH max_error)
      let kmer_count_pattern := kmer_counting.kmer_count_pattern
      let init_chunk := min text_length kmer_counting.pattern_length
      let total_kmers_text := max text_length kmer_counting.pattern_length
      let s0 : kmer_filter_state :=
        { end_pos := 0, kmer_idx_end := 0, begin_pos := 0, kmer_idx_begin := 0,
          kmers_in_text := 0, kmers_left := total_kmers_text,
          kmer_count_text := fun _ => 0 }
      let s1 := kmer_counting_filter_fill_end text (KMER_COUNTING_LENGTH - 1) s0
      kmer_counting_filter_fill_end_reads text (KMER_COUNTING_LENGTH - 1) s0 ++
        kmer_counting_filter_load_reads kmer_count_pattern text kmers_required
          (init_chunk - s1.end_pos) s1 ++
        (match kmer_counting_filter_load kmer_count_pattern text kmers_required
            (init_chunk - s1.end_pos) s1 with
        | Sum.inl _ => []
        | Sum.inr s2 =>
          if s2.kmers_in_text ≥ kmers_required then []
          else if init_chunk = text_length then []
          else
            let s3 := kmer_counting_filter_fill_begin text (KMER_COUNTING_LENGTH - 1) s2
            kmer_counting_filter_fill_begin_reads text (KMER_COUNTING_LENGTH - 1) s2 ++
              kmer_counting_filter_slide_reads kmer_count_pattern text kmers_required
                (text_length - s3.end_pos) s3)

/-! ## match_alignment_region.c: the comparators -/

/-- The fields of `match_alignment_region_t` that the comparators read
(match_alignment_region.c:29-31); the struct is declared in a header that is not
part of the sources, the fields are `uint64_t` as in the accessors
(match_alignment_region.c:64-75). -/
structure match_alignment_region_t where
  _key_begin : Nat
  _text_begin : Nat
deriving DecidableEq, Repr

/-- The conversion of a `uint64_t` to `int` (32 bits, two's complement): the low
32 bits of the value, read as a signed number. -/
def int_of_uint64 (x : Nat) : Int :=
  if x % 2 ^ 32 < 2 ^ 31 then ((x % 2 ^ 32 : Nat) : Int)
  else ((x % 2 ^ 32 : Nat) : Int) - 2 ^ 32

/-- The function `match_alignment_region_key_cmp`
(match_alignment_region.c:131-135): both operands are cast to `int` and
subtracted as `int`; the result is `none` when the signed subtraction
overflows. -/
def match_alignment_region_key_cmp (match_alignment_region_a
    match_alignment_region_b : match_alignment_region_t) : Option Int :=
  let difference := int_of_uint64 match_alignment_region_a._key_begin -
    int_of_uint64 match_alignment_region_b._key_begin
  if -(2 ^ 31) ≤ difference ∧ difference < 2 ^ 31 then some difference else none

/-- The function `match_alignment_region_cmp_text_position`
(match_alignment_region.c:136-140): the `uint64_t` difference, converted to the
`int` that the function returns. -/
def match_alignment_region_cmp_text_position (a b : match_alignment_region_t) : Int :=
  int_of_uint64 (sub64 a._text_begin b._text_begin)

/-! ## mm_stack.c: sequences of calls and the blocks they return -/

/-- A call on the arena: `mm_stack_memory_allocate` with its arguments, or
`mm_stack_free`. -/
inductive mm_stack_op where
  | allocate (num_bytes : Nat) (zero_mem : Bool)
  | free
deriving DecidableEq, Repr

/-- A block that `mm_stack_memory_allocate` has returned: the index of its
segment, its offset from the base of the slab unit of that segment, and the
number of bytes requested. -/
structure mm_stack_block_t where
  segment : Nat
  offset : Nat
  num_bytes : Nat
deriving DecidableEq, Repr

/-- A sequence of calls on the arena, from a state and the blocks that are in
use there (the blocks returned since the last `mm_stack_free`); the result is
the final state with the blocks in use, or the fatal error of the first
allocation that fails. -/
def mm_stack_run :
    mm_stack_t → List mm_stack_block_t → List mm_stack_op →
      Except mm_stack_error (mm_stack_t × List mm_stack_block_t)
  | mm_stack, blocks, [] => Except.ok (mm_stack, blocks)
  | mm_stack, blocks, mm_stack_op.allocate num_bytes zero_mem :: ops =>
    match mm_stack_memory_allocate mm_stack num_bytes zero_mem with
    | Except.error e => Except.error e
    | Except.ok (mm_stack, block) =>
      mm_stack_run mm_stack
        (blocks ++ [{ segment := block.1, offset := block.2, num_bytes := num_bytes }]) ops
  | mm_stack, _, mm_stack_op.free :: ops => mm_stack_run (mm_stack_free mm_stack) [] ops

/-! ## cdna_bitwise_text.c: closing the builder -/

/-- The loop "Padding" of `cdna_bitwise_text_builder_close`
(cdna_bitwise_text.c:187-195): while `position_mod64` is not
`CDNA_BITWISE_BLOCK_CHARS` the layers are shifted and the padding code is
written.  `fuel` bounds the number of iterations; the result is `none` when the
fuel runs out before the loop ends. -/
def cdna_bitwise_text_builder_close_padding :
    Nat → cdna_bitwise_text_builder_t → Option cdna_bitwise_text_builder_t
  | 0, cdna_text =>
    if cdna_text.position_mod64 ≠ CDNA_BITWISE_BLOCK_CHARS then none else some cdna_text
  | fuel + 1, cdna_text =>
    if cdna_text.position_mod64 ≠ CDNA_BITWISE_BLOCK_CHARS then
      cdna_bitwise_text_builder_close_padding fuel
        { cdna_text with
          layer_0 := (cdna_text.layer_0 >>> 1) ||| CDNA_BITWISE_WRITE_LAST_MASK
          layer_1 := (cdna_text.layer_1 >>> 1) ||| CDNA_BITWISE_WRITE_LAST_MASK
          layer_2 := (cdna_text.layer_2 >>> 1) ||| CDNA_BITWISE_WRITE_LAST_MASK
          position_mod64 := (cdna_text.position_mod64 + 1) % U64 }
    else some cdna_text

/-- The function `cdna_bitwise_text_builder_close`
(cdna_bitwise_text.c:179-201): a block that holds symbols is padded and flushed.
The loop is given `CDNA_BITWISE_BLOCK_CHARS` iterations.  The final
`sparse_bitmap_builder_write` is not part of the sources; what it writes to the
file is not represented. -/
def cdna_bitwise_text_builder_close (cdna_text : cdna_bitwise_text_builder_t) :
    Option cdna_bitwise_text_builder_t :=
  if cdna_text.position_mod64 > 0 then
    let cdna_text :=
      { cdna_text with
        layer_2 := cdna_text.layer_2 ||| CDNA_BITWISE_WRITE_LAST_MASK
        layer_1 := cdna_text.layer_1 ||| CDNA_BITWISE_WRITE_LAST_MASK
        layer_0 := cdna_text.layer_0 ||| CDNA_BITWISE_WRITE_LAST_MASK
        position_mod64 := (cdna_text.position_mod64 + 1) % U64 }
    match cdna_bitwise_text_builder_close_padding CDNA_BITWISE_BLOCK_CHARS cdna_text with
    | none => none
    | some cdna_text => some (cdna_bitwise_text_builder_flush cdna_text)
  else some cdna_text

/-- A sequence of calls of `cdna_bitwise_text_builder_add_char`, one for each
symbol of the list, in order. -/
def cdna_bitwise_text_builder_add_chars :
    cdna_bitwise_text_builder_t → List Nat → Option cdna_bitwise_text_builder_t
  | cdna_text, [] => some cdna_text
  | cdna_text, enc_char :: rest =>
    match cdna_bitwise_text_builder_add_char cdna_text enc_char with
    | none => none
    | some cdna_text => cdna_bitwise_text_builder_add_chars cdna_text rest

/-! ## A reference FM-index, after the spec's description of the BWT -/

/-- The suffixes of the reference (the empty one stands for the sentinel) in
lexicographic order: the rows of the suffix array. -/
def sorted_suffixes (ref : List Nat) : List (List Nat) :=
  ref.tails.insertionSort (fun a b => lex_lt a b || decide (a = b))

/-- Modelled from the spec: the BWT, "a permutation of the encoded text with a
trailing sentinel": row `i` holds the symbol that precedes the `i`-th smallest
suffix (`none` is the sentinel, which precedes the whole text). -/
def bwt_of (ref : List Nat) : List (Option Nat) :=
  (sorted_suffixes ref).map (fun t =>
    if t.length < ref.length then some (ref.getD (ref.length - t.length - 1) 0) else none)

/-- Modelled from the spec (4.2): `bwt_erank` is not part of the sources.
"`rank(c,i)` returns |{ j < i : BWT[j] = c }|", the C-array "gives, for each
symbol c, the count of symbols lexicographically less than c" (the sentinel
included), and the LF step is `C[c] + rank(c, i)`. -/
def bwt_erank_of (ref : List Nat) (c i : Nat) : Nat :=
  (1 + ref.countP (fun x => decide (x < c))) + ((bwt_of ref).take i).count (some c)

/-- Modelled from the spec (4.3, 4.5): the FM-index of a reference: the rank
table answers a query with "the (lo,hi) interval that backward-searching those
characters would produce", the BWT answers with the LF step. -/
def reference_fm_index (ref : List Nat) : fm_index_t :=
  { text_length := ref.length + 1
    proper_length := Nat.log2 (ref.length + 1) / 2
    rank_table := fun w => sa_interval ref w
    bwt := bwt_erank_of ref }

/-- The symbol that precedes the suffix `t` of the reference: the BWT symbol of
its row (`none` for the whole reference, which the sentinel precedes). -/
def bwt_symbol (ref t : List Nat) : Option Nat :=
  if t.length < ref.length then some (ref.getD (ref.length - t.length - 1) 0) else none

/-- The strings that are empty, start with a symbol below `c`, or start with
`c` and continue with a string that passes `q`. -/
def lf_step_test (c : Nat) (q : List Nat → Bool) : List Nat → Bool
  | [] => true
  | a :: t => decide (a < c) || (decide (a = c) && q t)

/-- The strings that start with `c` and continue with a string that passes
`q`. -/
def lf_step_head (c : Nat) (q : List Nat → Bool) : List Nat → Bool
  | [] => false
  | a :: t => decide (a = c) && q t

/-- The suffixes below the upper end of the interval of `s`: those smaller than
`s` and those that start with `s`. -/
def sa_upper_test (s t : List Nat) : Bool :=
  lex_lt t s || s.isPrefixOf t

/-! ## Vocabulary of the CIGAR-curation claims -/

/-- An element that the trimming loops swallow: a mismatch, an indel, or a match
shorter than `cigar_curation_min_end_context`. -/
def cigar_trimmable (align_parameters : match_align_parameters_t)
    (cigar_element : cigar_element_t) : Bool :=
  decide (cigar_element.type ≠ cigar_match ∨
    cigar_element.length < align_parameters.cigar_curation_min_end_context)

/-- The number of read (key) characters that a CIGAR element consumes: the
length of a match or a deletion, one for a mismatch, none for an insertion. -/
def cigar_read_length (cigar_element : cigar_element_t) : Nat :=
  match cigar_element.type with
  | cigar_match => cigar_element.length
  | cigar_mismatch => 1
  | cigar_del => cigar_element.length
  | cigar_ins => 0

/-- The number of text characters that a CIGAR element consumes: the length of
a match or an insertion, one for a mismatch, none for a deletion. -/
def cigar_text_length (cigar_element : cigar_element_t) : Nat :=
  match cigar_element.type with
  | cigar_match => cigar_element.length
  | cigar_mismatch => 1
  | cigar_del => 0
  | cigar_ins => cigar_element.length

/-- The read characters consumed by a list of CIGAR elements. -/
def cigar_read_total (cigar : List cigar_element_t) : Nat :=
  (cigar.map cigar_read_length).sum

/-- The text characters consumed by a list of CIGAR elements. -/
def cigar_text_total (cigar : List cigar_element_t) : Nat :=
  (cigar.map cigar_text_length).sum

/-- The match position after the elements `trimmed` have been trimmed from the
beginning: every element but a deletion adds its text characters, in
`uint64_t`. -/
def cigar_trim_position (match_position : Nat) (trimmed : List cigar_element_t) : Nat :=
  trimmed.foldl
    (fun p e => if e.type = cigar_del then p else (p + cigar_text_length e) % U64)
    match_position

/-- The trace that a trimmed end leaves in the curated CIGAR: one deletion
marked `trim` of the given length, nothing when the length is zero. -/
def cigar_trim_of (length : Nat) : List cigar_element_t :=
  if length = 0 then [] else [cigar_trim_element length]

/-- The traversal loop of the curation with the fuel that
`match_align_curate_cigar` gives it. -/
def cigar_traverse (left_gap_alignment : Bool) (cigar : List cigar_element_t) :
    List cigar_element_t :=
  match_align_curate_cigar_traverse left_gap_alignment cigar.length cigar

/-- A deletion marked `trim`. -/
def cigar_is_trim_del (cigar_element : cigar_element_t) : Bool :=
  decide (cigar_element.type = cigar_del ∧ cigar_element.attributes = cigar_attr_trim)

/-- An insertion or a deletion. -/
def cigar_is_indel (cigar_element : cigar_element_t) : Bool :=
  decide (cigar_element.type = cigar_del ∨ cigar_element.type = cigar_ins)

/-- The total length of the deletions of a list of CIGAR elements. -/
def cigar_del_total (cigar : List cigar_element_t) : Nat :=
  ((cigar.filter (fun e => decide (e.type = cigar_del))).map (fun e => e.length)).sum

/-- The total length of the insertions of a list of CIGAR elements. -/
def cigar_ins_total (cigar : List cigar_element_t) : Nat :=
  ((cigar.filter (fun e => decide (e.type = cigar_ins))).map (fun e => e.length)).sum

/-- The elements that the traversal writes for a run of indels that starts with
`first`: the accumulated deletion (marked `trim` iff `first` is a deletion
marked `trim`) and the accumulated insertion, in the order that
`left_gap_alignment` dictates. -/
def cigar_collapse (left_gap_alignment : Bool) (first : cigar_element_t)
    (run : List cigar_element_t) : List cigar_element_t :=
  match_align_curate_cigar_copy_indels left_gap_alignment
    { type := cigar_del
      attributes :=
        if first.type = cigar_del ∧ first.attributes = cigar_attr_trim
        then cigar_attr_trim else cigar_attr_none
      length := cigar_del_total run }
    { type := cigar_ins, attributes := cigar_attr_none, length := cigar_ins_total run }

/-- The kind of a CIGAR element: 0 for a match, 1 for a mismatch, 2 for an
indel. -/
def cigar_class (cigar_element : cigar_element_t) : Nat :=
  match cigar_element.type with
  | cigar_match => 0
  | cigar_mismatch => 1
  | cigar_ins => 2
  | cigar_del => 2

/-- Two adjacent elements of a curated CIGAR: they are not both matches, and if
both are indels then the deletion comes first when `left_gap_alignment` is
set, and the insertion comes first otherwise. -/
def cigar_pair_curated (left_gap_alignment : Bool) (a b : cigar_element_t) : Prop :=
  ¬ (a.type = cigar_match ∧ b.type = cigar_match) ∧
  (cigar_is_indel a = true → cigar_is_indel b = true →
    if left_gap_alignment then a.type = cigar_del ∧ b.type = cigar_ins
    else a.type = cigar_ins ∧ b.type = cigar_del)

/-- Two adjacent elements of a CIGAR that the traversal leaves as it is
(`strict`): as `cigar_pair_curated`, and a deletion that follows an insertion
is not marked `trim`. -/
def cigar_pair_ok (left_gap_alignment strict : Bool) (a b : cigar_element_t) : Prop :=
  cigar_pair_curated left_gap_alignment a b ∧
  (strict = true → left_gap_alignment = false → cigar_is_indel a = true →
    cigar_is_indel b = true → b.attributes = cigar_attr_none)

/-- An element of a CIGAR that the traversal leaves as it is: an indel has a
positive length, and an insertion carries no attribute. -/
def cigar_element_ok (e : cigar_element_t) : Prop :=
  (cigar_is_indel e = true → 0 < e.length) ∧
  (e.type = cigar_ins → e.attributes = cigar_attr_none)

/-- Two adjacent elements that a second curation leaves as they are: they are
not an insertion followed by a deletion marked `trim`. -/
def cigar_pair_stable (a b : cigar_element_t) : Prop :=
  ¬ (a.type = cigar_ins ∧ b.type = cigar_del ∧ b.attributes = cigar_attr_trim)

/-- Two adjacent elements of which the first is not a deletion marked `trim`
that an insertion or a deletion follows. -/
def cigar_pair_unmarked (a b : cigar_element_t) : Prop :=
  ¬ (cigar_is_trim_del a = true ∧ cigar_is_indel b = true)

instance : DecidableRel cigar_pair_stable := fun a b =>
  inferInstanceAs
    (Decidable (¬ (a.type = cigar_ins ∧ b.type = cigar_del ∧ b.attributes = cigar_attr_trim)))

instance : DecidableRel cigar_pair_unmarked := fun a b =>
  inferInstanceAs (Decidable (¬ (cigar_is_trim_del a = true ∧ cigar_is_indel b = true)))

/-! ## Vocabulary of the region-profile claims -/

/-- What one iteration of the scan may do to the fields the region invariants
talk about: it either keeps the open region (and may save a cut-point at the
current position `kp`), or closes the region `[c, end)` at the current position
or at the saved cut and restarts at `c`. -/
def generator_step (g g' : region_profile_generator_t) (kp : Nat) : Prop :=
  g'.key = g.key ∧ g'.key_length = g.key_length ∧ g'.allowed_enc = g.allowed_enc ∧
  ((g'.key_position = kp ∧
      g'.region_profile.current_region.end_ = g.region_profile.current_region.end_ ∧
      g'.region_profile.filtering_region = g.region_profile.filtering_region ∧
      (g'.last_cut = g.last_cut ∨ (g'.last_cut = kp ∧ kp ≠ 0))) ∨
   (∃ c r, (c = kp ∨ (c = g.last_cut ∧ g.last_cut ≠ 0)) ∧
      g'.region_profile.filtering_region = g.region_profile.filtering_region ++ [r] ∧
      r.begin = c ∧ r.end_ = g.region_profile.current_region.end_ ∧
      g'.key_position = c ∧ g'.region_profile.current_region.end_ = c ∧ g'.last_cut = 0))

/-- The relation between the `end` of a region and the `begin` of the region
closed before it: `lo ≤ hi`, and a disallowed symbol of the key lies in
`[lo, hi)` whenever `lo < hi`. -/
def region_gap (key : List Nat) (allowed : Nat → Bool) (lo hi : Nat) : Prop :=
  lo ≤ hi ∧ (lo < hi → ∃ q, lo ≤ q ∧ q < hi ∧ allowed (key.getD q 0) = false)

/-- The regions, in the order they were closed, go right to left below `U`:
each one is non-empty, ends at or below the `begin` of the one before it (`U`
for the first), and a real gap contains a disallowed symbol. -/
def regions_ordered (key : List Nat) (allowed : Nat → Bool) :
    Nat → List region_search_t → Prop
  | _, [] => True
  | U, r :: rs =>
    region_gap key allowed r.end_ U ∧ r.begin < r.end_ ∧ regions_ordered key allowed r.begin rs

/-- The `begin` of the region closed last (`U` when there is none). -/
def regions_frontier : Nat → List region_search_t → Nat
  | U, [] => U
  | _, r :: rs => regions_frontier r.begin rs

/-- The invariant of the loop "Delimit regions": the position is inside the open
region, a saved cut-point lies in the open region at or right of the position,
the closed regions are ordered, the open region starts at or below the last
closed one, and the rank queries made so far are paid for by the characters
that can still be scanned. -/
def generator_inv (key : List Nat) (L : Nat) (allowed : Nat → Bool)
    (g : region_profile_generator_t) : Prop :=
  g.key = key ∧ g.key_length = L ∧ g.allowed_enc = allowed ∧
  g.key_position ≤ g.region_profile.current_region.end_ ∧
  g.region_profile.current_region.end_ ≤ L ∧
  (g.last_cut ≠ 0 → g.key_position ≤ g.last_cut ∧
    g.last_cut < g.region_profile.current_region.end_) ∧
  regions_ordered key allowed L g.region_profile.filtering_region ∧
  region_gap key allowed g.region_profile.current_region.end_
    (regions_frontier L g.region_profile.filtering_region) ∧
  2 * g.rank_queries + 2 * g.key_position +
      g.region_profile.current_region.end_ * (g.region_profile.current_region.end_ + 1)
    ≤ L * (L + 1) + 2 * g.region_profile.current_region.end_

/-- The termination measure of the loop "Delimit regions". -/
def generator_measure (L : Nat) (g : region_profile_generator_t) : Nat :=
  g.region_profile.current_region.end_ * (L + 1) + g.key_position

/-- The first `n` iterations of the loop "Delimit regions" of
`region_profile_generate_adaptive`, without the cut-off on the number of
regions: the state after exactly `n` iterations, `none` when the loop has ended
before (`key_position = 0`) or `region_profile_generator_add_character` divides
by zero. -/
def region_profile_generate_adaptive_iterate (profile_model : region_profile_model_t) :
    Nat → region_profile_generator_t → Option region_profile_generator_t
  | 0, generator => some generator
  | n + 1, generator =>
    if generator.key_position > 0 then
      match region_profile_generate_adaptive_iteration profile_model generator with
      | none => none
      | some generator => region_profile_generate_adaptive_iterate profile_model n generator
    else none

/-- The query and the interval `(lo, hi)` after `region_profile_query_character`
has added the `n` rightmost characters of the key, one by one, since a
restart. -/
def region_profile_query_key (fm_index : fm_index_t) (key : List Nat) (key_length : Nat) :
    Nat → rank_mquery_t × Nat × Nat
  | 0 => (rank_mquery_new, 0, fm_index_get_length fm_index % U64)
  | n + 1 =>
    let s := region_profile_query_key fm_index key key_length n
    let enc_char := key.getD (key_length - (n + 1)) 0
    if rank_mquery_is_exhausted s.1 then
      (s.1, fm_index.bwt enc_char s.2.1 % U64, fm_index.bwt enc_char s.2.2 % U64)
    else
      let query := rank_mquery_add_char s.1 enc_char
      (query, (fm_index.rank_table query.chars).1 % U64,
        (fm_index.rank_table query.chars).2 % U64)

/-- An index is well formed when a fetch from the rank table gives an interval
`lo ≤ hi` of `uint64_t` values and `bwt_erank` is monotone and maps `uint64_t`
values to `uint64_t` values. -/
def fm_index_well_formed (fm_index : fm_index_t) : Prop :=
  (∀ chars, (fm_index.rank_table chars).1 ≤ (fm_index.rank_table chars).2 ∧
    (fm_index.rank_table chars).2 < U64) ∧
  (∀ c i j, i ≤ j → fm_index.bwt c i ≤ fm_index.bwt c j) ∧
  (∀ c i, i < U64 → fm_index.bwt c i < U64)

/-- An index narrows when a longer query never has more candidates: the
interval of the empty query has at most as many candidates as the index has
rows, adding a character to a query of the rank table does not widen its
interval, and a step of `bwt_erank` does not widen an interval. -/
def fm_index_narrowing (fm_index : fm_index_t) : Prop :=
  (fm_index.rank_table []).2 - (fm_index.rank_table []).1 ≤
      fm_index_get_length fm_index % U64 ∧
  (∀ c chars,
    (fm_index.rank_table (c :: chars)).2 - (fm_index.rank_table (c :: chars)).1 ≤
      (fm_index.rank_table chars).2 - (fm_index.rank_table chars).1) ∧
  (∀ c i j, i ≤ j → fm_index.bwt c j - fm_index.bwt c i ≤ j - i)

/-- The interval of a generator is in order, fits `uint64_t`, and has at least
as many candidates as the rank table gives to the query of the generator, while
that query is not exhausted. -/
def generator_narrowing_inv (g : region_profile_generator_t) : Prop :=
  g.lo ≤ g.hi ∧ g.hi < U64 ∧
  (rank_mquery_is_exhausted g.rank_mquery = false →
    (g.fm_index.rank_table g.rank_mquery.chars).2 -
        (g.fm_index.rank_table g.rank_mquery.chars).1 ≤ g.hi - g.lo)

/-- The value that the case `archive_search_pe_find_pairs` stores in
`paired_matches->max_complete_stratum`: the sum, in `uint64_t`, of the two
per-end values, with a per-end value of `ALL` counted as `0`. -/
def paired_matches_max_complete_stratum_sum {σ : Type}
    (routines : archive_search_pe_routines σ) (data : σ) : Nat :=
  ((if routines.max_complete_stratum paired_end1 data ≠ ALL then
      routines.max_complete_stratum paired_end1 data else 0) +
    (if routines.max_complete_stratum paired_end2 data ≠ ALL then
      routines.max_complete_stratum paired_end2 data else 0)) % U64

/-- The record of the recovery extensions of one run: extensions only. -/
def archive_search_pe_recovery_events (events : List archive_search_pe_event_t) : Prop :=
  ∀ e ∈ events, ∃ candidate_end, e = archive_search_pe_event_t.extend_recovery candidate_end

/-- The distance that the GPU buffer holds for the tile at position `i` of the
candidate that starts at `candidate_idx`. -/
def alignment_tile_distance (gpu_buffer_align_bpm_get_result : Nat → Nat × Nat)
    (candidate_idx i : Nat) : Nat :=
  (gpu_buffer_align_bpm_get_result ((candidate_idx + i) % U64)).1 % U32

/-- The partial sum of the tile distances before the tile at position `i`. -/
def alignment_tile_distance_sum (gpu_buffer_align_bpm_get_result : Nat → Nat × Nat)
    (candidate_idx i : Nat) : Nat :=
  ∑ j ∈ Finset.range i, alignment_tile_distance gpu_buffer_align_bpm_get_result candidate_idx j


/-! ## Vocabulary of the k-mer filter claims -/

/-- The edit (Levenshtein) distance between two encoded strings: the least
number of single-character insertions, deletions and substitutions that turn
one into the other. -/
def edit_distance (a b : List Nat) : Nat :=
  levenshtein Levenshtein.defaultCost a b

/-- The k-mer index that the masked rolling update leaves after the characters
of `w` have been added to an index that starts at `0`. -/
def kmer_roll (w : List Nat) : Nat :=
  w.foldl KMER_COUNTING_ADD_INDEX__MASK 0

/-- The k-mer indices of the 5-character windows of `w`, from left to right
(`w.length - 4` of them). -/
def kmers : List Nat → List Nat
  | [] => []
  | x :: xs => if 4 ≤ xs.length then kmer_roll ((x :: xs).take 5) :: kmers xs else []

/-- The number of k-mers that the window `w` shares with the pattern, with
multiplicities: the sum over the k-mer indices of the smaller of the two
counts.  This is the value that `kmers_in_text` tracks. -/
def kmer_score (pattern w : List Nat) : Nat :=
  Multiset.card ((kmers w : Multiset Nat) ∩ (kmers pattern : Multiset Nat))

/-- Every window of at most `L` characters of `text` shares fewer than
`required` k-mers with the pattern. -/
def kmer_all_below (pattern : List Nat) (L required : Nat) (text : List Nat) : Prop :=
  ∀ w, w <:+: text → w.length ≤ L → kmer_score pattern w < required

/-- Some window of at most `L` characters of `text` shares at least `n` k-mers
with the pattern. -/
def kmer_window (pattern : List Nat) (L : Nat) (text : List Nat) (n : Nat) : Prop :=
  ∃ w, w <:+: text ∧ w.length ≤ L ∧ n ≤ kmer_score pattern w

/-- The k-mer histogram of the pattern: what `kmer_counting_compile` leaves in
`kmer_count_pattern` when no counter wraps. -/
def kmer_count_of (pattern : List Nat) : Nat → Nat :=
  fun k => (kmers pattern).count k

/-- The end pointer of the filter has consumed the characters `pre` of the
text: `end_pos`, the rolling index and `kmers_left` agree with that. -/
def kmer_filter_end (total : Nat) (pre : List Nat) (s : kmer_filter_state) : Prop :=
  s.end_pos = pre.length ∧ s.kmer_idx_end = kmer_roll pre ∧
    s.kmers_left + pre.length = total

/-- The counters of the filter describe the window `w`: `kmers_in_text` is its
score and the text histogram counts its k-mers (those of the pattern only). -/
def kmer_filter_counts (pattern w : List Nat) (s : kmer_filter_state) : Prop :=
  s.kmers_in_text = kmer_score pattern w ∧
    ∀ k, s.kmer_count_text k = if 0 < (kmers pattern).count k then (kmers w).count k else 0

/-- The begin pointer of the sliding window stands four characters into the
window `w` that follows `a`; its index agrees with the rolling index on the
ten bits that the mask keeps. -/
def kmer_filter_begin (a w : List Nat) (s : kmer_filter_state) : Prop :=
  s.begin_pos = a.length + 4 ∧
    ∀ i, i < 10 → s.kmer_idx_begin.testBit i = (kmer_roll (a ++ w.take 4)).testBit i

/-- A string of symbols packed two bits per symbol, the first symbol in the
highest bits: the index of a 5-mer over `{A, C, G, T}`. -/
def kmer_pack (w : List Nat) : Nat :=
  w.foldl (fun acc c => 4 * acc + c) 0

/-- The positions `p` in `[4, L)` of the pattern whose 5-mer
`pattern[p-4..p]`, packed two bits per symbol, equals `k`. -/
def kmer_positions (pattern : List Nat) (k : Nat) : List Nat :=
  (List.range pattern.length).filter
    (fun p => decide (4 ≤ p) && decide (kmer_pack ((pattern.drop (p - 4)).take 5) = k))

/-- The index of the 5-mer `text[p-4..p]` that ends at position `p`, as the
masked update computes it from these five characters. -/
def kmer_at (text : List Nat) (p : Nat) : Nat :=
  kmer_roll ((text.drop (p - 4)).take 5)

/-- The window of 5-mers that end at the positions `max(4, p-L+5) .. p` of the
text. -/
def kmer_window_at (text : List Nat) (L p : Nat) : List Nat :=
  ((List.range (p + 1)).filter (fun j => decide (max 4 (p + 5 - L) ≤ j))).map (kmer_at text)

/-- The sum over the 1024 k-mer indices of the smaller of the pattern count and
the window count. -/
def kmer_window_sum (count_pattern : Nat → Nat) (window : List Nat) : Nat :=
  ∑ k ∈ Finset.range 1024, min (count_pattern k) (window.count k)

/-- The decision of the k-mer filter without its early exits, after the
specification: `0` when the filter is disabled or `5 * max_error ≥ L - 4`;
otherwise `0` if for some end position `p` in `[4, text_length)` the window of
5-mers that end at `max(4, p-L+5) .. p` shares at least
`L - 4 - 5 * max_error` k-mers with the pattern, and `ALIGN_DISTANCE_INF` if
there is no such position. -/
def kmer_counting_filter_reference ( enabled : Bool) (count_pattern : Nat → Nat) (L : Nat)
    (text : List Nat) (text_length max_error : Nat) : Nat :=
  if enabled = false ∨ L - 4 ≤ 5 * max_error then 0
  else if ∃ p, p < text_length ∧ (4 ≤ p ∧
      L - 4 - 5 * max_error ≤ kmer_window_sum count_pattern (kmer_window_at text L p)) then 0
  else ALIGN_DISTANCE_INF

/-- The window of the text that the filter has counted when its end pointer
stands at position `p`: the characters `p + 1 - L .. p`. -/
def kmer_text_window (text : List Nat) (L p : Nat) : List Nat :=
  (text.drop (p + 1 - L)).take (min (p + 1) L)

/-- At some end position `p` in `[4, text.length)` the window that the filter
has counted shares at least `required` k-mers with the pattern. -/
def kmer_window_reached (pattern : List Nat) (L required : Nat) (text : List Nat) : Prop :=
  ∃ p, 4 ≤ p ∧ p < text.length ∧ required ≤ kmer_score pattern (kmer_text_window text L p)

/-! ## Vocabulary of the claims on the Hamming alignment, the arena and the packed text -/

/-- The number that the claim on `match_align_hamming` speaks of: the number of
`j` in `[0, key_length)` for which `text[text_offset_begin + j]` differs from
`key[j]` or is not an allowed symbol. -/
def match_align_hamming_mismatches (align_input : match_align_input_t)
    (allowed_enc : Nat → Bool) : Nat :=
  (List.range align_input.key_length).countP (fun j =>
    !allowed_enc (align_input.text.getD (align_input.text_offset_begin + j) 0) ||
      decide (align_input.text.getD (align_input.text_offset_begin + j) 0 ≠
        align_input.key.getD j 0))

/-- Two blocks share no byte: they lie in different segments (whose slab units
are distinct), or one ends where the other begins or before. -/
def mm_stack_blocks_disjoint (a b : mm_stack_block_t) : Prop :=
  a.segment ≠ b.segment ∨ a.offset + a.num_bytes ≤ b.offset ∨
    b.offset + b.num_bytes ≤ a.offset

/-- The blocks in use lie below the cursors of their segments. -/
def mm_stack_blocks_inv (mm_stack : mm_stack_t) (blocks : List mm_stack_block_t) : Prop :=
  (∀ b ∈ blocks, ∃ s, mm_stack.segments[b.segment]? = some s ∧
    b.offset + b.num_bytes ≤ s.memory) ∧
  blocks.Pairwise mm_stack_blocks_disjoint

/-- The bit that `cdna_bitwise_text_builder_add_char` writes for a symbol into
the layer `layer` (0, 1 or 2): whether the `switch` sets the mask in that layer
of an empty builder. -/
def cdna_bitwise_text_builder_layer_bit (layer enc_char : Nat) : Bool :=
  match cdna_bitwise_text_builder_write_char (cdna_bitwise_text_builder_new 0) enc_char with
  | none => false
  | some cdna_text =>
    if layer = 0 then cdna_text.layer_0 ≠ 0
    else if layer = 1 then cdna_text.layer_1 ≠ 0
    else cdna_text.layer_2 ≠ 0

/-- A layer inside a block, after `k` symbols (fewer than 64) whose bits in the
layer are `bit 0 .. bit (k-1)`: the bit of symbol `p` stands at position
`63 - k + p`, every other position is clear. -/
def cdna_bitwise_layer_partial (layer : Nat) (bit : Nat → Bool) (k : Nat) : Prop :=
  ∀ i, layer.testBit i = (decide (63 ≤ i + k ∧ i < 63) && bit (i + k - 63))

/-- A layer during the padding of a block of `k` symbols, after the padding code
has been written `m + 1` times: the positions `63 - m .. 63` are set, and the
bit of symbol `p` stands at position `63 - m - k + p`. -/
def cdna_bitwise_layer_padded (layer : Nat) (bit : Nat → Bool) (k m : Nat) : Prop :=
  ∀ i, layer.testBit i =
    (decide (63 ≤ i + m ∧ i ≤ 63) ||
      (decide (63 ≤ i + m + k ∧ i + m < 63) && bit (i + m + k - 63)))

/-- A layer word of a block of `k` symbols as it is written: bit `p` is the bit
of symbol `p` for `p < k`, the positions `k .. 63` are set, and no higher
position is. -/
def cdna_bitwise_layer_block (word : Nat) (bit : Nat → Bool) (k : Nat) : Prop :=
  ∀ i, word.testBit i = (decide (i < 64) && (decide (k ≤ i) || bit i))

/-! ## Vocabulary of the claims on the allowed symbols and the counters of the region profile -/

/-- Every position of the key in `[lo, hi)` holds an allowed symbol. -/
def region_allowed (key : List Nat) (allowed : Nat → Bool) (lo hi : Nat) : Prop :=
  ∀ q, lo ≤ q → q < hi → allowed (key.getD q 0) = true

/-- The symbols scanned for the open region and the symbols of the closed
regions are allowed symbols. -/
def generator_allowed_inv (g : region_profile_generator_t) : Prop :=
  region_allowed g.key g.allowed_enc g.key_position g.region_profile.current_region.end_ ∧
  ∀ r ∈ g.region_profile.filtering_region, region_allowed g.key g.allowed_enc r.begin r.end_

/-- The counters of a profile agree with its regions: `total_candidates` is the
sum (in `uint64_t`) of `hi - lo` over the regions, and `num_standard_regions` is
the number of regions whose `hi - lo` exceeds `region_type_th`. -/
def region_profile_counters_agree (profile_model : region_profile_model_t)
    (region_profile : region_profile_t) : Prop :=
  region_profile.total_candidates =
    (region_profile.filtering_region.map (fun r => sub64 r.hi r.lo)).sum % U64 ∧
  region_profile.num_standard_regions =
    region_profile.filtering_region.countP
      (fun r => decide (sub64 r.hi r.lo > profile_model.region_type_th))

/-! ## Concrete inputs used by the witnesses and counterexamples -/

/-- A reference text for the backward-search witness. -/
def example_reference : List Nat := [0, 1, 2, 3, 0, 1, 2, 0, 1, 3, 2, 1, 0, 0]

/-- A key of 13 symbols (longer than the rank table is deep) that occurs in
`example_reference`. -/
def example_key : List Nat := [1, 2, 3, 0, 1, 2, 0, 1, 3, 2, 1, 0, 0]

/-- Modelled from the spec: the CIGAR metrics are not part of the sources; this
instance follows their names (matching bases = total length of the match
elements, edit distance = mismatches plus indel lengths, score = one per
matching base, event distance = number of non-match elements, effective
length = text characters consumed). -/
def example_cigar_metrics : matches_cigar_metrics :=
  { matches_cigar_compute_matching_bases := fun cigar =>
      ((cigar.filter (fun e => decide (e.type = cigar_match))).map (fun e => e.length)).sum
    matches_cigar_compute_edit_distance := fun cigar =>
      ((cigar.filter (fun e => decide (e.type ≠ cigar_match))).map
        (fun e => if e.type = cigar_mismatch then 1 else e.length)).sum
    swg_score_cigar := fun cigar =>
      ((cigar.filter (fun e => decide (e.type = cigar_match))).map (fun e => (e.length : Int))).sum
    matches_cigar_compute_event_distance := fun cigar =>
      (cigar.filter (fun e => decide (e.type ≠ cigar_match))).length
    matches_cigar_effective_length := fun cigar =>
      ((cigar.filter (fun e => decide (e.type ≠ cigar_del))).map
        (fun e => if e.type = cigar_mismatch then 1 else e.length)).sum }

/-- An alignment `2M 1X 50M` at position 100 with score 40. -/
def example_ungated_trace : match_trace_t :=
  { match_alignment :=
      { match_position := 100
        cigar := [⟨cigar_match, cigar_attr_none, 2⟩, ⟨cigar_mismatch, cigar_attr_none, 1⟩,
                  ⟨cigar_match, cigar_attr_none, 50⟩]
        effective_length := 0, score := 40 }
    swg_score := 0, distance := 0, edit_distance := 0 }

/-- Parameters with the curation switched off, an end context of 5 and a
minimum identity of 51. -/
def example_ungated_parameters : match_align_parameters_t :=
  { left_gap_alignment := true, cigar_curation := false
    cigar_curation_min_end_context := 5, min_identity := 51, swg_threshold := 0 }

/-- An index whose rank table answers every query with the interval `[0, 5)`. -/
def example_flat_index : fm_index_t :=
  { text_length := 100, proper_length := 3, rank_table := fun _ => (0, 5), bwt := fun _ i => i }

/-- A profile model with `region_th = 10`, `max_steps = 1`, `dec_factor = 2` and
`region_type_th = 1`. -/
def example_profile_model : region_profile_model_t :=
  { region_th := 10, max_steps := 1, dec_factor := 2, region_type_th := 1 }


/-- Curation parameters with `left_gap_alignment` set and an end context of 3. -/
def example_curation_parameters : match_align_parameters_t :=
  { left_gap_alignment := true, cigar_curation := true
    cigar_curation_min_end_context := 3, min_identity := 0, swg_threshold := 0 }

/-- The CIGAR 2M 1X 4M 2M 1I 2D 1I 5M 1D 1M: short ends on both sides, two
adjacent matches and a run of three indels. -/
def example_cigar : List cigar_element_t :=
  [⟨cigar_match, cigar_attr_none, 2⟩, ⟨cigar_mismatch, cigar_attr_none, 1⟩,
   ⟨cigar_match, cigar_attr_none, 4⟩, ⟨cigar_match, cigar_attr_none, 2⟩,
   ⟨cigar_ins, cigar_attr_none, 1⟩, ⟨cigar_del, cigar_attr_none, 2⟩,
   ⟨cigar_ins, cigar_attr_none, 1⟩, ⟨cigar_match, cigar_attr_none, 5⟩,
   ⟨cigar_del, cigar_attr_none, 1⟩, ⟨cigar_match, cigar_attr_none, 1⟩]

/-- Curation parameters with `left_gap_alignment` unset and no end context. -/
def example_right_gap_parameters : match_align_parameters_t :=
  { left_gap_alignment := false, cigar_curation := true
    cigar_curation_min_end_context := 0, min_identity := 0, swg_threshold := 0 }

/-- The CIGAR 1M 1D 1I 1M whose deletion carries the `trim` attribute. -/
def example_trim_marked_cigar : List cigar_element_t :=
  [⟨cigar_match, cigar_attr_none, 1⟩, ⟨cigar_del, cigar_attr_trim, 1⟩,
   ⟨cigar_ins, cigar_attr_none, 1⟩, ⟨cigar_match, cigar_attr_none, 1⟩]

/-- The CIGAR 3D 6M 2D 5M 1I 4M whose deletions carry the `trim` attribute: no
indel follows either of them. -/
def example_lone_trim_cigar : List cigar_element_t :=
  [⟨cigar_del, cigar_attr_trim, 3⟩, ⟨cigar_match, cigar_attr_none, 6⟩,
   ⟨cigar_del, cigar_attr_trim, 2⟩, ⟨cigar_match, cigar_attr_none, 5⟩,
   ⟨cigar_ins, cigar_attr_none, 1⟩, ⟨cigar_match, cigar_attr_none, 4⟩]

/-- The CIGAR 1X 50M. -/
def example_mismatch_first_cigar : List cigar_element_t :=
  [⟨cigar_mismatch, cigar_attr_none, 1⟩, ⟨cigar_match, cigar_attr_none, 50⟩]

/-- A pattern of twelve `A`s: the shortest that `kmer_counting_compile` enables
with `effective_filtering_max_error = 1`. -/
def example_pattern_poly_a : List Nat := List.replicate 12 0

/-- A `max_error` whose product with `KMER_COUNTING_LENGTH` wraps to `4` in
`uint64_t` arithmetic: `5 * 3689348814741910324 = 2 ^ 64 + 4`. -/
def example_wrapping_max_error : Nat := 3689348814741910324

/-- The pattern `ACGTACGTTGCA`. -/
def example_pattern : List Nat := [0, 1, 2, 3, 0, 1, 2, 3, 3, 2, 1, 0]

/-- The pattern `example_pattern` with its fourth character substituted. -/
def example_occurrence : List Nat := [0, 1, 2, 0, 0, 1, 2, 3, 3, 2, 1, 0]

/-- A text that contains `example_occurrence` between `GG` and `TT`. -/
def example_text : List Nat := [2, 2] ++ example_occurrence ++ [3, 3]

/-- The reference `CACACACACA`, in which `A`, `C` and `CA` occur five times
each. -/
def example_repeat_reference : List Nat := [1, 0, 1, 0, 1, 0, 1, 0, 1, 0]

/-- A search whose profile is one region `[0, 4)` with the interval `[0, 1000)`,
with `max_reported_matches = 10` and `min_reported_strata_nominal = 0`. -/
def example_exact_search : approximate_search_t :=
  { region_profile :=
      { filtering_region :=
          [{ begin := 0, end_ := 4, type := region_type.region_standard, min := 0,
             hi := 1000, lo := 0 }]
        total_candidates := 1000
        candidates_limited := false }
    select_parameters_align := { min_reported_strata_nominal := 0, max_reported_matches := 10 } }

/-- An `swg_align_match` that adds a match of 3 to the CIGAR vector and fails
with the score `SWG_SCORE_MIN`. -/
def example_swg_align_match : Nat → Nat → Nat → Nat → match_align_parameters_t → Bool →
    Bool → match_align_swg_t → match_align_swg_t :=
  fun _ _ _ _ _ _ _ s =>
    { cigar_vector :=
        s.cigar_vector ++ [{ type := cigar_match, attributes := cigar_attr_none, length := 3 }]
      cigar_length := s.cigar_length + 1
      score := SWG_SCORE_MIN }

/-- The CIGAR state before the gap: one match of 5. -/
def example_swg_state : match_align_swg_t :=
  { cigar_vector := [{ type := cigar_match, attributes := cigar_attr_none, length := 5 }]
    cigar_length := 1
    score := 10 }

/-- Routines of a paired-end search without data: the template-length
estimation is never within the confidence interval (no extension is made), the
two ends have the given `max_complete_stratum`, each end has one match and the
pairing finds one pair. -/
def example_pe_routines (max_complete_stratum_end1 max_complete_stratum_end2 : Nat) :
    archive_search_pe_routines Unit :=
  { archive_search_reset := fun _ data => data
    archive_search_finish_search := fun _ data => data
    archive_select_matches := fun _ data => data
    matches_classify := fun _ _ => matches_class_other
    mapper_stats_template_length_estimation_within_ci := fun _ _ => false
    max_complete_stratum := fun archive_search _ =>
      match archive_search with
      | paired_end1 => max_complete_stratum_end1
      | paired_end2 => max_complete_stratum_end2
    matches_classify_unique := fun _ _ => 0
    MATCHES_UNIQUE_CI := 0
    archive_search_paired_end_extend_matches := fun _ data => (data, 0)
    matches_get_num_match_traces := fun _ _ => 1
    paired_matches_find_pairs := fun data => data
    paired_matches_find_discordant_pairs := fun data => data
    paired_matches_get_num_maps := fun _ => 1 }

/-- A paired-end search in the state `archive_search_pe_begin`. -/
def example_pe_search : archive_search_pe_t Unit :=
  { archive_search_end1 :=
      { pe_search_state := archive_search_pe_begin, pair_searched := false
        pair_extended := false, pair_extended_shortcut := false
        end_class := matches_class_other }
    archive_search_end2 :=
      { pe_search_state := archive_search_pe_begin, pair_searched := false
        pair_extended := false, pair_extended_shortcut := false
        end_class := matches_class_other }
    paired_matches_max_complete_stratum := 0
    data := ()
    events := [] }

/-- An alignment of three tiles that start at the text offsets 0, 10 and 20. -/
def example_alignment : alignment_t :=
  { alignment_tiles :=
      [{ distance := 0, text_begin_offset := 0, text_end_offset := 0 },
       { distance := 0, text_begin_offset := 10, text_end_offset := 0 },
       { distance := 0, text_begin_offset := 20, text_end_offset := 0 }]
    distance_min_bound := 0 }

/-- A GPU buffer that holds the distance 2 and the match column 7 for every
tile. -/
def example_gpu_buffer : Nat → Nat × Nat := fun _ => (2, 7)

/-- An alignment of one tile that starts at the largest text offset. -/
def example_alignment_wrapping : alignment_t :=
  { alignment_tiles :=
      [{ distance := 0, text_begin_offset := 2 ^ 64 - 1, text_end_offset := 0 }]
    distance_min_bound := 0 }

/-- A profile model with `region_th = 2`, `max_steps = 1`, `dec_factor = 2` and
`region_type_th = 1`: the five candidates of `example_flat_index` are too many
for a cut-point. -/
def example_tight_profile_model : region_profile_model_t :=
  { region_th := 2, max_steps := 1, dec_factor := 2, region_type_th := 1 }

/-- An index whose rank table gives the interval `[0, 5)` to a query of one
character and the empty interval `[0, 0)` to every longer query. -/
def example_narrowing_index : fm_index_t :=
  { text_length := 100, proper_length := 3
    rank_table := fun chars => if chars.length ≤ 1 then (0, 5) else (0, 0)
    bwt := fun _ i => i }

/-- The state of the scan of `key` on an index after its first iteration, for
symbols below 4 allowed and `allow_zero_regions = false`. -/
def example_scan_generator (fm_index : fm_index_t) (profile_model : region_profile_model_t)
    (key : List Nat) : region_profile_generator_t :=
  (region_profile_generate_adaptive_iterate profile_model 1
    (region_profile_generator_init fm_index key key.length (fun c => decide (c < 4)) false)).getD
    (region_profile_generator_init fm_index key key.length (fun c => decide (c < 4)) false)

/-- A profile model with `max_steps = 2` (`region_th = 10`, `dec_factor = 2`,
`region_type_th = 1`). -/
def example_two_steps_profile_model : region_profile_model_t :=
  { region_th := 10, max_steps := 2, dec_factor := 2, region_type_th := 1 }

/-- A profile model with `max_steps = 0` (`region_th = 10`, `dec_factor = 2`,
`region_type_th = 1`). -/
def example_zero_steps_profile_model : region_profile_model_t :=
  { region_th := 10, max_steps := 0, dec_factor := 2, region_type_th := 1 }

/-- A profile model with `dec_factor = 0` (`region_th = 10`, `max_steps = 1`,
`region_type_th = 1`). -/
def example_zero_factor_profile_model : region_profile_model_t :=
  { region_th := 10, max_steps := 1, dec_factor := 0, region_type_th := 1 }

/-- A profile model with `region_type_th = 7` above `region_th = 2`
(`max_steps = 1`, `dec_factor = 2`). -/
def example_wide_type_profile_model : region_profile_model_t :=
  { region_th := 2, max_steps := 1, dec_factor := 2, region_type_th := 7 }

/-- The key `AC` against the text `GAC` from the text offset 1; `beyond` is what
the memory holds behind the two characters of the key. -/
def example_hamming_input (beyond : List Nat) : match_align_input_t :=
  { key := [0, 1] ++ beyond, key_length := 2, text_position := 0, text_trace_offset := 0
    text := [2, 0, 1], text_offset_begin := 1, text_offset_end := 3 }

/-- The filter compiled for `example_pattern` (12 symbols, no `N`) with
`effective_filtering_max_error = 1`. -/
def example_kmer_counting : kmer_counting_t :=
  (kmer_counting_compile example_pattern 12 0 1).getD kmer_counting_disabled

/-- Three allocations from a new arena of 64-byte segments: the second does not
fit the first segment, the third fits the second one. -/
def example_mm_stack_ops : List mm_stack_op :=
  [mm_stack_op.allocate 40 false, mm_stack_op.allocate 30 true, mm_stack_op.allocate 10 false]

/-- The arena that `example_mm_stack_ops` leaves. -/
def example_mm_stack_ops_state : mm_stack_t :=
  { segment_size := 64
    segments := [{ memory := 40, memory_available := 24 },
      { memory := 40, memory_available := 24 }] }

/-- The blocks that `example_mm_stack_ops` returns. -/
def example_mm_stack_ops_blocks : List mm_stack_block_t :=
  [{ segment := 0, offset := 0, num_bytes := 40 },
   { segment := 1, offset := 0, num_bytes := 30 },
   { segment := 1, offset := 30, num_bytes := 10 }]

/-- A text of three symbols, `A`, `C` and `N`, for the packed-text builder. -/
def example_cdna_block : List Nat := [ENC_DNA_CHAR_A, ENC_DNA_CHAR_C, ENC_DNA_CHAR_N]
/-! # Theorems -/

/-! ## fm_index.c -/

/-- The first loop of `fm_index_bsearch` leaves a query made of the suffix of the
key it has consumed, and consumes at least one character of a non-empty key. -/
theorem fm_index_bsearch_query_spec (key : List Nat) :
    ∀ (m : Nat) (query : rank_mquery_t), m ≤ key.length → query.chars = key.drop m →
      (fm_index_bsearch_query key m query).1 ≤ m ∧
      (fm_index_bsearch_query key m query).2.chars
        = key.drop (fm_index_bsearch_query key m query).1 ∧
      (query.chars.length < RANK_MTABLE_SEARCH_DEPTH → 0 < m →
        (fm_index_bsearch_query key m query).1 < m)
  | 0, query, _, hq => by simp [fm_index_bsearch_query, hq]
  | m + 1, query, hm, hq => by
    unfold fm_index_bsearch_query
    by_cases hex : rank_mquery_is_exhausted query = true
    · rw [if_pos hex]
      refine ⟨le_rfl, hq, fun h => ?_⟩
      simp [rank_mquery_is_exhausted, rank_mquery_get_level] at hex
      omega
    · rw [if_neg hex]
      have hlt : m < key.length := by omega
      have hq' : (rank_mquery_add_char query (key.getD m 0)).chars = key.drop m := by
        simp only [rank_mquery_add_char, hq]
        rw [List.getD_eq_getElem _ _ hlt]
        exact (List.drop_eq_getElem_cons hlt).symm
      have ih := fm_index_bsearch_query_spec key m _ (by omega) hq'
      exact ⟨by omega, ih.2.1, fun _ _ => by omega⟩

/-- A string occurs iff it is a prefix of a suffix of the reference. -/
theorem occurrences_pos_iff (ref s : List Nat) :
    0 < occurrences ref s ↔ ∃ t, t <:+ ref ∧ s <+: t := by
  unfold occurrences
  rw [List.length_pos_iff_exists_mem]
  constructor
  · rintro ⟨t, ht⟩
    rw [List.mem_filter, List.mem_tails] at ht
    exact ⟨t, ht.1, by simpa using ht.2⟩
  · rintro ⟨t, ht, hs⟩
    exact ⟨t, by rw [List.mem_filter, List.mem_tails]; exact ⟨ht, by simpa using hs⟩⟩

/-- Every suffix of a string that occurs in the reference occurs too. -/
theorem occurrences_drop_pos (ref s : List Nat) (m : Nat) (h : 0 < occurrences ref s) :
    0 < occurrences ref (s.drop m) := by
  rw [occurrences_pos_iff] at h ⊢
  obtain ⟨t, ht, hs⟩ := h
  refine ⟨t.drop m, (List.drop_suffix m t).trans ht, ?_⟩
  obtain ⟨u, rfl⟩ := hs
  by_cases hm : m ≤ s.length
  · rw [List.drop_append_of_le_length hm]; exact List.prefix_append _ _
  · have : s.drop m = [] := List.drop_eq_nil_of_le (by omega)
    rw [this]; exact List.nil_prefix

/-- The second loop of `fm_index_bsearch` walks the suffix-array intervals of the
suffixes of the key, and does not stop early when the key occurs. -/
theorem fm_index_bsearch_ranks_spec (fm_index : fm_index_t) (ref key : List Nat)
    (hocc : 0 < occurrences ref key)
    (herank : ∀ m, m < key.length →
      fm_index.bwt (key.getD m 0) (sa_interval ref (key.drop (m + 1))).1
        = (sa_interval ref (key.drop m)).1 ∧
      fm_index.bwt (key.getD m 0) (sa_interval ref (key.drop (m + 1))).2
        = (sa_interval ref (key.drop m)).2) :
    ∀ m, m ≤ key.length →
      fm_index_bsearch_ranks fm_index key m (sa_interval ref (key.drop m)).1
        (sa_interval ref (key.drop m)).2 = sa_interval ref key
  | 0, _ => by simp [fm_index_bsearch_ranks]
  | m + 1, hm => by
    unfold fm_index_bsearch_ranks
    have hpos := occurrences_drop_pos ref key (m + 1) hocc
    have hgt : (sa_interval ref (key.drop (m + 1))).2 > (sa_interval ref (key.drop (m + 1))).1 := by
      simp only [sa_interval]; omega
    rw [if_pos hgt]
    have hlt : m < key.length := by omega
    have h1 := herank m hlt
    simp only
    rw [h1.1, h1.2]
    exact fm_index_bsearch_ranks_spec fm_index ref key hocc herank m (by omega)

/-- When the rank table holds suffix-array intervals and each `bwt_erank` step
maps the interval of a suffix of the key to the interval of the suffix that is
one character longer, `fm_index_bsearch` returns the suffix-array interval of
a key that occurs. -/
theorem fm_index_bsearch_eq_sa_interval (fm_index : fm_index_t) (ref key : List Nat)
    (hocc : 0 < occurrences ref key)
    (hfetch : ∀ m, m ≤ key.length →
      fm_index.rank_table (key.drop m) = sa_interval ref (key.drop m))
    (herank : ∀ m, m < key.length →
      fm_index.bwt (key.getD m 0) (sa_interval ref (key.drop (m + 1))).1
        = (sa_interval ref (key.drop m)).1 ∧
      fm_index.bwt (key.getD m 0) (sa_interval ref (key.drop (m + 1))).2
        = (sa_interval ref (key.drop m)).2) :
    fm_index_bsearch fm_index key key.length = sa_interval ref key := by
  have hq := fm_index_bsearch_query_spec key key.length rank_mquery_new le_rfl
    (by simp [rank_mquery_new])
  unfold fm_index_bsearch
  simp only
  rw [hq.2.1, hfetch _ hq.1]
  split
  · rename_i h
    rcases h with h | h
    · have := occurrences_drop_pos ref key
        (fm_index_bsearch_query key key.length rank_mquery_new).1 hocc
      simp only [sa_interval] at h
      omega
    · rw [h]; simp
  · exact fm_index_bsearch_ranks_spec fm_index ref key hocc herank _ hq.1

/-- Reading a list right behind a consumed part. -/
theorem getD_append_cons (p q : List Nat) (c d : Nat) :
    (p ++ c :: q).getD p.length d = c := by
  induction p with
  | nil => rfl
  | cons x p ih => simpa using ih

/-! ### The LF step of the BWT maps suffix-array intervals -/

/-- No string is smaller than itself. -/
theorem lex_lt_irrefl (a : List Nat) : lex_lt a a = false := by
  induction a with
  | nil => rfl
  | cons x xs ih => simp [lex_lt, ih]

/-- The lexicographic order is transitive. -/
theorem lex_lt_trans : ∀ (a b c : List Nat), lex_lt a b = true → lex_lt b c = true →
    lex_lt a c = true
  | _, _, [], _, h => by simp [lex_lt] at h
  | _, [], _ :: _, h, _ => by simp [lex_lt] at h
  | [], _ :: _, _ :: _, _, _ => by simp [lex_lt]
  | x :: xs, y :: ys, z :: zs, h1, h2 => by
    simp only [lex_lt, Bool.or_eq_true, Bool.and_eq_true, decide_eq_true_eq] at h1 h2 ⊢
    rcases h1 with h1 | ⟨h1, h1'⟩ <;> rcases h2 with h2 | ⟨h2, h2'⟩
    · left; omega
    · left; omega
    · left; omega
    · right; exact ⟨by omega, lex_lt_trans xs ys zs h1' h2'⟩

/-- Two strings are equal or one is smaller than the other. -/
theorem lex_lt_total : ∀ (a b : List Nat), lex_lt a b = true ∨ a = b ∨ lex_lt b a = true
  | [], [] => Or.inr (Or.inl rfl)
  | [], _ :: _ => Or.inl rfl
  | _ :: _, [] => Or.inr (Or.inr rfl)
  | x :: xs, y :: ys => by
    simp only [lex_lt, Bool.or_eq_true, Bool.and_eq_true, decide_eq_true_eq, List.cons.injEq]
    rcases Nat.lt_trichotomy x y with h | h | h
    · left; left; exact h
    · rcases lex_lt_total xs ys with h' | h' | h'
      · left; right; exact ⟨h, h'⟩
      · right; left; exact ⟨h, h'⟩
      · right; right; right; exact ⟨h.symm, h'⟩
    · right; right; left; exact h

/-- A string smaller than an extension of `s` is smaller than `s` or starts
with `s`. -/
theorem lex_lt_append : ∀ (t s u : List Nat), lex_lt t (s ++ u) = true →
    lex_lt t s = true ∨ s.isPrefixOf t = true
  | _, [], _, _ => Or.inr (by simp [List.isPrefixOf])
  | [], _ :: _, _, _ => Or.inl rfl
  | a :: t, b :: s, u, h => by
    simp only [List.cons_append, lex_lt, Bool.or_eq_true, Bool.and_eq_true,
      decide_eq_true_eq] at h
    simp only [lex_lt, Bool.or_eq_true, Bool.and_eq_true, decide_eq_true_eq,
      List.isPrefixOf, beq_iff_eq]
    rcases h with h | ⟨h, h'⟩
    · left; left; exact h
    · rcases lex_lt_append t s u h' with h2 | h2
      · left; right; exact ⟨h, h2⟩
      · right; exact ⟨h.symm, h2⟩

/-- A string that starts with `s` is not smaller than `s`. -/
theorem lex_lt_of_isPrefixOf : ∀ (s t : List Nat), s.isPrefixOf t = true → lex_lt t s = false
  | [], t, _ => by cases t <;> rfl
  | _ :: _, [], h => by simp [List.isPrefixOf] at h
  | b :: s, a :: t, h => by
    simp only [List.isPrefixOf, Bool.and_eq_true, beq_iff_eq] at h
    have := lex_lt_of_isPrefixOf s t h.2
    simp [lex_lt, this, h.1]

/-- The order of the suffix array. -/
theorem lex_le_total (a b : List Nat) :
    (lex_lt a b || decide (a = b)) = true ∨ (lex_lt b a || decide (b = a)) = true := by
  rcases lex_lt_total a b with h | h | h
  · left; simp [h]
  · left; simp [h]
  · right; simp [h]

/-- The order of the suffix array is transitive. -/
theorem lex_le_trans (a b c : List Nat) (h1 : (lex_lt a b || decide (a = b)) = true)
    (h2 : (lex_lt b c || decide (b = c)) = true) : (lex_lt a c || decide (a = c)) = true := by
  simp only [Bool.or_eq_true, decide_eq_true_eq] at h1 h2 ⊢
  rcases h1 with h1 | rfl
  · rcases h2 with h2 | rfl
    · exact Or.inl (lex_lt_trans a b c h1 h2)
    · exact Or.inl h1
  · exact h2

/-- In a sorted list, the elements that satisfy a downward-closed test form a
prefix. -/
theorem take_countP_of_sorted {α : Type} (r : α → α → Prop) (q : α → Bool) :
    ∀ (l : List α), l.Sorted r → (∀ a b, r a b → q b = true → q a = true) →
      l.take (l.countP q) = l.filter q
  | [], _, _ => rfl
  | a :: l, hs, hq => by
    have hs' := List.sorted_cons.mp hs
    by_cases ha : q a = true
    · rw [List.countP_cons_of_pos _ _ ha, List.take_succ_cons, List.filter_cons_of_pos ha,
        take_countP_of_sorted r q l hs'.2 hq]
    · have hall : ∀ b ∈ l, ¬ q b = true := fun b hb hqb => ha (hq a b (hs'.1 b hb) hqb)
      rw [List.countP_cons_of_neg _ _ ha, List.filter_cons_of_neg ha,
        List.filter_eq_nil_iff.mpr hall, List.countP_eq_zero.mpr hall, List.take_zero]

/-- The suffix array holds the suffixes of the reference. -/
theorem sorted_suffixes_perm (ref : List Nat) : (sorted_suffixes ref).Perm ref.tails :=
  List.perm_insertionSort _ _

/-- The suffix array is sorted. -/
theorem sorted_suffixes_sorted (ref : List Nat) :
    (sorted_suffixes ref).Sorted (fun a b => (lex_lt a b || decide (a = b)) = true) := by
  haveI : IsTotal (List Nat) (fun a b => (lex_lt a b || decide (a = b)) = true) :=
    ⟨lex_le_total⟩
  haveI : IsTrans (List Nat) (fun a b => (lex_lt a b || decide (a = b)) = true) :=
    ⟨lex_le_trans⟩
  exact List.sorted_insertionSort _ _

/-- Splitting the suffixes that the LF step counts: the empty suffix, the
suffixes that start with a smaller symbol, and the suffixes that start with
`c`. -/
theorem countP_lf_step_test (c : Nat) (q : List Nat → Bool) (ref : List Nat) :
    ref.tails.countP (lf_step_test c q) =
      1 + ref.countP (fun x => decide (x < c)) + ref.tails.countP (lf_step_head c q) := by
  induction ref with
  | nil => simp [lf_step_test, lf_step_head]
  | cons a r ih =>
    rw [List.tails_cons, List.countP_cons, List.countP_cons, List.countP_cons, ih]
    simp only [lf_step_test, lf_step_head]
    by_cases h1 : a < c
    · have : ¬ a = c := by omega
      simp [h1, this]
      omega
    · by_cases h2 : a = c
      · by_cases h3 : q r = true
        · simp [h1, h2, h3]; omega
        · simp [h1, h2, h3]
      · simp [h1, h2]

/-- The BWT symbol of a suffix that is not the whole reference. -/
theorem bwt_symbol_append (pre : List Nat) (a : Nat) (suf : List Nat) :
    bwt_symbol (pre ++ a :: suf) suf = some a := by
  unfold bwt_symbol
  rw [if_pos (by simp only [List.length_append, List.length_cons]; omega)]
  have : (pre ++ a :: suf).length - suf.length - 1 = pre.length := by
    simp only [List.length_append, List.length_cons]; omega
  rw [this, getD_append_cons]

/-- The suffixes that pass `q` and are preceded by `c` are the tails of the
suffixes that start with `c` and continue with a string that passes `q`. -/
theorem countP_bwt_symbol_tails (c : Nat) (q : List Nat → Bool) (ref : List Nat) :
    ∀ (suf pre : List Nat), ref = pre ++ suf →
      suf.tails.countP (fun t => q t && decide (bwt_symbol ref t = some c)) =
        (if (q suf && decide (bwt_symbol ref suf = some c)) = true then 1 else 0) +
          suf.tails.countP (lf_step_head c q)
  | [], pre, _ => by
    simp only [List.tails, List.countP_cons, List.countP_nil, lf_step_head]
    simp
  | a :: suf, pre, h => by
    have ih := countP_bwt_symbol_tails c q ref suf (pre ++ [a]) (by simp [h])
    have hb : bwt_symbol ref suf = some a := by rw [h]; exact bwt_symbol_append pre a suf
    rw [List.tails_cons, List.countP_cons, List.countP_cons, ih, hb]
    simp only [lf_step_head, Option.some.injEq]
    have e : ((decide (a = c) && q suf) = true) ↔ ((q suf && decide (a = c)) = true) := by
      rw [Bool.and_comm]
    simp only [e]
    omega

/-- The BWT symbol of the whole reference is the sentinel. -/
theorem bwt_symbol_self (ref : List Nat) : bwt_symbol ref ref = none := by
  simp [bwt_symbol]

/-- The rank of `c` in the BWT rows of the suffixes that pass a downward-closed
test `q`. -/
theorem count_bwt_take (ref : List Nat) (c : Nat) (q : List Nat → Bool)
    (hq : ∀ a b, (lex_lt a b || decide (a = b)) = true → q b = true → q a = true) :
    ((bwt_of ref).take (ref.tails.countP q)).count (some c) =
      ref.tails.countP (lf_step_head c q) := by
  have hperm := sorted_suffixes_perm ref
  have htake := take_countP_of_sorted _ q (sorted_suffixes ref) (sorted_suffixes_sorted ref) hq
  have hb : bwt_of ref = (sorted_suffixes ref).map (bwt_symbol ref) := rfl
  rw [hb, ← List.map_take, ← hperm.countP_eq q, htake, List.count, List.countP_map,
    List.countP_filter]
  have : (sorted_suffixes ref).countP
        (fun a => ((fun x => x == some c) ∘ bwt_symbol ref) a && q a) =
      (sorted_suffixes ref).countP (fun t => q t && decide (bwt_symbol ref t = some c)) := by
    apply List.countP_congr
    intro t _
    simp only [Function.comp, beq_iff_eq, Bool.and_eq_true, decide_eq_true_eq]
    exact And.comm
  rw [this, hperm.countP_eq, countP_bwt_symbol_tails c q ref ref [] rfl, bwt_symbol_self]
  simp

/-- The LF step `C[c] + rank(c, i)` at the number `i` of suffixes that pass a
downward-closed test `q` is the number of suffixes that pass
`lf_step_test c q`. -/
theorem bwt_erank_of_countP (ref : List Nat) (c : Nat) (q : List Nat → Bool)
    (hq : ∀ a b, (lex_lt a b || decide (a = b)) = true → q b = true → q a = true) :
    bwt_erank_of ref c (ref.tails.countP q) = ref.tails.countP (lf_step_test c q) := by
  unfold bwt_erank_of
  rw [count_bwt_take ref c q hq, countP_lf_step_test]

/-- Counting with the disjunction of two tests that exclude each other. -/
theorem countP_or_of_disjoint {α : Type} (p q : α → Bool) (l : List α)
    (h : ∀ a, q a = true → p a = false) :
    l.countP (fun a => p a || q a) = l.countP p + l.countP q := by
  induction l with
  | nil => rfl
  | cons a l ih =>
    rw [List.countP_cons, List.countP_cons, List.countP_cons, ih]
    by_cases hq : q a = true
    · simp [hq, h a hq]; omega
    · by_cases hp : p a = true
      · simp [hq, hp]; omega
      · simp [hq, hp]

/-- The lower end of the interval counts the suffixes below `s`. -/
theorem sa_interval_fst (ref s : List Nat) :
    (sa_interval ref s).1 = ref.tails.countP (fun t => lex_lt t s) := by
  simp only [sa_interval, List.countP_eq_length_filter]

/-- The upper end of the interval counts the suffixes below `s` and the
suffixes that start with `s`. -/
theorem sa_interval_snd (ref s : List Nat) :
    (sa_interval ref s).2 = ref.tails.countP (sa_upper_test s) := by
  have := countP_or_of_disjoint (fun t => lex_lt t s) (fun t => s.isPrefixOf t) ref.tails
    (fun t ht => lex_lt_of_isPrefixOf s t ht)
  simp only [sa_interval, occurrences, ← List.countP_eq_length_filter]
  exact this.symm

/-- The test of the lower end after one more character in front. -/
theorem lf_step_test_lex_lt (c : Nat) (s : List Nat) :
    lf_step_test c (fun t => lex_lt t s) = fun t => lex_lt t (c :: s) := by
  funext t
  cases t <;> simp [lf_step_test, lex_lt]

/-- The test of the upper end after one more character in front. -/
theorem lf_step_test_sa_upper_test (c : Nat) (s : List Nat) :
    lf_step_test c (sa_upper_test s) = sa_upper_test (c :: s) := by
  funext t
  cases t with
  | nil => simp [lf_step_test, sa_upper_test, lex_lt]
  | cons a t =>
    simp only [lf_step_test, sa_upper_test, lex_lt, List.isPrefixOf]
    by_cases h1 : a < c
    · simp [h1]
    · by_cases h2 : a = c
      · subst h2; simp
      · have : ¬ c = a := fun h => h2 h.symm
        simp [h1, h2, this]

/-- The suffixes below `s` are closed downwards. -/
theorem lex_lt_downward (s a b : List Nat) (h : (lex_lt a b || decide (a = b)) = true)
    (hb : lex_lt b s = true) : lex_lt a s = true := by
  simp only [Bool.or_eq_true, decide_eq_true_eq] at h
  rcases h with h | rfl
  · exact lex_lt_trans a b s h hb
  · exact hb

/-- The suffixes below the upper end of `s` are closed downwards. -/
theorem sa_upper_test_downward (s a b : List Nat)
    (h : (lex_lt a b || decide (a = b)) = true) (hb : sa_upper_test s b = true) :
    sa_upper_test s a = true := by
  simp only [Bool.or_eq_true, decide_eq_true_eq] at h
  rcases h with h | rfl
  · simp only [sa_upper_test, Bool.or_eq_true] at hb ⊢
    rcases hb with hb | hb
    · exact Or.inl (lex_lt_trans a b s h hb)
    · obtain ⟨u, rfl⟩ := List.isPrefixOf_iff_prefix.mp hb
      exact lex_lt_append a s u h
  · exact hb

/-- The LF step of the reference's BWT maps the suffix-array interval of `s`
to the suffix-array interval of `c :: s`: the step of backward search. -/
theorem bwt_erank_of_sa_interval (ref : List Nat) (c : Nat) (s : List Nat) :
    bwt_erank_of ref c (sa_interval ref s).1 = (sa_interval ref (c :: s)).1 ∧
    bwt_erank_of ref c (sa_interval ref s).2 = (sa_interval ref (c :: s)).2 := by
  constructor
  · rw [sa_interval_fst, sa_interval_fst,
      bwt_erank_of_countP ref c _ (lex_lt_downward s), lf_step_test_lex_lt]
  · rw [sa_interval_snd, sa_interval_snd,
      bwt_erank_of_countP ref c _ (sa_upper_test_downward s), lf_step_test_sa_upper_test]

/-- C2.  For every non-empty key that occurs in the reference,
`fm_index_bsearch` returns `(lo, hi)` with `hi > lo` and `hi - lo` equal to the
number of occurrences of the key, assuming that `rank_mtable_fetch` returns the
backward-search interval of the characters added to the query (`hfetch`) and
that `bwt_erank` is the LF rank step `C[c] + rank(c, i)` of the BWT of the
reference (`hbwt`). -/
theorem fm_index_bsearch_occurrences (fm_index : fm_index_t) (ref key : List Nat)
    (_hkey : key ≠ []) (hocc : 0 < occurrences ref key)
    (hfetch : ∀ m, m ≤ key.length →
      fm_index.rank_table (key.drop m) = sa_interval ref (key.drop m))
    (hbwt : ∀ c i, fm_index.bwt c i = bwt_erank_of ref c i) :
    (fm_index_bsearch fm_index key key.length).2 > (fm_index_bsearch fm_index key key.length).1 ∧
    (fm_index_bsearch fm_index key key.length).2 - (fm_index_bsearch fm_index key key.length).1
      = occurrences ref key := by
  have herank : ∀ m, m < key.length →
      fm_index.bwt (key.getD m 0) (sa_interval ref (key.drop (m + 1))).1
        = (sa_interval ref (key.drop m)).1 ∧
      fm_index.bwt (key.getD m 0) (sa_interval ref (key.drop (m + 1))).2
        = (sa_interval ref (key.drop m)).2 := by
    intro m hm
    have hd : key.drop m = key.getD m 0 :: key.drop (m + 1) := by
      rw [List.getD_eq_getElem _ _ hm]
      exact List.drop_eq_getElem_cons hm
    rw [hbwt, hbwt, hd]
    exact bwt_erank_of_sa_interval ref _ _
  rw [fm_index_bsearch_eq_sa_interval fm_index ref key hocc hfetch herank]
  simp only [sa_interval]
  omega

/-- Witness for C2: the key of 13 symbols in the reference FM-index of
`example_reference`; the last two characters are searched with `bwt_erank`. -/
theorem fm_index_bsearch_occurrences_witness :
    example_key ≠ [] ∧ 0 < occurrences example_reference example_key ∧
    (fm_index_bsearch (reference_fm_index example_reference) example_key
        example_key.length).2
      > (fm_index_bsearch (reference_fm_index example_reference) example_key
        example_key.length).1 ∧
    (fm_index_bsearch (reference_fm_index example_reference) example_key
        example_key.length).2
      - (fm_index_bsearch (reference_fm_index example_reference) example_key
        example_key.length).1
      = occurrences example_reference example_key :=
  ⟨by decide, by decide,
    fm_index_bsearch_occurrences (reference_fm_index example_reference) example_reference
      example_key (by decide) (by decide) (fun _ _ => rfl) (fun _ _ => rfl)⟩

/-- C3 (code bug).  `fm_index_lookup` and `fm_index_inverse_lookup` are stubs
that return 0: at text position 1 the round trip gives 0, not 1. -/
theorem fm_index_lookup_inverse_lookup_stub (fm_index : fm_index_t) :
    fm_index_lookup fm_index (fm_index_inverse_lookup fm_index 1) = 0 ∧
    fm_index_lookup fm_index (fm_index_inverse_lookup fm_index 1) ≠ 1 := by
  simp [fm_index_lookup]

/-! ## match_align.c: post-alignment checks -/

/-- C7, amended.  `match_align_swg_post_alignment` rejects an alignment exactly
when its score is `SWG_SCORE_MIN`, or the matching-base count of the CIGAR left
by the curation step is below `min_identity`, or (for non-local alignment only)
the SWG score of that CIGAR is below `swg_threshold`, where the curation step
curates the CIGAR only if `cigar_curation` is set and leaves it as it is
otherwise.  On every rejection `swg_score = SWG_SCORE_MIN` and
`distance = ALIGN_DISTANCE_INF`; otherwise `swg_score` and `edit_distance` are
the values computed from that CIGAR. -/
theorem match_align_swg_post_alignment_spec (metrics : matches_cigar_metrics)
    (match_trace : match_trace_t) (align_parameters : match_align_parameters_t)
    (local_alignment : Bool) :
    (if match_trace.match_alignment.score = SWG_SCORE_MIN ∨
        metrics.matches_cigar_compute_matching_bases
          (match_align_swg_post_alignment_curate match_trace align_parameters).match_alignment.cigar
          < align_parameters.min_identity ∨
        (local_alignment = false ∧
          metrics.swg_score_cigar
            (match_align_swg_post_alignment_curate match_trace align_parameters).match_alignment.cigar
            < align_parameters.swg_threshold)
     then
      (match_align_swg_post_alignment metrics match_trace align_parameters local_alignment).swg_score
          = SWG_SCORE_MIN ∧
      (match_align_swg_post_alignment metrics match_trace align_parameters local_alignment).distance
          = ALIGN_DISTANCE_INF
     else
      (match_align_swg_post_alignment metrics match_trace align_parameters local_alignment).swg_score
          = metrics.swg_score_cigar
            (match_align_swg_post_alignment_curate match_trace align_parameters).match_alignment.cigar ∧
      (match_align_swg_post_alignment metrics match_trace align_parameters
          local_alignment).edit_distance
          = metrics.matches_cigar_compute_edit_distance
            (match_align_swg_post_alignment_curate match_trace align_parameters).match_alignment.cigar) := by
  unfold match_align_swg_post_alignment
  by_cases h1 : match_trace.match_alignment.score = SWG_SCORE_MIN
  · simp [h1]
  · by_cases h2 : metrics.matches_cigar_compute_matching_bases
        (match_align_swg_post_alignment_curate match_trace align_parameters).match_alignment.cigar
        < align_parameters.min_identity
    · simp [h1, h2]
    · cases local_alignment <;>
      by_cases h3 : metrics.swg_score_cigar
          (match_align_swg_post_alignment_curate match_trace align_parameters).match_alignment.cigar
          < align_parameters.swg_threshold <;> simp [h1, h2, h3]

/-- Counterexample to C7 as stated: with `cigar_curation` off, `2M 1X 50M` has 52
matching bases and is accepted with `min_identity = 51`, although the curated
CIGAR (`3D(trim) 50M`) has only 50 matching bases. -/
theorem match_align_swg_post_alignment_ungated :
    example_cigar_metrics.matches_cigar_compute_matching_bases
        (match_align_curate_cigar example_ungated_parameters
          example_ungated_trace.match_alignment.cigar
          example_ungated_trace.match_alignment.match_position).1
        < example_ungated_parameters.min_identity ∧
    (match_align_swg_post_alignment example_cigar_metrics example_ungated_trace
        example_ungated_parameters true).swg_score ≠ SWG_SCORE_MIN ∧
    (match_align_swg_post_alignment example_cigar_metrics example_ungated_trace
        example_ungated_parameters true).distance ≠ ALIGN_DISTANCE_INF := by
  decide

/-! ## region_profile_adaptive.c -/

/-- `region_profile_generator_add_character` returns when `dec_factor > 0`. -/
theorem region_profile_generator_add_character_total (g : region_profile_generator_t)
    (pm : region_profile_model_t) (hdec : 0 < pm.dec_factor) :
    ∃ r, region_profile_generator_add_character g pm = some r := by
  unfold region_profile_generator_add_character
  simp only
  split_ifs with h1 h2 h3 h4 h5 h6 h7 h8 h9 <;> first | exact ⟨_, rfl⟩ | omega

/-- Whenever `region_profile_generator_add_character` returns, it has made one
`generator_step`, without a rank query. -/
theorem region_profile_generator_add_character_step (g : region_profile_generator_t)
    (pm : region_profile_model_t) (r : Bool × region_profile_generator_t)
    (hr : region_profile_generator_add_character g pm = some r) :
    generator_step g r.2 g.key_position ∧ r.2.rank_queries = g.rank_queries := by
  unfold region_profile_generator_add_character at hr
  simp only at hr
  split_ifs at hr with h1 h2 h3 h4 h5 h6 h7 h8 h9 <;>
    simp only [Option.some.injEq, reduceCtorEq] at hr <;>
    subst hr <;>
    simp [generator_step, region_profile_generator_close_region,
      region_profile_generator_restart, region_profile_generator_save_cut_point] at * <;>
    omega

/-- The skipping loop only moves the position leftward. -/
theorem region_profile_generator_skip_disallowed_le (key : List Nat) (allowed : Nat → Bool) :
    ∀ kp, region_profile_generator_skip_disallowed key allowed kp ≤ kp
  | 0 => by simp [region_profile_generator_skip_disallowed]
  | kp + 1 => by
    unfold region_profile_generator_skip_disallowed
    split
    · have := region_profile_generator_skip_disallowed_le key allowed kp
      omega
    · exact le_rfl

/-- What the wildcard branch does: p is the position of the wildcard -/
theorem region_profile_generator_disallow_character_step (g : region_profile_generator_t)
    (pm : region_profile_model_t) :
    let g' := (region_profile_generator_disallow_character g pm).2
    g'.key = g.key ∧ g'.key_length = g.key_length ∧ g'.allowed_enc = g.allowed_enc ∧
    g'.rank_queries = g.rank_queries ∧
    g'.key_position ≤ g.key_position ∧
    g'.region_profile.current_region.end_ = g'.key_position ∧ g'.last_cut = 0 ∧
    ((g.last_cut = 0 ∧
        g'.region_profile.filtering_region = g.region_profile.filtering_region) ∨
     (g.last_cut ≠ 0 ∧ ∃ r,
        g'.region_profile.filtering_region = g.region_profile.filtering_region ++ [r] ∧
        r.begin = g.key_position + 1 ∧ r.end_ = g.region_profile.current_region.end_)) := by
  unfold region_profile_generator_disallow_character
  by_cases h : g.last_cut = 0
  · simp [h, region_profile_generator_restart,
      region_profile_generator_skip_disallowed_le]
  · simp [h, region_profile_generator_restart, region_profile_generator_close_region,
      region_profile_generator_skip_disallowed_le]

/-- A rank query changes the interval, the query and the query counter only. -/
theorem region_profile_query_character_step (g : region_profile_generator_t) (c : Nat) :
    let g' := region_profile_query_character g c
    g'.key = g.key ∧ g'.key_length = g.key_length ∧ g'.allowed_enc = g.allowed_enc ∧
    g'.rank_queries = g.rank_queries + 1 ∧ g'.key_position = g.key_position ∧
    g'.region_profile = g.region_profile ∧ g'.last_cut = g.last_cut := by
  unfold region_profile_query_character
  split <;> simp

/-- A region that starts where the previous one begins leaves no gap. -/
theorem region_gap_refl (key : List Nat) (allowed : Nat → Bool) (a : Nat) :
    region_gap key allowed a a := ⟨le_rfl, fun h => absurd h (lt_irrefl _)⟩

/-- Gaps compose. -/
theorem region_gap_trans {key : List Nat} {allowed : Nat → Bool} {a b c : Nat}
    (h1 : region_gap key allowed a b) (h2 : region_gap key allowed b c) :
    region_gap key allowed a c := by
  refine ⟨h1.1.trans h2.1, fun h => ?_⟩
  by_cases hab : a < b
  · obtain ⟨q, hq1, hq2, hq3⟩ := h1.2 hab
    exact ⟨q, hq1, lt_of_lt_of_le hq2 h2.1, hq3⟩
  · have hab' : a = b := le_antisymm h1.1 (not_lt.mp hab)
    subst hab'
    exact h2.2 h

/-- Closing one more region keeps the order iff it fits below the frontier. -/
theorem regions_ordered_snoc (key : List Nat) (allowed : Nat → Bool) (r : region_search_t) :
    ∀ (rs : List region_search_t) (U : Nat),
      regions_ordered key allowed U (rs ++ [r]) ↔
        regions_ordered key allowed U rs ∧
          region_gap key allowed r.end_ (regions_frontier U rs) ∧ r.begin < r.end_
  | [], U => by simp [regions_ordered, regions_frontier]
  | x :: rs, U => by
    have ih := regions_ordered_snoc key allowed r rs x.begin
    simp only [List.cons_append, regions_ordered, regions_frontier]
    constructor
    · rintro ⟨h1, h2, h3⟩
      have := ih.mp h3
      exact ⟨⟨h1, h2, this.1⟩, this.2⟩
    · rintro ⟨⟨h1, h2, h3⟩, h4⟩
      exact ⟨h1, h2, ih.mpr ⟨h3, h4⟩⟩

/-- The frontier after closing a region is its `begin`. -/
theorem regions_frontier_snoc (r : region_search_t) :
    ∀ (rs : List region_search_t) (U : Nat), regions_frontier U (rs ++ [r]) = r.begin
  | [], U => rfl
  | x :: rs, U => by
    simp only [List.cons_append, regions_frontier]
    exact regions_frontier_snoc r rs x.begin

/-- The triangular numbers grow by at least `e` from below `e` to `e`. -/
theorem mul_succ_le_of_lt {a e : Nat} (h : a < e) : a * (a + 1) + 2 * e ≤ e * (e + 1) := by
  have h1 : a + 1 ≤ e := h
  have h2 : a * (a + 1) ≤ (e - 1) * e := Nat.mul_le_mul (by omega) h1
  obtain ⟨k, rfl⟩ : ∃ k, e = k + 1 := ⟨e - 1, by omega⟩
  simp only [Nat.add_sub_cancel] at h2
  nlinarith

/-- An iteration that closes no region keeps the invariant -/
theorem generator_inv_of_advance (key : List Nat) (L : Nat) (allowed : Nat → Bool)
    (g g' : region_profile_generator_t) (hinv : generator_inv key L allowed g)
    (hkp : 0 < g.key_position)
    (h1 : g'.key = g.key) (h2 : g'.key_length = g.key_length)
    (h3 : g'.allowed_enc = g.allowed_enc) (hQ : g'.rank_queries ≤ g.rank_queries + 1)
    (h4 : g'.key_position = g.key_position - 1)
    (h5 : g'.region_profile.current_region.end_ = g.region_profile.current_region.end_)
    (h6 : g'.region_profile.filtering_region = g.region_profile.filtering_region)
    (h7 : g'.last_cut = g.last_cut ∨
      (g'.last_cut = g.key_position - 1 ∧ g.key_position - 1 ≠ 0)) :
    generator_inv key L allowed g' ∧ generator_measure L g' < generator_measure L g := by
  obtain ⟨hkey, hlen, hal, hke, heL, hcut, hord, hgap, hq⟩ := hinv
  refine ⟨⟨h1.trans hkey, h2.trans hlen, h3.trans hal, ?_, ?_, ?_, ?_, ?_, ?_⟩, ?_⟩
  · rw [h4, h5]; omega
  · rw [h5]; exact heL
  · intro hc
    rw [h4, h5]
    rcases h7 with h7 | ⟨h7, _⟩
    · rw [h7] at hc ⊢
      have := hcut hc
      omega
    · rw [h7]; omega
  · rw [h6]; exact hord
  · rw [h5, h6]; exact hgap
  · rw [h4, h5]; omega
  · simp only [generator_measure, h4, h5]; omega

/-- An iteration that closes the region `[c, end)` and restarts at `c` keeps the
invariant -/
theorem generator_inv_of_close (key : List Nat) (L : Nat) (allowed : Nat → Bool)
    (g g' : region_profile_generator_t) (c : Nat) (r : region_search_t)
    (hinv : generator_inv key L allowed g) (hkp : 0 < g.key_position)
    (h1 : g'.key = g.key) (h2 : g'.key_length = g.key_length)
    (h3 : g'.allowed_enc = g.allowed_enc) (hQ : g'.rank_queries ≤ g.rank_queries + 1)
    (hc : c < g.region_profile.current_region.end_)
    (h4 : g'.region_profile.filtering_region = g.region_profile.filtering_region ++ [r])
    (h5 : r.begin = c) (h6 : r.end_ = g.region_profile.current_region.end_)
    (h7 : g'.key_position = c) (h8 : g'.region_profile.current_region.end_ = c)
    (h9 : g'.last_cut = 0) :
    generator_inv key L allowed g' ∧ generator_measure L g' < generator_measure L g := by
  obtain ⟨hkey, hlen, hal, hke, heL, hcut, hord, hgap, hq⟩ := hinv
  refine ⟨⟨h1.trans hkey, h2.trans hlen, h3.trans hal, ?_, ?_, ?_, ?_, ?_, ?_⟩, ?_⟩
  · rw [h7, h8]
  · rw [h8]; omega
  · intro hne; exact absurd h9 hne
  · rw [h4, regions_ordered_snoc]
    exact ⟨hord, by rw [h6]; exact hgap, by rw [h5, h6]; exact hc⟩
  · rw [h4, regions_frontier_snoc, h8, h5]
    exact region_gap_refl key allowed c
  · rw [h7, h8]
    have := mul_succ_le_of_lt hc
    omega
  · simp only [generator_measure, h7, h8]
    have : c * (L + 1) + (L + 1) ≤ g.region_profile.current_region.end_ * (L + 1) := by
      have := Nat.mul_le_mul_right (L + 1) (Nat.succ_le_of_lt hc)
      simp only [Nat.succ_eq_add_one, Nat.add_mul, one_mul] at this
      exact this
    omega

/-- The wildcard branch keeps the invariant -/
theorem generator_inv_of_wildcard (key : List Nat) (L : Nat) (allowed : Nat → Bool)
    (g g' : region_profile_generator_t)
    (hinv : generator_inv key L allowed g) (hkp : 0 < g.key_position)
    (hdis : allowed (key.getD (g.key_position - 1) 0) = false)
    (h1 : g'.key = g.key) (h2 : g'.key_length = g.key_length)
    (h3 : g'.allowed_enc = g.allowed_enc) (hQ : g'.rank_queries = g.rank_queries)
    (h4 : g'.key_position ≤ g.key_position - 1)
    (h5 : g'.region_profile.current_region.end_ = g'.key_position)
    (h6 : g'.last_cut = 0)
    (h7 : (g.last_cut = 0 ∧
        g'.region_profile.filtering_region = g.region_profile.filtering_region) ∨
     (g.last_cut ≠ 0 ∧ ∃ r,
        g'.region_profile.filtering_region = g.region_profile.filtering_region ++ [r] ∧
        r.begin = g.key_position - 1 + 1 ∧ r.end_ = g.region_profile.current_region.end_)) :
    generator_inv key L allowed g' ∧ generator_measure L g' < generator_measure L g := by
  obtain ⟨hkey, hlen, hal, hke, heL, hcut, hord, hgap, hq⟩ := hinv
  have hlt : g'.key_position < g.region_profile.current_region.end_ := by
    clear h7; omega
  have hwit : region_gap key allowed g'.key_position g.key_position :=
    ⟨by clear h7; omega, fun _ => ⟨g.key_position - 1, h4, by clear h7; omega, hdis⟩⟩
  refine ⟨⟨h1.trans hkey, h2.trans hlen, h3.trans hal, ?_, ?_, ?_, ?_, ?_, ?_⟩, ?_⟩
  · rw [h5]
  · rw [h5]; clear h7; omega
  · intro hne; exact absurd h6 hne
  · rcases h7 with ⟨_, h7⟩ | ⟨hne, r, h7, hb, he⟩
    · rw [h7]; exact hord
    · rw [h7, regions_ordered_snoc]
      refine ⟨hord, by rw [he]; exact hgap, ?_⟩
      have := hcut hne
      rw [hb, he]; omega
  · rw [h5]
    rcases h7 with ⟨_, h7⟩ | ⟨hne, r, h7, hb, he⟩
    · rw [h7]
      have hF := hgap.1
      exact ⟨by omega, fun _ => ⟨g.key_position - 1, h4, by omega, hdis⟩⟩
    · rw [h7, regions_frontier_snoc, hb]
      have : g.key_position - 1 + 1 = g.key_position := by omega
      rw [this]; exact hwit
  · rw [h5, hQ]
    have := mul_succ_le_of_lt hlt
    clear h7; omega
  · simp only [generator_measure, h5]
    have : g'.key_position * (L + 1) + (L + 1) ≤ g.region_profile.current_region.end_ * (L + 1) := by
      have := Nat.mul_le_mul_right (L + 1) (Nat.succ_le_of_lt hlt)
      simp only [Nat.succ_eq_add_one, Nat.add_mul, one_mul] at this
      exact this
    clear h7; omega

/-- One iteration of the scan returns when `dec_factor > 0`. -/
theorem region_profile_generate_adaptive_iteration_total (pm : region_profile_model_t)
    (g : region_profile_generator_t) (hdec : 0 < pm.dec_factor) :
    ∃ g', region_profile_generate_adaptive_iteration pm g = some g' := by
  unfold region_profile_generate_adaptive_iteration
  simp only
  split
  · exact ⟨_, rfl⟩
  · obtain ⟨r, hr⟩ := region_profile_generator_add_character_total
      (region_profile_query_character { g with key_position := g.key_position - 1 }
        (g.key.getD (g.key_position - 1) 0)) pm hdec
    rw [hr]
    exact ⟨_, rfl⟩

/-- Whenever one iteration of the scan returns, it has kept the invariant and
decreased the measure. -/
theorem region_profile_generate_adaptive_iteration_inv (key : List Nat) (L : Nat)
    (allowed : Nat → Bool) (pm : region_profile_model_t) (g g' : region_profile_generator_t)
    (hinv : generator_inv key L allowed g) (hkp : 0 < g.key_position)
    (hg' : region_profile_generate_adaptive_iteration pm g = some g') :
    generator_inv key L allowed g' ∧ generator_measure L g' < generator_measure L g := by
  have hinv' := hinv
  obtain ⟨hkey, hlen, hal, hke, heL, hcut, hord, hgap, hq⟩ := hinv'
  unfold region_profile_generate_adaptive_iteration at hg'
  simp only at hg'
  split at hg'
  · -- wildcard
    rename_i hdis
    have hs := region_profile_generator_disallow_character_step
      { g with key_position := g.key_position - 1 } pm
    simp only at hs
    obtain ⟨h1, h2, h3, h4, h5, h6, h7, h8⟩ := hs
    simp only [Option.some.injEq] at hg'
    subst hg'
    refine generator_inv_of_wildcard key L allowed g _ hinv hkp ?_ h1 h2 h3 h4 h5 h6 h7 h8
    rw [hal, hkey] at hdis
    simpa using hdis
  · -- allowed character
    have hqs := region_profile_query_character_step
      { g with key_position := g.key_position - 1 }
      (g.key.getD (g.key_position - 1) 0)
    simp only at hqs
    obtain ⟨q1, q2, q3, q4, q5, q6, q7⟩ := hqs
    split at hg'
    · exact absurd hg' (by simp)
    · rename_i r hr
      simp only [Option.some.injEq] at hg'
      subst hg'
      obtain ⟨⟨s1, s2, s3, s4⟩, s5⟩ := region_profile_generator_add_character_step _ pm r hr
      rw [q5] at s4
      rw [q6, q7] at s4
      rcases s4 with ⟨t1, t2, t3, t4⟩ | ⟨c, r', hc, t1, t2, t3, t4, t5, t6⟩
      · exact generator_inv_of_advance key L allowed g _ hinv hkp (s1.trans q1) (s2.trans q2)
          (s3.trans q3) (by rw [s5, q4]) t1 t2 t3 t4
      · refine generator_inv_of_close key L allowed g _ c r' hinv hkp (s1.trans q1)
          (s2.trans q2) (s3.trans q3) (by rw [s5, q4]) ?_ t1 t2 t3 t4 t5 t6
        rcases hc with hc | ⟨hc, hne⟩
        · rw [hc]; omega
        · rw [hc]; exact (hcut hne).2

/-- Whenever the loop "Delimit regions" returns, the state it returns satisfies
the invariant. -/
theorem region_profile_generate_adaptive_loop_inv (key : List Nat) (L : Nat)
    (allowed : Nat → Bool) (pm : region_profile_model_t) (max_regions : Nat) :
    ∀ (fuel : Nat) (g g' : region_profile_generator_t), generator_inv key L allowed g →
      region_profile_generate_adaptive_loop pm max_regions fuel g = some g' →
      generator_inv key L allowed g'
  | 0, g, g', hinv, hg' => by
    unfold region_profile_generate_adaptive_loop at hg'
    split at hg'
    · exact absurd hg' (by simp)
    · simp only [Option.some.injEq] at hg'
      exact hg' ▸ hinv
  | fuel + 1, g, g', hinv, hg' => by
    unfold region_profile_generate_adaptive_loop at hg'
    by_cases hkp : g.key_position > 0
    · rw [if_pos hkp] at hg'
      by_cases hmax : g.region_profile.num_filtering_regions ≥ max_regions
      · rw [if_pos hmax] at hg'
        simp only [Option.some.injEq] at hg'
        exact hg' ▸ hinv
      · rw [if_neg hmax] at hg'
        split at hg'
        · exact absurd hg' (by simp)
        · rename_i g1 hg1
          exact region_profile_generate_adaptive_loop_inv key L allowed pm max_regions fuel g1 g'
            (region_profile_generate_adaptive_iteration_inv key L allowed pm g g1 hinv hkp
              hg1).1 hg'
    · rw [if_neg hkp] at hg'
      simp only [Option.some.injEq] at hg'
      exact hg' ▸ hinv

/-- With `dec_factor > 0` and fuel for the measure, the loop "Delimit regions"
returns. -/
theorem region_profile_generate_adaptive_loop_total (key : List Nat) (L : Nat)
    (allowed : Nat → Bool) (pm : region_profile_model_t) (max_regions : Nat)
    (hdec : 0 < pm.dec_factor) :
    ∀ (fuel : Nat) (g : region_profile_generator_t), generator_inv key L allowed g →
      generator_measure L g ≤ fuel →
      ∃ g', region_profile_generate_adaptive_loop pm max_regions fuel g = some g'
  | 0, g, _, hm => by
    have hkp : g.key_position = 0 := by
      simp only [generator_measure] at hm; omega
    exact ⟨g, by simp [region_profile_generate_adaptive_loop, hkp]⟩
  | fuel + 1, g, hinv, hm => by
    unfold region_profile_generate_adaptive_loop
    by_cases hkp : g.key_position > 0
    · rw [if_pos hkp]
      by_cases hmax : g.region_profile.num_filtering_regions ≥ max_regions
      · rw [if_pos hmax]; exact ⟨g, rfl⟩
      · rw [if_neg hmax]
        obtain ⟨g', hg'⟩ := region_profile_generate_adaptive_iteration_total pm g hdec
        obtain ⟨hinv', hlt⟩ :=
          region_profile_generate_adaptive_iteration_inv key L allowed pm g g' hinv hkp hg'
        rw [hg']
        exact region_profile_generate_adaptive_loop_total key L allowed pm max_regions hdec
          fuel g' hinv' (by omega)
    · rw [if_neg hkp]; exact ⟨g, rfl⟩

/-- The initial state satisfies the invariant, and `(L + 1)^2` covers its
measure. -/
theorem region_profile_generator_init_inv (fm_index : fm_index_t) (key : List Nat)
    (L : Nat) (allowed : Nat → Bool) (az : Bool) :
    generator_inv key L allowed (region_profile_generator_init fm_index key L allowed az) ∧
    generator_measure L (region_profile_generator_init fm_index key L allowed az)
      ≤ (L + 1) * (L + 1) := by
  simp only [generator_inv, generator_measure, region_profile_generator_init,
    region_profile_generator_restart, region_profile_clear, regions_ordered,
    regions_frontier]
  refine ⟨⟨trivial, trivial, trivial, le_rfl, le_rfl, fun h => absurd rfl h, trivial,
    region_gap_refl _ _ _, by omega⟩, by nlinarith⟩

/-- The regions of the final profile: either the single whole-read region, or an
ordered list -/
theorem region_profile_generator_close_profile_regions (key : List Nat) (L : Nat)
    (allowed : Nat → Bool) (extension : region_search_t → region_search_t)
    (pm : region_profile_model_t) (g : region_profile_generator_t)
    (hinv : generator_inv key L allowed g) :
    (∃ r, (region_profile_generator_close_profile extension g pm).region_profile.filtering_region
        = [r] ∧ r.begin = 0 ∧ r.end_ = L) ∨
    regions_ordered key allowed L
      (region_profile_generator_close_profile extension g pm).region_profile.filtering_region := by
  obtain ⟨hkey, hlen, hal, hke, heL, hcut, hord, hgap, hq⟩ := hinv
  unfold region_profile_generator_close_profile
  simp only [region_profile_t.num_filtering_regions]
  split
  · split
    · rename_i h
      left
      exact ⟨_, rfl, rfl, by simpa [hlen] using h⟩
    · right; simp [regions_ordered]
  · right
    split
    · simp only [region_profile_extend_last_region]
      split
      · exact hord
      · rename_i last before hrev
        have hR : g.region_profile.filtering_region = before.reverse ++ [last] := by
          have := congrArg List.reverse hrev
          simpa using this
        rw [hR, regions_ordered_snoc] at hord
        simp only [List.reverse_cons]
        rw [regions_ordered_snoc]
        refine ⟨hord.1, hord.2.1, ?_⟩
        simp only
        have := hord.2.2
        omega
    · exact hord

/-- Ordered regions are non-empty and end at or below the bound. -/
theorem regions_ordered_mem (key : List Nat) (allowed : Nat → Bool) :
    ∀ (rs : List region_search_t) (U : Nat), regions_ordered key allowed U rs →
      ∀ r ∈ rs, r.begin < r.end_ ∧ r.end_ ≤ U
  | [], _, _, r, hr => by simp at hr
  | x :: rs, U, h, r, hr => by
    obtain ⟨h1, h2, h3⟩ := h
    rcases List.mem_cons.mp hr with rfl | hr
    · exact ⟨h2, h1.1⟩
    · have := regions_ordered_mem key allowed rs x.begin h3 r hr
      have := h1.1
      omega

/-- Ordered regions are pairwise disjoint, right to left. -/
theorem regions_ordered_pairwise (key : List Nat) (allowed : Nat → Bool) :
    ∀ (rs : List region_search_t) (U : Nat), regions_ordered key allowed U rs →
      rs.Pairwise (fun a b => b.end_ ≤ a.begin)
  | [], _, _ => List.Pairwise.nil
  | x :: rs, U, h => by
    obtain ⟨h1, h2, h3⟩ := h
    refine List.Pairwise.cons (fun b hb => ?_) (regions_ordered_pairwise key allowed rs _ h3)
    exact (regions_ordered_mem key allowed rs x.begin h3 b hb).2

/-- Consecutive ordered regions touch, or have a disallowed symbol between. -/
theorem regions_ordered_chain (key : List Nat) (allowed : Nat → Bool) :
    ∀ (rs : List region_search_t) (U : Nat), regions_ordered key allowed U rs →
      rs.Chain' (fun a b => region_gap key allowed b.end_ a.begin)
  | [], _, _ => List.chain'_nil
  | [x], _, _ => List.chain'_singleton x
  | x :: y :: rs, U, h => by
    obtain ⟨h1, h2, h3⟩ := h
    exact List.Chain'.cons h3.1 (regions_ordered_chain key allowed (y :: rs) _ h3)

/-- The lengths of ordered regions sum to at most the bound. -/
theorem regions_ordered_sum (key : List Nat) (allowed : Nat → Bool) :
    ∀ (rs : List region_search_t) (U : Nat), regions_ordered key allowed U rs →
      (rs.map (fun r => r.end_ - r.begin)).sum ≤ U
  | [], _, _ => by simp
  | x :: rs, U, h => by
    obtain ⟨h1, h2, h3⟩ := h
    have := regions_ordered_sum key allowed rs x.begin h3
    have := h1.1
    simp only [List.map_cons, List.sum_cons]
    omega

/-- With `dec_factor > 0`, `region_profile_generate_adaptive` returns. -/
theorem region_profile_generate_adaptive_total (extension : region_search_t → region_search_t)
    (fm_index : fm_index_t) (key : List Nat) (L : Nat) (allowed : Nat → Bool)
    (pm : region_profile_model_t) (max_regions : Nat) (az : Bool) (hdec : 0 < pm.dec_factor) :
    (region_profile_generate_adaptive extension fm_index key L allowed pm max_regions
      az).isSome = true := by
  have hi := region_profile_generator_init_inv fm_index key L allowed az
  obtain ⟨g, hg⟩ := region_profile_generate_adaptive_loop_total key L allowed pm
    max_regions hdec _ _ hi.1 hi.2
  simp only [region_profile_generate_adaptive, hg, Option.isSome_some]

/-- Whenever `region_profile_generate_adaptive` returns, it has closed the profile
of a state that satisfies the invariant. -/
theorem region_profile_generate_adaptive_result (extension : region_search_t → region_search_t)
    (fm_index : fm_index_t) (key : List Nat) (L : Nat) (allowed : Nat → Bool)
    (pm : region_profile_model_t) (max_regions : Nat) (az : Bool)
    (out : region_profile_generator_t)
    (hout : region_profile_generate_adaptive extension fm_index key L allowed pm max_regions az
      = some out) :
    ∃ g, generator_inv key L allowed g ∧
      out = region_profile_generator_close_profile extension g pm := by
  have hi := region_profile_generator_init_inv fm_index key L allowed az
  unfold region_profile_generate_adaptive at hout
  simp only at hout
  split at hout
  · exact absurd hout (by simp)
  · rename_i g hg
    simp only [Option.some.injEq] at hout
    exact ⟨g, region_profile_generate_adaptive_loop_inv key L allowed pm max_regions _ _ g
      hi.1 hg, hout.symm⟩

/-- C9.  On a read of length `key_length ≥ 1`, every region that
`region_profile_generate_adaptive` emits is non-empty and inside the read:
`0 ≤ begin < end ≤ key_length`.  The function returns whenever
`dec_factor > 0` (with `dec_factor = 0` the C code may divide by zero). -/
theorem region_profile_generate_adaptive_regions_inside
    (extension : region_search_t → region_search_t)
    (fm_index : fm_index_t) (key : List Nat) (key_length : Nat) (allowed_enc : Nat → Bool)
    (profile_model : region_profile_model_t) (max_regions : Nat) (allow_zero_regions : Bool)
    (hL : 1 ≤ key_length) :
    (0 < profile_model.dec_factor →
      (region_profile_generate_adaptive extension fm_index key key_length allowed_enc
        profile_model max_regions allow_zero_regions).isSome = true) ∧
    ∀ out, region_profile_generate_adaptive extension fm_index key key_length allowed_enc
        profile_model max_regions allow_zero_regions = some out →
      ∀ r ∈ out.region_profile.filtering_region,
        0 ≤ r.begin ∧ r.begin < r.end_ ∧ r.end_ ≤ key_length := by
  refine ⟨region_profile_generate_adaptive_total extension fm_index key key_length
    allowed_enc profile_model max_regions allow_zero_regions, fun out hout => ?_⟩
  obtain ⟨g, hinv, rfl⟩ := region_profile_generate_adaptive_result extension fm_index key
    key_length allowed_enc profile_model max_regions allow_zero_regions out hout
  rcases region_profile_generator_close_profile_regions key key_length allowed_enc extension
    profile_model g hinv with ⟨r, hr, hb, he⟩ | hord
  · rw [hr]
    intro r' hr'
    rw [List.mem_singleton] at hr'
    subst hr'
    omega
  · intro r hr
    have := regions_ordered_mem key allowed_enc _ _ hord r hr
    omega

/-- C8.  The regions that `region_profile_generate_adaptive` emits are pairwise
non-overlapping and ordered right to left: every later region ends at or below
the `begin` of every earlier one; for consecutive regions
`end[i+1] ≤ begin[i]`, with equality unless a disallowed symbol lies in
`[end[i+1], begin[i])`; and the region lengths sum to at most `key_length`.
The function returns whenever `dec_factor > 0`. -/
theorem region_profile_generate_adaptive_regions_ordered
    (extension : region_search_t → region_search_t)
    (fm_index : fm_index_t) (key : List Nat) (key_length : Nat) (allowed_enc : Nat → Bool)
    (profile_model : region_profile_model_t) (max_regions : Nat) (allow_zero_regions : Bool) :
    (0 < profile_model.dec_factor →
      (region_profile_generate_adaptive extension fm_index key key_length allowed_enc
        profile_model max_regions allow_zero_regions).isSome = true) ∧
    ∀ out, region_profile_generate_adaptive extension fm_index key key_length allowed_enc
        profile_model max_regions allow_zero_regions = some out →
      out.region_profile.filtering_region.Pairwise (fun a b => b.end_ ≤ a.begin) ∧
      out.region_profile.filtering_region.Chain'
        (fun a b => region_gap key allowed_enc b.end_ a.begin) ∧
      (out.region_profile.filtering_region.map (fun r => r.end_ - r.begin)).sum
        ≤ key_length := by
  refine ⟨region_profile_generate_adaptive_total extension fm_index key key_length
    allowed_enc profile_model max_regions allow_zero_regions, fun out hout => ?_⟩
  obtain ⟨g, hinv, rfl⟩ := region_profile_generate_adaptive_result extension fm_index key
    key_length allowed_enc profile_model max_regions allow_zero_regions out hout
  rcases region_profile_generator_close_profile_regions key key_length allowed_enc extension
    profile_model g hinv with ⟨r, hr, hb, he⟩ | hord
  · rw [hr]
    refine ⟨List.pairwise_singleton _ _, List.chain'_singleton _, ?_⟩
    simp [hb, he]
  · exact ⟨regions_ordered_pairwise key allowed_enc _ _ hord,
      regions_ordered_chain key allowed_enc _ _ hord,
      regions_ordered_sum key allowed_enc _ _ hord⟩

/-- Closing the profile makes no rank query in the model (the missing
`region_profile_extend_last_region` is not counted). -/
theorem region_profile_generator_close_profile_rank_queries
    (extension : region_search_t → region_search_t)
    (g : region_profile_generator_t) (pm : region_profile_model_t) :
    (region_profile_generator_close_profile extension g pm).rank_queries = g.rank_queries := by
  unfold region_profile_generator_close_profile
  simp only
  split_ifs <;> rfl

/-- C10, amended.  On a read of length `L`, `region_profile_generate_adaptive`
makes at most `L (L + 1) / 2` calls of `region_profile_query_character`, for
every profile model and every index: a region closed at a saved cut-point
rewinds the scan to the cut, so characters are queried again.  The function
returns whenever `dec_factor > 0`. -/
theorem region_profile_generate_adaptive_rank_queries
    (extension : region_search_t → region_search_t)
    (fm_index : fm_index_t) (key : List Nat) (key_length : Nat) (allowed_enc : Nat → Bool)
    (profile_model : region_profile_model_t) (max_regions : Nat) (allow_zero_regions : Bool) :
    (0 < profile_model.dec_factor →
      (region_profile_generate_adaptive extension fm_index key key_length allowed_enc
        profile_model max_regions allow_zero_regions).isSome = true) ∧
    ∀ out, region_profile_generate_adaptive extension fm_index key key_length allowed_enc
        profile_model max_regions allow_zero_regions = some out →
      2 * out.rank_queries ≤ key_length * (key_length + 1) := by
  refine ⟨region_profile_generate_adaptive_total extension fm_index key key_length
    allowed_enc profile_model max_regions allow_zero_regions, fun out hout => ?_⟩
  obtain ⟨g, hinv, rfl⟩ := region_profile_generate_adaptive_result extension fm_index key
    key_length allowed_enc profile_model max_regions allow_zero_regions out hout
  rw [region_profile_generator_close_profile_rank_queries]
  obtain ⟨_, _, _, _, _, _, _, _, hq⟩ := hinv
  have : 2 * g.region_profile.current_region.end_ ≤
      g.region_profile.current_region.end_ * (g.region_profile.current_region.end_ + 1) := by
    rcases Nat.eq_zero_or_pos g.region_profile.current_region.end_ with h | h
    · simp [h]
    · rw [Nat.mul_comm 2]
      exact Nat.mul_le_mul_left _ (by omega)
  omega

/-- Witness for C9: the read `AAA` on `example_flat_index` is profiled into
regions inside `[0, 3)`. -/
theorem region_profile_generate_adaptive_regions_inside_witness :
    ∃ out, region_profile_generate_adaptive id example_flat_index [0, 0, 0] 3
        (fun c => decide (c < 4)) example_profile_model 10 false = some out ∧
      ∀ r ∈ out.region_profile.filtering_region,
        0 ≤ r.begin ∧ r.begin < r.end_ ∧ r.end_ ≤ 3 :=
  have h := region_profile_generate_adaptive_regions_inside id example_flat_index [0, 0, 0] 3
    (fun c => decide (c < 4)) example_profile_model 10 false (by decide)
  match hg : region_profile_generate_adaptive id example_flat_index [0, 0, 0] 3
      (fun c => decide (c < 4)) example_profile_model 10 false with
  | some out => ⟨out, rfl, h.2 out hg⟩
  | none => absurd (h.1 (by decide)) (by simp [hg])

/-- Witness for C8: the read `AAANAAAA` on `example_flat_index` is profiled into
ordered regions. -/
theorem region_profile_generate_adaptive_regions_ordered_witness :
    ∃ out, region_profile_generate_adaptive id example_flat_index [0, 0, 0, 4, 0, 0, 0, 0] 8
        (fun c => decide (c < 4)) example_profile_model 10 false = some out ∧
      out.region_profile.filtering_region.Pairwise (fun a b => b.end_ ≤ a.begin) ∧
      out.region_profile.filtering_region.Chain'
        (fun a b => region_gap [0, 0, 0, 4, 0, 0, 0, 0] (fun c => decide (c < 4))
          b.end_ a.begin) ∧
      (out.region_profile.filtering_region.map (fun r => r.end_ - r.begin)).sum ≤ 8 :=
  have h := region_profile_generate_adaptive_regions_ordered id example_flat_index
    [0, 0, 0, 4, 0, 0, 0, 0] 8 (fun c => decide (c < 4)) example_profile_model 10 false
  match hg : region_profile_generate_adaptive id example_flat_index [0, 0, 0, 4, 0, 0, 0, 0] 8
      (fun c => decide (c < 4)) example_profile_model 10 false with
  | some out => ⟨out, rfl, h.2 out hg⟩
  | none => absurd (h.1 (by decide)) (by simp [hg])

/-- Witness for C10 as amended: the read `AAA` on `example_flat_index` takes at
most 6 rank queries. -/
theorem region_profile_generate_adaptive_rank_queries_witness :
    ∃ out, region_profile_generate_adaptive id example_flat_index [0, 0, 0] 3
        (fun c => decide (c < 4)) example_profile_model 10 false = some out ∧
      2 * out.rank_queries ≤ 3 * (3 + 1) :=
  have h := region_profile_generate_adaptive_rank_queries id example_flat_index [0, 0, 0] 3
    (fun c => decide (c < 4)) example_profile_model 10 false
  match hg : region_profile_generate_adaptive id example_flat_index [0, 0, 0] 3
      (fun c => decide (c < 4)) example_profile_model 10 false with
  | some out => ⟨out, rfl, h.2 out hg⟩
  | none => absurd (h.1 (by decide)) (by simp [hg])

/-- Counterexample to C10 as stated: on the read `ACA` (L = 3) over the
FM-index of the reference `CACACACACA`, with `region_th = 10`,
`max_steps = 1`, `dec_factor = 2` and `region_type_th = 1`, the scan makes 4
rank queries: `A` has 5 candidates (cut saved at position 2), `CA` has 5 too,
which exhausts `max_steps`, so the region `[2, 3)` is closed at its cut and
position 1 is queried again for the next region `[0, 2)`. -/
theorem region_profile_generate_adaptive_rank_queries_exceed :
    (region_profile_generate_adaptive id (reference_fm_index example_repeat_reference)
        [0, 1, 0] 3 (fun c => decide (c < 4)) example_profile_model 10 false).map
      (fun g => (g.rank_queries,
        g.region_profile.filtering_region.map (fun r => (r.begin, r.end_)))) =
      some (4, [(2, 3), (0, 2)]) ∧ ¬ (4 ≤ 3) := by
  refine ⟨?_, by decide⟩
  set_option maxRecDepth 100000 in decide
/-! ## match_align.c: CIGAR curation -/

/-- The trimming test in terms of `cigar_trimmable`, `cigar_read_length` and
`cigar_text_length`: an insertion leaves `*trim_length` as it is, a deletion
leaves `*match_position` as it is. -/
theorem match_align_curate_cigar_trim_eq (ap : match_align_parameters_t)
    (e : cigar_element_t) (trim_length : Nat) (match_position : Option Nat) :
    match_align_curate_cigar_trim ap e trim_length match_position =
      if cigar_trimmable ap e then
        (true,
          if e.type = cigar_ins then trim_length
          else (trim_length + cigar_read_length e) % U64,
          if e.type = cigar_del then match_position
          else match_position.map (fun p => (p + cigar_text_length e) % U64))
      else (false, trim_length, match_position) := by
  unfold match_align_curate_cigar_trim cigar_trimmable cigar_read_length cigar_text_length
  rcases e with ⟨t, a, n⟩
  cases t
  · by_cases h : n < ap.cigar_curation_min_end_context <;> simp [h]
  · simp
  · simp
  · simp

/-- The trim length after an element, for a trim length that fits `uint64_t`. -/
theorem cigar_trim_length_step (e : cigar_element_t) (trim_length : Nat)
    (h : trim_length < U64) :
    (if e.type = cigar_ins then trim_length else (trim_length + cigar_read_length e) % U64) =
      (trim_length + cigar_read_length e) % U64 := by
  split_ifs with hi
  · simp only [cigar_read_length, hi, Nat.add_zero]
    exact (Nat.mod_eq_of_lt h).symm
  · rfl

/-- The match position behind a trimmed run, for a position that fits
`uint64_t`. -/
theorem cigar_trim_position_eq :
    ∀ (trimmed : List cigar_element_t) (match_position : Nat), match_position < U64 →
      cigar_trim_position match_position trimmed =
        (match_position + cigar_text_total trimmed) % U64
  | [], mp, h => by
    simp only [cigar_trim_position, List.foldl_nil, cigar_text_total, List.map_nil,
      List.sum_nil, Nat.add_zero]
    exact (Nat.mod_eq_of_lt h).symm
  | e :: rest, mp, h => by
    have hstep : cigar_trim_position mp (e :: rest) =
        cigar_trim_position
          (if e.type = cigar_del then mp else (mp + cigar_text_length e) % U64) rest := rfl
    have hpos : 0 < U64 := by unfold U64; omega
    rw [hstep]
    split_ifs with hd
    · rw [cigar_trim_position_eq rest mp h]
      simp [cigar_text_total, cigar_text_length, hd]
    · rw [cigar_trim_position_eq rest _ (Nat.mod_lt _ hpos)]
      simp only [cigar_text_total, List.map_cons, List.sum_cons]
      rw [Nat.add_mod, Nat.mod_mod, ← Nat.add_mod, Nat.add_assoc]

/-- The match position behind a trimmed run of deletions. -/
theorem cigar_trim_position_of_del :
    ∀ (trimmed : List cigar_element_t) (match_position : Nat),
      (∀ e ∈ trimmed, e.type = cigar_del) →
      cigar_trim_position match_position trimmed = match_position
  | [], _, _ => rfl
  | e :: rest, mp, h => by
    have hstep : cigar_trim_position mp (e :: rest) =
        cigar_trim_position
          (if e.type = cigar_del then mp else (mp + cigar_text_length e) % U64) rest := rfl
    rw [hstep, if_pos (h e (List.mem_cons_self _ _))]
    exact cigar_trim_position_of_del rest mp (fun x hx => h x (List.mem_cons_of_mem _ hx))

/-- The loop that trims the beginning swallows the longest trimmable prefix. -/
theorem match_align_curate_cigar_begin_eq (ap : match_align_parameters_t) :
    ∀ (cigar : List cigar_element_t) (trimmed : Bool) (indel_length match_position : Nat),
      indel_length < U64 →
      match_align_curate_cigar_begin ap cigar trimmed indel_length match_position =
        (if trimmed = true ∨ cigar.takeWhile (cigar_trimmable ap) ≠ [] then
            cigar_trim_element
                ((indel_length + cigar_read_total (cigar.takeWhile (cigar_trimmable ap)))
                  % U64)
              :: cigar.dropWhile (cigar_trimmable ap)
         else cigar.dropWhile (cigar_trimmable ap),
         (indel_length + cigar_read_total (cigar.takeWhile (cigar_trimmable ap))) % U64,
         cigar_trim_position match_position (cigar.takeWhile (cigar_trimmable ap)))
  | [], trimmed, il, mp, hil => by
    have : il % U64 = il := Nat.mod_eq_of_lt hil
    cases trimmed <;>
      simp [match_align_curate_cigar_begin, cigar_read_total, cigar_trim_position, this]
  | e :: rest, trimmed, il, mp, hil => by
    have hpos : 0 < U64 := by unfold U64; omega
    unfold match_align_curate_cigar_begin
    rw [match_align_curate_cigar_trim_eq]
    by_cases h : cigar_trimmable ap e = true
    · simp only [h, if_true]
      rw [cigar_trim_length_step e il hil,
        match_align_curate_cigar_begin_eq ap rest true _ _ (Nat.mod_lt _ hpos)]
      have hsum : ((il + cigar_read_length e) % U64 +
          cigar_read_total (rest.takeWhile (cigar_trimmable ap))) % U64 =
          (il + cigar_read_total (e :: rest.takeWhile (cigar_trimmable ap))) % U64 := by
        simp only [cigar_read_total, List.map_cons, List.sum_cons]
        rw [Nat.add_mod, Nat.mod_mod, ← Nat.add_mod, Nat.add_assoc]
      have hmp : cigar_trim_position
          ((if e.type = cigar_del then some mp
            else Option.map (fun p => (p + cigar_text_length e) % U64) (some mp)).getD mp)
          (rest.takeWhile (cigar_trimmable ap)) =
          cigar_trim_position mp (e :: rest.takeWhile (cigar_trimmable ap)) := by
        have hstep : cigar_trim_position mp (e :: rest.takeWhile (cigar_trimmable ap)) =
            cigar_trim_position
              (if e.type = cigar_del then mp else (mp + cigar_text_length e) % U64)
              (rest.takeWhile (cigar_trimmable ap)) := rfl
        rw [hstep]
        split_ifs <;> rfl
      simp only [List.takeWhile_cons, List.dropWhile_cons, h, if_true, hsum, hmp, true_or,
        ne_eq, reduceCtorEq, not_false_eq_true, or_true]
    · simp only [h]
      have : il % U64 = il := Nat.mod_eq_of_lt hil
      cases trimmed <;>
        simp [List.takeWhile_cons, List.dropWhile_cons, h, cigar_read_total,
          cigar_trim_position, this]

/-- The chaining loop at the end swallows the longest trimmable run. -/
theorem match_align_curate_cigar_chain_eq (ap : match_align_parameters_t) :
    ∀ (before : List cigar_element_t) (indel_length curated_cigar_length : Nat),
      indel_length < U64 →
      match_align_curate_cigar_chain ap before indel_length curated_cigar_length =
        ((indel_length + cigar_read_total (before.takeWhile (cigar_trimmable ap))) % U64,
         curated_cigar_length - (before.takeWhile (cigar_trimmable ap)).length)
  | [], il, n, hil => by
    have : il % U64 = il := Nat.mod_eq_of_lt hil
    simp [match_align_curate_cigar_chain, cigar_read_total, this]
  | e :: before, il, n, hil => by
    have hpos : 0 < U64 := by unfold U64; omega
    unfold match_align_curate_cigar_chain
    rw [match_align_curate_cigar_trim_eq]
    by_cases h : cigar_trimmable ap e = true
    · simp only [h, if_true]
      rw [cigar_trim_length_step e il hil,
        match_align_curate_cigar_chain_eq ap before _ _ (Nat.mod_lt _ hpos)]
      have hsum : ((il + cigar_read_length e) % U64 +
          cigar_read_total (before.takeWhile (cigar_trimmable ap))) % U64 =
          (il + cigar_read_total (e :: before.takeWhile (cigar_trimmable ap))) % U64 := by
        simp only [cigar_read_total, List.map_cons, List.sum_cons]
        rw [Nat.add_mod, Nat.mod_mod, ← Nat.add_mod, Nat.add_assoc]
      simp only [List.takeWhile_cons, h, if_true, hsum, List.length_cons, Nat.sub_sub,
        Nat.add_comm]
    · have : il % U64 = il := Nat.mod_eq_of_lt hil
      simp [h, List.takeWhile_cons, cigar_read_total, this]

/-- Overwriting the first element after a prefix and cutting there. -/
theorem set_take_after_prefix {α : Type} (keep tail : List α) (x : α) (h : tail ≠ []) :
    ((keep ++ tail).set keep.length x).take keep.length = keep ∧
    ((keep ++ tail).set keep.length x).take (keep.length + 1) = keep ++ [x] := by
  obtain ⟨y, ys, rfl⟩ := List.exists_cons_of_ne_nil h
  have hset : (keep ++ y :: ys).set keep.length x = keep ++ x :: ys := by
    induction keep with
    | nil => rfl
    | cons k ks ih => simp [ih]
  rw [hset]
  constructor
  · simp
  · rw [List.take_append_eq_append_take]
    simp

/-- The block that handles the end replaces the longest trimmable suffix of the
curated CIGAR by one trim deletion, whose length is the number of read
characters of that suffix, in `uint64_t` (and which is dropped when that number
is zero). -/
theorem match_align_curate_cigar_end_eq (ap : match_align_parameters_t)
    (curated : List cigar_element_t) :
    match_align_curate_cigar_end ap curated =
      (curated.reverse.dropWhile (cigar_trimmable ap)).reverse ++
        cigar_trim_of
          (cigar_read_total (curated.reverse.takeWhile (cigar_trimmable ap)) % U64) := by
  have hpos : 0 < U64 := by unfold U64; omega
  unfold match_align_curate_cigar_end
  split
  · rename_i hrev
    have : curated = [] := by simpa using hrev
    subst this
    simp [cigar_trim_of, cigar_read_total]
  · rename_i last before hrev
    have hl : curated = before.reverse ++ [last] := by
      have := congrArg List.reverse hrev
      simpa using this
    rw [match_align_curate_cigar_trim_eq]
    by_cases h : cigar_trimmable ap last = true
    · simp only [h, if_true]
      rw [cigar_trim_length_step last 0 hpos,
        match_align_curate_cigar_chain_eq ap before _ _ (Nat.mod_lt _ hpos)]
      simp only [hrev, List.takeWhile_cons, List.dropWhile_cons, h, if_true]
      have hsplit : before.reverse ++ [last] =
          (before.dropWhile (cigar_trimmable ap)).reverse ++
            ((before.takeWhile (cigar_trimmable ap)).reverse ++ [last]) := by
        rw [← List.append_assoc, ← List.reverse_append, List.takeWhile_append_dropWhile]
      have hlen : curated.length - (before.takeWhile (cigar_trimmable ap)).length - 1 =
          ((before.dropWhile (cigar_trimmable ap)).reverse).length := by
        have := congrArg List.length (List.takeWhile_append_dropWhile (cigar_trimmable ap) before)
        simp only [List.length_append] at this
        rw [hl]
        simp only [List.length_append, List.length_reverse, List.length_singleton]
        omega
      have hlen' : curated.length - (before.takeWhile (cigar_trimmable ap)).length =
          ((before.dropWhile (cigar_trimmable ap)).reverse).length + 1 := by
        have := congrArg List.length (List.takeWhile_append_dropWhile (cigar_trimmable ap) before)
        simp only [List.length_append] at this
        rw [hl]
        simp only [List.length_append, List.length_reverse, List.length_singleton]
        omega
      have htot : ((0 + cigar_read_length last) % U64 +
          cigar_read_total (before.takeWhile (cigar_trimmable ap))) % U64 =
          cigar_read_total (last :: before.takeWhile (cigar_trimmable ap)) % U64 := by
        simp only [cigar_read_total, List.map_cons, List.sum_cons, Nat.zero_add]
        rw [Nat.add_mod, Nat.mod_mod, ← Nat.add_mod]
      rw [htot]
      have hst := set_take_after_prefix ((before.dropWhile (cigar_trimmable ap)).reverse)
        ((before.takeWhile (cigar_trimmable ap)).reverse ++ [last])
        (cigar_trim_element
          (cigar_read_total (last :: before.takeWhile (cigar_trimmable ap)) % U64)) (by simp)
      rw [hlen, hlen']
      conv_lhs => rw [hl, hsplit]
      unfold cigar_trim_of
      split_ifs with h0
      · rw [hst.1]; simp
      · rw [hst.2]
    · simp only [h]
      simp [hrev, List.takeWhile_cons, List.dropWhile_cons, h, cigar_trim_of, cigar_read_total, hl]

/-- The loop that compacts a run of indels adds up the deletions and the
insertions of the longest run of indels, and stops behind it. -/
theorem match_align_curate_cigar_indels_eq :
    ∀ (cigar : List cigar_element_t) (accum_del accum_ins : Nat),
      match_align_curate_cigar_indels cigar accum_del accum_ins =
        (accum_del + cigar_del_total (cigar.takeWhile cigar_is_indel),
         accum_ins + cigar_ins_total (cigar.takeWhile cigar_is_indel),
         cigar.dropWhile cigar_is_indel)
  | [], d, i => by simp [match_align_curate_cigar_indels, cigar_del_total, cigar_ins_total]
  | e :: rest, d, i => by
    unfold match_align_curate_cigar_indels
    rcases e with ⟨t, a, n⟩
    cases t <;>
      simp [match_align_curate_cigar_indels_eq rest, cigar_is_indel, List.takeWhile_cons,
        List.dropWhile_cons, cigar_del_total, cigar_ins_total, List.filter_cons, Nat.add_assoc]

/-- The traversal does not depend on the fuel, once there is one unit per
element. -/
theorem match_align_curate_cigar_traverse_fuel (lg : Bool) :
    ∀ (n m : Nat) (cigar : List cigar_element_t), cigar.length ≤ n → cigar.length ≤ m →
      match_align_curate_cigar_traverse lg n cigar =
        match_align_curate_cigar_traverse lg m cigar
  | 0, m, cigar, hn, _ => by
    have : cigar = [] := List.length_eq_zero.mp (Nat.le_zero.mp hn)
    subst this
    cases m <;> simp [match_align_curate_cigar_traverse]
  | n + 1, 0, cigar, _, hm => by
    have : cigar = [] := List.length_eq_zero.mp (Nat.le_zero.mp hm)
    subst this
    simp [match_align_curate_cigar_traverse]
  | n + 1, m + 1, [], _, _ => by simp [match_align_curate_cigar_traverse]
  | n + 1, m + 1, e :: rest, hn, hm => by
    have hn' : rest.length ≤ n := by simpa using hn
    have hm' : rest.length ≤ m := by simpa using hm
    rcases e with ⟨t, a, len⟩
    cases t
    · -- match
      cases rest with
      | nil =>
        simp only [match_align_curate_cigar_traverse]
        rw [match_align_curate_cigar_traverse_fuel lg n m [] (by simp) (by simp)]
      | cons next rest' =>
        simp only [match_align_curate_cigar_traverse]
        split_ifs
        · exact match_align_curate_cigar_traverse_fuel lg n m _ (by simpa using hn')
            (by simpa using hm')
        · rw [match_align_curate_cigar_traverse_fuel lg n m _ hn' hm']
    · -- mismatch
      simp only [match_align_curate_cigar_traverse]
      rw [match_align_curate_cigar_traverse_fuel lg n m _ hn' hm']
    · -- ins
      simp only [match_align_curate_cigar_traverse, match_align_curate_cigar_indels_eq]
      have hlen : (List.dropWhile cigar_is_indel (⟨cigar_ins, a, len⟩ :: rest)).length
          ≤ rest.length := by
        simp only [List.dropWhile_cons, cigar_is_indel]
        simp
        exact (List.dropWhile_suffix _).length_le
      rw [match_align_curate_cigar_traverse_fuel lg n m _ (hlen.trans hn') (hlen.trans hm')]
    · -- del
      simp only [match_align_curate_cigar_traverse, match_align_curate_cigar_indels_eq]
      have hlen : (List.dropWhile cigar_is_indel (⟨cigar_del, a, len⟩ :: rest)).length
          ≤ rest.length := by
        simp only [List.dropWhile_cons, cigar_is_indel]
        simp
        exact (List.dropWhile_suffix _).length_le
      rw [match_align_curate_cigar_traverse_fuel lg n m _ (hlen.trans hn') (hlen.trans hm')]

/-- Traversal of the empty CIGAR. -/
theorem cigar_traverse_nil (lg : Bool) : cigar_traverse lg [] = [] := by
  simp [cigar_traverse, match_align_curate_cigar_traverse]

/-- Traversal copies a mismatch. -/
theorem cigar_traverse_mismatch (lg : Bool) (e : cigar_element_t) (rest : List cigar_element_t)
    (he : e.type = cigar_mismatch) :
    cigar_traverse lg (e :: rest) = e :: cigar_traverse lg rest := by
  simp only [cigar_traverse, List.length_cons, match_align_curate_cigar_traverse, he]

/-- Traversal adds a match to the match that follows it. -/
theorem cigar_traverse_match_match (lg : Bool) (e next : cigar_element_t)
    (rest : List cigar_element_t) (he : e.type = cigar_match) (hn : next.type = cigar_match) :
    cigar_traverse lg (e :: next :: rest) =
      cigar_traverse lg ({ next with length := next.length + e.length } :: rest) := by
  simp only [cigar_traverse, List.length_cons, match_align_curate_cigar_traverse, he, hn,
    if_true]

/-- Traversal copies a match that no match follows. -/
theorem cigar_traverse_match (lg : Bool) (e : cigar_element_t) (rest : List cigar_element_t)
    (he : e.type = cigar_match) (hn : ∀ next ∈ rest.head?, next.type ≠ cigar_match) :
    cigar_traverse lg (e :: rest) = e :: cigar_traverse lg rest := by
  cases rest with
  | nil => simp only [cigar_traverse, List.length_cons, match_align_curate_cigar_traverse, he]
  | cons next rest' =>
    have : next.type ≠ cigar_match := hn next (by simp)
    simp only [cigar_traverse, List.length_cons, match_align_curate_cigar_traverse, he, this,
      if_false]

/-- Traversal collapses a run of indels. -/
theorem cigar_traverse_indel (lg : Bool) (e : cigar_element_t) (rest : List cigar_element_t)
    (he : cigar_is_indel e = true) :
    cigar_traverse lg (e :: rest) =
      cigar_collapse lg e (e :: rest.takeWhile cigar_is_indel) ++
        cigar_traverse lg (rest.dropWhile cigar_is_indel) := by
  have hlen : (rest.dropWhile cigar_is_indel).length ≤ rest.length :=
    (List.dropWhile_suffix _).length_le
  have hfuel := match_align_curate_cigar_traverse_fuel lg rest.length
    (rest.dropWhile cigar_is_indel).length (rest.dropWhile cigar_is_indel) hlen le_rfl
  rcases e with ⟨t, a, len⟩
  cases t
  · simp [cigar_is_indel] at he
  · simp [cigar_is_indel] at he
  · simp only [cigar_traverse, List.length_cons, match_align_curate_cigar_traverse,
      match_align_curate_cigar_indels_eq, cigar_collapse, List.takeWhile_cons,
      List.dropWhile_cons, he, if_true, Nat.zero_add, hfuel]
  · simp only [cigar_traverse, List.length_cons, match_align_curate_cigar_traverse,
      match_align_curate_cigar_indels_eq, cigar_collapse, List.takeWhile_cons,
      List.dropWhile_cons, he, if_true, Nat.zero_add, hfuel]

/-- Behind a list with an element that fails `p`, `takeWhile` and `dropWhile`
do not look at what is appended. -/
theorem takeWhile_dropWhile_append_of_exists {α : Type} (p : α → Bool) :
    ∀ (l₁ l₂ : List α), (∃ x ∈ l₁, p x = false) →
      (l₁ ++ l₂).takeWhile p = l₁.takeWhile p ∧
      (l₁ ++ l₂).dropWhile p = l₁.dropWhile p ++ l₂
  | [], _, h => by simp at h
  | x :: l₁, l₂, h => by
    by_cases hx : p x = true
    · have h' : ∃ y ∈ l₁, p y = false := by
        obtain ⟨y, hy, hpy⟩ := h
        rcases List.mem_cons.mp hy with rfl | hy
        · rw [hx] at hpy; exact absurd hpy (by simp)
        · exact ⟨y, hy, hpy⟩
      have ih := takeWhile_dropWhile_append_of_exists p l₁ l₂ h'
      simp [List.takeWhile_cons, List.dropWhile_cons, hx, ih.1, ih.2]
    · simp [List.takeWhile_cons, List.dropWhile_cons, hx]

/-- What `dropWhile` leaves is empty or starts with an element that fails `p`. -/
theorem dropWhile_cases {α : Type} (p : α → Bool) :
    ∀ l : List α, l.dropWhile p = [] ∨ ∃ h t, l.dropWhile p = h :: t ∧ p h = false
  | [] => Or.inl rfl
  | x :: l => by
    by_cases hx : p x = true
    · simpa [List.dropWhile_cons, hx] using dropWhile_cases p l
    · exact Or.inr ⟨x, l, by simp [List.dropWhile_cons, hx], by simpa using hx⟩

/-- The traversal of a CIGAR that starts with a match starts with a match that
is at least as long. -/
theorem cigar_traverse_head_match (lg : Bool) :
    ∀ (t : List cigar_element_t) (h : cigar_element_t), h.type = cigar_match →
      ∃ m tl, cigar_traverse lg (h :: t) = m :: tl ∧ m.type = cigar_match ∧
        h.length ≤ m.length
  | [], h, hh => ⟨h, [], by rw [cigar_traverse_match lg h [] hh (by simp), cigar_traverse_nil],
      hh, le_rfl⟩
  | next :: t, h, hh => by
    by_cases hn : next.type = cigar_match
    · rw [cigar_traverse_match_match lg h next t hh hn]
      obtain ⟨m, tl, h1, h2, h3⟩ := cigar_traverse_head_match lg t
        { next with length := next.length + h.length } hn
      exact ⟨m, tl, h1, h2, by simp only at h3; omega⟩
    · rw [cigar_traverse_match lg h (next :: t) hh (by simpa using hn)]
      exact ⟨h, _, rfl, hh, le_rfl⟩

/-- An element that the trimming loops do not swallow is a match of at least
`cigar_curation_min_end_context`. -/
theorem cigar_trimmable_eq_false (ap : match_align_parameters_t) (e : cigar_element_t) :
    cigar_trimmable ap e = false ↔
      e.type = cigar_match ∧ ap.cigar_curation_min_end_context ≤ e.length := by
  simp [cigar_trimmable]

/-- The structure of the curated CIGAR: a trim deletion for the longest
trimmable prefix of the input, the traversal of the rest up to its last
element that is not trimmable, and a trim deletion for what follows it; the
lengths of the trim deletions are the read characters of what they replace, in
`uint64_t`.  The match position moves by the text characters of the trimmed
prefix, in `uint64_t`. -/
theorem match_align_curate_cigar_eq (ap : match_align_parameters_t)
    (cigar : List cigar_element_t) (match_position : Nat) :
    match_align_curate_cigar ap cigar match_position =
      (cigar_trim_of (cigar_read_total (cigar.takeWhile (cigar_trimmable ap)) % U64) ++
        ((cigar_traverse ap.left_gap_alignment
            (cigar.dropWhile (cigar_trimmable ap))).reverse.dropWhile
          (cigar_trimmable ap)).reverse ++
        cigar_trim_of (cigar_read_total
          ((cigar_traverse ap.left_gap_alignment
            (cigar.dropWhile (cigar_trimmable ap))).reverse.takeWhile (cigar_trimmable ap))
          % U64),
       cigar_trim_position match_position (cigar.takeWhile (cigar_trimmable ap))) := by
  have hpos : 0 < U64 := by unfold U64; omega
  unfold match_align_curate_cigar
  simp only [match_align_curate_cigar_begin_eq ap cigar false 0 match_position hpos,
    Nat.zero_add, Bool.false_eq_true, false_or]
  rw [match_align_curate_cigar_end_eq]
  by_cases hlead : cigar.takeWhile (cigar_trimmable ap) = []
  · simp only [hlead, ne_eq, not_true_eq_false, if_false]
    simp [cigar_read_total, cigar_trim_of, cigar_traverse]
  · simp only [hlead, ne_eq, not_false_eq_true, if_true]
    have hfold : ∀ l, match_align_curate_cigar_traverse ap.left_gap_alignment l.length l
        = cigar_traverse ap.left_gap_alignment l := fun l => rfl
    rw [hfold]
    generalize ha : cigar_read_total (cigar.takeWhile (cigar_trimmable ap)) % U64 = a
    have halt : a < U64 := by rw [← ha]; exact Nat.mod_lt _ hpos
    have htrav : cigar_traverse ap.left_gap_alignment
        (cigar_trim_element a :: cigar.dropWhile (cigar_trimmable ap)) =
        cigar_trim_of a ++
          cigar_traverse ap.left_gap_alignment (cigar.dropWhile (cigar_trimmable ap)) := by
      rw [cigar_traverse_indel _ _ _ (by simp [cigar_is_indel, cigar_trim_element])]
      rcases dropWhile_cases (cigar_trimmable ap) cigar with h0 | ⟨h, t, h1, h2⟩
      · rw [h0]
        cases hlg : ap.left_gap_alignment <;>
          simp [cigar_collapse, match_align_curate_cigar_copy_indels, cigar_del_total,
            cigar_ins_total, cigar_trim_element, cigar_trim_of, Nat.pos_iff_ne_zero]
      · rw [h1]
        have hm := (cigar_trimmable_eq_false ap h).mp h2
        have hni : cigar_is_indel h = false := by simp [cigar_is_indel, hm.1]
        cases hlg : ap.left_gap_alignment <;>
          simp [List.takeWhile_cons, List.dropWhile_cons, hni, cigar_collapse,
            match_align_curate_cigar_copy_indels, cigar_del_total,
            cigar_ins_total, cigar_trim_element, cigar_trim_of, Nat.pos_iff_ne_zero]
    rw [htrav]
    rcases dropWhile_cases (cigar_trimmable ap) cigar with h0 | ⟨h, t, h1, h2⟩
    · rw [h0, cigar_traverse_nil]
      by_cases ha0 : a = 0
      · subst ha0
        simp [cigar_trim_of, cigar_read_total]
      · have hR : cigar_read_total [cigar_trim_element a] = a := by
          simp [cigar_read_total, cigar_trim_element, cigar_read_length]
        have hp : cigar_trimmable ap (cigar_trim_element a) = true := by
          simp [cigar_trimmable, cigar_trim_element]
        have hnil : cigar_read_total [] = 0 := rfl
        have hmod : a % U64 = a := Nat.mod_eq_of_lt halt
        simp [cigar_trim_of, ha0, hp, hR, hnil, hmod]
    · rw [h1]
      have hm := (cigar_trimmable_eq_false ap h).mp h2
      obtain ⟨m, tl, ht, hmt, hml⟩ := cigar_traverse_head_match ap.left_gap_alignment t h hm.1
      have hex : ∃ x ∈ (cigar_traverse ap.left_gap_alignment (h :: t)).reverse,
          cigar_trimmable ap x = false :=
        ⟨m, by rw [ht]; simp, (cigar_trimmable_eq_false ap m).mpr ⟨hmt, hm.2.trans hml⟩⟩
      have := takeWhile_dropWhile_append_of_exists (cigar_trimmable ap) _
        (cigar_trim_of a).reverse hex
      rw [List.reverse_append, this.1, this.2]
      simp

/-- What the traversal writes for a run of indels that starts with `first`, when
the run has a positive total: one or two indels, normal and in order. -/
theorem cigar_collapse_spec (lg strict : Bool) (first : cigar_element_t)
    (run : List cigar_element_t)
    (hpos : 0 < cigar_del_total run + cigar_ins_total run)
    (hattr : strict = true → lg = false →
      first.type = cigar_del ∧ first.attributes = cigar_attr_trim → cigar_ins_total run = 0) :
    cigar_collapse lg first run ≠ [] ∧
    (cigar_collapse lg first run).Chain' (cigar_pair_ok lg strict) ∧
    (∀ e ∈ cigar_collapse lg first run, cigar_element_ok e ∧ cigar_is_indel e = true) := by
  have hattr' : 0 < cigar_ins_total run → strict = true → lg = false →
      ¬ (first.type = cigar_del ∧ first.attributes = cigar_attr_trim) := by
    intro hi h1 h2 h3
    have := hattr h1 h2 h3
    omega
  clear hattr
  unfold cigar_collapse match_align_curate_cigar_copy_indels
  by_cases hd : 0 < cigar_del_total run <;> by_cases hi : 0 < cigar_ins_total run <;>
    cases lg <;> cases strict <;>
    simp [hd, hi, cigar_pair_ok, cigar_pair_curated, cigar_element_ok, cigar_is_indel] at * <;>
    try assumption

/-- A run of indels that starts with an indel of positive length has a positive
total. -/
theorem cigar_run_total_pos (e : cigar_element_t) (run : List cigar_element_t)
    (he : cigar_is_indel e = true) (hpos : 0 < e.length) :
    0 < cigar_del_total (e :: run) + cigar_ins_total (e :: run) := by
  rcases e with ⟨t, a, n⟩
  cases t <;> simp [cigar_is_indel] at he <;>
    simp [cigar_del_total, cigar_ins_total, List.filter_cons] <;> simp at hpos <;> omega

/-- The traversal of a CIGAR whose indels have positive lengths: adjacent
elements of the result are in order, its elements are normal, and it starts
with an element of the same kind as the input.  With `strict`, no deletion
marked `trim` of the input is directly followed by an indel, unless
`left_gap_alignment` is set. -/
theorem cigar_traverse_normal (lg strict : Bool) :
    ∀ (n : Nat) (l : List cigar_element_t), l.length ≤ n →
      (∀ e ∈ l, cigar_is_indel e = true → 0 < e.length) →
      (strict = true → lg = false → l.Chain' cigar_pair_unmarked) →
      (cigar_traverse lg l).Chain' (cigar_pair_ok lg strict) ∧
      (∀ e ∈ cigar_traverse lg l, cigar_element_ok e) ∧
      (cigar_traverse lg l).head?.map cigar_class = l.head?.map cigar_class
  | _, [], _, _, _ => by simp [cigar_traverse_nil]
  | 0, e :: rest, hn, _, _ => by simp at hn
  | n + 1, e :: rest, hn, hpos, hattr => by
    have hn' : rest.length ≤ n := by simpa using hn
    have hpos' : ∀ x ∈ rest, cigar_is_indel x = true → 0 < x.length :=
      fun x hx => hpos x (List.mem_cons_of_mem _ hx)
    have hattr' : strict = true → lg = false → rest.Chain' cigar_pair_unmarked :=
      fun h1 h2 => (hattr h1 h2).tail
    by_cases hmis : e.type = cigar_mismatch
    · obtain ⟨ih1, ih2, ih3⟩ := cigar_traverse_normal lg strict n rest hn' hpos' hattr'
      rw [cigar_traverse_mismatch lg e rest hmis]
      refine ⟨?_, ?_, by simp⟩
      · rw [List.chain'_cons']
        refine ⟨fun y _ => ?_, ih1⟩
        simp [cigar_pair_ok, cigar_pair_curated, cigar_is_indel, hmis]
      · intro x hx
        rcases List.mem_cons.mp hx with rfl | hx
        · simp [cigar_element_ok, cigar_is_indel, hmis]
        · exact ih2 x hx
    by_cases hmat : e.type = cigar_match
    · cases rest with
      | nil =>
        rw [cigar_traverse_match lg e [] hmat (by simp), cigar_traverse_nil]
        refine ⟨List.chain'_singleton _, ?_, by simp⟩
        intro x hx
        rw [List.mem_singleton] at hx
        subst hx
        simp [cigar_element_ok, cigar_is_indel, hmat]
      | cons next rest' =>
        by_cases hnm : next.type = cigar_match
        · rw [cigar_traverse_match_match lg e next rest' hmat hnm]
          have ih := cigar_traverse_normal lg strict n
            ({ next with length := next.length + e.length } :: rest')
            (by simpa using hn')
            (by
              intro x hx hind
              rcases List.mem_cons.mp hx with rfl | hx
              · simp [cigar_is_indel, hnm] at hind
              · exact hpos' x (List.mem_cons_of_mem _ hx) hind)
            (by
              intro h1 h2
              rw [List.chain'_cons']
              refine ⟨fun y _ => ?_, (hattr' h1 h2).tail⟩
              simp [cigar_pair_unmarked, cigar_is_trim_del, hnm])
          refine ⟨ih.1, ih.2.1, ?_⟩
          rw [ih.2.2]
          simp [cigar_class, hmat, hnm]
        · obtain ⟨ih1, ih2, ih3⟩ :=
            cigar_traverse_normal lg strict n (next :: rest') hn' hpos' hattr'
          rw [cigar_traverse_match lg e (next :: rest') hmat (by simpa using hnm)]
          refine ⟨?_, ?_, by simp⟩
          · rw [List.chain'_cons']
            refine ⟨fun y hy => ?_, ih1⟩
            have hcls : cigar_class y = cigar_class next := by
              have := ih3
              rw [Option.mem_def.mp hy] at this
              simpa using this
            have hym : y.type ≠ cigar_match := by
              intro h
              apply hnm
              revert hcls
              rcases next with ⟨t, a, k⟩
              cases t <;> simp [cigar_class, h]
            simp [cigar_pair_ok, cigar_pair_curated, cigar_is_indel, hmat, hym]
          · intro x hx
            rcases List.mem_cons.mp hx with rfl | hx
            · simp [cigar_element_ok, cigar_is_indel, hmat]
            · exact ih2 x hx
    · -- a run of indels
      have hind : cigar_is_indel e = true := by
        rcases e with ⟨t, a, k⟩
        cases t <;> simp_all [cigar_is_indel]
      have hsuf : rest.dropWhile cigar_is_indel <:+ rest := List.dropWhile_suffix _
      obtain ⟨ih1, ih2, ih3⟩ := cigar_traverse_normal lg strict n
        (rest.dropWhile cigar_is_indel) (hsuf.length_le.trans hn')
        (fun x hx => hpos' x (hsuf.subset hx))
        (fun h1 h2 => List.Chain'.suffix (hattr' h1 h2) hsuf)
      obtain ⟨c1, c2, c3⟩ := cigar_collapse_spec lg strict e
        (e :: rest.takeWhile cigar_is_indel)
        (cigar_run_total_pos e _ hind (hpos e (List.mem_cons_self _ _) hind))
        (by
          intro h1 h2 h3
          have hch := hattr h1 h2
          have htd : cigar_is_trim_del e = true := by simp [cigar_is_trim_del, h3.1, h3.2]
          have hrun : rest.takeWhile cigar_is_indel = [] := by
            cases rest with
            | nil => rfl
            | cons b rest' =>
              have hb := (List.chain'_cons'.mp hch).1 b (by simp)
              have hbi : cigar_is_indel b = false := by
                by_contra hc
                exact hb ⟨htd, by simpa using hc⟩
              simp [List.takeWhile_cons, hbi]
          rw [hrun]
          simp [cigar_ins_total, List.filter_cons, h3.1])
      rw [cigar_traverse_indel lg e rest hind]
      refine ⟨?_, ?_, ?_⟩
      · rw [List.chain'_append]
        refine ⟨c2, ih1, fun x hx y hy => ?_⟩
        have hxi := (c3 x (List.mem_of_mem_getLast? hx)).2
        have hyc : cigar_class y ≠ 2 := by
          have := ih3
          rw [Option.mem_def.mp hy] at this
          rcases dropWhile_cases cigar_is_indel rest with h0 | ⟨h, t, h1, h2⟩
          · rw [h0] at this; simp at this
          · rw [h1] at this
            simp only [List.head?_cons, Option.map_some', Option.some.injEq] at this
            rw [this]
            rcases h with ⟨t', a', k'⟩
            cases t' <;> simp_all [cigar_class, cigar_is_indel]
        have hyi : cigar_is_indel y = false := by
          rcases y with ⟨t', a', k'⟩
          cases t' <;> simp_all [cigar_class, cigar_is_indel]
        have hxm : x.type ≠ cigar_match := by
          rcases x with ⟨t', a', k'⟩
          cases t' <;> simp_all [cigar_is_indel]
        simp [cigar_pair_ok, cigar_pair_curated, hyi, hxm]
      · intro x hx
        rcases List.mem_append.mp hx with hx | hx
        · exact (c3 x hx).1
        · exact ih2 x hx
      · obtain ⟨x, xs, hxs⟩ := List.exists_cons_of_ne_nil c1
        rw [hxs]
        have hxi := (c3 x (by rw [hxs]; exact List.mem_cons_self _ _)).2
        simp only [List.cons_append, List.head?_cons, Option.map_some', Option.some.injEq]
        rcases x with ⟨t', a', k'⟩
        rcases e with ⟨t, a, k⟩
        cases t' <;> cases t <;> simp_all [cigar_class, cigar_is_indel]

/-- The traversal rewrites a normal indel that stands alone into itself. -/
theorem cigar_collapse_single (lg : Bool) (e : cigar_element_t)
    (hind : cigar_is_indel e = true) (hok : cigar_element_ok e) :
    cigar_collapse lg e [e] = [e] := by
  rcases e with ⟨t, a, k⟩
  cases t <;> cases a <;> cases lg <;>
    simp_all [cigar_is_indel, cigar_element_ok, cigar_collapse,
      match_align_curate_cigar_copy_indels, cigar_del_total, cigar_ins_total]

/-- The traversal rewrites a normal pair of indels into itself. -/
theorem cigar_collapse_pair (lg : Bool) (e b : cigar_element_t)
    (hie : cigar_is_indel e = true) (hib : cigar_is_indel b = true)
    (hoe : cigar_element_ok e) (hob : cigar_element_ok b)
    (hpair : cigar_pair_ok lg true e b) :
    cigar_collapse lg e [e, b] = [e, b] := by
  have h1 := hpair.1.2 hie hib
  have h2 := hpair.2 rfl
  clear hpair
  rcases e with ⟨t, a, k⟩
  rcases b with ⟨t', a', k'⟩
  cases lg
  · obtain ⟨rfl, rfl⟩ : t = cigar_ins ∧ t' = cigar_del := by simpa using h1
    have ha' : a' = cigar_attr_none := by simpa using h2 rfl hie hib
    have ha : a = cigar_attr_none := by simpa using hoe.2 rfl
    have hk : 0 < k := by simpa using hoe.1 hie
    have hk' : 0 < k' := by simpa using hob.1 hib
    subst ha ha'
    simp [cigar_collapse, match_align_curate_cigar_copy_indels, cigar_del_total,
      cigar_ins_total, hk, hk']
  · obtain ⟨rfl, rfl⟩ : t = cigar_del ∧ t' = cigar_ins := by simpa using h1
    have ha' : a' = cigar_attr_none := by simpa using hob.2 rfl
    have hk : 0 < k := by simpa using hoe.1 hie
    have hk' : 0 < k' := by simpa using hob.1 hib
    subst ha'
    cases a <;>
      simp [cigar_collapse, match_align_curate_cigar_copy_indels, cigar_del_total,
        cigar_ins_total, hk, hk']

/-- The traversal leaves a CIGAR as it is when its adjacent elements are in
order (strictly) and its elements are normal. -/
theorem cigar_traverse_fixed (lg : Bool) :
    ∀ (n : Nat) (l : List cigar_element_t), l.length ≤ n →
      l.Chain' (cigar_pair_ok lg true) → (∀ e ∈ l, cigar_element_ok e) →
      cigar_traverse lg l = l
  | _, [], _, _, _ => cigar_traverse_nil lg
  | 0, e :: rest, hn, _, _ => by simp at hn
  | n + 1, e :: rest, hn, hch, hok => by
    have hn' : rest.length ≤ n := by simpa using hn
    have hok' : ∀ x ∈ rest, cigar_element_ok x := fun x hx => hok x (List.mem_cons_of_mem _ hx)
    have hch' : rest.Chain' (cigar_pair_ok lg true) := hch.tail
    have ih := cigar_traverse_fixed lg n rest hn' hch' hok'
    by_cases hmis : e.type = cigar_mismatch
    · rw [cigar_traverse_mismatch lg e rest hmis, ih]
    by_cases hmat : e.type = cigar_match
    · rw [cigar_traverse_match lg e rest hmat, ih]
      intro next hnext
      have := (List.chain'_cons'.mp hch).1 next hnext
      intro h
      exact this.1.1 ⟨hmat, h⟩
    · have hind : cigar_is_indel e = true := by
        rcases e with ⟨t, a, k⟩
        cases t <;> simp_all [cigar_is_indel]
      have heok := hok e (List.mem_cons_self _ _)
      rw [cigar_traverse_indel lg e rest hind]
      cases rest with
      | nil =>
        rw [List.takeWhile_nil, List.dropWhile_nil, cigar_traverse_nil, List.append_nil]
        exact cigar_collapse_single lg e hind heok
      | cons b rest' =>
        have hpair := (List.chain'_cons'.mp hch).1 b (by simp)
        have hbok := hok b (by simp)
        by_cases hbi : cigar_is_indel b = true
        · -- the run is `[e, b]`
          have hrest' : rest'.takeWhile cigar_is_indel = [] ∧
              rest'.dropWhile cigar_is_indel = rest' := by
            cases rest' with
            | nil => simp
            | cons c rest'' =>
              have hbc := (List.chain'_cons'.mp hch').1 c (by simp)
              have hci : cigar_is_indel c = false := by
                by_contra hc
                have hc' : cigar_is_indel c = true := by simpa using hc
                have h1 := hpair.1.2 hind hbi
                have h2 := hbc.1.2 hbi hc'
                cases lg <;> simp_all
              simp [List.takeWhile_cons, List.dropWhile_cons, hci]
          have ih' : cigar_traverse lg rest' = rest' :=
            cigar_traverse_fixed lg n rest' (by simp at hn'; omega) hch'.tail
              (fun x hx => hok' x (List.mem_cons_of_mem _ hx))
          simp only [List.takeWhile_cons, List.dropWhile_cons, hbi, if_true, hrest'.1,
            hrest'.2, ih']
          rw [cigar_collapse_pair lg e b hind hbi heok hbok hpair]
          rfl
        · -- the run is `[e]`
          have hbi' : cigar_is_indel b = false := by simpa using hbi
          simp only [List.takeWhile_cons, List.dropWhile_cons, hbi', Bool.false_eq_true,
            if_false, ih]
          rw [cigar_collapse_single lg e hind heok]
          rfl

/-- The read characters of a trim trace. -/
theorem cigar_trim_of_read_total (n : Nat) : cigar_read_total (cigar_trim_of n) = n := by
  unfold cigar_trim_of
  split_ifs with h
  · simp [cigar_read_total, h]
  · simp [cigar_read_total, cigar_trim_element, cigar_read_length]

/-- A trim trace consumes no text. -/
theorem cigar_trim_of_text_total (n : Nat) : cigar_text_total (cigar_trim_of n) = 0 := by
  unfold cigar_trim_of
  split_ifs with h
  · simp [cigar_text_total]
  · simp [cigar_text_total, cigar_trim_element, cigar_text_length]

/-- A trim trace is made of one trimmable deletion marked `trim`, of positive
length. -/
theorem cigar_trim_of_mem (ap : match_align_parameters_t) (n : Nat) :
    ∀ e ∈ cigar_trim_of n, cigar_trimmable ap e = true ∧ cigar_is_trim_del e = true ∧
      cigar_is_indel e = true ∧ e.type = cigar_del ∧ 0 < e.length := by
  unfold cigar_trim_of
  split_ifs with h
  · simp
  · intro e he
    rw [List.mem_singleton] at he
    subst he
    simp [cigar_trimmable, cigar_is_trim_del, cigar_is_indel, cigar_trim_element]
    omega

/-- A trim trace reads the same backwards. -/
theorem cigar_trim_of_reverse (n : Nat) : (cigar_trim_of n).reverse = cigar_trim_of n := by
  unfold cigar_trim_of
  split_ifs <;> simp

/-- The read characters of a reversed CIGAR. -/
theorem cigar_read_total_reverse (l : List cigar_element_t) :
    cigar_read_total l.reverse = cigar_read_total l := by
  simp [cigar_read_total, List.sum_reverse]

/-- The part of the traversal that the end handling keeps.  Either nothing is
left behind the trimmed prefix, or the traversal starts with a match `m` that
is not trimmable, the kept part starts with `m` and ends with an element that
is not trimmable. -/
theorem cigar_kept_shape (ap : match_align_parameters_t) (cigar : List cigar_element_t) :
    (cigar.dropWhile (cigar_trimmable ap) = [] ∧
      cigar_traverse ap.left_gap_alignment (cigar.dropWhile (cigar_trimmable ap)) = []) ∨
    (∃ m ks init z,
      ((cigar_traverse ap.left_gap_alignment
        (cigar.dropWhile (cigar_trimmable ap))).reverse.dropWhile (cigar_trimmable ap)).reverse
        = m :: ks ∧
      m :: ks = init ++ [z] ∧
      cigar_trimmable ap m = false ∧ cigar_trimmable ap z = false) := by
  rcases dropWhile_cases (cigar_trimmable ap) cigar with h0 | ⟨h, t, h1, h2⟩
  · left
    exact ⟨h0, by rw [h0]; exact cigar_traverse_nil _⟩
  · right
    rw [h1]
    have hm := (cigar_trimmable_eq_false ap h).mp h2
    obtain ⟨m, tl, ht, hmt, hml⟩ := cigar_traverse_head_match ap.left_gap_alignment t h hm.1
    have hpm : cigar_trimmable ap m = false :=
      (cigar_trimmable_eq_false ap m).mpr ⟨hmt, hm.2.trans hml⟩
    rw [ht]
    have hdw : (m :: tl).reverse.dropWhile (cigar_trimmable ap) =
        tl.reverse.dropWhile (cigar_trimmable ap) ++ [m] := by
      rw [List.reverse_cons, List.dropWhile_append]
      split_ifs with hemp
      · have : tl.reverse.dropWhile (cigar_trimmable ap) = [] := by
          simpa using hemp
        simp [this, List.dropWhile_cons, hpm]
      · rfl
    rw [hdw]
    refine ⟨m, (tl.reverse.dropWhile (cigar_trimmable ap)).reverse, ?_⟩
    rcases dropWhile_cases (cigar_trimmable ap) (m :: tl).reverse with h0 | ⟨z, w, hz1, hz2⟩
    · rw [hdw] at h0; simp at h0
    · rw [hdw] at hz1
      refine ⟨w.reverse, z, by simp, ?_, hpm, hz2⟩
      have := congrArg List.reverse hz1
      simpa using this

/-- Chaining a short head, a kept part and a short tail. -/
theorem chain_assemble {α : Type} (R : α → α → Prop) (A keep B : List α) (m z : α)
    (ks init : List α) (hA : A.length ≤ 1) (hB : B.length ≤ 1) (hk : keep.Chain' R)
    (hkeep : keep = m :: ks) (hkeep' : keep = init ++ [z])
    (h1 : ∀ x ∈ A, R x m) (h2 : ∀ y ∈ B, R z y) :
    (A ++ keep ++ B).Chain' R := by
  rw [List.chain'_append]
  refine ⟨?_, ?_, ?_⟩
  · rw [List.chain'_append]
    refine ⟨?_, hk, ?_⟩
    · match A, hA with
      | [], _ => exact List.chain'_nil
      | [a], _ => exact List.chain'_singleton a
    · intro x hx y hy
      rw [hkeep] at hy
      simp only [List.head?_cons, Option.mem_def, Option.some.injEq] at hy
      subst hy
      exact h1 x (List.mem_of_mem_getLast? hx)
  · match B, hB with
    | [], _ => exact List.chain'_nil
    | [b], _ => exact List.chain'_singleton b
  · intro x hx y hy
    have hx' : x = z := by
      rw [hkeep', ← List.append_assoc, List.getLast?_append] at hx
      simpa using hx.symm
    subst hx'
    exact h2 y (List.mem_of_mem_head? hy)

/-- A trim trace has at most one element. -/
theorem cigar_trim_of_length (n : Nat) : (cigar_trim_of n).length ≤ 1 := by
  unfold cigar_trim_of
  split_ifs <;> simp

/-- A search that skips a prefix of elements that fail the test. -/
theorem find?_append_of_forall_not {α : Type} (q : α → Bool) (A l : List α)
    (hA : ∀ x ∈ A, q x = false) : (A ++ l).find? q = l.find? q := by
  induction A with
  | nil => rfl
  | cons a A ih =>
    have ha := hA a (List.mem_cons_self _ _)
    simp only [List.cons_append, List.find?_cons, ha]
    exact ih (fun x hx => hA x (List.mem_cons_of_mem _ hx))

/-- `takeWhile` and `dropWhile` over a prefix that passes the test, followed by
an element that fails it. -/
theorem takeWhile_dropWhile_of_split {α : Type} (p : α → Bool) (A : List α) (m : α)
    (l : List α) (hA : ∀ x ∈ A, p x = true) (hm : p m = false) :
    (A ++ m :: l).takeWhile p = A ∧ (A ++ m :: l).dropWhile p = m :: l := by
  induction A with
  | nil => simp [List.takeWhile_cons, List.dropWhile_cons, hm]
  | cons a A ih =>
    have ha := hA a (List.mem_cons_self _ _)
    have := ih (fun x hx => hA x (List.mem_cons_of_mem _ hx))
    simp [List.takeWhile_cons, List.dropWhile_cons, ha, this.1, this.2]

/-- The read characters of a concatenation. -/
theorem cigar_read_total_append (a b : List cigar_element_t) :
    cigar_read_total (a ++ b) = cigar_read_total a + cigar_read_total b := by
  simp [cigar_read_total]

/-- In a run of indels only the deletions consume read characters. -/
theorem cigar_read_total_of_indels :
    ∀ run : List cigar_element_t, (∀ e ∈ run, cigar_is_indel e = true) →
      cigar_read_total run = cigar_del_total run
  | [], _ => by simp [cigar_read_total, cigar_del_total]
  | e :: run, h => by
    have ih := cigar_read_total_of_indels run (fun x hx => h x (List.mem_cons_of_mem _ hx))
    have he := h e (List.mem_cons_self _ _)
    rcases e with ⟨t, a, n⟩
    cases t <;> simp [cigar_is_indel] at he <;>
      simp [cigar_read_total, cigar_del_total, cigar_read_length, List.filter_cons] at ih ⊢ <;>
      omega

/-- The elements written for a run of indels consume the deletions of the run. -/
theorem cigar_collapse_read_total (lg : Bool) (first : cigar_element_t)
    (run : List cigar_element_t) :
    cigar_read_total (cigar_collapse lg first run) = cigar_del_total run := by
  unfold cigar_collapse match_align_curate_cigar_copy_indels
  by_cases hd : 0 < cigar_del_total run <;> by_cases hi : 0 < cigar_ins_total run <;>
    cases lg <;> simp [hd, hi, cigar_read_total, cigar_read_length] <;> omega

/-- A run has at least as many elements as it has kinds of indels with a
positive total. -/
theorem cigar_run_kinds_le :
    ∀ run : List cigar_element_t,
      (if 0 < cigar_del_total run then 1 else 0) + (if 0 < cigar_ins_total run then 1 else 0)
        ≤ run.length
  | [] => by simp [cigar_del_total, cigar_ins_total]
  | e :: run => by
    have ih := cigar_run_kinds_le run
    rcases e with ⟨t, a, n⟩
    cases t <;>
      simp only [cigar_del_total, cigar_ins_total, List.filter_cons, List.length_cons] at ih ⊢ <;>
      simp at ih ⊢ <;> split_ifs at ih ⊢ <;> omega

/-- The elements written for a run of indels are no more than the run has. -/
theorem cigar_collapse_length (lg : Bool) (first : cigar_element_t)
    (run : List cigar_element_t) :
    (cigar_collapse lg first run).length ≤ run.length := by
  have h := cigar_run_kinds_le run
  unfold cigar_collapse match_align_curate_cigar_copy_indels
  by_cases hd : 0 < cigar_del_total run <;> by_cases hi : 0 < cigar_ins_total run <;>
    cases lg <;> simp [hd, hi] at h ⊢ <;> omega

/-- The traversal keeps the read characters and does not lengthen the CIGAR. -/
theorem cigar_traverse_read_total (lg : Bool) :
    ∀ (n : Nat) (l : List cigar_element_t), l.length ≤ n →
      cigar_read_total (cigar_traverse lg l) = cigar_read_total l ∧
      (cigar_traverse lg l).length ≤ l.length
  | 0, l, h => by
    have : l = [] := List.length_eq_zero.mp (Nat.le_zero.mp h)
    subst this
    simp [cigar_traverse_nil]
  | n + 1, [], _ => by simp [cigar_traverse_nil]
  | n + 1, e :: rest, h => by
    have hrest : rest.length ≤ n := by simpa using h
    by_cases hind : cigar_is_indel e = true
    · rw [cigar_traverse_indel lg e rest hind]
      have hdl : (rest.dropWhile cigar_is_indel).length ≤ rest.length :=
        (List.dropWhile_suffix _).length_le
      have ih := cigar_traverse_read_total lg n (rest.dropWhile cigar_is_indel)
        (hdl.trans hrest)
      have hrun : ∀ x ∈ e :: rest.takeWhile cigar_is_indel, cigar_is_indel x = true := by
        intro x hx
        rcases List.mem_cons.mp hx with rfl | hx
        · exact hind
        · exact List.mem_takeWhile_imp hx
      have hsplit : cigar_read_total (e :: rest) =
          cigar_read_total (e :: rest.takeWhile cigar_is_indel) +
            cigar_read_total (rest.dropWhile cigar_is_indel) := by
        rw [← cigar_read_total_append, List.cons_append, List.takeWhile_append_dropWhile]
      have hlen : (e :: rest).length =
          (e :: rest.takeWhile cigar_is_indel).length +
            (rest.dropWhile cigar_is_indel).length := by
        rw [← List.length_append, List.cons_append, List.takeWhile_append_dropWhile]
      have hcl := cigar_collapse_length lg e (e :: rest.takeWhile cigar_is_indel)
      rw [cigar_read_total_append, cigar_collapse_read_total, ih.1, hsplit,
        cigar_read_total_of_indels _ hrun, List.length_append, hlen]
      exact ⟨rfl, by have := ih.2; omega⟩
    · have hty : e.type = cigar_match ∨ e.type = cigar_mismatch := by
        rcases e with ⟨t, a, k⟩
        cases t <;> simp [cigar_is_indel] at hind ⊢
      rcases hty with hm | hx
      · cases rest with
        | nil =>
          rw [cigar_traverse_match lg e [] hm (by simp), cigar_traverse_nil]
          simp
        | cons next rest' =>
          by_cases hn : next.type = cigar_match
          · rw [cigar_traverse_match_match lg e next rest' hm hn]
            have ih := cigar_traverse_read_total lg n
              ({ next with length := next.length + e.length } :: rest') (by simpa using hrest)
            refine ⟨?_, ?_⟩
            · rw [ih.1]
              simp [cigar_read_total, cigar_read_length, hm, hn]
              omega
            · have := ih.2
              simp at this ⊢
              omega
          · rw [cigar_traverse_match lg e (next :: rest') hm (by simpa using hn)]
            have ih := cigar_traverse_read_total lg n (next :: rest') hrest
            refine ⟨?_, ?_⟩
            · have := ih.1
              simp only [cigar_read_total, List.map_cons, List.sum_cons] at this ⊢
              omega
            · have := ih.2
              simp at this ⊢
              omega
      · rw [cigar_traverse_mismatch lg e rest hx]
        have ih := cigar_traverse_read_total lg n rest hrest
        refine ⟨?_, ?_⟩
        · have := ih.1
          simp only [cigar_read_total, List.map_cons, List.sum_cons] at this ⊢
          omega
        · have := ih.2
          simp at this ⊢
          omega

/-- A trim deletion is written only for a run that has an element. -/
theorem cigar_trim_of_length_le (run : List cigar_element_t) :
    (cigar_trim_of (cigar_read_total run)).length ≤ run.length := by
  cases run with
  | nil => simp [cigar_trim_of, cigar_read_total]
  | cons e run =>
    have := cigar_trim_of_length (cigar_read_total (e :: run))
    simp at this ⊢
    omega

/-- A trim trace of a length that fits `uint64_t` is rebuilt from its read
characters. -/
theorem cigar_trim_of_read_total_mod (n : Nat) (h : n < U64) :
    cigar_trim_of (cigar_read_total (cigar_trim_of n) % U64) = cigar_trim_of n := by
  rw [cigar_trim_of_read_total, Nat.mod_eq_of_lt h]

/-- A trim trace is made of deletions. -/
theorem cigar_trim_of_del (n : Nat) : ∀ e ∈ cigar_trim_of n, e.type = cigar_del := by
  unfold cigar_trim_of
  split_ifs
  · simp
  · intro e he
    rw [List.mem_singleton] at he
    subst he
    rfl

/-- Two relations that hold along a list hold together along it. -/
theorem chain_and {α : Type} (R S : α → α → Prop) :
    ∀ l : List α, l.Chain' R → l.Chain' S → l.Chain' (fun a b => R a b ∧ S a b)
  | [], _, _ => List.chain'_nil
  | [_], _, _ => List.chain'_singleton _
  | a :: b :: l, hR, hS => by
    rw [List.chain'_cons] at hR hS ⊢
    exact ⟨⟨hR.1, hS.1⟩, chain_and R S (b :: l) hR.2 hS.2⟩

/-- A pair that the traversal leaves as it is is stable. -/
theorem cigar_pair_ok_stable (lg : Bool) (a b : cigar_element_t)
    (h : cigar_pair_ok lg true a b) : cigar_pair_stable a b := by
  intro hab
  have hia : cigar_is_indel a = true := by simp [cigar_is_indel, hab.1]
  have hib : cigar_is_indel b = true := by simp [cigar_is_indel, hab.2.1]
  cases lg
  · have := h.2 rfl rfl hia hib
    rw [hab.2.2] at this
    exact absurd this (by simp)
  · have := h.1.2 hia hib
    simp only [if_true] at this
    rw [hab.1] at this
    exact absurd this.1 (by simp)

/-- A stable pair in order is a pair that the traversal leaves as it is. -/
theorem cigar_pair_ok_of_stable (lg : Bool) (a b : cigar_element_t)
    (h : cigar_pair_ok lg false a b) (hs : cigar_pair_stable a b) :
    cigar_pair_ok lg true a b := by
  refine ⟨h.1, fun _ hlg hia hib => ?_⟩
  have := h.1.2 hia hib
  rw [hlg] at this
  simp only [Bool.false_eq_true, if_false] at this
  cases hb : b.attributes
  · rfl
  · exact absurd ⟨this.1, this.2, hb⟩ hs

/-- In a pair in order with `left_gap_alignment` unset, no indel follows a
deletion. -/
theorem cigar_pair_ok_unmarked (a b : cigar_element_t)
    (h : cigar_pair_ok false false a b) : cigar_pair_unmarked a b := by
  intro hab
  have hia : cigar_is_indel a = true := by
    have := hab.1
    simp only [cigar_is_trim_del, decide_eq_true_eq] at this
    simp [cigar_is_indel, this.1]
  have := h.1.2 hia hab.2
  simp only [Bool.false_eq_true, if_false] at this
  have hd := hab.1
  simp only [cigar_is_trim_del, decide_eq_true_eq] at hd
  rw [hd.1] at this
  exact absurd this.1 (by simp)
/-- The curated CIGAR is in order: with `strict`, under the condition on the
deletions marked `trim` behind the trimmed beginning. -/
theorem match_align_curate_cigar_ordered (align_parameters : match_align_parameters_t)
    (strict : Bool) (cigar : List cigar_element_t) (match_position : Nat)
    (hpos : ∀ e ∈ cigar, cigar_is_indel e = true → 0 < e.length)
    (hin : strict = true → align_parameters.left_gap_alignment = false →
      (cigar.dropWhile (cigar_trimmable align_parameters)).Chain' cigar_pair_unmarked) :
    (match_align_curate_cigar align_parameters cigar match_position).1.Chain'
        (cigar_pair_ok align_parameters.left_gap_alignment strict) ∧
      ∀ e ∈ (match_align_curate_cigar align_parameters cigar match_position).1,
        cigar_element_ok e := by
  rw [match_align_curate_cigar_eq]
  simp only
  have hsuf : cigar.dropWhile (cigar_trimmable align_parameters) <:+ cigar :=
    List.dropWhile_suffix _
  have hnorm := cigar_traverse_normal align_parameters.left_gap_alignment strict _
    (cigar.dropWhile (cigar_trimmable align_parameters)) le_rfl
    (fun e he => hpos e (hsuf.subset he)) hin
  have hpre := List.rdropWhile_prefix (cigar_trimmable align_parameters)
    (cigar_traverse align_parameters.left_gap_alignment
      (cigar.dropWhile (cigar_trimmable align_parameters)))
  have hok : ∀ n, ∀ e ∈ cigar_trim_of n, cigar_element_ok e := by
    intro n e he
    have := cigar_trim_of_mem align_parameters n e he
    exact ⟨fun _ => this.2.2.2.2, fun h => by rw [this.2.2.2.1] at h; exact absurd h (by simp)⟩
  refine ⟨?_, ?_⟩
  · rcases cigar_kept_shape align_parameters cigar with
      ⟨_, ht⟩ | ⟨m, ks, init, z, hk1, hk2, hm, hz⟩
    · rw [ht]
      simp only [List.reverse_nil, List.dropWhile_nil, List.takeWhile_nil, List.append_nil]
      have hnil : cigar_trim_of (cigar_read_total [] % U64) = [] := by
        simp [cigar_trim_of, cigar_read_total]
      rw [hnil, List.append_nil]
      generalize cigar_read_total (cigar.takeWhile (cigar_trimmable align_parameters)) % U64 = a
      unfold cigar_trim_of
      split_ifs
      · exact List.chain'_nil
      · exact List.chain'_singleton _
    · have hm' := (cigar_trimmable_eq_false align_parameters m).mp hm
      have hz' := (cigar_trimmable_eq_false align_parameters z).mp hz
      refine chain_assemble _ _ _ _ m z ks init (cigar_trim_of_length _)
        (cigar_trim_of_length _) ?_ hk1 (hk1.trans hk2) ?_ ?_
      · exact List.Chain'.prefix hnorm.1 hpre
      · intro x hx
        have := cigar_trim_of_mem align_parameters _ x hx
        simp [cigar_pair_ok, cigar_pair_curated, cigar_is_indel, hm'.1, this.2.2.2.1]
      · intro y hy
        have := cigar_trim_of_mem align_parameters _ y hy
        simp [cigar_pair_ok, cigar_pair_curated, cigar_is_indel, hz'.1, this.2.2.2.1]
  · intro e he
    rcases List.mem_append.mp he with he | he
    · rcases List.mem_append.mp he with he | he
      · exact hok _ e he
      · exact hnorm.2.1 e (hpre.subset he)
    · exact hok _ e he

/-- C6.  After `match_align_curate_cigar` on a CIGAR with positive element
lengths, no two adjacent elements are both matches, and two adjacent indels
are a deletion followed by an insertion when `left_gap_alignment` is set, and
an insertion followed by a deletion otherwise; so every maximal run of
adjacent indels is at most one deletion and at most one insertion, in that
order. -/
theorem match_align_curate_cigar_adjacent (align_parameters : match_align_parameters_t)
    (cigar : List cigar_element_t) (match_position : Nat)
    (hpos : ∀ e ∈ cigar, 0 < e.length) :
    (match_align_curate_cigar align_parameters cigar match_position).1.Chain'
      (cigar_pair_curated align_parameters.left_gap_alignment) := by
  rw [match_align_curate_cigar_eq]
  simp only
  have hsuf : cigar.dropWhile (cigar_trimmable align_parameters) <:+ cigar :=
    List.dropWhile_suffix _
  have hnorm := cigar_traverse_normal align_parameters.left_gap_alignment false _
    (cigar.dropWhile (cigar_trimmable align_parameters)) le_rfl
    (fun e he _ => hpos e (hsuf.subset he)) (fun h => absurd h (by simp))
  rcases cigar_kept_shape align_parameters cigar with ⟨_, ht⟩ | ⟨m, ks, init, z, hk1, hk2, hm, hz⟩
  · rw [ht]
    simp only [List.reverse_nil, List.dropWhile_nil, List.takeWhile_nil, List.append_nil]
    have hnil : cigar_trim_of (cigar_read_total [] % U64) = [] := by
      simp [cigar_trim_of, cigar_read_total]
    rw [hnil, List.append_nil]
    generalize cigar_read_total (cigar.takeWhile (cigar_trimmable align_parameters)) % U64 = a
    unfold cigar_trim_of
    split_ifs
    · exact List.chain'_nil
    · exact List.chain'_singleton _
  · have hm' := (cigar_trimmable_eq_false align_parameters m).mp hm
    have hz' := (cigar_trimmable_eq_false align_parameters z).mp hz
    refine chain_assemble _ _ _ _ m z ks init (cigar_trim_of_length _) (cigar_trim_of_length _)
      ?_ hk1 (hk1.trans hk2) ?_ ?_
    · have hpre := List.rdropWhile_prefix (cigar_trimmable align_parameters)
        (cigar_traverse align_parameters.left_gap_alignment
          (cigar.dropWhile (cigar_trimmable align_parameters)))
      exact List.Chain'.imp (fun _ _ h => h.1) ( List.Chain'.prefix hnorm.1 hpre)
    · intro x hx
      have := cigar_trim_of_mem align_parameters _ x hx
      simp [cigar_pair_curated, cigar_is_indel, hm'.1, this.2.2.2.1]
    · intro y hy
      have := cigar_trim_of_mem align_parameters _ y hy
      simp [cigar_pair_curated, cigar_is_indel, hz'.1, this.2.2.2.1]

/-- C5.  The curated CIGAR is a trim deletion whose length is the number of
read characters consumed by the longest leading run of mismatches, indels and
matches shorter than `cigar_curation_min_end_context` of the input, then the
traversal of the rest up to its last element that is not such an element, then
a trim deletion whose length is the number of read characters consumed by the
elements of the traversal behind it (a trim deletion of length zero is not
written).  The two lengths are formed in `uint64_t`: they are those numbers
modulo `2^64`, and the numbers themselves whenever the read characters of the
CIGAR are fewer than `2^64`.  If the curated CIGAR contains an element that is
not a trim deletion, then the first such element and the last such element are
matches of length at least `cigar_curation_min_end_context`. -/
theorem match_align_curate_cigar_trimmed (align_parameters : match_align_parameters_t)
    (cigar : List cigar_element_t) (match_position : Nat) :
    (match_align_curate_cigar align_parameters cigar match_position).1 =
      cigar_trim_of
          (cigar_read_total (cigar.takeWhile (cigar_trimmable align_parameters)) % U64) ++
        (cigar_traverse align_parameters.left_gap_alignment
          (cigar.dropWhile (cigar_trimmable align_parameters))).rdropWhile
            (cigar_trimmable align_parameters) ++
        cigar_trim_of (cigar_read_total
          ((cigar_traverse align_parameters.left_gap_alignment
            (cigar.dropWhile (cigar_trimmable align_parameters))).rtakeWhile
              (cigar_trimmable align_parameters)) % U64) ∧
    (cigar_read_total cigar < U64 →
      (match_align_curate_cigar align_parameters cigar match_position).1 =
        cigar_trim_of (cigar_read_total (cigar.takeWhile (cigar_trimmable align_parameters))) ++
          (cigar_traverse align_parameters.left_gap_alignment
            (cigar.dropWhile (cigar_trimmable align_parameters))).rdropWhile
              (cigar_trimmable align_parameters) ++
          cigar_trim_of (cigar_read_total
            ((cigar_traverse align_parameters.left_gap_alignment
              (cigar.dropWhile (cigar_trimmable align_parameters))).rtakeWhile
                (cigar_trimmable align_parameters)))) ∧
    (∀ e, (match_align_curate_cigar align_parameters cigar match_position).1.find?
        (fun x => !cigar_is_trim_del x) = some e →
      e.type = cigar_match ∧ align_parameters.cigar_curation_min_end_context ≤ e.length) ∧
    (∀ e, (match_align_curate_cigar align_parameters cigar match_position).1.reverse.find?
        (fun x => !cigar_is_trim_del x) = some e →
      e.type = cigar_match ∧ align_parameters.cigar_curation_min_end_context ≤ e.length) := by
  rw [match_align_curate_cigar_eq]
  simp only
  refine ⟨?_, ?_, ?_⟩
  · simp only [List.rdropWhile, List.rtakeWhile, cigar_read_total_reverse]
  · intro hfit
    have hlead : cigar_read_total (cigar.takeWhile (cigar_trimmable align_parameters)) +
        cigar_read_total (cigar.dropWhile (cigar_trimmable align_parameters)) =
        cigar_read_total cigar := by
      rw [← cigar_read_total_append, List.takeWhile_append_dropWhile]
    have htr := (cigar_traverse_read_total align_parameters.left_gap_alignment _
      (cigar.dropWhile (cigar_trimmable align_parameters)) le_rfl).1
    have htail : cigar_read_total
          ((cigar_traverse align_parameters.left_gap_alignment
            (cigar.dropWhile (cigar_trimmable align_parameters))).reverse.takeWhile
              (cigar_trimmable align_parameters)) +
        cigar_read_total
          ((cigar_traverse align_parameters.left_gap_alignment
            (cigar.dropWhile (cigar_trimmable align_parameters))).reverse.dropWhile
              (cigar_trimmable align_parameters)) =
        cigar_read_total (cigar_traverse align_parameters.left_gap_alignment
            (cigar.dropWhile (cigar_trimmable align_parameters))) := by
      rw [← cigar_read_total_append, List.takeWhile_append_dropWhile,
        cigar_read_total_reverse]
    rw [Nat.mod_eq_of_lt (by omega), Nat.mod_eq_of_lt (by omega)]
    simp only [List.rdropWhile, List.rtakeWhile, cigar_read_total_reverse]
  rcases cigar_kept_shape align_parameters cigar with ⟨_, ht⟩ | ⟨m, ks, init, z, hk1, hk2, hm, hz⟩
  · rw [ht]
    simp only [List.reverse_nil, List.dropWhile_nil, List.takeWhile_nil, List.append_nil]
    have hnil : cigar_trim_of (cigar_read_total [] % U64) = [] := by
      simp [cigar_trim_of, cigar_read_total]
    rw [hnil, List.append_nil, cigar_trim_of_reverse]
    have hnone : (cigar_trim_of (cigar_read_total
        (cigar.takeWhile (cigar_trimmable align_parameters)) % U64)).find?
        (fun x => !cigar_is_trim_del x) = none := by
      rw [List.find?_eq_none]
      intro x hx
      simp [(cigar_trim_of_mem align_parameters _ x hx).2.1]
    rw [hnone]
    simp
  · have hm' := (cigar_trimmable_eq_false align_parameters m).mp hm
    have hz' := (cigar_trimmable_eq_false align_parameters z).mp hz
    have hq : ∀ n, ∀ x ∈ cigar_trim_of n, (fun x => !cigar_is_trim_del x) x = false := by
      intro n x hx
      simp [(cigar_trim_of_mem align_parameters n x hx).2.1]
    constructor
    · intro e he
      rw [hk1, List.append_assoc, find?_append_of_forall_not _ _ _ (hq _)] at he
      have hqm : (!cigar_is_trim_del m) = true := by simp [cigar_is_trim_del, hm'.1]
      simp only [List.cons_append, List.find?_cons, hqm, Option.some.injEq] at he
      subst he
      exact hm'
    · intro e he
      rw [hk1, hk2, List.reverse_append, List.reverse_append, cigar_trim_of_reverse,
        cigar_trim_of_reverse, find?_append_of_forall_not _ _ _ (hq _)] at he
      have hqz : (!cigar_is_trim_del z) = true := by simp [cigar_is_trim_del, hz'.1]
      simp only [List.reverse_append, List.reverse_cons, List.reverse_nil, List.nil_append,
        List.cons_append, List.find?_cons, hqz, Option.some.injEq] at he
      subst he
      exact hz'
/-- The curated CIGAR is stable when `left_gap_alignment` is set, and when no
deletion marked `trim` behind the trimmed beginning of the input is directly
followed by an indel. -/
theorem match_align_curate_cigar_stable (align_parameters : match_align_parameters_t)
    (cigar : List cigar_element_t) (match_position : Nat)
    (hpos : ∀ e ∈ cigar, cigar_is_indel e = true → 0 < e.length)
    (hin : align_parameters.left_gap_alignment = false →
      (cigar.dropWhile (cigar_trimmable align_parameters)).Chain' cigar_pair_unmarked) :
    (match_align_curate_cigar align_parameters cigar match_position).1.Chain'
      cigar_pair_stable :=
  List.Chain'.imp (fun a b h => cigar_pair_ok_stable align_parameters.left_gap_alignment a b h)
    (match_align_curate_cigar_ordered align_parameters true cigar match_position hpos
      (fun _ h => hin h)).1

/-- C4, amended.  On every CIGAR of match, mismatch, insertion and deletion
elements with positive lengths, for every `left_gap_alignment` and every
`cigar_curation_min_end_context`, curating the curated CIGAR leaves its
elements, its length and the match position unchanged exactly when the curated
CIGAR has no insertion that is directly followed by a deletion marked `trim`.
That is the case whenever `left_gap_alignment` is set, and whenever no deletion
marked `trim` that stands behind the trimmed beginning of the input is directly
followed by an insertion or a deletion. -/
theorem match_align_curate_cigar_idempotent (align_parameters : match_align_parameters_t)
    (cigar : List cigar_element_t) (match_position : Nat)
    (hpos : ∀ e ∈ cigar, 0 < e.length) :
    (match_align_curate_cigar align_parameters
        (match_align_curate_cigar align_parameters cigar match_position).1
        (match_align_curate_cigar align_parameters cigar match_position).2 =
      match_align_curate_cigar align_parameters cigar match_position ↔
      (match_align_curate_cigar align_parameters cigar match_position).1.Chain'
        cigar_pair_stable) ∧
    (align_parameters.left_gap_alignment = true ∨
        (cigar.dropWhile (cigar_trimmable align_parameters)).Chain' cigar_pair_unmarked →
      (match_align_curate_cigar align_parameters cigar match_position).1.Chain'
        cigar_pair_stable) := by
  have hU : 0 < U64 := by unfold U64; omega
  have hord := match_align_curate_cigar_ordered align_parameters false cigar match_position
    (fun e he _ => hpos e he) (fun h => absurd h (by simp))
  refine ⟨⟨fun hidem => ?_, fun hst => ?_⟩, fun hin => ?_⟩
  · -- the second curation gives a stable CIGAR
    have hst2 := match_align_curate_cigar_stable align_parameters
      (match_align_curate_cigar align_parameters cigar match_position).1
      (match_align_curate_cigar align_parameters cigar match_position).2
      (fun e he hind => (hord.2 e he).1 hind)
      (by
        intro hlg
        have hch : (match_align_curate_cigar align_parameters cigar match_position).1.Chain'
            cigar_pair_unmarked := by
          have := hord.1
          rw [hlg] at this
          exact List.Chain'.imp (fun a b h => cigar_pair_ok_unmarked a b h) this
        exact List.Chain'.suffix hch (List.dropWhile_suffix _))
    rw [hidem] at hst2
    exact hst2
  · -- a stable CIGAR is curated into itself
    have hsuf : cigar.dropWhile (cigar_trimmable align_parameters) <:+ cigar :=
      List.dropWhile_suffix _
    have hnorm := cigar_traverse_normal align_parameters.left_gap_alignment false _
      (cigar.dropWhile (cigar_trimmable align_parameters)) le_rfl
      (fun e he _ => hpos e (hsuf.subset he)) (fun h => absurd h (by simp))
    rw [match_align_curate_cigar_eq align_parameters cigar match_position] at hst ⊢
    simp only at hst ⊢
    have hnil : cigar_trim_of (cigar_read_total [] % U64) = [] := by
      simp [cigar_trim_of, cigar_read_total]
    have hAp : ∀ n, ∀ x ∈ cigar_trim_of n, cigar_trimmable align_parameters x = true :=
      fun n x hx => (cigar_trim_of_mem align_parameters n x hx).1
    generalize hp : cigar_trim_position match_position
      (cigar.takeWhile (cigar_trimmable align_parameters)) = p at hst ⊢
    generalize ha : cigar_read_total (cigar.takeWhile (cigar_trimmable align_parameters))
      % U64 = a at hst ⊢
    have halt : a < U64 := by rw [← ha]; exact Nat.mod_lt _ hU
    rcases cigar_kept_shape align_parameters cigar with
      ⟨_, ht⟩ | ⟨m, ks, init, z, hk1, hk2, hm, hz⟩
    · -- everything was trimmed
      rw [ht]
      simp only [List.reverse_nil, List.dropWhile_nil, List.takeWhile_nil, List.append_nil,
        hnil]
      rw [match_align_curate_cigar_eq]
      have h1 : (cigar_trim_of a).takeWhile (cigar_trimmable align_parameters) =
          cigar_trim_of a := List.takeWhile_eq_self_iff.mpr (hAp a)
      have h2 : (cigar_trim_of a).dropWhile (cigar_trimmable align_parameters) = [] :=
        List.dropWhile_eq_nil_iff.mpr (hAp a)
      rw [h1, h2, cigar_traverse_nil, cigar_trim_of_read_total_mod a halt,
        cigar_trim_position_of_del _ _ (cigar_trim_of_del a)]
      simp [hnil]
    · -- a kept part between the trimmed ends
      rw [hk1] at hst ⊢
      generalize hb : cigar_read_total ((cigar_traverse align_parameters.left_gap_alignment
        (cigar.dropWhile (cigar_trimmable align_parameters))).reverse.takeWhile
          (cigar_trimmable align_parameters)) % U64 = b at hst ⊢
      have hblt : b < U64 := by rw [← hb]; exact Nat.mod_lt _ hU
      have hz' := (cigar_trimmable_eq_false align_parameters z).mp hz
      have hsplit := takeWhile_dropWhile_of_split (cigar_trimmable align_parameters)
        (cigar_trim_of a) m (ks ++ cigar_trim_of b) (hAp a) hm
      have hout : cigar_trim_of a ++ m :: ks ++ cigar_trim_of b =
          cigar_trim_of a ++ m :: (ks ++ cigar_trim_of b) := by simp
      rw [match_align_curate_cigar_eq, hout, hsplit.1, hsplit.2,
        cigar_trim_of_read_total_mod a halt,
        cigar_trim_position_of_del _ _ (cigar_trim_of_del a)]
      -- the traversal leaves the kept part and the trailing trim as they are
      have hpre := List.rdropWhile_prefix (cigar_trimmable align_parameters)
        (cigar_traverse align_parameters.left_gap_alignment
          (cigar.dropWhile (cigar_trimmable align_parameters)))
      have hkeep_st : (m :: ks).Chain' cigar_pair_stable := by
        have h1 := (List.chain'_append.mp hst).1
        exact (List.chain'_append.mp h1).2.1
      have hkeep_ch : (m :: ks).Chain'
          (cigar_pair_ok align_parameters.left_gap_alignment true) := by
        have := List.Chain'.prefix hnorm.1 hpre
        rw [List.rdropWhile, hk1] at this
        exact List.Chain'.imp
          (fun a b h => cigar_pair_ok_of_stable align_parameters.left_gap_alignment a b h.1 h.2)
          (chain_and _ _ _ this hkeep_st)
      have hkeep_ok : ∀ e ∈ m :: ks, cigar_element_ok e := by
        intro e he
        apply hnorm.2.1 e
        apply hpre.subset
        rw [List.rdropWhile, hk1]
        exact he
      have hfix : cigar_traverse align_parameters.left_gap_alignment
          (m :: (ks ++ cigar_trim_of b)) = m :: (ks ++ cigar_trim_of b) := by
        apply cigar_traverse_fixed _ _ _ le_rfl
        · have := chain_assemble (cigar_pair_ok align_parameters.left_gap_alignment true)
            [] (m :: ks) (cigar_trim_of b) m z ks init (by simp) (cigar_trim_of_length b)
            hkeep_ch rfl hk2 (by simp)
            (by
              intro y hy
              have := cigar_trim_of_mem align_parameters b y hy
              simp [cigar_pair_ok, cigar_pair_curated, cigar_is_indel, hz'.1, this.2.2.2.1])
          simpa using this
        · intro e he
          rw [← List.cons_append] at he
          rcases List.mem_append.mp he with he | he
          · exact hkeep_ok e he
          · have := cigar_trim_of_mem align_parameters b e he
            exact ⟨fun _ => this.2.2.2.2,
              fun h => by rw [this.2.2.2.1] at h; exact absurd h (by simp)⟩
      rw [hfix]
      have hrev : (m :: (ks ++ cigar_trim_of b)).reverse =
          cigar_trim_of b ++ z :: init.reverse := by
        rw [← List.cons_append, hk2, List.reverse_append, cigar_trim_of_reverse]
        simp
      have hsplit2 := takeWhile_dropWhile_of_split (cigar_trimmable align_parameters)
        (cigar_trim_of b) z init.reverse (hAp b) hz
      rw [hrev, hsplit2.1, hsplit2.2, cigar_trim_of_read_total_mod b hblt]
      have : (z :: init.reverse).reverse = m :: ks := by
        rw [hk2]; simp
      rw [this]
      simp
  · exact match_align_curate_cigar_stable align_parameters cigar match_position
      (fun e he _ => hpos e he)
      (fun hlg => by
        rcases hin with h | h
        · rw [h] at hlg; exact absurd hlg (by simp)
        · exact h)
/-- Witness of C6 on `example_cigar`: the curated CIGAR is
3D(trim) 6M 2D 2I 5M 2D(trim). -/
theorem match_align_curate_cigar_adjacent_witness :
    (∀ e ∈ example_cigar, 0 < e.length) ∧
    (match_align_curate_cigar example_curation_parameters example_cigar 100).1.Chain'
      (cigar_pair_curated example_curation_parameters.left_gap_alignment) :=
  ⟨by decide, match_align_curate_cigar_adjacent example_curation_parameters example_cigar 100
    (by decide)⟩

/-- Witness of C5 on `example_cigar`: the curated CIGAR is
3D(trim) 6M 2D 2I 5M 2D(trim), and the first and the last element of it that is
not a trim deletion are the matches 6M and 5M. -/
theorem match_align_curate_cigar_trimmed_witness :
    (match_align_curate_cigar example_curation_parameters example_cigar 100).1.find?
      (fun x => !cigar_is_trim_del x) = some ⟨cigar_match, cigar_attr_none, 6⟩ ∧
    (match_align_curate_cigar example_curation_parameters example_cigar 100).1.reverse.find?
      (fun x => !cigar_is_trim_del x) = some ⟨cigar_match, cigar_attr_none, 5⟩ ∧
    (cigar_match = cigar_match ∧
      example_curation_parameters.cigar_curation_min_end_context ≤ 6) ∧
    (cigar_match = cigar_match ∧
      example_curation_parameters.cigar_curation_min_end_context ≤ 5) ∧
    cigar_read_total example_cigar < U64 ∧
    (match_align_curate_cigar example_curation_parameters example_cigar 100).1 =
      cigar_trim_of (cigar_read_total
          (example_cigar.takeWhile (cigar_trimmable example_curation_parameters))) ++
        (cigar_traverse example_curation_parameters.left_gap_alignment
          (example_cigar.dropWhile (cigar_trimmable example_curation_parameters))).rdropWhile
            (cigar_trimmable example_curation_parameters) ++
        cigar_trim_of (cigar_read_total
          ((cigar_traverse example_curation_parameters.left_gap_alignment
            (example_cigar.dropWhile (cigar_trimmable example_curation_parameters))).rtakeWhile
              (cigar_trimmable example_curation_parameters))) ∧
    (match_align_curate_cigar example_curation_parameters example_cigar 100).1 =
      [⟨cigar_del, cigar_attr_trim, 3⟩, ⟨cigar_match, cigar_attr_none, 6⟩,
       ⟨cigar_del, cigar_attr_none, 2⟩, ⟨cigar_ins, cigar_attr_none, 2⟩,
       ⟨cigar_match, cigar_attr_none, 5⟩, ⟨cigar_del, cigar_attr_trim, 2⟩] :=
  ⟨by decide, by decide,
    (match_align_curate_cigar_trimmed example_curation_parameters example_cigar 100).2.2.1
      ⟨cigar_match, cigar_attr_none, 6⟩ (by decide),
    (match_align_curate_cigar_trimmed example_curation_parameters example_cigar 100).2.2.2
      ⟨cigar_match, cigar_attr_none, 5⟩ (by decide),
    by decide,
    (match_align_curate_cigar_trimmed example_curation_parameters example_cigar 100).2.1
      (by decide),
    by decide⟩

/-- Counterexample to C4 as stated: with `left_gap_alignment` unset, curating
1M 1D(trim) 1I 1M gives 1M 1I 1D(trim) 1M, in which the insertion is directly
followed by a deletion marked `trim`, and curating that gives 1M 1I 1D 1M: the
second pass changes the deletion. -/
theorem match_align_curate_cigar_not_idempotent :
    (∀ e ∈ example_trim_marked_cigar, 0 < e.length) ∧
    match_align_curate_cigar example_right_gap_parameters example_trim_marked_cigar 100 =
      ([⟨cigar_match, cigar_attr_none, 1⟩, ⟨cigar_ins, cigar_attr_none, 1⟩,
        ⟨cigar_del, cigar_attr_trim, 1⟩, ⟨cigar_match, cigar_attr_none, 1⟩], 100) ∧
    match_align_curate_cigar example_right_gap_parameters
        (match_align_curate_cigar example_right_gap_parameters example_trim_marked_cigar 100).1
        (match_align_curate_cigar example_right_gap_parameters example_trim_marked_cigar 100).2 =
      ([⟨cigar_match, cigar_attr_none, 1⟩, ⟨cigar_ins, cigar_attr_none, 1⟩,
        ⟨cigar_del, cigar_attr_none, 1⟩, ⟨cigar_match, cigar_attr_none, 1⟩], 100) ∧
    match_align_curate_cigar example_right_gap_parameters
        (match_align_curate_cigar example_right_gap_parameters example_trim_marked_cigar 100).1
        (match_align_curate_cigar example_right_gap_parameters example_trim_marked_cigar 100).2 ≠
      match_align_curate_cigar example_right_gap_parameters example_trim_marked_cigar 100 := by
  decide

/-- Witness of the amended C4: on `example_cigar` with `left_gap_alignment` set,
and on `example_lone_trim_cigar`, whose deletions are marked `trim`, with
`left_gap_alignment` unset, the second curation changes nothing. -/
theorem match_align_curate_cigar_idempotent_witness :
    (∀ e ∈ example_cigar, 0 < e.length) ∧
    example_curation_parameters.left_gap_alignment = true ∧
    match_align_curate_cigar example_curation_parameters
        (match_align_curate_cigar example_curation_parameters example_cigar 100).1
        (match_align_curate_cigar example_curation_parameters example_cigar 100).2 =
      match_align_curate_cigar example_curation_parameters example_cigar 100 ∧
    (∀ e ∈ example_lone_trim_cigar, 0 < e.length) ∧
    example_right_gap_parameters.left_gap_alignment = false ∧
    (example_lone_trim_cigar.dropWhile (cigar_trimmable example_right_gap_parameters)).Chain'
      cigar_pair_unmarked ∧
    match_align_curate_cigar example_right_gap_parameters
        (match_align_curate_cigar example_right_gap_parameters example_lone_trim_cigar 100).1
        (match_align_curate_cigar example_right_gap_parameters example_lone_trim_cigar 100).2 =
      match_align_curate_cigar example_right_gap_parameters example_lone_trim_cigar 100 ∧
    match_align_curate_cigar example_right_gap_parameters example_lone_trim_cigar 100 =
      (example_lone_trim_cigar, 100) := by
  have hch : (example_lone_trim_cigar.dropWhile
      (cigar_trimmable example_right_gap_parameters)).Chain' cigar_pair_unmarked := by
    have h : example_lone_trim_cigar.dropWhile (cigar_trimmable example_right_gap_parameters) =
        [⟨cigar_match, cigar_attr_none, 6⟩, ⟨cigar_del, cigar_attr_trim, 2⟩,
         ⟨cigar_match, cigar_attr_none, 5⟩, ⟨cigar_ins, cigar_attr_none, 1⟩,
         ⟨cigar_match, cigar_attr_none, 4⟩] := by decide
    rw [h]
    simp only [List.chain'_cons, List.chain'_singleton, and_true]
    decide
  exact ⟨by decide, rfl,
    (match_align_curate_cigar_idempotent example_curation_parameters example_cigar 100
      (by decide)).1.mpr
      ((match_align_curate_cigar_idempotent example_curation_parameters example_cigar 100
        (by decide)).2 (Or.inl rfl)),
    by decide, rfl, hch,
    (match_align_curate_cigar_idempotent example_right_gap_parameters example_lone_trim_cigar
      100 (by decide)).1.mpr
      ((match_align_curate_cigar_idempotent example_right_gap_parameters
        example_lone_trim_cigar 100 (by decide)).2 (Or.inr hch)),
    by decide⟩

/-! ## kmer_counting.c: the 5-mer filter -/

/-- Bits of the masked rolling update. -/
theorem KMER_COUNTING_ADD_INDEX__MASK_testBit (idx c i : Nat) :
    (KMER_COUNTING_ADD_INDEX__MASK idx c).testBit i =
      ((decide (2 ≤ i) && idx.testBit (i - 2) || c.testBit i) && decide (i < 10)) := by
  have h : KMER_COUNTING_MASK = 2 ^ 10 - 1 := by norm_num [KMER_COUNTING_MASK]
  unfold KMER_COUNTING_ADD_INDEX__MASK
  rw [h, Nat.testBit_and, Nat.testBit_or, Nat.testBit_shiftLeft, Nat.testBit_two_pow_sub_one]

/-- Bits of the unmasked rolling update. -/
theorem KMER_COUNTING_ADD_INDEX_testBit (idx c i : Nat) :
    (KMER_COUNTING_ADD_INDEX idx c).testBit i =
      ((decide (2 ≤ i) && idx.testBit (i - 2) || c.testBit i) && decide (i < 64)) := by
  unfold KMER_COUNTING_ADD_INDEX U64
  rw [Nat.testBit_mod_two_pow, Nat.testBit_or, Nat.testBit_shiftLeft]
  simp [Bool.and_comm]

/-- The masked update only reads the low `8` bits of the index; two indices
that agree on their low `k` bits are updated to indices that agree on their
low `k + 2` bits. -/
theorem KMER_COUNTING_ADD_INDEX__MASK_agree (a b c k : Nat)
    (h : ∀ i, i < k → a.testBit i = b.testBit i) :
    ∀ i, i < k + 2 → (KMER_COUNTING_ADD_INDEX__MASK a c).testBit i =
      (KMER_COUNTING_ADD_INDEX__MASK b c).testBit i := by
  intro i hi
  rw [KMER_COUNTING_ADD_INDEX__MASK_testBit, KMER_COUNTING_ADD_INDEX__MASK_testBit]
  by_cases h2 : 2 ≤ i
  · rw [h (i - 2) (by omega)]
  · simp [h2]

/-- Two masked indices that agree on their low ten bits are equal. -/
theorem KMER_COUNTING_ADD_INDEX__MASK_eq (a b c d : Nat)
    (h : ∀ i, i < 10 → (KMER_COUNTING_ADD_INDEX__MASK a c).testBit i =
      (KMER_COUNTING_ADD_INDEX__MASK b d).testBit i) :
    KMER_COUNTING_ADD_INDEX__MASK a c = KMER_COUNTING_ADD_INDEX__MASK b d := by
  apply Nat.eq_of_testBit_eq
  intro i
  by_cases hi : i < 10
  · exact h i hi
  · rw [KMER_COUNTING_ADD_INDEX__MASK_testBit, KMER_COUNTING_ADD_INDEX__MASK_testBit]
    simp [hi]

/-- After five characters the rolling index no longer depends on the index it
started from. -/
theorem foldl_ADD_INDEX__MASK_five (a b : Nat) (w : List Nat) (hw : 5 ≤ w.length) :
    w.foldl KMER_COUNTING_ADD_INDEX__MASK a = w.foldl KMER_COUNTING_ADD_INDEX__MASK b := by
  match w, hw with
  | c1 :: c2 :: c3 :: c4 :: c5 :: rest, _ =>
    simp only [List.foldl_cons]
    congr 1
    apply KMER_COUNTING_ADD_INDEX__MASK_eq
    have h0 : ∀ i, i < 0 → a.testBit i = b.testBit i := fun i hi => absurd hi (by omega)
    have h1 := KMER_COUNTING_ADD_INDEX__MASK_agree a b c1 0 h0
    have h2 := KMER_COUNTING_ADD_INDEX__MASK_agree _ _ c2 _ h1
    have h3 := KMER_COUNTING_ADD_INDEX__MASK_agree _ _ c3 _ h2
    have h4 := KMER_COUNTING_ADD_INDEX__MASK_agree _ _ c4 _ h3
    exact KMER_COUNTING_ADD_INDEX__MASK_agree _ _ c5 _ h4

/-- The rolling index of a string of at least five characters is the rolling
index of any of its suffixes of at least five characters. -/
theorem kmer_roll_append (u v : List Nat) (hv : 5 ≤ v.length) :
    kmer_roll (u ++ v) = kmer_roll v := by
  unfold kmer_roll
  rw [List.foldl_append]
  exact foldl_ADD_INDEX__MASK_five _ _ v hv

/-- The rolling index after one more character. -/
theorem kmer_roll_snoc (u : List Nat) (c : Nat) :
    kmer_roll (u ++ [c]) = KMER_COUNTING_ADD_INDEX__MASK (kmer_roll u) c := by
  simp [kmer_roll, List.foldl_append]

/-- The unmasked update of the begin index agrees with the masked one on the
low ten bits as long as the two indices do. -/
theorem KMER_COUNTING_ADD_INDEX_agree (a b c : Nat)
    (h : ∀ i, i < 10 → a.testBit i = b.testBit i) :
    ∀ i, i < 10 → (KMER_COUNTING_ADD_INDEX a c).testBit i =
      (KMER_COUNTING_ADD_INDEX__MASK b c).testBit i := by
  intro i hi
  rw [KMER_COUNTING_ADD_INDEX_testBit, KMER_COUNTING_ADD_INDEX__MASK_testBit]
  by_cases h2 : 2 ≤ i
  · rw [h (i - 2) (by omega)]
    simp [hi, show i < 64 by omega]
  · simp [h2, hi, show i < 64 by omega]

/-- The masked update of an index that agrees with `b` on the low ten bits. -/
theorem KMER_COUNTING_ADD_INDEX__MASK_congr (a b c : Nat)
    (h : ∀ i, i < 10 → a.testBit i = b.testBit i) :
    KMER_COUNTING_ADD_INDEX__MASK a c = KMER_COUNTING_ADD_INDEX__MASK b c := by
  apply KMER_COUNTING_ADD_INDEX__MASK_eq
  intro i hi
  exact KMER_COUNTING_ADD_INDEX__MASK_agree a b c 10 h i (by omega)

/-- A string has four k-mers fewer than characters. -/
theorem kmers_length (w : List Nat) : (kmers w).length = w.length - 4 := by
  induction w with
  | nil => rfl
  | cons x xs ih =>
    unfold kmers
    split_ifs with h
    · simp only [List.length_cons, ih]; omega
    · simp only [List.length_cons, List.length_nil]; omega

/-- A string of fewer than five characters has no k-mer. -/
theorem kmers_of_short (w : List Nat) (h : w.length < 5) : kmers w = [] := by
  apply List.eq_nil_of_length_eq_zero
  rw [kmers_length]; omega

/-- The k-mers of a string of at least five characters. -/
theorem kmers_cons (x : Nat) (xs : List Nat) (h : 4 ≤ xs.length) :
    kmers (x :: xs) = kmer_roll ((x :: xs).take 5) :: kmers xs := by
  rw [kmers, if_pos h]

/-- The k-mers of a concatenation are those of the two parts and, between
them, the k-mers that straddle the joint. -/
theorem kmers_append (u v : List Nat) : ∃ c, kmers (u ++ v) = kmers u ++ c ++ kmers v := by
  induction u with
  | nil => exact ⟨[], by simp [kmers]⟩
  | cons x u ih =>
    obtain ⟨c, hc⟩ := ih
    by_cases h : 4 ≤ u.length
    · refine ⟨c, ?_⟩
      rw [List.cons_append, kmers_cons x (u ++ v) (by simp; omega), kmers_cons x u h, hc]
      have : (x :: (u ++ v)).take 5 = (x :: u).take 5 := by
        rw [← List.cons_append, List.take_append_of_le_length (by simp; omega)]
      rw [this]; simp
    · rw [kmers_of_short (x :: u) (by simp; omega)]
      by_cases h2 : 4 ≤ (u ++ v).length
      · refine ⟨kmer_roll ((x :: (u ++ v)).take 5) :: c, ?_⟩
        rw [List.cons_append, kmers_cons x (u ++ v) h2, hc,
          kmers_of_short u (by omega)]
        simp
      · refine ⟨[], ?_⟩
        rw [kmers_of_short _ (by simp at h2 ⊢; omega), kmers_of_short v (by simp at h2; omega)]
        rfl

/-- The last k-mer of a string is its rolling index. -/
theorem kmers_snoc (u : List Nat) (c : Nat) (h : 4 ≤ u.length) :
    kmers (u ++ [c]) = kmers u ++ [kmer_roll (u ++ [c])] := by
  induction u with
  | nil => simp at h
  | cons x u ih =>
    by_cases h4 : 4 ≤ u.length
    · rw [List.cons_append, kmers_cons x (u ++ [c]) (by simp; omega), kmers_cons x u h4, ih h4]
      have h1 : (x :: (u ++ [c])).take 5 = (x :: u).take 5 := by
        rw [← List.cons_append, List.take_append_of_le_length (by simp; omega)]
      have h2 : kmer_roll (x :: (u ++ [c])) = kmer_roll (u ++ [c]) :=
        kmer_roll_append [x] (u ++ [c]) (by simp; omega)
      rw [h1, h2]; simp
    · have hu : u.length = 3 := by simp at h; omega
      rw [List.cons_append, kmers_cons x (u ++ [c]) (by simp; omega),
        kmers_of_short (x :: u) (by simp; omega), kmers_of_short (u ++ [c]) (by simp; omega)]
      have h1 : (x :: (u ++ [c])).take 5 = x :: (u ++ [c]) :=
        List.take_of_length_le (by simp; omega)
      rw [h1]; simp

/-- The k-mers of a window are among the k-mers of the string around it. -/
theorem kmers_le_of_part (w x : List Nat) (h : w <:+: x) :
    (kmers w : Multiset Nat) ≤ (kmers x : Multiset Nat) := by
  obtain ⟨s, t, rfl⟩ := h
  obtain ⟨c1, h1⟩ := kmers_append (s ++ w) t
  obtain ⟨c2, h2⟩ := kmers_append s w
  rw [h1, h2, Multiset.coe_le]
  apply List.Sublist.subperm
  simp only [List.append_assoc]
  exact List.sublist_append_of_sublist_right
    (List.sublist_append_of_sublist_right (List.sublist_append_left _ _))

/-- Adding `c` to a multiset raises its intersection with `b` by at most the
size of `c`. -/
theorem card_inter_le_of_le_add (x y c b : Multiset Nat) (h : x ≤ y + c) :
    Multiset.card (x ∩ b) ≤ Multiset.card (y ∩ b) + Multiset.card c := by
  rw [← Multiset.card_add]
  apply Multiset.card_le_card
  rw [Multiset.le_iff_count]
  intro a
  have := Multiset.le_iff_count.mp h a
  simp only [Multiset.count_inter, Multiset.count_add] at this ⊢
  omega

/-- The intersection after one more element. -/
theorem card_cons_inter (k : Nat) (s b : Multiset Nat) :
    Multiset.card ((k ::ₘ s) ∩ b) =
      Multiset.card (s ∩ b) + (if Multiset.count k s < Multiset.count k b then 1 else 0) := by
  split_ifs with h
  · have : (k ::ₘ s) ∩ b = k ::ₘ (s ∩ b) := by
      ext a
      by_cases ha : a = k
      · subst ha
        simp only [Multiset.count_inter, Multiset.count_cons_self]
        omega
      · simp only [Multiset.count_inter, Multiset.count_cons_of_ne ha]
    rw [this, Multiset.card_cons]
  · have : (k ::ₘ s) ∩ b = s ∩ b := by
      ext a
      by_cases ha : a = k
      · subst ha
        simp only [Multiset.count_inter, Multiset.count_cons_self]
        omega
      · simp only [Multiset.count_inter, Multiset.count_cons_of_ne ha]
    rw [this, Nat.add_zero]

/-- A window that extends `y` by the k-mers `c` scores at most `c.length`
more. -/
theorem kmer_score_le_of_kmers (pattern x y c : List Nat)
    (h : (kmers x : Multiset Nat) ≤ (kmers y : Multiset Nat) + (c : Multiset Nat)) :
    kmer_score pattern x ≤ kmer_score pattern y + c.length := by
  have := card_inter_le_of_le_add _ _ _ (kmers pattern : Multiset Nat) h
  simpa [kmer_score] using this

/-- The score is monotone in the window. -/
theorem kmer_score_mono (pattern w x : List Nat) (h : w <:+: x) :
    kmer_score pattern w ≤ kmer_score pattern x := by
  have := kmer_score_le_of_kmers pattern w x [] (by simpa using kmers_le_of_part w x h)
  simpa using this

/-- Appending `v` to a window raises its score by at most `v.length`. -/
theorem kmer_score_append_le (pattern u v : List Nat) :
    kmer_score pattern (u ++ v) ≤ kmer_score pattern u + v.length := by
  obtain ⟨c, hc⟩ := kmers_append u v
  have hl := congrArg List.length hc
  simp only [kmers_length, List.length_append] at hl
  have := kmer_score_le_of_kmers pattern (u ++ v) u (c ++ kmers v)
    (by rw [hc, Multiset.coe_add, List.append_assoc])
  rw [List.length_append, kmers_length] at this
  omega

/-- Prepending `u` to a window raises its score by at most `u.length`. -/
theorem kmer_score_prepend_le (pattern u v : List Nat) :
    kmer_score pattern (u ++ v) ≤ kmer_score pattern v + u.length := by
  obtain ⟨c, hc⟩ := kmers_append u v
  have hl := congrArg List.length hc
  simp only [kmers_length, List.length_append] at hl
  have := kmer_score_le_of_kmers pattern (u ++ v) v (kmers u ++ c)
    (by rw [hc]; simp only [← Multiset.coe_add]; exact le_of_eq (add_comm _ _))
  rw [List.length_append, kmers_length] at this
  omega

/-- The pattern shares all of its k-mers with itself. -/
theorem kmer_score_self (pattern : List Nat) :
    kmer_score pattern pattern = pattern.length - 4 := by
  unfold kmer_score
  rw [← Multiset.inf_eq_inter, inf_idem, Multiset.coe_card, kmers_length]

/-- A window of a concatenation lies in the first part, in the second part, or
is a suffix of the first part followed by a prefix of the second. -/
theorem infix_append_cases {α : Type} (w a c : List α) (h : w <:+: a ++ c) :
    w <:+: a ∨ w <:+: c ∨ ∃ a2 c1, w = a2 ++ c1 ∧ a2 <:+ a ∧ c1 <+: c := by
  obtain ⟨s, t, hst⟩ := h
  rcases List.append_eq_append_iff.mp hst with ⟨a', ha, _⟩ | ⟨c', hc, hcc⟩
  · exact Or.inl ⟨s, a', ha.symm⟩
  · rcases List.append_eq_append_iff.mp hc with ⟨a'', ha, hw⟩ | ⟨c'', hs, hw⟩
    · exact Or.inr (Or.inr ⟨a'', c', hw, ⟨s, ha.symm⟩, ⟨t, hcc.symm⟩⟩)
    · refine Or.inr (Or.inl ⟨c'', t, ?_⟩)
      rw [hcc, hw]

/-- A prefix of a concatenation is a prefix of the first part, or the first
part followed by a prefix of the second. -/
theorem prefix_append_cases {α : Type} (w m b : List α) (h : w <+: m ++ b) :
    w <+: m ∨ ∃ b1, w = m ++ b1 ∧ b1 <+: b := by
  obtain ⟨t, ht⟩ := h
  rcases List.append_eq_append_iff.mp ht with ⟨a', ha, _⟩ | ⟨c', hc, hcc⟩
  · exact Or.inl ⟨a', ha.symm⟩
  · exact Or.inr ⟨c', hc, ⟨t, hcc.symm⟩⟩

/-- Replacing the middle part `m` of a window by `m'` costs at most four
k-mers and the characters of `m`. -/
theorem kmer_score_replace_le (pattern a m m' b : List Nat) :
    kmer_score pattern (a ++ m ++ b) ≤ kmer_score pattern (a ++ m' ++ b) + (4 + m.length) := by
  obtain ⟨c1, h1⟩ := kmers_append a (m ++ b)
  obtain ⟨c2, h2⟩ := kmers_append m b
  obtain ⟨d1, g1⟩ := kmers_append a (m' ++ b)
  obtain ⟨d2, g2⟩ := kmers_append m' b
  rw [h2] at h1
  rw [g2] at g1
  have hl := congrArg List.length h1
  simp only [kmers_length, List.length_append] at hl
  have := kmer_score_le_of_kmers pattern (a ++ m ++ b) (a ++ m' ++ b) (c1 ++ kmers m ++ c2) (by
    rw [List.append_assoc, List.append_assoc, h1, g1]
    simp only [← Multiset.coe_add]
    rw [Multiset.le_iff_count]
    intro x
    simp only [Multiset.count_add]
    omega)
  simp only [List.length_append, kmers_length] at this
  omega

/-- One edit (the replacement of at most one character by at most one
character) lowers the best window score by at most five. -/
theorem kmer_window_edit (pattern : List Nat) (L : Nat) (a m m' b : List Nat) (n : Nat)
    (hm : m.length ≤ 1) (hm' : m'.length ≤ 1)
    (h : kmer_window pattern L (a ++ m ++ b) n) :
    kmer_window pattern L (a ++ m' ++ b) (n - 5) := by
  obtain ⟨w, hw, hwl, hn⟩ := h
  -- it suffices to find a window of the edited string that scores at most five less
  suffices hs : ∃ w', w' <:+: a ++ m' ++ b ∧ w'.length ≤ L ∧
      kmer_score pattern w ≤ kmer_score pattern w' + 5 by
    obtain ⟨w', h1, h2, h3⟩ := hs
    exact ⟨w', h1, h2, by omega⟩
  rw [List.append_assoc] at hw
  rcases infix_append_cases w a (m ++ b) hw with hA | hMB | ⟨a2, c1, rfl, ha2, hc1⟩
  · exact ⟨w, hA.trans ⟨[], m' ++ b, by simp⟩, hwl, by omega⟩
  · rcases infix_append_cases w m b hMB with hM | hB | ⟨m2, b1, rfl, hm2, hb1⟩
    · refine ⟨[], List.nil_infix, by simp, ?_⟩
      have h1 := kmer_score_mono pattern w m hM
      have h2 := kmer_score_prepend_le pattern m []
      simp only [List.append_nil] at h2
      omega
    · exact ⟨w, hB.trans ⟨a ++ m', [], by simp⟩, hwl, by omega⟩
    · refine ⟨b1, hb1.isInfix.trans ⟨a ++ m', [], by simp⟩, ?_, ?_⟩
      · simp only [List.length_append] at hwl; omega
      · have := kmer_score_prepend_le pattern m2 b1
        have := hm2.length_le
        omega
  · rcases prefix_append_cases c1 m b hc1 with hM | ⟨b1, rfl, hb1⟩
    · refine ⟨a2, ha2.isInfix.trans ⟨[], m' ++ b, by simp⟩, ?_, ?_⟩
      · simp only [List.length_append] at hwl; omega
      · have := kmer_score_append_le pattern a2 c1
        have := hM.length_le
        omega
    · obtain ⟨a1, rfl⟩ := ha2
      obtain ⟨b2, rfl⟩ := hb1
      have hrep := kmer_score_replace_le pattern a2 m m' b1
      have e : a2 ++ (m ++ b1) = a2 ++ m ++ b1 := (List.append_assoc _ _ _).symm
      rw [e] at hwl ⊢
      by_cases hlen : (a2 ++ m' ++ b1).length ≤ L
      · refine ⟨a2 ++ m' ++ b1, ⟨a1, b2, by simp⟩, hlen, ?_⟩
        omega
      · -- the edited window is one character too long: drop its first character
        have hwl' := hwl
        simp only [List.length_append] at hlen hwl'
        have hm0 : m.length = 0 := by omega
        match hx : a2 ++ m' ++ b1 with
        | [] =>
          have := congrArg List.length hx
          simp only [List.length_append, List.length_nil] at this
          omega
        | x :: rest =>
          have hxl := congrArg List.length hx
          simp only [List.length_append, List.length_cons] at hxl
          refine ⟨rest, ?_, by omega, ?_⟩
          · have : rest <:+: a2 ++ m' ++ b1 := by rw [hx]; exact ⟨[x], [], by simp⟩
            exact this.trans ⟨a1, b2, by simp⟩
          · have := kmer_score_prepend_le pattern [x] rest
            rw [hx] at hrep
            simp only [List.singleton_append, List.length_singleton] at this
            omega

/-- A window that scores `n` scores every smaller number too. -/
theorem kmer_window_mono (pattern : List Nat) (L : Nat) (x : List Nat) (n n' : Nat)
    (hn : n' ≤ n) (h : kmer_window pattern L x n) : kmer_window pattern L x n' := by
  obtain ⟨w, h1, h2, h3⟩ := h
  exact ⟨w, h1, h2, by omega⟩

/-- A window of a part is a window of the whole. -/
theorem kmer_window_of_part (pattern : List Nat) (L : Nat) (x y : List Nat) (n : Nat)
    (hxy : x <:+: y) (h : kmer_window pattern L x n) : kmer_window pattern L y n := by
  obtain ⟨w, h1, h2, h3⟩ := h
  exact ⟨w, h1.trans hxy, h2, h3⟩

/-- The edit distance of two strings that start with a character each. -/
theorem edit_distance_cons_cons (x : Nat) (xs : List Nat) (y : Nat) (ys : List Nat) :
    edit_distance (x :: xs) (y :: ys) =
      min (1 + edit_distance xs (y :: ys))
        (min (1 + edit_distance (x :: xs) ys)
          ((if x = y then 0 else 1) + edit_distance xs ys)) := by
  unfold edit_distance
  rw [levenshtein_cons_cons]
  rfl

/-- The edit distance to the empty string. -/
theorem edit_distance_cons_nil (x : Nat) (xs : List Nat) :
    edit_distance (x :: xs) [] = 1 + edit_distance xs [] := by
  unfold edit_distance
  rw [levenshtein_cons_nil]
  rfl

/-- The q-gram lemma for windows: the best window score of at most `L`
characters drops by at most five per unit of edit distance. -/
theorem kmer_window_edit_distance (pattern : List Nat) (L : Nat) (xs : List Nat) :
    ∀ (ys a : List Nat) (n : Nat), kmer_window pattern L (a ++ xs) n →
      kmer_window pattern L (a ++ ys) (n - 5 * edit_distance xs ys) := by
  induction xs with
  | nil =>
    intro ys a n h
    rw [List.append_nil] at h
    exact kmer_window_mono pattern L _ n _ (Nat.sub_le _ _)
      (kmer_window_of_part pattern L a _ n ⟨[], ys, by simp⟩ h)
  | cons x xs ihx =>
    intro ys
    induction ys with
    | nil =>
      intro a n h
      have h1 := kmer_window_edit pattern L a [x] [] xs n (by simp) (by simp)
        (by simpa using h)
      have h2 := ihx [] a (n - 5) (by simpa using h1)
      rw [edit_distance_cons_nil]
      exact kmer_window_mono pattern L _ _ _ (by omega) h2
    | cons y ys ihy =>
      intro a n h
      -- delete `x`
      have g1 : kmer_window pattern L (a ++ y :: ys)
          (n - 5 * (1 + edit_distance xs (y :: ys))) := by
        have h1 := kmer_window_edit pattern L a [x] [] xs n (by simp) (by simp)
          (by simpa using h)
        have h2 := ihx (y :: ys) a (n - 5) (by simpa using h1)
        exact kmer_window_mono pattern L _ _ _ (by omega) h2
      -- insert `y`
      have g2 : kmer_window pattern L (a ++ y :: ys)
          (n - 5 * (1 + edit_distance (x :: xs) ys)) := by
        have h1 := ihy a n h
        have h2 := kmer_window_edit pattern L a [] [y] ys _ (by simp) (by simp)
          (by simpa using h1)
        have h3 : kmer_window pattern L (a ++ y :: ys)
            (n - 5 * edit_distance (x :: xs) ys - 5) := by simpa using h2
        exact kmer_window_mono pattern L _ _ _ (by omega) h3
      -- keep or substitute `x`
      have g3 : kmer_window pattern L (a ++ y :: ys)
          (n - 5 * ((if x = y then 0 else 1) + edit_distance xs ys)) := by
        by_cases hxy : x = y
        · subst hxy
          have h2 := ihx ys (a ++ [x]) n (by simpa using h)
          simpa using h2
        · have h1 := kmer_window_edit pattern L a [x] [y] xs n (by simp) (by simp)
            (by simpa using h)
          have h2 := ihx ys (a ++ [y]) (n - 5) (by simpa using h1)
          have h3 : kmer_window pattern L (a ++ y :: ys)
              (n - 5 - 5 * edit_distance xs ys) := by simpa using h2
          rw [if_neg hxy]
          exact kmer_window_mono pattern L _ _ _ (by omega) h3
      rw [edit_distance_cons_cons]
      rcases min_choice (1 + edit_distance xs (y :: ys))
        (min (1 + edit_distance (x :: xs) ys)
          ((if x = y then 0 else 1) + edit_distance xs ys)) with h1 | h1
      · rw [h1]; exact g1
      · rw [h1]
        rcases min_choice (1 + edit_distance (x :: xs) ys)
          ((if x = y then 0 else 1) + edit_distance xs ys) with h2 | h2
        · rw [h2]; exact g2
        · rw [h2]; exact g3

/-- The q-gram lemma: if a substring of the text is within edit distance `e`
of the pattern, then a window of at most `pattern.length` characters of the
text shares at least `pattern.length - 4 - 5 * e` k-mers with the pattern. -/
theorem kmer_window_of_edit_distance (pattern text s : List Nat) (e : Nat)
    (hs : s <:+: text) (he : edit_distance pattern s ≤ e) :
    kmer_window pattern pattern.length text (pattern.length - 4 - 5 * e) := by
  have h0 : kmer_window pattern pattern.length ([] ++ pattern) (pattern.length - 4) :=
    ⟨pattern, List.infix_refl _, le_rfl, by rw [kmer_score_self]⟩
  have h1 := kmer_window_edit_distance pattern pattern.length pattern s [] _ h0
  have h2 := kmer_window_of_part pattern pattern.length _ text _ (by simpa using hs) h1
  refine kmer_window_mono pattern pattern.length text _ _ ?_ h2
  have : 5 * edit_distance pattern s ≤ 5 * e := Nat.mul_le_mul_left 5 he
  omega

/-- The "Initial Fill" loop of `kmer_counting_compile` rolls the index over the
characters it reads. -/
theorem kmer_counting_compile_fill_spec (pattern : List Nat) :
    ∀ (n : Nat) (pre post : List Nat), pattern = pre ++ post → n ≤ post.length →
      kmer_counting_compile_fill pattern n pre.length (kmer_roll pre) =
        kmer_roll (pre ++ post.take n) := by
  intro n
  induction n with
  | zero => intro pre post _ _; simp [kmer_counting_compile_fill]
  | succ n ih =>
    intro pre post hp hn
    match post, hn with
    | c :: post', hn =>
      have h := ih (pre ++ [c]) post' (by simp [hp]) (by simpa using hn)
      simp only [kmer_counting_compile_fill, hp, getD_append_cons]
      rw [kmer_roll_snoc, List.length_append, List.length_singleton] at h
      rw [← hp, h]
      simp

/-- The number of k-mers with a given index is at most the number of k-mers. -/
theorem count_kmers_le (w : List Nat) (k : Nat) : (kmers w).count k ≤ w.length - 4 := by
  rw [← kmers_length]; exact List.count_le_length _ _

/-- The "Compile all k-mers" loop of `kmer_counting_compile` counts the k-mers
it passes, as long as no 16-bit counter wraps. -/
theorem kmer_counting_compile_count_spec (pattern : List Nat) :
    ∀ (n : Nat) (pre post : List Nat) (count : Nat → Nat), pattern = pre ++ post →
      4 ≤ pre.length → n ≤ post.length → pre.length + n < 65540 →
      (∀ k, count k = (kmers pre).count k) →
      ∀ k, kmer_counting_compile_count pattern n pre.length (kmer_roll pre) count k =
        (kmers (pre ++ post.take n)).count k := by
  intro n
  induction n with
  | zero => intro pre post count _ _ _ _ hc k; simp [kmer_counting_compile_count, hc]
  | succ n ih =>
    intro pre post count hp h4 hn hlen hc k
    match post, hn with
    | c :: post', hn =>
      have hk := count_kmers_le pre (kmer_roll (pre ++ [c]))
      have h := ih (pre ++ [c]) post'
        (Function.update count (kmer_roll (pre ++ [c]))
          (inc16 (count (kmer_roll (pre ++ [c])))))
        (by simp [hp]) (by simp; omega) (by simpa using hn) (by simp; omega)
        (by
          intro k
          rw [kmers_snoc pre c h4, List.count_append]
          by_cases hkk : k = kmer_roll (pre ++ [c])
          · subst hkk
            rw [Function.update_same, hc]
            simp only [inc16, U16, List.count_singleton_self]
            omega
          · rw [Function.update_noteq hkk, hc, List.count_singleton]
            simp [Ne.symm hkk]) k
      simp only [kmer_counting_compile_count, hp, getD_append_cons]
      rw [kmer_roll_snoc, List.length_append, List.length_singleton] at h
      rw [← hp, h]
      simp

/-- The histogram that `kmer_counting_compile` builds for an enabled filter is
the k-mer histogram of the pattern, provided the pattern is short enough for
the 16-bit counters. -/
theorem kmer_counting_compile_spec (pattern : List Nat) (nn ec : Nat)
    (kmer_counting : kmer_counting_t)
    (hc : kmer_counting_compile pattern pattern.length nn ec = some kmer_counting)
    (hen : kmer_counting.enabled = true) (hL : pattern.length < 65540) :
    5 ≤ pattern.length ∧ kmer_counting.pattern_length = pattern.length ∧
      kmer_counting.kmer_count_pattern = kmer_count_of pattern := by
  unfold kmer_counting_compile at hc
  split_ifs at hc with h1 h2 h3
  · simp only [Option.some.injEq] at hc; subst hc; simp [kmer_counting_disabled] at hen
  · simp only [Option.some.injEq] at hc; subst hc; simp [kmer_counting_disabled] at hen
  · simp only [Option.some.injEq] at hc
    subst hc
    simp only [KMER_COUNTING_LENGTH, not_or, not_lt] at h1
    refine ⟨h1.2, rfl, ?_⟩
    funext k
    simp only [KMER_COUNTING_LENGTH, kmer_count_of]
    have hsplit : pattern = pattern.take 4 ++ pattern.drop 4 := (List.take_append_drop 4 _).symm
    have hl4 : (pattern.take 4).length = 4 := by rw [List.length_take]; omega
    have hfill := kmer_counting_compile_fill_spec pattern 4 [] pattern rfl (by omega)
    simp only [List.length_nil, List.nil_append] at hfill
    have hroll0 : kmer_roll [] = 0 := rfl
    rw [hroll0] at hfill
    have hcount := kmer_counting_compile_count_spec pattern (pattern.length - 4)
      (pattern.take 4) (pattern.drop 4) (fun _ => 0) hsplit (by omega)
      (by simp) (by omega)
      (by intro k; rw [kmers_of_short _ (by omega)]; rfl) k
    rw [hl4] at hcount
    have e1 : (5 - 1 : Nat) = 4 := rfl
    rw [e1, hfill, hcount]
    have : pattern.take 4 ++ (pattern.drop 4).take (pattern.length - 4) = pattern := by
      rw [List.take_of_length_le (show (pattern.drop 4).length ≤ pattern.length - 4 by simp),
        List.take_append_drop]
    rw [this]

/-- The score of a window is at most its number of k-mers. -/
theorem kmer_score_le (pattern w : List Nat) : kmer_score pattern w ≤ w.length - 4 := by
  unfold kmer_score
  have := Multiset.card_le_card
    (Multiset.inter_le_left (kmers w : Multiset Nat) (kmers pattern : Multiset Nat))
  rw [Multiset.coe_card, kmers_length] at this
  exact this

/-- The score after one more k-mer at the front of the window. -/
theorem kmer_score_cons (pattern : List Nat) (x : Nat) (xs : List Nat) (h : 4 ≤ xs.length) :
    kmer_score pattern (x :: xs) = kmer_score pattern xs +
      (if (kmers xs).count (kmer_roll ((x :: xs).take 5)) <
          (kmers pattern).count (kmer_roll ((x :: xs).take 5)) then 1 else 0) := by
  unfold kmer_score
  rw [kmers_cons x xs h, ← Multiset.cons_coe, card_cons_inter]
  simp only [Multiset.coe_count]

/-- The score after one more k-mer at the end of the window. -/
theorem kmer_score_snoc (pattern : List Nat) (u : List Nat) (c : Nat) (h : 4 ≤ u.length) :
    kmer_score pattern (u ++ [c]) = kmer_score pattern u +
      (if (kmers u).count (kmer_roll (u ++ [c])) <
          (kmers pattern).count (kmer_roll (u ++ [c])) then 1 else 0) := by
  unfold kmer_score
  rw [kmers_snoc u c h]
  have : ((kmers u ++ [kmer_roll (u ++ [c])] : List Nat) : Multiset Nat) =
      kmer_roll (u ++ [c]) ::ₘ (kmers u : Multiset Nat) := by
    rw [Multiset.cons_coe, Multiset.coe_eq_coe]
    exact List.perm_append_singleton _ _
  rw [this, card_cons_inter]
  simp only [Multiset.coe_count]

/-- The "End (Increment kmer-count)" step adds the k-mer that ends at `end_pos`
to the window. -/
theorem kmer_counting_filter_increment_spec (pattern text pre post w : List Nat) (c total : Nat)
    (s : kmer_filter_state) (ht : text = pre ++ c :: post)
    (hw : w <:+ pre) (hw4 : 4 ≤ w.length) (hwl : w.length + 1 < 65540)
    (hend : kmer_filter_end total pre s) (hcnt : kmer_filter_counts pattern w s) :
    (kmer_counting_filter_increment (kmer_count_of pattern) text s).end_pos = s.end_pos ∧
      (kmer_counting_filter_increment (kmer_count_of pattern) text s).kmers_left =
        s.kmers_left ∧
      (kmer_counting_filter_increment (kmer_count_of pattern) text s).kmer_idx_end =
        kmer_roll (pre ++ [c]) ∧
      kmer_filter_counts pattern (w ++ [c])
        (kmer_counting_filter_increment (kmer_count_of pattern) text s) ∧
      (kmer_counting_filter_increment (kmer_count_of pattern) text s).begin_pos = s.begin_pos ∧
      (kmer_counting_filter_increment (kmer_count_of pattern) text s).kmer_idx_begin =
        s.kmer_idx_begin := by
  obtain ⟨he1, he2, he3⟩ := hend
  obtain ⟨hc1, hc2⟩ := hcnt
  have hidx : KMER_COUNTING_ADD_INDEX__MASK s.kmer_idx_end (text.getD s.end_pos 0) =
      kmer_roll (pre ++ [c]) := by
    rw [he1, he2, ht, getD_append_cons, kmer_roll_snoc]
  have hloc : kmer_roll (pre ++ [c]) = kmer_roll (w ++ [c]) := by
    obtain ⟨a, rfl⟩ := hw
    rw [List.append_assoc]
    exact kmer_roll_append a (w ++ [c]) (by simp; omega)
  have hsc := kmer_score_snoc pattern w c hw4
  have hle := kmer_score_le pattern w
  have hcw := count_kmers_le w (kmer_roll (w ++ [c]))
  have hform : kmer_counting_filter_increment (kmer_count_of pattern) text s =
      if 0 < (kmers pattern).count (kmer_roll (pre ++ [c])) then
        { s with
          kmer_idx_end := kmer_roll (pre ++ [c])
          kmer_count_text := Function.update s.kmer_count_text (kmer_roll (pre ++ [c]))
            (inc16 (s.kmer_count_text (kmer_roll (pre ++ [c]))))
          kmers_in_text :=
            if s.kmer_count_text (kmer_roll (pre ++ [c])) <
                (kmers pattern).count (kmer_roll (pre ++ [c]))
            then (s.kmers_in_text + 1) % U64 else s.kmers_in_text }
      else { s with kmer_idx_end := kmer_roll (pre ++ [c]) } := by
    unfold kmer_counting_filter_increment
    simp only [hidx, kmer_count_of, gt_iff_lt]
  by_cases hp : 0 < (kmers pattern).count (kmer_roll (pre ++ [c]))
  · rw [hform, if_pos hp]
    refine ⟨rfl, rfl, rfl, ⟨?_, ?_⟩, rfl, rfl⟩
    · show (if s.kmer_count_text (kmer_roll (pre ++ [c])) <
          (kmers pattern).count (kmer_roll (pre ++ [c]))
        then (s.kmers_in_text + 1) % U64 else s.kmers_in_text) = _
      rw [hc2, if_pos hp, hsc, hc1, ← hloc]
      split_ifs
      · simp only [U64]; omega
      · rfl
    · intro k
      show Function.update s.kmer_count_text (kmer_roll (pre ++ [c]))
        (inc16 (s.kmer_count_text (kmer_roll (pre ++ [c])))) k = _
      by_cases hk : k = kmer_roll (pre ++ [c])
      · subst hk
        rw [Function.update_same, hc2, if_pos hp, if_pos hp, kmers_snoc w c hw4,
          List.count_append, ← hloc, List.count_singleton_self]
        rw [← hloc] at hcw
        simp only [inc16, U16]; omega
      · rw [Function.update_noteq hk, hc2, kmers_snoc w c hw4, List.count_append, ← hloc,
          List.count_singleton]
        simp [Ne.symm hk]
  · rw [hform, if_neg hp]
    refine ⟨rfl, rfl, rfl, ⟨?_, ?_⟩, rfl, rfl⟩
    · show s.kmers_in_text = _
      rw [hsc, hc1, ← hloc, if_neg (by omega)]
      rfl
    · intro k
      show s.kmer_count_text k = _
      rw [hc2]
      by_cases hk : 0 < (kmers pattern).count k
      · have hne : k ≠ kmer_roll (pre ++ [c]) := fun h => hp (h ▸ hk)
        rw [if_pos hk, if_pos hk, kmers_snoc w c hw4, List.count_append, ← hloc,
          List.count_singleton]
        simp [Ne.symm hne]
      · rw [if_neg hk, if_neg hk]

/-- The "Begin (Decrement kmer-count)" step removes the first k-mer of the
window. -/
theorem kmer_counting_filter_decrement_spec (pattern text a wt post : List Nat) (w0 : Nat)
    (s : kmer_filter_state) (ht : text = a ++ w0 :: wt ++ post)
    (hw4 : 4 ≤ wt.length) (hwl : wt.length + 1 < 65540)
    (hbeg : kmer_filter_begin a (w0 :: wt) s)
    (hcnt : kmer_filter_counts pattern (w0 :: wt) s) :
    (kmer_counting_filter_decrement (kmer_count_of pattern) text s).end_pos = s.end_pos ∧
      (kmer_counting_filter_decrement (kmer_count_of pattern) text s).kmers_left =
        s.kmers_left ∧
      (kmer_counting_filter_decrement (kmer_count_of pattern) text s).kmer_idx_end =
        s.kmer_idx_end ∧
      kmer_filter_counts pattern wt
        (kmer_counting_filter_decrement (kmer_count_of pattern) text s) ∧
      (kmer_counting_filter_decrement (kmer_count_of pattern) text s).begin_pos =
        s.begin_pos ∧
      (kmer_counting_filter_decrement (kmer_count_of pattern) text s).kmer_idx_begin =
        kmer_roll (a ++ (w0 :: wt).take 5) := by
  obtain ⟨hb1, hb2⟩ := hbeg
  obtain ⟨hc1, hc2⟩ := hcnt
  match wt, hw4 with
  | w1 :: w2 :: w3 :: w4 :: wr, _ =>
    have hget : text.getD s.begin_pos 0 = w4 := by
      have e : text = (a ++ [w0, w1, w2, w3]) ++ w4 :: (wr ++ post) := by simp [ht]
      have e2 : s.begin_pos = (a ++ [w0, w1, w2, w3]).length := by simp [hb1]
      rw [e2, e, getD_append_cons]
    have hidx : KMER_COUNTING_ADD_INDEX__MASK s.kmer_idx_begin (text.getD s.begin_pos 0) =
        kmer_roll (a ++ (w0 :: w1 :: w2 :: w3 :: w4 :: wr).take 5) := by
      have e : a ++ (w0 :: w1 :: w2 :: w3 :: w4 :: wr).take 5 =
          (a ++ (w0 :: w1 :: w2 :: w3 :: w4 :: wr).take 4) ++ [w4] := by simp
      rw [hget, e, kmer_roll_snoc]
      exact KMER_COUNTING_ADD_INDEX__MASK_congr _ _ _ hb2
    have hloc : kmer_roll (a ++ (w0 :: w1 :: w2 :: w3 :: w4 :: wr).take 5) =
        kmer_roll ((w0 :: w1 :: w2 :: w3 :: w4 :: wr).take 5) :=
      kmer_roll_append a _ (by simp)
    have hsc := kmer_score_cons pattern w0 (w1 :: w2 :: w3 :: w4 :: wr) (by simp)
    have hk := kmers_cons w0 (w1 :: w2 :: w3 :: w4 :: wr) (by simp)
    have hle := kmer_score_le pattern (w0 :: w1 :: w2 :: w3 :: w4 :: wr)
    have hcw := count_kmers_le (w0 :: w1 :: w2 :: w3 :: w4 :: wr)
      (kmer_roll ((w0 :: w1 :: w2 :: w3 :: w4 :: wr).take 5))
    generalize hk0 : kmer_roll ((w0 :: w1 :: w2 :: w3 :: w4 :: wr).take 5) = k0 at *
    generalize hwt : w1 :: w2 :: w3 :: w4 :: wr = wt at *
    have hform : kmer_counting_filter_decrement (kmer_count_of pattern) text s =
        if 0 < (kmers pattern).count k0 then
          { s with
            kmer_idx_begin := k0
            kmer_count_text := Function.update s.kmer_count_text k0
              (dec16 (s.kmer_count_text k0))
            kmers_in_text :=
              if s.kmer_count_text k0 ≤ (kmers pattern).count k0
              then dec64 s.kmers_in_text else s.kmers_in_text }
        else { s with kmer_idx_begin := k0 } := by
      unfold kmer_counting_filter_decrement
      simp only [hidx, hloc, kmer_count_of, gt_iff_lt]
    by_cases hp : 0 < (kmers pattern).count k0
    · rw [hform, if_pos hp]
      refine ⟨rfl, rfl, rfl, ⟨?_, ?_⟩, rfl, hloc.symm⟩
      · show (if s.kmer_count_text k0 ≤ (kmers pattern).count k0
          then dec64 s.kmers_in_text else s.kmers_in_text) = _
        rw [hc2, if_pos hp, hc1, hk, List.count_cons_self]
        simp only [List.length_cons] at hle
        by_cases hlt : (kmers wt).count k0 < (kmers pattern).count k0
        · rw [if_pos hlt] at hsc
          rw [if_pos (by omega)]
          simp only [dec64, sub64, U64]; omega
        · rw [if_neg hlt] at hsc
          rw [if_neg (by omega)]
          omega
      · intro k
        show Function.update s.kmer_count_text k0 (dec16 (s.kmer_count_text k0)) k = _
        by_cases hkk : k = k0
        · subst hkk
          rw [Function.update_same, hc2, if_pos hp, if_pos hp, hk, List.count_cons_self]
          rw [hk, List.count_cons_self] at hcw
          simp only [List.length_cons] at hcw hwl
          simp only [dec16, U16]; omega
        · rw [Function.update_noteq hkk, hc2, hk, List.count_cons_of_ne hkk]
    · rw [hform, if_neg hp]
      refine ⟨rfl, rfl, rfl, ⟨?_, ?_⟩, rfl, hloc.symm⟩
      · show s.kmers_in_text = _
        rw [hc1, hsc, if_neg (by omega)]
        rfl
      · intro k
        show s.kmer_count_text k = _
        rw [hc2]
        by_cases hkk : 0 < (kmers pattern).count k
        · have hne : k ≠ k0 := fun h => hp (h ▸ hkk)
          rw [if_pos hkk, if_pos hkk, hk, List.count_cons_of_ne hne]
        · rw [if_neg hkk, if_neg hkk]

/-- A string whose score is below `required` has no window that reaches it. -/
theorem kmer_all_below_of_score (pattern : List Nat) (L required : Nat) (x : List Nat)
    (h : kmer_score pattern x < required) : kmer_all_below pattern L required x := by
  intro w hw _
  exact lt_of_le_of_lt (kmer_score_mono pattern w x hw) h

/-- The windows of `pre ++ [c]` are the windows of `pre` and the suffixes of
`pre ++ [c]`, and the latter lie in the current window `wn`. -/
theorem kmer_all_below_snoc (pattern : List Nat) (L required : Nat) (pre wn : List Nat)
    (c : Nat) (hbelow : kmer_all_below pattern L required pre) (hwn : wn <:+ pre ++ [c])
    (hfull : wn = pre ++ [c] ∨ L ≤ wn.length) (h : kmer_score pattern wn < required) :
    kmer_all_below pattern L required (pre ++ [c]) := by
  intro w hw hwl
  rcases infix_append_cases w pre [c] hw with h1 | h1 | ⟨a2, c1, rfl, ha2, hc1⟩
  · exact hbelow w h1 hwl
  · have := kmer_score_le pattern w
    have := h1.length_le
    simp only [List.length_singleton] at this
    omega
  · obtain ⟨t, ht⟩ := hc1
    match c1, ht with
    | [], _ =>
      rw [List.append_nil] at hwl ⊢
      exact hbelow a2 ha2.isInfix hwl
    | [d], ht =>
      have hd : d = c := by simpa using congrArg List.head? ht
      subst hd
      have hsuf : a2 ++ [d] <:+ pre ++ [d] := by
        obtain ⟨u, rfl⟩ := ha2
        exact ⟨u, by simp⟩
      have : a2 ++ [d] <:+ wn := by
        rcases hfull with rfl | hfull
        · exact hsuf
        · exact List.suffix_of_suffix_length_le hsuf hwn (by omega)
      exact lt_of_le_of_lt (kmer_score_mono pattern _ wn this.isInfix) h
    | d :: d2 :: ds, ht =>
      have := congrArg List.length ht
      simp at this

/-- Soundness of the quick abandon: when the current window `wn` is more than
`post.length` k-mers short, no window of the rest of the text can make up for
it. -/
theorem kmer_all_below_append (pattern : List Nat) (L required : Nat) (pre wn post : List Nat)
    (hbelow : kmer_all_below pattern L required pre) (hwn : wn <:+ pre)
    (hfull : wn = pre ∨ L ≤ wn.length)
    (h : kmer_score pattern wn + post.length < required) :
    kmer_all_below pattern L required (pre ++ post) := by
  intro w hw hwl
  rcases infix_append_cases w pre post hw with h1 | h1 | ⟨a2, c1, rfl, ha2, hc1⟩
  · exact hbelow w h1 hwl
  · have h2 := kmer_score_le pattern w
    have h3 := h1.length_le
    omega
  · have hsuf : a2 <:+ wn := by
      rcases hfull with rfl | hfull
      · exact ha2
      · exact List.suffix_of_suffix_length_le ha2 hwn (by
          simp only [List.length_append] at hwl; omega)
    have h2 := kmer_score_append_le pattern a2 c1
    have h3 := kmer_score_mono pattern a2 wn hsuf.isInfix
    have h4 := hc1.length_le
    omega

/-- Subtraction of `uint64_t` values that does not wrap. -/
theorem sub64_of_le (a b : Nat) (hb : b ≤ a) (ha : a < U64) : sub64 a b = a - b := by
  simp only [sub64, U64] at *
  omega

/-- The first counting loop of `kmer_counting_filter`: an early `return` is
either `0` or a sound rejection, and otherwise the counters describe the
prefix of the text that the loop has consumed. -/
theorem kmer_counting_filter_load_spec (pattern text : List Nat) (total required : Nat)
    (hL : pattern.length < 65540) (htot : text.length ≤ total) (htot64 : total < U64)
    (hreq : required < U64) :
    ∀ (n : Nat) (pre post : List Nat) (s : kmer_filter_state), text = pre ++ post →
      4 ≤ pre.length → n ≤ post.length → pre.length + n ≤ pattern.length →
      kmer_filter_end total pre s → kmer_filter_counts pattern pre s →
      match kmer_counting_filter_load (kmer_count_of pattern) text required n s with
      | Sum.inl r => r = 0 ∨ kmer_all_below pattern pattern.length required text
      | Sum.inr s' =>
        kmer_filter_end total (pre ++ post.take n) s' ∧
        kmer_filter_counts pattern (pre ++ post.take n) s' ∧
        s'.begin_pos = s.begin_pos ∧ s'.kmer_idx_begin = s.kmer_idx_begin := by
  intro n
  induction n with
  | zero =>
    intro pre post s _ _ _ _ hend hcnt
    simp only [kmer_counting_filter_load, List.take_zero, List.append_nil]
    exact ⟨hend, hcnt, trivial, trivial⟩
  | succ n ih =>
    intro pre post s ht h4 hn hlen hend hcnt
    match post, hn with
    | c :: post', hn =>
      obtain ⟨i1, i2, i3, i4, i5, i6⟩ := kmer_counting_filter_increment_spec pattern text pre
        post' pre c total s ht (List.suffix_refl _) h4 (by omega) hend hcnt
      obtain ⟨he1, he2, he3⟩ := hend
      have htl : text.length = pre.length + (post'.length + 1) := by
        rw [ht]; simp
      rw [kmer_counting_filter_load]
      by_cases h1 : (kmer_counting_filter_increment (kmer_count_of pattern) text s).kmers_in_text
          ≥ required
      · rw [if_pos h1]
        exact Or.inl rfl
      · rw [if_neg h1]
        rw [i4.1] at h1
        by_cases h2 : sub64 required
            (kmer_counting_filter_increment (kmer_count_of pattern) text s).kmers_in_text >
            (kmer_counting_filter_increment (kmer_count_of pattern) text s).kmers_left
        · rw [if_pos h2]
          right
          rw [i4.1, i2, sub64_of_le _ _ (by omega) hreq] at h2
          have hb := kmer_all_below_of_score pattern pattern.length required (pre ++ [c])
            (by omega)
          have := kmer_all_below_append pattern pattern.length required (pre ++ [c])
            (pre ++ [c]) post' hb (List.suffix_refl _) (Or.inl rfl) (by omega)
          rw [ht]
          simpa using this
        · rw [if_neg h2]
          have := ih (pre ++ [c]) post'
            { kmer_counting_filter_increment (kmer_count_of pattern) text s with
              end_pos := (kmer_counting_filter_increment (kmer_count_of pattern) text s).end_pos
                + 1
              kmers_left := dec64
                (kmer_counting_filter_increment (kmer_count_of pattern) text s).kmers_left }
            (by simp [ht]) (by simp; omega) (by simpa using hn) (by simp; omega)
            ⟨by simp [i1, he1], i3, by
              show dec64 _ + _ = _
              rw [i2]
              simp only [dec64, sub64, U64, List.length_append, List.length_singleton] at *
              omega⟩
            i4
          have e : pre ++ [c] ++ post'.take n = pre ++ (c :: post').take (n + 1) := by simp
          rw [e] at this
          rw [← i5, ← i6]
          exact this

/-- The sliding-window loop of `kmer_counting_filter` returns `0`, or rejects a
text in which no window of at most `pattern.length` characters reaches the
required score. -/
theorem kmer_counting_filter_slide_spec (pattern text : List Nat) (total required : Nat)
    (hL : pattern.length < 65540) (hL5 : 5 ≤ pattern.length) (htot : text.length ≤ total)
    (htot64 : total < U64) (hreq : required < U64) :
    ∀ (n : Nat) (a w post : List Nat) (s : kmer_filter_state), text = a ++ w ++ post →
      w.length = pattern.length → n = post.length →
      kmer_filter_end total (a ++ w) s → kmer_filter_begin a w s →
      kmer_filter_counts pattern w s →
      kmer_all_below pattern pattern.length required (a ++ w) →
      kmer_counting_filter_slide (kmer_count_of pattern) text required n s = 0 ∨
        kmer_all_below pattern pattern.length required text := by
  intro n
  induction n with
  | zero =>
    intro a w post s ht _ hn _ _ _ hbelow
    have : post = [] := List.eq_nil_of_length_eq_zero hn.symm
    subst this
    right
    rw [ht, List.append_nil]
    exact hbelow
  | succ n ih =>
    intro a w post s ht hwl hn hend hbeg hcnt hbelow
    cases post with
    | nil => simp at hn
    | cons c post' =>
    cases w with
    | nil => simp only [List.length_nil] at hwl; omega
    | cons w0 wt =>
      simp only [List.length_cons] at hwl hn
      obtain ⟨d1, d2, d3, d4, d5, d6⟩ := kmer_counting_filter_decrement_spec pattern text a wt
        (c :: post') w0 s ht (by omega) (by omega) hbeg hcnt
      obtain ⟨he1, he2, he3⟩ := hend
      have ht2 : text = (a ++ w0 :: wt) ++ c :: post' := ht
      obtain ⟨i1, i2, i3, i4, i5, i6⟩ := kmer_counting_filter_increment_spec pattern text
        (a ++ w0 :: wt) post' wt c total
        (kmer_counting_filter_decrement (kmer_count_of pattern) text s) ht2
        ⟨a ++ [w0], by simp⟩ (by omega) (by omega)
        ⟨by rw [d1, he1], by rw [d3, he2], by rw [d2, he3]⟩ d4
      have htl : text.length = (a ++ w0 :: wt).length + (post'.length + 1) := by
        rw [ht2]; simp only [List.length_append, List.length_cons]
      have hwn : wt ++ [c] <:+ (a ++ w0 :: wt) ++ [c] := ⟨a ++ [w0], by simp⟩
      have hwnl : (wt ++ [c]).length = pattern.length := by simp; omega
      rw [kmer_counting_filter_slide]
      generalize hsi : kmer_counting_filter_increment (kmer_count_of pattern) text
        (kmer_counting_filter_decrement (kmer_count_of pattern) text s) = si at *
      by_cases h1 : si.kmers_in_text ≥ required
      · rw [if_pos h1]
        exact Or.inl rfl
      · rw [if_neg h1]
        rw [i4.1] at h1
        have hb := kmer_all_below_snoc pattern pattern.length required (a ++ w0 :: wt)
          (wt ++ [c]) c hbelow hwn (Or.inr (by omega)) (by omega)
        by_cases h2 : sub64 required si.kmers_in_text > si.kmers_left
        · rw [if_pos h2]
          right
          rw [i4.1, i2, d2, sub64_of_le _ _ (by omega) hreq] at h2
          have := kmer_all_below_append pattern pattern.length required
            ((a ++ w0 :: wt) ++ [c]) (wt ++ [c]) post' hb hwn (Or.inr (by omega)) (by omega)
          rw [ht2]
          simpa using this
        · rw [if_neg h2]
          have e1 : (a ++ [w0]) ++ (wt ++ [c]) = (a ++ w0 :: wt) ++ [c] := by simp
          refine ih (a ++ [w0]) (wt ++ [c]) post' _ (by rw [ht2]; simp) hwnl (by omega)
            ⟨?_, ?_, ?_⟩ ⟨?_, ?_⟩ i4 (by rw [e1]; exact hb)
          · show si.end_pos + 1 = _
            rw [i1, d1, he1, e1]
            simp only [List.length_append, List.length_cons, List.length_nil]
          · show si.kmer_idx_end = _
            rw [i3, e1]
          · show dec64 si.kmers_left + _ = _
            rw [i2, d2, e1]
            simp only [dec64, sub64, U64, List.length_append, List.length_singleton,
              List.length_cons] at *
            omega
          · show si.begin_pos + 1 = _
            rw [i5, d5, hbeg.1]
            simp only [List.length_append, List.length_cons, List.length_nil]
          · intro i _
            show si.kmer_idx_begin.testBit i = _
            rw [i6, d6]
            have e2 : (a ++ [w0]) ++ (wt ++ [c]).take 4 = a ++ (w0 :: wt).take 5 := by
              rw [List.take_append_of_le_length (by omega)]
              simp
            rw [e2]

/-- Multiplication of `uint64_t` values that does not wrap. -/
theorem mul64_of_lt (a b : Nat) (h : a * b < U64) : mul64 a b = a * b := by
  simp only [mul64]
  exact Nat.mod_eq_of_lt h

/-- The "Initial fill" of the first count consumes the first four characters
of the text. -/
theorem kmer_counting_filter_fill_end_spec (pattern : List Nat) (t0 t1 t2 t3 : Nat)
    (rest : List Nat) (total : Nat) (h4 : 4 ≤ total) (h64 : total < U64) :
    kmer_filter_end total [t0, t1, t2, t3]
        (kmer_counting_filter_fill_end (t0 :: t1 :: t2 :: t3 :: rest) 4
          { end_pos := 0, kmer_idx_end := 0, begin_pos := 0, kmer_idx_begin := 0,
            kmers_in_text := 0, kmers_left := total, kmer_count_text := fun _ => 0 }) ∧
      kmer_filter_counts pattern [t0, t1, t2, t3]
        (kmer_counting_filter_fill_end (t0 :: t1 :: t2 :: t3 :: rest) 4
          { end_pos := 0, kmer_idx_end := 0, begin_pos := 0, kmer_idx_begin := 0,
            kmers_in_text := 0, kmers_left := total, kmer_count_text := fun _ => 0 }) ∧
      (kmer_counting_filter_fill_end (t0 :: t1 :: t2 :: t3 :: rest) 4
          { end_pos := 0, kmer_idx_end := 0, begin_pos := 0, kmer_idx_begin := 0,
            kmers_in_text := 0, kmers_left := total, kmer_count_text := fun _ => 0 }).begin_pos
        = 0 ∧
      (kmer_counting_filter_fill_end (t0 :: t1 :: t2 :: t3 :: rest) 4
          { end_pos := 0, kmer_idx_end := 0, begin_pos := 0, kmer_idx_begin := 0,
            kmers_in_text := 0, kmers_left := total, kmer_count_text := fun _ => 0
            }).kmer_idx_begin = 0 := by
  simp only [kmer_counting_filter_fill_end]
  refine ⟨⟨rfl, rfl, ?_⟩, ⟨?_, ?_⟩, trivial, trivial⟩
  · show dec64 (dec64 (dec64 (dec64 total))) + 4 = total
    simp only [dec64, sub64, U64] at *
    omega
  · show 0 = kmer_score pattern [t0, t1, t2, t3]
    have := kmer_score_le pattern [t0, t1, t2, t3]
    simp only [List.length_cons, List.length_nil] at this
    omega
  · intro k
    show 0 = _
    rw [kmers_of_short [t0, t1, t2, t3] (by simp)]
    simp

/-- The "Initial fill" of the sliding window moves the begin pointer four
characters into the text. -/
theorem kmer_counting_filter_fill_begin_spec (t0 t1 t2 t3 : Nat) (rest : List Nat)
    (s : kmer_filter_state) (hb : s.begin_pos = 0) (hi : s.kmer_idx_begin = 0) :
    kmer_filter_begin [] [t0, t1, t2, t3]
        (kmer_counting_filter_fill_begin (t0 :: t1 :: t2 :: t3 :: rest) 4 s) ∧
      (kmer_counting_filter_fill_begin (t0 :: t1 :: t2 :: t3 :: rest) 4 s).end_pos
        = s.end_pos ∧
      (kmer_counting_filter_fill_begin (t0 :: t1 :: t2 :: t3 :: rest) 4 s).kmer_idx_end
        = s.kmer_idx_end ∧
      (kmer_counting_filter_fill_begin (t0 :: t1 :: t2 :: t3 :: rest) 4 s).kmers_left
        = s.kmers_left ∧
      (kmer_counting_filter_fill_begin (t0 :: t1 :: t2 :: t3 :: rest) 4 s).kmers_in_text
        = s.kmers_in_text ∧
      (kmer_counting_filter_fill_begin (t0 :: t1 :: t2 :: t3 :: rest) 4 s).kmer_count_text
        = s.kmer_count_text := by
  simp only [kmer_counting_filter_fill_begin, hb, hi]
  refine ⟨⟨rfl, ?_⟩, trivial, trivial, trivial, trivial, trivial⟩
  have h0 : ∀ i, i < 10 → (0 : Nat).testBit i = (0 : Nat).testBit i := fun _ _ => rfl
  have h1 := KMER_COUNTING_ADD_INDEX_agree 0 0 t0 h0
  have h2 := KMER_COUNTING_ADD_INDEX_agree _ _ t1 h1
  have h3 := KMER_COUNTING_ADD_INDEX_agree _ _ t2 h2
  have h4 := KMER_COUNTING_ADD_INDEX_agree _ _ t3 h3
  exact h4

/-- The filter returns `0`, or it rejects a text in which no window of at most
`pattern.length` characters shares `pattern.length - 4 - 5 * max_error` k-mers
with the pattern; this holds when no machine integer wraps. -/
theorem kmer_counting_filter_spec (pattern text : List Nat) (kmer_counting : kmer_counting_t)
    (max_error : Nat) (hen : kmer_counting.enabled = true)
    (hpl : kmer_counting.pattern_length = pattern.length)
    (hcp : kmer_counting.kmer_count_pattern = kmer_count_of pattern)
    (hL5 : 5 ≤ pattern.length) (hL : pattern.length < 65540)
    (ht4 : 4 ≤ text.length) (ht64 : text.length < U64) (he : 5 * max_error < U64) :
    kmer_counting_filter kmer_counting text text.length max_error = 0 ∨
      kmer_all_below pattern pattern.length (pattern.length - 4 - 5 * max_error) text := by
  have hLU : pattern.length < U64 := by simp only [U64]; omega
  have hmul : mul64 KMER_COUNTING_LENGTH max_error = 5 * max_error :=
    mul64_of_lt 5 max_error he
  have hmax : sub64 pattern.length (KMER_COUNTING_LENGTH - 1) = pattern.length - 4 :=
    sub64_of_le _ 4 (by omega) hLU
  unfold kmer_counting_filter
  rw [hen, hpl, hcp, hmul, hmax]
  simp only [Bool.not_true, Bool.false_eq_true, if_false]
  by_cases h0 : 5 * max_error ≥ pattern.length - 4
  · rw [if_pos h0]; exact Or.inl rfl
  rw [if_neg h0]
  rw [sub64_of_le _ _ (by omega) (by omega)]
  match text, ht4 with
  | t0 :: t1 :: t2 :: t3 :: rest, _ =>
    generalize htext : t0 :: t1 :: t2 :: t3 :: rest = text at *
    have htot4 : 4 ≤ max text.length pattern.length := by omega
    have htot64 : max text.length pattern.length < U64 := max_lt ht64 hLU
    obtain ⟨f1, f2, f3, f4⟩ := kmer_counting_filter_fill_end_spec pattern t0 t1 t2 t3 rest
      (max text.length pattern.length) htot4 htot64
    rw [htext] at f1 f2 f3 f4
    have e4 : KMER_COUNTING_LENGTH - 1 = 4 := rfl
    rw [e4]
    generalize kmer_counting_filter_fill_end text 4 _ = s1 at *
    have hrest : text.length = rest.length + 4 := by rw [← htext]; simp
    have hload := kmer_counting_filter_load_spec pattern text (max text.length pattern.length)
      (pattern.length - 4 - 5 * max_error) hL (le_max_left _ _) htot64 (by omega)
      (min text.length pattern.length - s1.end_pos) [t0, t1, t2, t3] rest s1
      (by rw [← htext]; rfl) (by simp) (by rw [f1.1]; simp; omega)
      (by rw [f1.1]; simp; omega) f1 f2
    generalize hn : min text.length pattern.length - s1.end_pos = n at *
    have hn' : n = min text.length pattern.length - 4 := by rw [← hn, f1.1]; rfl
    generalize kmer_counting_filter_load (kmer_count_of pattern) text
      (pattern.length - 4 - 5 * max_error) n s1 = r at *
    match r, hload with
    | Sum.inl r, hload =>
      rcases hload with h | h
      · exact Or.inl h
      · exact Or.inr h
    | Sum.inr s2, hload =>
      obtain ⟨g1, g2, g3, g4⟩ := hload
      simp only
      by_cases h1 : s2.kmers_in_text ≥ pattern.length - 4 - 5 * max_error
      · rw [if_pos h1]; exact Or.inl rfl
      rw [if_neg h1]
      rw [g2.1] at h1
      by_cases h2 : min text.length pattern.length = text.length
      · rw [if_pos h2]
        right
        have : [t0, t1, t2, t3] ++ rest.take n = text := by
          rw [List.take_of_length_le (by omega), ← htext]; rfl
        rw [this] at h1
        exact kmer_all_below_of_score pattern _ _ text (by omega)
      · rw [if_neg h2]
        obtain ⟨b1, b2, b3, b4, b5, b6⟩ := kmer_counting_filter_fill_begin_spec t0 t1 t2 t3 rest
          s2 (by rw [g3, f3]) (by rw [g4, f4])
        rw [htext] at b1 b2 b3 b4 b5 b6
        generalize kmer_counting_filter_fill_begin text 4 s2 = s3 at *
        have hwl : ([t0, t1, t2, t3] ++ rest.take n).length = pattern.length := by
          simp only [List.length_append, List.length_take, List.length_cons, List.length_nil]
          omega
        refine kmer_counting_filter_slide_spec pattern text (max text.length pattern.length)
          (pattern.length - 4 - 5 * max_error) hL hL5 (le_max_left _ _) htot64 (by omega)
          _ [] ([t0, t1, t2, t3] ++ rest.take n) (rest.drop n) s3 ?_ hwl ?_ ?_ ?_ ?_ ?_
        · rw [← htext]; simp
        · rw [b2, g1.1, hwl, List.length_drop]; omega
        · exact ⟨by rw [b2, g1.1]; rfl, by rw [b3, g1.2.1]; rfl, by rw [b4]; exact g1.2.2⟩
        · refine ⟨b1.1, ?_⟩
          have : ([t0, t1, t2, t3] ++ rest.take n).take 4 = [t0, t1, t2, t3] := by simp
          rw [this]
          exact b1.2
        · exact ⟨by rw [b5]; exact g2.1, by rw [b6]; exact g2.2⟩
        · exact kmer_all_below_of_score pattern _ _ _ (by rw [List.nil_append]; omega)

/-- C1, amended.  The k-mer filter is a sound lower bound on edit distance as
long as no machine integer wraps: for every pattern compiled with the filter
enabled whose length is below `65540` (so that no 16-bit k-mer counter wraps),
every text of at least four characters (and fewer than `2 ^ 64`) and every
`max_error` with `5 * max_error < 2 ^ 64`, if some substring of the text is
within edit distance `max_error` of the pattern then `kmer_counting_filter`
returns `0`; and it returns `ALIGN_DISTANCE_INF` only when no substring of the
text is within edit distance `max_error` of the pattern. -/
theorem kmer_counting_filter_sound (pattern text : List Nat)
    (num_non_canonical_bases effective_filtering_max_error : Nat)
    (kmer_counting : kmer_counting_t) (max_error : Nat)
    (hcompile : kmer_counting_compile pattern pattern.length num_non_canonical_bases
      effective_filtering_max_error = some kmer_counting)
    (henabled : kmer_counting.enabled = true)
    (hpattern : pattern.length < 65540)
    (htext : 4 ≤ text.length) (htext64 : text.length < 2 ^ 64)
    (herror : 5 * max_error < 2 ^ 64) :
    ((∃ s, s <:+: text ∧ edit_distance pattern s ≤ max_error) →
      kmer_counting_filter kmer_counting text text.length max_error = 0) ∧
    (kmer_counting_filter kmer_counting text text.length max_error = ALIGN_DISTANCE_INF →
      ∀ s, s <:+: text → max_error < edit_distance pattern s) := by
  obtain ⟨hL5, hpl, hcp⟩ := kmer_counting_compile_spec pattern num_non_canonical_bases
    effective_filtering_max_error kmer_counting hcompile henabled hpattern
  have hspec := kmer_counting_filter_spec pattern text kmer_counting max_error henabled hpl hcp
    hL5 hpattern htext htext64 herror
  have key : (∃ s, s <:+: text ∧ edit_distance pattern s ≤ max_error) →
      kmer_counting_filter kmer_counting text text.length max_error = 0 := by
    rintro ⟨s, hs, hd⟩
    rcases hspec with h | h
    · exact h
    · obtain ⟨w, hw, hwl, hn⟩ := kmer_window_of_edit_distance pattern text s max_error hs hd
      have := h w hw hwl
      omega
  refine ⟨key, fun hinf s hs => ?_⟩
  by_contra hle
  have h0 := key ⟨s, hs, by omega⟩
  rw [h0] at hinf
  exact absurd hinf (by decide)

/-- Counterexample to C1 as stated: with `max_error = 3689348814741910324` the
product `5 * max_error` wraps to `4`, so the filter, compiled and enabled for a
pattern of twelve `A`s, requires four shared k-mers and rejects the text
`CCCC`, although `CCCC` is at edit distance `12 ≤ max_error` from the
pattern. -/
theorem kmer_counting_filter_wraps :
    4 ≤ [1, 1, 1, 1].length ∧
    [1, 1, 1, 1] <:+: [1, 1, 1, 1] ∧
    edit_distance example_pattern_poly_a [1, 1, 1, 1] ≤ example_wrapping_max_error ∧
    (kmer_counting_compile example_pattern_poly_a example_pattern_poly_a.length 0 1).map
        (fun kmer_counting => (kmer_counting.enabled,
          kmer_counting_filter kmer_counting [1, 1, 1, 1] [1, 1, 1, 1].length
            example_wrapping_max_error)) =
      some (true, ALIGN_DISTANCE_INF) ∧
    ALIGN_DISTANCE_INF ≠ 0 := by
  refine ⟨by decide, List.infix_refl _, by decide, ?_, by decide⟩
  set_option maxRecDepth 100000 in decide

/-- Witness of the amended C1: the filter compiled for `ACGTACGTTGCA` passes a
text that contains the pattern with one substitution, at `max_error = 1`. -/
theorem kmer_counting_filter_sound_witness :
    ∃ kmer_counting,
      kmer_counting_compile example_pattern example_pattern.length 0 1 = some kmer_counting ∧
      kmer_counting.enabled = true ∧
      example_pattern.length < 65540 ∧ 4 ≤ example_text.length ∧
      example_text.length < 2 ^ 64 ∧ 5 * 1 < 2 ^ 64 ∧
      example_occurrence <:+: example_text ∧
      edit_distance example_pattern example_occurrence ≤ 1 ∧
      kmer_counting_filter kmer_counting example_text example_text.length 1 = 0 :=
  have hen : (kmer_counting_compile example_pattern example_pattern.length 0 1).map
      (fun kmer_counting => kmer_counting.enabled) = some true := by decide
  match hc : kmer_counting_compile example_pattern example_pattern.length 0 1 with
  | some kmer_counting =>
    have hen' : kmer_counting.enabled = true := by
      rw [hc] at hen
      simpa using hen
    ⟨kmer_counting, rfl, hen', by decide, by decide, by decide, by decide,
      ⟨[2, 2], [3, 3], rfl⟩, by decide,
      (kmer_counting_filter_sound example_pattern example_text 0 1 kmer_counting 1 hc hen'
        (by decide) (by decide) (by decide) (by decide)).1
        ⟨example_occurrence, ⟨[2, 2], [3, 3], rfl⟩, by decide⟩⟩
  | none => absurd hen (by rw [hc]; decide)

/-! ## region_profile_adaptive.c: number of regions -/

/-- One iteration of the scan closes at most one region. -/
theorem region_profile_generate_adaptive_iteration_count (pm : region_profile_model_t)
    (g g' : region_profile_generator_t)
    (hg' : region_profile_generate_adaptive_iteration pm g = some g') :
    g'.region_profile.num_filtering_regions ≤ g.region_profile.num_filtering_regions + 1 := by
  unfold region_profile_generate_adaptive_iteration at hg'
  simp only at hg'
  simp only [region_profile_t.num_filtering_regions]
  split at hg'
  · have hs := region_profile_generator_disallow_character_step
      { g with key_position := g.key_position - 1 } pm
    simp only at hs
    obtain ⟨_, _, _, _, _, _, _, h8⟩ := hs
    simp only [Option.some.injEq] at hg'
    subst hg'
    rcases h8 with ⟨_, h⟩ | ⟨_, r, h, _⟩
    · rw [h]; omega
    · rw [h]; simp
  · have hqs := region_profile_query_character_step
      { g with key_position := g.key_position - 1 } (g.key.getD (g.key_position - 1) 0)
    simp only at hqs
    obtain ⟨_, _, _, _, _, q6, _⟩ := hqs
    split at hg'
    · exact absurd hg' (by simp)
    · rename_i r hr
      simp only [Option.some.injEq] at hg'
      subst hg'
      obtain ⟨⟨_, _, _, s4⟩, _⟩ := region_profile_generator_add_character_step _ pm r hr
      rw [q6] at s4
      rcases s4 with ⟨_, _, t3, _⟩ | ⟨c, r', _, t1, _⟩
      · rw [t3]; omega
      · rw [t1]; simp

/-- The loop "Delimit regions" stops with at most `max_regions` regions. -/
theorem region_profile_generate_adaptive_loop_count (pm : region_profile_model_t)
    (max_regions : Nat) :
    ∀ (fuel : Nat) (g g' : region_profile_generator_t),
      g.region_profile.num_filtering_regions ≤ max_regions →
      region_profile_generate_adaptive_loop pm max_regions fuel g = some g' →
      g'.region_profile.num_filtering_regions ≤ max_regions
  | 0, g, g', hn, hg' => by
    unfold region_profile_generate_adaptive_loop at hg'
    split at hg'
    · exact absurd hg' (by simp)
    · simp only [Option.some.injEq] at hg'
      exact hg' ▸ hn
  | fuel + 1, g, g', hn, hg' => by
    unfold region_profile_generate_adaptive_loop at hg'
    by_cases hkp : g.key_position > 0
    · rw [if_pos hkp] at hg'
      by_cases hmax : g.region_profile.num_filtering_regions ≥ max_regions
      · rw [if_pos hmax] at hg'
        simp only [Option.some.injEq] at hg'
        exact hg' ▸ hn
      · rw [if_neg hmax] at hg'
        split at hg'
        · exact absurd hg' (by simp)
        · rename_i g1 hg1
          have := region_profile_generate_adaptive_iteration_count pm g g1 hg1
          exact region_profile_generate_adaptive_loop_count pm max_regions fuel g1 g'
            (by omega) hg'
    · rw [if_neg hkp] at hg'
      simp only [Option.some.injEq] at hg'
      exact hg' ▸ hn

/-- Extending the last region keeps the number of regions. -/
theorem region_profile_extend_last_region_count (extension : region_search_t → region_search_t)
    (rp : region_profile_t) :
    (region_profile_extend_last_region extension rp).num_filtering_regions =
      rp.num_filtering_regions := by
  unfold region_profile_extend_last_region region_profile_t.num_filtering_regions
  split
  · rfl
  · rename_i last before h
    have := congrArg List.length h
    simp only [List.length_reverse, List.length_cons] at this ⊢
    omega

/-- Closing the profile keeps the number of regions, except that a profile
without regions becomes the whole-read region when the open region still ends
at `key_length`. -/
theorem region_profile_generator_close_profile_count
    (extension : region_search_t → region_search_t) (g : region_profile_generator_t)
    (pm : region_profile_model_t) :
    (region_profile_generator_close_profile extension g pm).region_profile.num_filtering_regions
      = if g.region_profile.num_filtering_regions = 0 then
          (if g.region_profile.current_region.end_ = g.key_length then 1 else 0)
        else g.region_profile.num_filtering_regions := by
  unfold region_profile_generator_close_profile
  simp only
  split_ifs with h1 h2 h3
  · rfl
  · rfl
  · exact region_profile_extend_last_region_count extension _
  · rfl

/-- The number of regions of a profile: `region_profile_generate_adaptive`
produces at most `max_regions` regions when `max_regions ≥ 1`, for every read,
index and profile model, and at most one region in any case.  The function
returns whenever `dec_factor > 0`. -/
theorem region_profile_generate_adaptive_max_regions
    (extension : region_search_t → region_search_t)
    (fm_index : fm_index_t) (key : List Nat) (key_length : Nat) (allowed_enc : Nat → Bool)
    (profile_model : region_profile_model_t) (max_regions : Nat) (allow_zero_regions : Bool) :
    (0 < profile_model.dec_factor →
      (region_profile_generate_adaptive extension fm_index key key_length allowed_enc
        profile_model max_regions allow_zero_regions).isSome = true) ∧
    ∀ out, region_profile_generate_adaptive extension fm_index key key_length allowed_enc
        profile_model max_regions allow_zero_regions = some out →
      out.region_profile.num_filtering_regions ≤ max max_regions 1 := by
  refine ⟨region_profile_generate_adaptive_total extension fm_index key key_length
    allowed_enc profile_model max_regions allow_zero_regions, fun out hout => ?_⟩
  unfold region_profile_generate_adaptive at hout
  simp only at hout
  split at hout
  · exact absurd hout (by simp)
  · rename_i g hg
    simp only [Option.some.injEq] at hout
    subst hout
    have hn := region_profile_generate_adaptive_loop_count profile_model max_regions _ _ g
      (by simp [region_profile_generator_init, region_profile_generator_restart,
        region_profile_clear, region_profile_t.num_filtering_regions]) hg
    rw [region_profile_generator_close_profile_count]
    split_ifs <;> omega

/-- With `max_regions = 1` the read `AAANAAAA` is profiled into one region. -/
theorem region_profile_generate_adaptive_max_regions_witness :
    ∃ out, region_profile_generate_adaptive id example_flat_index [0, 0, 0, 4, 0, 0, 0, 0] 8
        (fun c => decide (c < 4)) example_profile_model 1 false = some out ∧
      out.region_profile.num_filtering_regions ≤ max 1 1 :=
  have h := region_profile_generate_adaptive_max_regions id example_flat_index
    [0, 0, 0, 4, 0, 0, 0, 0] 8 (fun c => decide (c < 4)) example_profile_model 1 false
  match hg : region_profile_generate_adaptive id example_flat_index [0, 0, 0, 4, 0, 0, 0, 0] 8
      (fun c => decide (c < 4)) example_profile_model 1 false with
  | some out => ⟨out, rfl, h.2 out hg⟩
  | none => absurd (h.1 (by decide)) (by simp [hg])

/-- C11 (code bug): the header of region_profile_adaptive.c says of
`max_regions` that "No more than max_regions will be generated", but with
`max_regions = 0` the scan of the read `AAA` is cut off before its first
character and `region_profile_generator_close_profile` still emits the
whole-read region: `num_filtering_regions` is 1, more than `max_regions`, with
and without zero-regions allowed.  With `max_regions = 1` the same read gives
one region. -/
theorem region_profile_generate_adaptive_max_regions_zero :
    (region_profile_generate_adaptive id example_flat_index [0, 0, 0] 3
        (fun c => decide (c < 4)) example_profile_model 0 false).map
      (fun g => (g.region_profile.num_filtering_regions,
        g.region_profile.filtering_region.map (fun r => (r.begin, r.end_)))) =
      some (1, [(0, 3)]) ∧ ¬ (1 ≤ 0) ∧
    (region_profile_generate_adaptive id example_flat_index [0, 0, 0] 3
        (fun c => decide (c < 4)) example_profile_model 0 true).map
      (fun g => g.region_profile.num_filtering_regions) = some 1 ∧
    (region_profile_generate_adaptive id example_flat_index [0, 0, 0] 3
        (fun c => decide (c < 4)) example_profile_model 1 false).map
      (fun g => g.region_profile.num_filtering_regions) = some 1 := by
  decide

/-- The skipping loop runs to the start of a key whose symbols are all
disallowed. -/
theorem region_profile_generator_skip_disallowed_all (key : List Nat) (allowed : Nat → Bool) :
    ∀ kp, (∀ i, i < kp → allowed (key.getD i 0) = false) →
      region_profile_generator_skip_disallowed key allowed kp = 0
  | 0, _ => rfl
  | kp + 1, h => by
    unfold region_profile_generator_skip_disallowed
    rw [if_pos (by rw [h kp (by omega)]; rfl)]
    exact region_profile_generator_skip_disallowed_all key allowed kp
      (fun i hi => h i (by omega))

/-- The loop "Delimit regions" stops at the start of the key. -/
theorem region_profile_generate_adaptive_loop_done (pm : region_profile_model_t)
    (max_regions fuel : Nat) (g : region_profile_generator_t) (h : g.key_position = 0) :
    region_profile_generate_adaptive_loop pm max_regions fuel g = some g := by
  cases fuel <;> simp [region_profile_generate_adaptive_loop, h]

/-- C13, amended.  For every non-empty read that consists only of disallowed
symbols, every index and every profile model, `region_profile_generate_adaptive`
returns and emits zero regions and zero candidates, provided
`max_regions ≥ 1`. -/
theorem region_profile_generate_adaptive_all_disallowed
    (extension : region_search_t → region_search_t)
    (fm_index : fm_index_t) (key : List Nat) (key_length : Nat) (allowed_enc : Nat → Bool)
    (profile_model : region_profile_model_t) (max_regions : Nat) (allow_zero_regions : Bool)
    (hlen : 1 ≤ key_length)
    (hall : ∀ i, i < key_length → allowed_enc (key.getD i 0) = false)
    (hmax : 1 ≤ max_regions) :
    ∃ out, region_profile_generate_adaptive extension fm_index key key_length allowed_enc
        profile_model max_regions allow_zero_regions = some out ∧
      out.region_profile.num_filtering_regions = 0 ∧
      out.region_profile.filtering_region = [] ∧
      out.region_profile.total_candidates = 0 := by
  obtain ⟨n, rfl⟩ : ∃ n, key_length = n + 1 := ⟨key_length - 1, by omega⟩
  have hskip := region_profile_generator_skip_disallowed_all key allowed_enc n
    (fun i hi => hall i (by omega))
  have hn := hall n (by omega)
  have hfuel : (n + 1 + 1) * (n + 1 + 1) = ((n + 1 + 1) * (n + 1 + 1) - 1) + 1 := by
    have : 0 < (n + 1 + 1) * (n + 1 + 1) := Nat.mul_pos (by omega) (by omega)
    omega
  unfold region_profile_generate_adaptive
  simp only
  rw [hfuel]
  unfold region_profile_generate_adaptive_loop
  simp [region_profile_generator_init, region_profile_generator_restart,
    region_profile_clear, region_profile_t.num_filtering_regions,
    region_profile_generate_adaptive_iteration,
    region_profile_generator_disallow_character, hn, hskip]
  have hn' : allowed_enc (key[n]?.getD 0) = false := by simpa using hn
  have h0 : ¬ max_regions = 0 := by omega
  simp only [h0, hn', if_true, if_false]
  rw [region_profile_generate_adaptive_loop_done _ _ _ _ rfl]
  simp [region_profile_generator_close_profile, region_profile_t.num_filtering_regions]

/-- Witness for C13 as amended: the read `NNN` has no region. -/
theorem region_profile_generate_adaptive_all_disallowed_witness :
    1 ≤ 3 ∧ (∀ i, i < 3 → (fun c => decide (c < 4)) (([4, 4, 4] : List Nat).getD i 0) = false) ∧
    1 ≤ 10 ∧
    ∃ out, region_profile_generate_adaptive id example_flat_index [4, 4, 4] 3
        (fun c => decide (c < 4)) example_profile_model 10 false = some out ∧
      out.region_profile.num_filtering_regions = 0 ∧
      out.region_profile.filtering_region = [] ∧
      out.region_profile.total_candidates = 0 :=
  ⟨by decide, by decide, by decide,
    region_profile_generate_adaptive_all_disallowed id example_flat_index [4, 4, 4] 3
      (fun c => decide (c < 4)) example_profile_model 10 false (by decide) (by decide)
      (by decide)⟩

/-- Counterexample to C13 as stated: with `max_regions = 0` the scan is cut off
before it sees the first `N`, and closing the profile emits the whole-read
region with the interval of the whole index: one region `[0, 3)` with
`hi - lo = 100` for the read `NNN`. -/
theorem region_profile_generate_adaptive_all_disallowed_cut_off :
    (∀ i, i < 3 → (fun c => decide (c < 4)) (([4, 4, 4] : List Nat).getD i 0) = false) ∧
    (region_profile_generate_adaptive id example_flat_index [4, 4, 4] 3
        (fun c => decide (c < 4)) example_profile_model 0 false).map
      (fun g => (g.region_profile.num_filtering_regions,
        g.region_profile.filtering_region.map (fun r => (r.begin, r.end_, r.lo, r.hi)))) =
      some (1, [(0, 3, 0, 100)]) := by
  decide

/-- C14, amended.  For the empty read (`key_length = 0`),
`region_profile_generate_adaptive` returns, for every index, profile model and
`max_regions`, and emits exactly one region: the whole-read region `[0, 0)`
with the interval of the whole index (`lo = 0`, `hi` the length of the index);
the counter `total_candidates` stays zero. -/
theorem region_profile_generate_adaptive_empty_read
    (extension : region_search_t → region_search_t)
    (fm_index : fm_index_t) (key : List Nat) (allowed_enc : Nat → Bool)
    (profile_model : region_profile_model_t) (max_regions : Nat) (allow_zero_regions : Bool) :
    ∃ out, region_profile_generate_adaptive extension fm_index key 0 allowed_enc
        profile_model max_regions allow_zero_regions = some out ∧
      out.region_profile.num_filtering_regions = 1 ∧
      out.region_profile.filtering_region.map (fun r => (r.begin, r.end_, r.lo, r.hi)) =
        [(0, 0, 0, fm_index_get_length fm_index % U64)] ∧
      out.region_profile.total_candidates = 0 := by
  unfold region_profile_generate_adaptive
  simp only
  rw [region_profile_generate_adaptive_loop_done _ _ _ _ rfl]
  simp [region_profile_generator_close_profile, region_profile_t.num_filtering_regions,
    region_profile_generator_init, region_profile_generator_restart, region_profile_clear]

/-- Counterexample to C14 as stated: the empty read over `example_flat_index`
yields one region, `[0, 0)`, whose interval holds all `100` positions of the
index. -/
theorem region_profile_generate_adaptive_empty_read_region :
    (region_profile_generate_adaptive id example_flat_index [] 0
        (fun c => decide (c < 4)) example_profile_model 10 false).map
      (fun g => (g.region_profile.num_filtering_regions,
        g.region_profile.filtering_region.map (fun r => (r.begin, r.end_, r.lo, r.hi)))) =
      some (1, [(0, 0, 0, 100)]) ∧ (1 : Nat) ≠ 0 := by
  decide

/-- One iteration of the limited scan on an allowed character: the position
moves one character leftward, and either the region is closed and the region
length starts again from zero, or the region grows by one character and stays
below `max_region_length`. -/
theorem region_profile_generate_adaptive_limited_iteration_step
    (pm : region_profile_model_t) (m : Nat) (g : region_profile_generator_t) (rl : Nat)
    (hal : g.allowed_enc (g.key.getD (g.key_position - 1) 0) = true)
    (hrl : rl + 1 < U64) :
    let s := region_profile_generate_adaptive_limited_iteration pm m (g, rl)
    s.1.key = g.key ∧ s.1.allowed_enc = g.allowed_enc ∧
    s.1.key_position = g.key_position - 1 ∧
    ((s.1.region_profile.num_filtering_regions = g.region_profile.num_filtering_regions + 1 ∧
        s.2 = 0) ∨
     (s.1.region_profile.num_filtering_regions = g.region_profile.num_filtering_regions ∧
        s.2 = rl + 1 ∧ rl + 1 < m)) := by
  have hqs := region_profile_query_character_step
    { g with key_position := g.key_position - 1 } (g.key.getD (g.key_position - 1) 0)
  simp only at hqs
  obtain ⟨q1, _, q3, _, q5, q6, _⟩ := hqs
  unfold region_profile_generate_adaptive_limited_iteration
  simp only [hal, Bool.not_true, Bool.false_eq_true, if_false, Nat.mod_eq_of_lt hrl]
  split_ifs with h
  · refine ⟨q1, q3, q5, Or.inl ⟨?_, rfl⟩⟩
    simp only [region_profile_generator_restart, region_profile_generator_close_region,
      region_profile_t.num_filtering_regions, List.length_append, List.length_singleton, q6]
  · refine ⟨q1, q3, q5, Or.inr ⟨?_, rfl, by omega⟩⟩
    simp only [region_profile_t.num_filtering_regions, q6]

/-- The loop of the limited scan over allowed characters ends at the start of
the key, and the regions it has closed together with the open one cover the
key with pieces of at most `m` characters. -/
theorem region_profile_generate_adaptive_limited_loop_spec (pm : region_profile_model_t)
    (m L : Nat) (key : List Nat) (allowed : Nat → Bool) (hL : L < U64) :
    ∀ (fuel : Nat) (g : region_profile_generator_t) (rl : Nat),
      g.key_position ≤ fuel → g.key = key → g.allowed_enc = allowed →
      (∀ i, i < g.key_position → allowed (key.getD i 0) = true) →
      rl < m → m ≤ L →
      L ≤ g.region_profile.num_filtering_regions * m + rl + g.key_position →
      ∃ s, region_profile_generate_adaptive_limited_loop pm m fuel (g, rl) = some s ∧
        s.2 < m ∧ L ≤ s.1.region_profile.num_filtering_regions * m + s.2
  | 0, g, rl, hkp, _, _, _, hrl, _, hcov => by
    have h0 : g.key_position = 0 := by omega
    exact ⟨(g, rl), by simp [region_profile_generate_adaptive_limited_loop, h0], hrl,
      by simpa [h0] using hcov⟩
  | fuel + 1, g, rl, hkp, hkey, hal, hall, hrl, hm, hcov => by
    unfold region_profile_generate_adaptive_limited_loop
    by_cases h0 : g.key_position > 0
    · simp only [h0, if_true]
      have hstep := region_profile_generate_adaptive_limited_iteration_step pm m g rl
        (by rw [hal, hkey]; exact hall _ (by omega)) (by omega)
      simp only at hstep
      obtain ⟨s1, s2, s3, s4⟩ := hstep
      generalize region_profile_generate_adaptive_limited_iteration pm m (g, rl) = s at *
      obtain ⟨g', rl'⟩ := s
      simp only at s1 s2 s3 s4
      refine region_profile_generate_adaptive_limited_loop_spec pm m L key allowed hL fuel
        g' rl' (by omega) (s1.trans hkey) (s2.trans hal)
        (fun i hi => hall i (by omega)) ?_ hm ?_
      · rcases s4 with ⟨_, h⟩ | ⟨_, h, h'⟩ <;> omega
      · rcases s4 with ⟨h, h'⟩ | ⟨h, h', _⟩
        · rw [h, h', s3, Nat.add_mul]; omega
        · rw [h, h', s3]; omega
    · have h0' : g.key_position = 0 := by omega
      simp only [h0, if_false]
      exact ⟨(g, rl), rfl, hrl, by simpa [h0'] using hcov⟩

/-- C12.  For every read of length `key_length` whose symbols are all allowed
and every `min_regions` with `1 ≤ min_regions ≤ key_length`,
`region_profile_generate_adaptive_limited` returns and emits at least
`min_regions` regions: it closes a region as soon as its length reaches
`key_length / min_regions`. -/
theorem region_profile_generate_adaptive_limited_min_regions
    (extension : region_search_t → region_search_t)
    (fm_index : fm_index_t) (key : List Nat) (key_length : Nat) (allowed_enc : Nat → Bool)
    (profile_model : region_profile_model_t) (min_regions : Nat)
    (hlen : key_length < 2 ^ 64)
    (hall : ∀ i, i < key_length → allowed_enc (key.getD i 0) = true)
    (hmin : 1 ≤ min_regions) (hmax : min_regions ≤ key_length) :
    ∃ out, region_profile_generate_adaptive_limited extension fm_index key key_length
        allowed_enc profile_model min_regions = some out ∧
      min_regions ≤ out.region_profile.num_filtering_regions := by
  have hm : 1 ≤ key_length / min_regions := (Nat.one_le_div_iff (by omega)).mpr hmax
  have hmL : key_length / min_regions ≤ key_length := Nat.div_le_self _ _
  obtain ⟨s, hs, hs1, hs2⟩ := region_profile_generate_adaptive_limited_loop_spec profile_model
    (key_length / min_regions) key_length key allowed_enc hlen key_length
    (region_profile_generator_restart
      (region_profile_generator_init fm_index key key_length allowed_enc true)) 0
    le_rfl rfl rfl hall (by omega) hmL
    (by simp [region_profile_generator_restart, region_profile_generator_init])
  unfold region_profile_generate_adaptive_limited
  rw [if_neg (by omega)]
  simp only [hs]
  refine ⟨_, rfl, ?_⟩
  rw [region_profile_generator_close_profile_count]
  have hk : min_regions * (key_length / min_regions) ≤ key_length := Nat.mul_div_le _ _
  have hn : min_regions ≤ s.1.region_profile.num_filtering_regions := by
    by_contra hlt
    have h1 : s.1.region_profile.num_filtering_regions + 1 ≤ min_regions := by omega
    have h2 := Nat.mul_le_mul_right (key_length / min_regions) h1
    rw [Nat.add_mul] at h2
    omega
  rw [if_neg (by omega)]
  exact hn

/-- Witness for C12: the read `ACGTACGT` with `min_regions = 3` over the
reference index of `example_reference` is profiled into at least three
regions. -/
theorem region_profile_generate_adaptive_limited_min_regions_witness :
    (8 : Nat) < 2 ^ 64 ∧
    (∀ i, i < 8 → (fun c => decide (c < 4))
      (([0, 1, 2, 3, 0, 1, 2, 3] : List Nat).getD i 0) = true) ∧
    1 ≤ 3 ∧ 3 ≤ 8 ∧
    ∃ out, region_profile_generate_adaptive_limited id (reference_fm_index example_reference)
        [0, 1, 2, 3, 0, 1, 2, 3] 8 (fun c => decide (c < 4)) example_profile_model 3
        = some out ∧
      3 ≤ out.region_profile.num_filtering_regions :=
  ⟨by decide, by decide, by decide, by decide,
    region_profile_generate_adaptive_limited_min_regions id
      (reference_fm_index example_reference) [0, 1, 2, 3, 0, 1, 2, 3] 8
      (fun c => decide (c < 4)) example_profile_model 3 (by decide) (by decide) (by decide)
      (by decide)⟩

/-! ## kmer_counting.c: compile -/

/-- C17.  For every pattern and every `effective_filtering_max_error > 0`,
`kmer_counting_compile` returns, and it leaves the filter disabled if and only
if the pattern has a non-canonical base (the argument
`num_non_canonical_bases`, which the caller sets to their number, is positive),
or `L < 5`, or `L / max_error < 12`; in every other case it sets
`enabled = true`. -/
theorem kmer_counting_compile_enabled (pattern : List Nat)
    (num_non_canonical_bases effective_filtering_max_error : Nat)
    (herror : 0 < effective_filtering_max_error)
    (hbases : 0 < num_non_canonical_bases ↔ ∃ c ∈ pattern, 4 ≤ c) :
    ∃ kmer_counting,
      kmer_counting_compile pattern pattern.length num_non_canonical_bases
        effective_filtering_max_error = some kmer_counting ∧
      (kmer_counting.enabled = false ↔
        ((∃ c ∈ pattern, 4 ≤ c) ∨ pattern.length < 5 ∨
          pattern.length / effective_filtering_max_error < 12)) ∧
      (kmer_counting.enabled = true ↔
        ¬ ((∃ c ∈ pattern, 4 ≤ c) ∨ pattern.length < 5 ∨
          pattern.length / effective_filtering_max_error < 12)) := by
  unfold kmer_counting_compile
  simp only [KMER_COUNTING_LENGTH, KMER_COUNTING_EFFECTIVE_THRESHOLD, gt_iff_lt]
  rw [← hbases]
  by_cases h1 : 0 < num_non_canonical_bases ∨ pattern.length < 5
  · rw [if_pos h1]
    refine ⟨_, rfl, ?_, ?_⟩
    · simp only [kmer_counting_disabled, true_iff]
      tauto
    · simp only [kmer_counting_disabled, Bool.false_eq_true, false_iff, not_not]
      tauto
  · rw [if_neg h1, if_neg (by omega)]
    by_cases h2 : pattern.length / effective_filtering_max_error < 12
    · rw [if_pos h2]
      refine ⟨_, rfl, ?_, ?_⟩
      · simp only [kmer_counting_disabled, true_iff]
        tauto
      · simp only [kmer_counting_disabled, Bool.false_eq_true, false_iff, not_not]
        tauto
    · rw [if_neg h2]
      refine ⟨_, rfl, ?_, ?_⟩
      · simp only [Bool.true_eq_false, false_iff]
        tauto
      · simp only [true_iff]
        tauto

/-- Witness for C17: the pattern `ACGTACGTTGCA` with
`effective_filtering_max_error = 1` is compiled with the filter enabled. -/
theorem kmer_counting_compile_enabled_witness :
    0 < 1 ∧ ((0 : Nat) < 0 ↔ ∃ c ∈ example_pattern, 4 ≤ c) ∧
    ∃ kmer_counting,
      kmer_counting_compile example_pattern example_pattern.length 0 1 = some kmer_counting ∧
      (kmer_counting.enabled = false ↔
        ((∃ c ∈ example_pattern, 4 ≤ c) ∨ example_pattern.length < 5 ∨
          example_pattern.length / 1 < 12)) ∧
      (kmer_counting.enabled = true ↔
        ¬ ((∃ c ∈ example_pattern, 4 ≤ c) ∨ example_pattern.length < 5 ∨
          example_pattern.length / 1 < 12)) :=
  ⟨by decide, by decide,
    kmer_counting_compile_enabled example_pattern 0 1 (by decide) (by decide)⟩

/-- On a symbol of two bits and an index of at most eight bits the masked
update is the arithmetic packing. -/
theorem KMER_COUNTING_ADD_INDEX__MASK_pack (acc c : Nat) (hacc : acc < 256) (hc : c < 4) :
    KMER_COUNTING_ADD_INDEX__MASK acc c = 4 * acc + c := by
  have hm : KMER_COUNTING_MASK = 2 ^ 10 - 1 := by norm_num [KMER_COUNTING_MASK]
  unfold KMER_COUNTING_ADD_INDEX__MASK
  rw [hm, Nat.and_pow_two_sub_one_eq_mod, Nat.shiftLeft_eq, Nat.mul_comm acc,
    ← Nat.mul_add_lt_is_or (by omega) acc]
  exact Nat.mod_eq_of_lt (by omega)

/-- The index of a 5-mer over `{A, C, G, T}` is its packing, two bits per
symbol. -/
theorem kmer_roll_eq_kmer_pack (w : List Nat) (hw : ∀ c ∈ w, c < 4) (hl : w.length = 5) :
    kmer_roll w = kmer_pack w := by
  match w, hl with
  | [a, b, c, d, e], _ =>
    have ha : a < 4 := hw a (by simp)
    have hb : b < 4 := hw b (by simp)
    have hc : c < 4 := hw c (by simp)
    have hd : d < 4 := hw d (by simp)
    have he : e < 4 := hw e (by simp)
    simp only [kmer_roll, kmer_pack, List.foldl_cons, List.foldl_nil]
    rw [KMER_COUNTING_ADD_INDEX__MASK_pack 0 a (by omega) ha,
      KMER_COUNTING_ADD_INDEX__MASK_pack _ b (by omega) hb,
      KMER_COUNTING_ADD_INDEX__MASK_pack _ c (by omega) hc,
      KMER_COUNTING_ADD_INDEX__MASK_pack _ d (by omega) hd,
      KMER_COUNTING_ADD_INDEX__MASK_pack _ e (by omega) he]

/-- The masked index has ten bits. -/
theorem KMER_COUNTING_ADD_INDEX__MASK_lt (acc c : Nat) :
    KMER_COUNTING_ADD_INDEX__MASK acc c < 1024 := by
  have hm : KMER_COUNTING_MASK = 2 ^ 10 - 1 := by norm_num [KMER_COUNTING_MASK]
  unfold KMER_COUNTING_ADD_INDEX__MASK
  rw [hm, Nat.and_pow_two_sub_one_eq_mod]
  exact Nat.mod_lt _ (by norm_num)

/-- The rolling index of a non-empty string has ten bits. -/
theorem kmer_roll_lt (w : List Nat) (hw : w ≠ []) : kmer_roll w < 1024 := by
  obtain ⟨u, c, rfl⟩ : ∃ u c, w = u ++ [c] :=
    ⟨w.dropLast, w.getLast hw, (List.dropLast_append_getLast hw).symm⟩
  rw [kmer_roll_snoc]
  exact KMER_COUNTING_ADD_INDEX__MASK_lt _ _

/-- The k-mers of a string, by their start positions. -/
theorem kmers_eq_map : ∀ (w : List Nat),
    kmers w = (List.range (w.length - 4)).map (fun j => kmer_roll ((w.drop j).take 5))
  | [] => rfl
  | x :: xs => by
    by_cases h : 4 ≤ xs.length
    · rw [kmers_cons x xs h, kmers_eq_map xs]
      have e : (x :: xs).length - 4 = (xs.length - 4) + 1 := by
        simp only [List.length_cons]; omega
      rw [e, List.range_succ_eq_map, List.map_cons, List.map_map]
      rfl
    · rw [kmers_of_short _ (by simp only [List.length_cons]; omega)]
      have e : (x :: xs).length - 4 = 0 := by simp only [List.length_cons]; omega
      rw [e]; rfl

/-- Every k-mer index has ten bits. -/
theorem kmers_lt (w : List Nat) : ∀ k ∈ kmers w, k < 1024 := by
  intro k hk
  rw [kmers_eq_map, List.mem_map] at hk
  obtain ⟨j, hj, rfl⟩ := hk
  rw [List.mem_range] at hj
  apply kmer_roll_lt
  intro h
  have := congrArg List.length h
  simp only [List.length_take, List.length_drop, List.length_nil] at this
  omega

/-- The k-mers of a string by their end positions: the k-mer that ends at `p`
is `kmer_at w p`. -/
theorem kmers_eq_map_kmer_at (w : List Nat) :
    kmers w = ((List.range w.length).filter (fun p => decide (4 ≤ p))).map (kmer_at w) := by
  rw [kmers_eq_map]
  by_cases h : 4 ≤ w.length
  · have e : w.length = 4 + (w.length - 4) := by omega
    conv_rhs => rw [e, List.range_add, List.filter_append]
    have h1 : (List.range 4).filter (fun p => decide (4 ≤ p)) = [] := by decide
    have h2 : ((List.range (w.length - 4)).map (fun x => 4 + x)).filter
        (fun p => decide (4 ≤ p)) = (List.range (w.length - 4)).map (fun x => 4 + x) := by
      rw [List.filter_eq_self]
      intro a ha
      rw [List.mem_map] at ha
      obtain ⟨x, _, rfl⟩ := ha
      simp
    rw [h1, h2, List.nil_append, List.map_map]
    apply List.map_congr_left
    intro j _
    simp [kmer_at]
  · have e : w.length - 4 = 0 := by omega
    rw [e]
    have : (List.range w.length).filter (fun p => decide (4 ≤ p)) = [] := by
      rw [List.filter_eq_nil_iff]
      intro a ha
      rw [List.mem_range] at ha
      simp; omega
    rw [this]; rfl

/-- C16.  After `kmer_counting_compile` enables the filter on a pattern of
length `L < 2^16` (hence `5 ≤ L`) over `{A, C, G, T}`, for every index `k` in
`[0, 1024)` the counter `kmer_count_pattern[k]` is the number of positions `p`
in `[4, L)` whose 5-mer `pattern[p-4..p]`, packed two bits per symbol, equals
`k`; the counters sum to `L - 4`. -/
theorem kmer_counting_compile_counts (pattern : List Nat)
    (num_non_canonical_bases effective_filtering_max_error : Nat)
    (kmer_counting : kmer_counting_t)
    (hcompile : kmer_counting_compile pattern pattern.length num_non_canonical_bases
      effective_filtering_max_error = some kmer_counting)
    (henabled : kmer_counting.enabled = true)
    (hlen : pattern.length < 2 ^ 16)
    (hsym : ∀ c ∈ pattern, c < 4) :
    5 ≤ pattern.length ∧
    (∀ k, k < 1024 →
      kmer_counting.kmer_count_pattern k = (kmer_positions pattern k).length) ∧
    ∑ k ∈ Finset.range 1024, kmer_counting.kmer_count_pattern k = pattern.length - 4 := by
  obtain ⟨hL5, _, hcp⟩ := kmer_counting_compile_spec pattern num_non_canonical_bases
    effective_filtering_max_error kmer_counting hcompile henabled (by omega)
  refine ⟨hL5, ?_, ?_⟩
  · intro k _
    rw [hcp, kmer_count_of, kmers_eq_map_kmer_at, kmer_positions, List.count, List.countP_map,
      List.countP_filter, ← List.countP_eq_length_filter]
    apply List.countP_congr
    intro p hp
    rw [List.mem_range] at hp
    simp only [Function.comp, beq_iff_eq, Bool.and_eq_true, decide_eq_true_eq]
    constructor
    · rintro ⟨h1, h2⟩
      refine ⟨h2, ?_⟩
      rw [← h1, kmer_at]
      symm
      apply kmer_roll_eq_kmer_pack
      · intro c hc
        exact hsym c (List.mem_of_mem_drop (List.mem_of_mem_take hc))
      · simp only [List.length_take, List.length_drop]; omega
    · rintro ⟨h1, h2⟩
      refine ⟨?_, h1⟩
      rw [← h2, kmer_at]
      apply kmer_roll_eq_kmer_pack
      · intro c hc
        exact hsym c (List.mem_of_mem_drop (List.mem_of_mem_take hc))
      · simp only [List.length_take, List.length_drop]; omega
  · rw [hcp]
    have := Multiset.sum_count_eq_card (s := Finset.range 1024)
      (m := (kmers pattern : Multiset Nat))
      (fun a ha => Finset.mem_range.mpr (kmers_lt pattern a (by simpa using ha)))
    simp only [Multiset.coe_count, Multiset.coe_card, kmers_length] at this
    exact this

/-- Witness for C16: the counters of the pattern `ACGTACGTTGCA`. -/
theorem kmer_counting_compile_counts_witness :
    ∃ kmer_counting,
      kmer_counting_compile example_pattern example_pattern.length 0 1 = some kmer_counting ∧
      kmer_counting.enabled = true ∧ example_pattern.length < 2 ^ 16 ∧
      (∀ c ∈ example_pattern, c < 4) ∧
      5 ≤ example_pattern.length ∧
      (∀ k, k < 1024 →
        kmer_counting.kmer_count_pattern k = (kmer_positions example_pattern k).length) ∧
      ∑ k ∈ Finset.range 1024, kmer_counting.kmer_count_pattern k =
        example_pattern.length - 4 :=
  have hen : (kmer_counting_compile example_pattern example_pattern.length 0 1).map
      (fun kmer_counting => kmer_counting.enabled) = some true := by decide
  match hc : kmer_counting_compile example_pattern example_pattern.length 0 1 with
  | some kmer_counting =>
    have hen' : kmer_counting.enabled = true := by
      rw [hc] at hen
      simpa using hen
    ⟨kmer_counting, rfl, hen', by decide, by decide,
      kmer_counting_compile_counts example_pattern 0 1 kmer_counting hc hen' (by decide)
        (by decide)⟩
  | none => absurd hen (by rw [hc]; decide)

/-! ## kmer_counting.c: the filter without its early exits -/

/-- The sum over the k-mer indices of the smaller count is the number of
k-mers that the window shares with the pattern. -/
theorem kmer_window_sum_eq_kmer_score (pattern w : List Nat) :
    kmer_window_sum (kmer_count_of pattern) (kmers w) = kmer_score pattern w := by
  unfold kmer_window_sum kmer_score kmer_count_of
  have := Multiset.sum_count_eq_card (s := Finset.range 1024)
    (m := (kmers w : Multiset Nat) ∩ (kmers pattern : Multiset Nat))
    (fun a ha => Finset.mem_range.mpr
      (kmers_lt w a (by simpa using (Multiset.mem_inter.mp ha).1)))
  rw [← this]
  apply Finset.sum_congr rfl
  intro k _
  rw [Multiset.count_inter, Multiset.coe_count, Multiset.coe_count]
  exact min_comm _ _

/-- The positions at or above `c + a` below `a + n` are the positions at or
above `c` below `n`, moved by `a`. -/
theorem filter_range_add (a n c : Nat) :
    (List.range (a + n)).filter (fun j => decide (c + a ≤ j)) =
      ((List.range n).filter (fun j => decide (c ≤ j))).map (fun j => a + j) := by
  rw [List.range_add, List.filter_append]
  have h1 : (List.range a).filter (fun j => decide (c + a ≤ j)) = [] := by
    rw [List.filter_eq_nil_iff]
    intro x hx
    rw [List.mem_range] at hx
    simp only [decide_eq_true_eq]; omega
  rw [h1, List.nil_append, List.filter_map]
  congr 1
  apply List.filter_congr
  intro x _
  simp only [Function.comp, decide_eq_decide]
  omega

/-- The k-mer that ends at position `q` of a window is the k-mer that ends at
the same character of the text. -/
theorem kmer_at_window (text : List Nat) (a n q : Nat) (hq4 : 4 ≤ q) (hqn : q < n) :
    kmer_at ((text.drop a).take n) q = kmer_at text (a + q) := by
  unfold kmer_at
  rw [List.drop_take, List.take_take, List.drop_drop]
  have e1 : min 5 (n - (q - 4)) = 5 := by omega
  have e2 : a + (q - 4) = a + q - 4 := by omega
  rw [e1, e2]

/-- The window of 5-mers that end at the positions `max(4, p-L+5) .. p` holds
the k-mers of the characters `p + 1 - L .. p` of the text. -/
theorem kmer_window_at_eq_kmers (text : List Nat) (L p : Nat) (hL : 5 ≤ L)
    (hp : p < text.length) :
    kmer_window_at text L p = kmers (kmer_text_window text L p) := by
  unfold kmer_window_at kmer_text_window
  rw [kmers_eq_map_kmer_at]
  have hlen : ((text.drop (p + 1 - L)).take (min (p + 1) L)).length = min (p + 1) L := by
    rw [List.length_take, List.length_drop]; omega
  rw [hlen]
  have e1 : p + 1 = (p + 1 - L) + min (p + 1) L := by omega
  have e2 : max 4 (p + 5 - L) = 4 + (p + 1 - L) := by omega
  have key := filter_range_add (p + 1 - L) (min (p + 1) L) 4
  rw [← e1] at key
  rw [e2, key, List.map_map]
  apply List.map_congr_left
  intro q hq
  rw [List.mem_filter, List.mem_range] at hq
  simp only [decide_eq_true_eq] at hq
  simp only [Function.comp]
  exact (kmer_at_window text _ _ q hq.2 hq.1).symm

/-- The window that the filter has counted when its end pointer stands at the
last character of `w`. -/
theorem kmer_text_window_eq (a w post : List Nat) (L : Nat) (hw : 1 ≤ w.length)
    (hwL : w.length ≤ L) (hfull : a = [] ∨ w.length = L) :
    kmer_text_window (a ++ w ++ post) L (a.length + w.length - 1) = w := by
  unfold kmer_text_window
  have e1 : a.length + w.length - 1 + 1 - L = a.length := by
    rcases hfull with rfl | h
    · simp only [List.length_nil]; omega
    · omega
  have e2 : min (a.length + w.length - 1 + 1) L = w.length := by
    rcases hfull with rfl | h
    · simp only [List.length_nil]; omega
    · omega
  rw [e1, e2, List.append_assoc, List.drop_left, List.take_left]

/-- The first counting loop of `kmer_counting_filter` returns early with
`ALIGN_DISTANCE_INF`, or with `0` at an end position whose window reaches the
required score. -/
theorem kmer_counting_filter_load_complete (pattern text : List Nat) (total required : Nat)
    (hL : pattern.length < 65540) (htot : text.length ≤ total) (htot64 : total < U64) :
    ∀ (n : Nat) (pre post : List Nat) (s : kmer_filter_state), text = pre ++ post →
      4 ≤ pre.length → n ≤ post.length → pre.length + n ≤ pattern.length →
      kmer_filter_end total pre s → kmer_filter_counts pattern pre s →
      match kmer_counting_filter_load (kmer_count_of pattern) text required n s with
      | Sum.inl r => r = ALIGN_DISTANCE_INF ∨
          (r = 0 ∧ kmer_window_reached pattern pattern.length required text)
      | Sum.inr _ => True := by
  intro n
  induction n with
  | zero =>
    intro pre post s _ _ _ _ _ _
    simp only [kmer_counting_filter_load]
  | succ n ih =>
    intro pre post s ht h4 hn hlen hend hcnt
    match post, hn with
    | c :: post', hn =>
      obtain ⟨i1, i2, i3, i4, i5, i6⟩ := kmer_counting_filter_increment_spec pattern text pre
        post' pre c total s ht (List.suffix_refl _) h4 (by omega) hend hcnt
      obtain ⟨he1, he2, he3⟩ := hend
      have htl : text.length = pre.length + (post'.length + 1) := by
        rw [ht]; simp
      rw [kmer_counting_filter_load]
      by_cases h1 : (kmer_counting_filter_increment (kmer_count_of pattern) text s).kmers_in_text
          ≥ required
      · rw [if_pos h1]
        refine Or.inr ⟨rfl, pre.length, h4, by omega, ?_⟩
        have hw := kmer_text_window_eq [] (pre ++ [c]) post' pattern.length (by simp)
          (by simp only [List.length_append, List.length_singleton]; omega) (Or.inl rfl)
        have e : ([] : List Nat) ++ (pre ++ [c]) ++ post' = text := by rw [ht]; simp
        have e2 : ([] : List Nat).length + (pre ++ [c]).length - 1 = pre.length := by simp
        rw [e, e2] at hw
        rw [hw, ← i4.1]
        exact h1
      · rw [if_neg h1]
        by_cases h2 : sub64 required
            (kmer_counting_filter_increment (kmer_count_of pattern) text s).kmers_in_text >
            (kmer_counting_filter_increment (kmer_count_of pattern) text s).kmers_left
        · rw [if_pos h2]
          exact Or.inl rfl
        · rw [if_neg h2]
          exact ih (pre ++ [c]) post'
            { kmer_counting_filter_increment (kmer_count_of pattern) text s with
              end_pos := (kmer_counting_filter_increment (kmer_count_of pattern) text s).end_pos
                + 1
              kmers_left := dec64
                (kmer_counting_filter_increment (kmer_count_of pattern) text s).kmers_left }
            (by simp [ht]) (by simp; omega) (by simpa using hn) (by simp; omega)
            ⟨by simp [i1, he1], i3, by
              show dec64 _ + _ = _
              rw [i2]
              simp only [dec64, sub64, U64, List.length_append, List.length_singleton] at *
              omega⟩
            i4

/-- The sliding-window loop of `kmer_counting_filter` returns
`ALIGN_DISTANCE_INF`, or `0` at an end position whose window reaches the
required score. -/
theorem kmer_counting_filter_slide_complete (pattern text : List Nat) (total required : Nat)
    (hL : pattern.length < 65540) (hL5 : 5 ≤ pattern.length) (htot : text.length ≤ total)
    (htot64 : total < U64) :
    ∀ (n : Nat) (a w post : List Nat) (s : kmer_filter_state), text = a ++ w ++ post →
      w.length = pattern.length → n = post.length →
      kmer_filter_end total (a ++ w) s → kmer_filter_begin a w s →
      kmer_filter_counts pattern w s →
      kmer_counting_filter_slide (kmer_count_of pattern) text required n s
          = ALIGN_DISTANCE_INF ∨
        (kmer_counting_filter_slide (kmer_count_of pattern) text required n s = 0 ∧
          kmer_window_reached pattern pattern.length required text) := by
  intro n
  induction n with
  | zero =>
    intro a w post s _ _ _ _ _ _
    exact Or.inl rfl
  | succ n ih =>
    intro a w post s ht hwl hn hend hbeg hcnt
    cases post with
    | nil => simp at hn
    | cons c post' =>
    cases w with
    | nil => simp only [List.length_nil] at hwl; omega
    | cons w0 wt =>
      simp only [List.length_cons] at hwl hn
      obtain ⟨d1, d2, d3, d4, d5, d6⟩ := kmer_counting_filter_decrement_spec pattern text a wt
        (c :: post') w0 s ht (by omega) (by omega) hbeg hcnt
      obtain ⟨he1, he2, he3⟩ := hend
      have ht2 : text = (a ++ w0 :: wt) ++ c :: post' := ht
      obtain ⟨i1, i2, i3, i4, i5, i6⟩ := kmer_counting_filter_increment_spec pattern text
        (a ++ w0 :: wt) post' wt c total
        (kmer_counting_filter_decrement (kmer_count_of pattern) text s) ht2
        ⟨a ++ [w0], by simp⟩ (by omega) (by omega)
        ⟨by rw [d1, he1], by rw [d3, he2], by rw [d2, he3]⟩ d4
      have htl : text.length = (a ++ w0 :: wt).length + (post'.length + 1) := by
        rw [ht2]; simp only [List.length_append, List.length_cons]
      have hwnl : (wt ++ [c]).length = pattern.length := by simp; omega
      rw [kmer_counting_filter_slide]
      generalize hsi : kmer_counting_filter_increment (kmer_count_of pattern) text
        (kmer_counting_filter_decrement (kmer_count_of pattern) text s) = si at *
      by_cases h1 : si.kmers_in_text ≥ required
      · rw [if_pos h1]
        refine Or.inr ⟨rfl, (a ++ w0 :: wt).length, ?_, by omega, ?_⟩
        · simp only [List.length_append, List.length_cons]; omega
        · have hw := kmer_text_window_eq (a ++ [w0]) (wt ++ [c]) post' pattern.length
            (by simp) (by omega) (Or.inr hwnl)
          have e : (a ++ [w0]) ++ (wt ++ [c]) ++ post' = text := by rw [ht2]; simp
          have e2 : (a ++ [w0]).length + (wt ++ [c]).length - 1 = (a ++ w0 :: wt).length := by
            simp only [List.length_append, List.length_cons, List.length_nil]; omega
          rw [e, e2] at hw
          rw [hw, ← i4.1]
          exact h1
      · rw [if_neg h1]
        by_cases h2 : sub64 required si.kmers_in_text > si.kmers_left
        · rw [if_pos h2]
          exact Or.inl rfl
        · rw [if_neg h2]
          have e1 : (a ++ [w0]) ++ (wt ++ [c]) = (a ++ w0 :: wt) ++ [c] := by simp
          refine ih (a ++ [w0]) (wt ++ [c]) post' _ (by rw [ht2]; simp) hwnl (by omega)
            ⟨?_, ?_, ?_⟩ ⟨?_, ?_⟩ i4
          · show si.end_pos + 1 = _
            rw [i1, d1, he1, e1]
            simp only [List.length_append, List.length_cons, List.length_nil]
          · show si.kmer_idx_end = _
            rw [i3, e1]
          · show dec64 si.kmers_left + _ = _
            rw [i2, d2, e1]
            simp only [dec64, sub64, U64, List.length_append, List.length_singleton,
              List.length_cons] at *
            omega
          · show si.begin_pos + 1 = _
            rw [i5, d5, hbeg.1]
            simp only [List.length_append, List.length_cons, List.length_nil]
          · intro i _
            show si.kmer_idx_begin.testBit i = _
            rw [i6, d6]
            have e2 : (a ++ [w0]) ++ (wt ++ [c]).take 4 = a ++ (w0 :: wt).take 5 := by
              rw [List.take_append_of_le_length (by omega)]
              simp
            rw [e2]

/-- The filter returns `0` when `5 * max_error` reaches `L - 4`. -/
theorem kmer_counting_filter_of_error (pattern text : List Nat)
    (kmer_counting : kmer_counting_t) (text_length max_error : Nat)
    (hpl : kmer_counting.pattern_length = pattern.length)
    (hL5 : 5 ≤ pattern.length) (hL : pattern.length < 65540)
    (he : 5 * max_error < U64) (h0 : pattern.length - 4 ≤ 5 * max_error) :
    kmer_counting_filter kmer_counting text text_length max_error = 0 := by
  have hLU : pattern.length < U64 := by simp only [U64]; omega
  have hmul : mul64 KMER_COUNTING_LENGTH max_error = 5 * max_error :=
    mul64_of_lt 5 max_error he
  have hmax : sub64 pattern.length (KMER_COUNTING_LENGTH - 1) = pattern.length - 4 :=
    sub64_of_le _ 4 (by omega) hLU
  unfold kmer_counting_filter
  rw [hpl, hmul, hmax]
  by_cases h : (!kmer_counting.enabled) = true
  · rw [if_pos h]
  · rw [if_neg h]
    simp only
    rw [if_pos h0]

/-- The filter returns `ALIGN_DISTANCE_INF`, or `0` at an end position whose
window reaches the required score, when `5 * max_error < L - 4` and no machine
integer wraps. -/
theorem kmer_counting_filter_complete (pattern text : List Nat)
    (kmer_counting : kmer_counting_t)
    (max_error : Nat) (hen : kmer_counting.enabled = true)
    (hpl : kmer_counting.pattern_length = pattern.length)
    (hcp : kmer_counting.kmer_count_pattern = kmer_count_of pattern)
    (hL5 : 5 ≤ pattern.length) (hL : pattern.length < 65540)
    (ht4 : 4 ≤ text.length) (ht64 : text.length < U64) (he : 5 * max_error < U64)
    (h0 : ¬ 5 * max_error ≥ pattern.length - 4) :
    kmer_counting_filter kmer_counting text text.length max_error = ALIGN_DISTANCE_INF ∨
      (kmer_counting_filter kmer_counting text text.length max_error = 0 ∧
        kmer_window_reached pattern pattern.length
          (pattern.length - 4 - 5 * max_error) text) := by
  have hLU : pattern.length < U64 := by simp only [U64]; omega
  have hmul : mul64 KMER_COUNTING_LENGTH max_error = 5 * max_error :=
    mul64_of_lt 5 max_error he
  have hmax : sub64 pattern.length (KMER_COUNTING_LENGTH - 1) = pattern.length - 4 :=
    sub64_of_le _ 4 (by omega) hLU
  unfold kmer_counting_filter
  rw [hen, hpl, hcp, hmul, hmax]
  simp only [Bool.not_true, Bool.false_eq_true, if_false]
  rw [if_neg h0]
  rw [sub64_of_le _ _ (by omega) (by omega)]
  match text, ht4 with
  | t0 :: t1 :: t2 :: t3 :: rest, _ =>
    generalize htext : t0 :: t1 :: t2 :: t3 :: rest = text at *
    have htot4 : 4 ≤ max text.length pattern.length := by omega
    have htot64 : max text.length pattern.length < U64 := max_lt ht64 hLU
    obtain ⟨f1, f2, f3, f4⟩ := kmer_counting_filter_fill_end_spec pattern t0 t1 t2 t3 rest
      (max text.length pattern.length) htot4 htot64
    rw [htext] at f1 f2 f3 f4
    have e4 : KMER_COUNTING_LENGTH - 1 = 4 := rfl
    rw [e4]
    generalize kmer_counting_filter_fill_end text 4 _ = s1 at *
    have hrest : text.length = rest.length + 4 := by rw [← htext]; simp
    have hload := kmer_counting_filter_load_spec pattern text (max text.length pattern.length)
      (pattern.length - 4 - 5 * max_error) hL (le_max_left _ _) htot64 (by omega)
      (min text.length pattern.length - s1.end_pos) [t0, t1, t2, t3] rest s1
      (by rw [← htext]; rfl) (by simp) (by rw [f1.1]; simp; omega)
      (by rw [f1.1]; simp; omega) f1 f2
    have hcomp := kmer_counting_filter_load_complete pattern text
      (max text.length pattern.length)
      (pattern.length - 4 - 5 * max_error) hL (le_max_left _ _) htot64
      (min text.length pattern.length - s1.end_pos) [t0, t1, t2, t3] rest s1
      (by rw [← htext]; rfl) (by simp) (by rw [f1.1]; simp; omega)
      (by rw [f1.1]; simp; omega) f1 f2
    generalize hn : min text.length pattern.length - s1.end_pos = n at *
    have hn' : n = min text.length pattern.length - 4 := by rw [← hn, f1.1]; rfl
    generalize kmer_counting_filter_load (kmer_count_of pattern) text
      (pattern.length - 4 - 5 * max_error) n s1 = r at *
    match r, hload, hcomp with
    | Sum.inl r, _, hcomp => exact hcomp
    | Sum.inr s2, hload, _ =>
      obtain ⟨g1, g2, g3, g4⟩ := hload
      simp only
      have hwl : ([t0, t1, t2, t3] ++ rest.take n).length = 4 + n := by
        simp only [List.length_append, List.length_take, List.length_cons, List.length_nil]
        omega
      by_cases h1 : s2.kmers_in_text ≥ pattern.length - 4 - 5 * max_error
      · rw [if_pos h1]
        rw [g2.1] at h1
        have hsc := kmer_score_le pattern ([t0, t1, t2, t3] ++ rest.take n)
        rw [hwl] at hsc
        refine Or.inr ⟨rfl, 4 + n - 1, by omega, by omega, ?_⟩
        have hw := kmer_text_window_eq [] ([t0, t1, t2, t3] ++ rest.take n) (rest.drop n)
          pattern.length (by omega) (by omega) (Or.inl rfl)
        have e : ([] : List Nat) ++ ([t0, t1, t2, t3] ++ rest.take n) ++ rest.drop n = text := by
          rw [← htext]; simp
        rw [e, hwl, List.length_nil, Nat.zero_add] at hw
        rw [hw]
        exact h1
      rw [if_neg h1]
      by_cases h2 : min text.length pattern.length = text.length
      · rw [if_pos h2]
        exact Or.inl rfl
      · rw [if_neg h2]
        obtain ⟨b1, b2, b3, b4, b5, b6⟩ := kmer_counting_filter_fill_begin_spec t0 t1 t2 t3 rest
          s2 (by rw [g3, f3]) (by rw [g4, f4])
        rw [htext] at b1 b2 b3 b4 b5 b6
        generalize kmer_counting_filter_fill_begin text 4 s2 = s3 at *
        have hwl' : ([t0, t1, t2, t3] ++ rest.take n).length = pattern.length := by
          rw [hwl]; omega
        refine kmer_counting_filter_slide_complete pattern text
          (max text.length pattern.length)
          (pattern.length - 4 - 5 * max_error) hL hL5 (le_max_left _ _) htot64
          _ [] ([t0, t1, t2, t3] ++ rest.take n) (rest.drop n) s3 ?_ hwl' ?_ ?_ ?_ ?_
        · rw [← htext]; simp
        · rw [b2, g1.1, hwl', List.length_drop]; omega
        · exact ⟨by rw [b2, g1.1]; rfl, by rw [b3, g1.2.1]; rfl, by rw [b4]; exact g1.2.2⟩
        · refine ⟨b1.1, ?_⟩
          have : ([t0, t1, t2, t3] ++ rest.take n).take 4 = [t0, t1, t2, t3] := by simp
          rw [this]
          exact b1.2
        · exact ⟨by rw [b5]; exact g2.1, by rw [b6]; exact g2.2⟩

/-- The window that the filter has counted is a window of the text of at most
`L` characters. -/
theorem kmer_text_window_part (text : List Nat) (L p : Nat) :
    kmer_text_window text L p <:+: text ∧ (kmer_text_window text L p).length ≤ L := by
  unfold kmer_text_window
  constructor
  · exact (List.take_prefix _ _).isInfix.trans (List.drop_suffix _ _).isInfix
  · rw [List.length_take]; omega

/-- C15, amended.  The early exits of `kmer_counting_filter` do not change its
decision as long as no machine integer wraps: for every pattern of length
`L < 65540` that `kmer_counting_compile` has compiled, every text with
`4 ≤ text_length < 2^64` and every `max_error` with `5 * max_error < 2^64`,
`kmer_counting_filter` returns what `kmer_counting_filter_reference` returns:
`0` when the filter is disabled or `5 * max_error ≥ L - 4`, and otherwise `0` if
for some end position `p` in `[4, text_length)` the window of 5-mers that end
at the positions `max(4, p-L+5) .. p` has
`Σ_k min(count_pattern[k], count_window[k]) ≥ L - 4 - 5 * max_error`, and
`ALIGN_DISTANCE_INF` if there is no such position. -/
theorem kmer_counting_filter_refines (pattern text : List Nat)
    (num_non_canonical_bases effective_filtering_max_error : Nat)
    (kmer_counting : kmer_counting_t) (max_error : Nat)
    (hcompile : kmer_counting_compile pattern pattern.length num_non_canonical_bases
      effective_filtering_max_error = some kmer_counting)
    (hpattern : pattern.length < 65540)
    (htext : 4 ≤ text.length) (htext64 : text.length < 2 ^ 64)
    (herror : 5 * max_error < 2 ^ 64) :
    kmer_counting_filter kmer_counting text text.length max_error =
      kmer_counting_filter_reference kmer_counting.enabled kmer_counting.kmer_count_pattern
        pattern.length text text.length max_error := by
  by_cases hen : kmer_counting.enabled = true
  · obtain ⟨hL5, hpl, hcp⟩ := kmer_counting_compile_spec pattern num_non_canonical_bases
      effective_filtering_max_error kmer_counting hcompile hen hpattern
    unfold kmer_counting_filter_reference
    by_cases h0 : pattern.length - 4 ≤ 5 * max_error
    · rw [if_pos (Or.inr h0)]
      exact kmer_counting_filter_of_error pattern text kmer_counting text.length max_error hpl
        hL5 hpattern herror h0
    · rw [if_neg (by rw [hen]; simp [h0])]
      have hiff : (∃ p, p < text.length ∧ (4 ≤ p ∧
          pattern.length - 4 - 5 * max_error ≤
            kmer_window_sum kmer_counting.kmer_count_pattern
              (kmer_window_at text pattern.length p))) ↔
          kmer_window_reached pattern pattern.length
            (pattern.length - 4 - 5 * max_error) text := by
        unfold kmer_window_reached
        constructor
        · rintro ⟨p, hp, h4, h⟩
          refine ⟨p, h4, hp, ?_⟩
          rw [hcp, kmer_window_at_eq_kmers text _ p hL5 hp, kmer_window_sum_eq_kmer_score] at h
          exact h
        · rintro ⟨p, h4, hp, h⟩
          refine ⟨p, hp, h4, ?_⟩
          rw [hcp, kmer_window_at_eq_kmers text _ p hL5 hp, kmer_window_sum_eq_kmer_score]
          exact h
      have hspec := kmer_counting_filter_spec pattern text kmer_counting max_error hen hpl hcp
        hL5 hpattern htext htext64 herror
      have hcomp := kmer_counting_filter_complete pattern text kmer_counting max_error hen hpl
        hcp hL5 hpattern htext htext64 herror (by omega)
      by_cases hr : kmer_window_reached pattern pattern.length
          (pattern.length - 4 - 5 * max_error) text
      · rw [if_pos (hiff.mpr hr)]
        rcases hspec with h | h
        · exact h
        · obtain ⟨p, _, _, hp⟩ := hr
          have hw := kmer_text_window_part text pattern.length p
          have := h _ hw.1 hw.2
          omega
      · rw [if_neg (fun h => hr (hiff.mp h))]
        rcases hcomp with h | ⟨_, h⟩
        · exact h
        · exact absurd h hr
  · have hen' : kmer_counting.enabled = false := by simpa using hen
    unfold kmer_counting_filter_reference kmer_counting_filter
    rw [if_pos (Or.inl hen'), hen']
    rfl

/-- Counterexample to C15 as stated: with `max_error = 3689348814741910324`
the product `5 * max_error = 2^64 + 4` is at least `L - 4 = 8`, so the claim
has the filter return `0`; but the product wraps to `4`, and the filter,
compiled and enabled for a pattern of twelve `A`s, rejects the text `GGGGG`. -/
theorem kmer_counting_filter_reference_wraps :
    example_pattern_poly_a.length - 4 ≤ 5 * example_wrapping_max_error ∧
    4 ≤ [2, 2, 2, 2, 2].length ∧
    (kmer_counting_compile example_pattern_poly_a example_pattern_poly_a.length 0 1).map
        (fun kmer_counting => (kmer_counting.enabled,
          kmer_counting_filter kmer_counting [2, 2, 2, 2, 2] [2, 2, 2, 2, 2].length
            example_wrapping_max_error,
          kmer_counting_filter_reference kmer_counting.enabled
            kmer_counting.kmer_count_pattern example_pattern_poly_a.length
            [2, 2, 2, 2, 2] [2, 2, 2, 2, 2].length example_wrapping_max_error)) =
      some (true, ALIGN_DISTANCE_INF, 0) := by
  refine ⟨by decide, by decide, ?_⟩
  set_option maxRecDepth 100000 in decide

/-- Witness of the amended C15: on `example_text` at `max_error = 1` the filter
compiled for `ACGTACGTTGCA` returns what the reference decision returns. -/
theorem kmer_counting_filter_refines_witness :
    ∃ kmer_counting,
      kmer_counting_compile example_pattern example_pattern.length 0 1 = some kmer_counting ∧
      example_pattern.length < 65540 ∧ 4 ≤ example_text.length ∧
      example_text.length < 2 ^ 64 ∧ 5 * 1 < 2 ^ 64 ∧
      kmer_counting_filter kmer_counting example_text example_text.length 1 =
        kmer_counting_filter_reference kmer_counting.enabled
          kmer_counting.kmer_count_pattern example_pattern.length example_text
          example_text.length 1 :=
  have hsome : (kmer_counting_compile example_pattern example_pattern.length 0 1).isSome
      = true := by decide
  match hc : kmer_counting_compile example_pattern example_pattern.length 0 1 with
  | some kmer_counting =>
    ⟨kmer_counting, rfl, by decide, by decide, by decide, by decide,
      kmer_counting_filter_refines example_pattern example_text 0 1 kmer_counting 1 hc
        (by decide) (by decide) (by decide) (by decide)⟩
  | none => absurd hsome (by rw [hc]; decide)
/-! ## cdna_bitwise_text.c: the layers written for each symbol -/

/-- In every builder state the symbol JUMP is added exactly as the symbol T
is. -/
theorem cdna_bitwise_text_builder_write_char_jump (cdna_text : cdna_bitwise_text_builder_t) :
    cdna_bitwise_text_builder_write_char cdna_text ENC_DNA_CHAR_JUMP =
      cdna_bitwise_text_builder_write_char cdna_text ENC_DNA_CHAR_T := by
  simp [cdna_bitwise_text_builder_write_char, ENC_DNA_CHAR_JUMP, ENC_DNA_CHAR_T,
    ENC_DNA_CHAR_A, ENC_DNA_CHAR_C, ENC_DNA_CHAR_G, ENC_DNA_CHAR_N, ENC_DNA_CHAR_SEP]

/-- C18 (code bug): `cdna_bitwise_text_builder_add_char` stores each of the
symbols A, C, G, T, N, SEP (codes 0..5) as its 3-bit binary code, bit j of
the code going to layer_j, but it stores JUMP (code 6, binary 110) with layer_1
and layer_0 set and layer_2 clear: in every builder state adding JUMP has the
same result as adding T, so the seven triples are not pairwise distinct and
JUMP does not set the third layer. -/
theorem cdna_bitwise_text_builder_add_char_jump :
    (∀ c, c < 6 →
      cdna_bitwise_text_builder_char_layers c =
        some (c / 4 % 2 * 2 ^ 62, c / 2 % 2 * 2 ^ 62, c % 2 * 2 ^ 62)) ∧
    (∀ cdna_text : cdna_bitwise_text_builder_t,
      cdna_bitwise_text_builder_add_char cdna_text ENC_DNA_CHAR_JUMP =
        cdna_bitwise_text_builder_add_char cdna_text ENC_DNA_CHAR_T) ∧
    cdna_bitwise_text_builder_char_layers ENC_DNA_CHAR_JUMP = some (0, 2 ^ 62, 2 ^ 62) ∧
    cdna_bitwise_text_builder_char_layers ENC_DNA_CHAR_JUMP =
      cdna_bitwise_text_builder_char_layers ENC_DNA_CHAR_T := by
  refine ⟨?_, ?_, ?_, ?_⟩
  · intro c hc
    interval_cases c <;> rfl
  · intro cdna_text
    unfold cdna_bitwise_text_builder_add_char
    rw [cdna_bitwise_text_builder_write_char_jump]
  · rfl
  · rfl
/-! ## mm_stack.c: the stack allocator -/

/-- The result of `mm_stack_memory_allocate`, case by case. -/
theorem mm_stack_memory_allocate_spec (mm_stack : mm_stack_t) (num_bytes : Nat)
    (zero_mem : Bool) (init : List mm_stack_segment_t) (seg : mm_stack_segment_t)
    (hseg : mm_stack.segments = init ++ [seg]) :
    mm_stack_memory_allocate mm_stack num_bytes zero_mem =
      if num_bytes > seg.memory_available then
        if num_bytes > mm_stack.segment_size then
          Except.error mm_stack_error.MM_STACK_CANNOT_ALLOCATE
        else
          Except.ok ({ mm_stack with
            segments := init ++ [seg] ++
              [{ memory := num_bytes
                 memory_available := sub64 mm_stack.segment_size num_bytes }] },
            (init.length + 1, 0))
      else
        Except.ok ({ mm_stack with
          segments := init ++
            [{ memory := seg.memory + num_bytes
               memory_available := sub64 seg.memory_available num_bytes }] },
          (init.length, seg.memory)) := by
  unfold mm_stack_memory_allocate
  rw [hseg, List.getLast?_append_cons, List.getLast?_singleton]
  simp only [mm_stack_add_segment, hseg]
  by_cases h1 : num_bytes > seg.memory_available
  · rw [if_pos h1, if_pos h1]
    by_cases h2 : num_bytes > mm_stack.segment_size
    · rw [if_pos h2, if_pos h2]
    · rw [if_neg h2, if_neg h2]
      simp [List.dropLast_concat]
  · rw [if_neg h1, if_neg h1]
    simp [List.dropLast_concat]

/-- A non-empty list of segments ends in a last segment. -/
theorem mm_stack_segments_last (l : List mm_stack_segment_t) (h : l ≠ []) :
    ∃ init seg, l = init ++ [seg] :=
  ⟨l.dropLast, l.getLast h, (List.dropLast_append_getLast h).symm⟩
/-- A request of at most `segment_size` bytes succeeds in a state that
satisfies the invariant, and the invariant holds afterwards. -/
theorem mm_stack_memory_allocate_inv (mm_stack : mm_stack_t) (num_bytes : Nat)
    (zero_mem : Bool) (hinv : mm_stack_inv mm_stack)
    (hbytes : num_bytes ≤ mm_stack.segment_size) :
    ∃ out, mm_stack_memory_allocate mm_stack num_bytes zero_mem = Except.ok out ∧
      mm_stack_inv out.1 := by
  obtain ⟨hsize, hne, hall⟩ := hinv
  obtain ⟨init, seg, hseg⟩ := mm_stack_segments_last _ hne
  rw [mm_stack_memory_allocate_spec _ _ _ init seg hseg]
  have hlast := hall seg (by rw [hseg]; simp)
  by_cases h1 : num_bytes > seg.memory_available
  · rw [if_pos h1, if_neg (by omega)]
    refine ⟨_, rfl, hsize, by simp, ?_⟩
    intro s hs
    simp only [List.append_assoc, List.mem_append, List.mem_singleton, List.mem_cons,
      List.not_mem_nil, or_false] at hs
    rcases hs with hs | hs | hs
    · exact hall s (by rw [hseg]; simp [hs])
    · exact hall s (by rw [hseg]; simp [hs])
    · subst hs
      simp only
      rw [sub64_of_le _ _ hbytes hsize]
      omega
  · rw [if_neg h1]
    refine ⟨_, rfl, hsize, by simp, ?_⟩
    intro s hs
    simp only [List.mem_append, List.mem_singleton] at hs
    rcases hs with hs | hs
    · exact hall s (by rw [hseg]; simp [hs])
    · subst hs
      simp only
      rw [sub64_of_le _ _ (by omega) (by omega)]
      omega

/-- The invariant holds in every reachable arena state. -/
theorem mm_stack_reachable_inv (mm_stack : mm_stack_t) (h : mm_stack_reachable mm_stack) :
    mm_stack_inv mm_stack := by
  induction h with
  | new slab_size hs =>
    refine ⟨hs, by simp [mm_stack_new], ?_⟩
    intro s hs
    simp only [mm_stack_new, List.mem_singleton] at hs
    subst hs
    simp [mm_stack_new]
  | allocate s s' n z block _ halloc ih =>
    obtain ⟨hsize, hne, hall⟩ := ih
    obtain ⟨init, seg, hseg⟩ := mm_stack_segments_last _ hne
    rw [mm_stack_memory_allocate_spec _ _ _ init seg hseg] at halloc
    by_cases h1 : n > seg.memory_available
    · rw [if_pos h1] at halloc
      by_cases h2 : n > s.segment_size
      · rw [if_pos h2] at halloc
        cases halloc
      · obtain ⟨out, hout, hinv⟩ :=
          mm_stack_memory_allocate_inv s n z ⟨hsize, hne, hall⟩ (by omega)
        rw [mm_stack_memory_allocate_spec _ _ _ init seg hseg, if_pos h1, if_neg h2] at hout
        rw [if_neg h2] at halloc
        rw [hout] at halloc
        cases halloc
        exact hinv
    · obtain ⟨out, hout, hinv⟩ :=
        mm_stack_memory_allocate_inv s n z ⟨hsize, hne, hall⟩
          (by have := hall seg (by rw [hseg]; simp); omega)
      rw [mm_stack_memory_allocate_spec _ _ _ init seg hseg, if_neg h1] at hout
      rw [if_neg h1, hout] at halloc
      cases halloc
      exact hinv
  | free s _ ih =>
    refine ⟨ih.1, by simp [mm_stack_free], ?_⟩
    intro seg hs
    simp only [mm_stack_free, List.mem_singleton] at hs
    subst hs
    simp [mm_stack_free]

/-- C20: in every reachable arena state `mm_stack_memory_allocate` stops with
the fatal error `MM_STACK_CANNOT_ALLOCATE` if and only if `num_bytes` is
larger than `segment_size`, and a request of at most `segment_size` bytes
returns a block. -/
theorem mm_stack_memory_allocate_cannot_allocate (mm_stack : mm_stack_t) (num_bytes : Nat)
    (zero_mem : Bool) (hreach : mm_stack_reachable mm_stack) :
    (mm_stack_memory_allocate mm_stack num_bytes zero_mem =
        Except.error mm_stack_error.MM_STACK_CANNOT_ALLOCATE ↔
      num_bytes > mm_stack.segment_size) ∧
    ((∃ e, mm_stack_memory_allocate mm_stack num_bytes zero_mem = Except.error e) ↔
      num_bytes > mm_stack.segment_size) ∧
    (num_bytes ≤ mm_stack.segment_size →
      ∃ out, mm_stack_memory_allocate mm_stack num_bytes zero_mem = Except.ok out) := by
  have hinv := mm_stack_reachable_inv mm_stack hreach
  have hok : num_bytes ≤ mm_stack.segment_size →
      ∃ out, mm_stack_memory_allocate mm_stack num_bytes zero_mem = Except.ok out := by
    intro h
    obtain ⟨out, hout, _⟩ := mm_stack_memory_allocate_inv mm_stack num_bytes zero_mem hinv h
    exact ⟨out, hout⟩
  have hfail : num_bytes > mm_stack.segment_size →
      mm_stack_memory_allocate mm_stack num_bytes zero_mem =
        Except.error mm_stack_error.MM_STACK_CANNOT_ALLOCATE := by
    intro h
    obtain ⟨_, hne, hall⟩ := hinv
    obtain ⟨init, seg, hseg⟩ := mm_stack_segments_last _ hne
    have hlast := hall seg (by rw [hseg]; simp)
    rw [mm_stack_memory_allocate_spec _ _ _ init seg hseg, if_pos (by omega), if_pos h]
  refine ⟨⟨?_, hfail⟩, ⟨?_, fun h => ⟨_, hfail h⟩⟩, hok⟩
  · intro h
    by_contra hle
    obtain ⟨out, hout⟩ := hok (by omega)
    rw [hout] at h
    cases h
  · rintro ⟨e, h⟩
    by_contra hle
    obtain ⟨out, hout⟩ := hok (by omega)
    rw [hout] at h
    cases h

theorem mm_stack_memory_allocate_cannot_allocate_witness :
    mm_stack_reachable (mm_stack_free (mm_stack_new 64)) ∧
    ((mm_stack_memory_allocate (mm_stack_free (mm_stack_new 64)) 65 false =
        Except.error mm_stack_error.MM_STACK_CANNOT_ALLOCATE ↔
      65 > (mm_stack_free (mm_stack_new 64)).segment_size) ∧
    ((∃ e, mm_stack_memory_allocate (mm_stack_free (mm_stack_new 64)) 65 false =
        Except.error e) ↔
      65 > (mm_stack_free (mm_stack_new 64)).segment_size) ∧
    (65 ≤ (mm_stack_free (mm_stack_new 64)).segment_size →
      ∃ out, mm_stack_memory_allocate (mm_stack_free (mm_stack_new 64)) 65 false =
        Except.ok out)) :=
  ⟨mm_stack_reachable.free _ (mm_stack_reachable.new 64 (by decide)),
    mm_stack_memory_allocate_cannot_allocate _ 65 false
      (mm_stack_reachable.free _ (mm_stack_reachable.new 64 (by decide)))⟩
/-- An allocation of a multiple of 16 bytes from a stack whose last cursor is
at a multiple of 16 returns such an offset and leaves such a cursor. -/
theorem mm_stack_memory_allocate_aligned_step (mm_stack : mm_stack_t) (num_bytes : Nat)
    (zero_mem : Bool) (out : mm_stack_t × (Nat × Nat))
    (hlast : ∃ seg, mm_stack.segments.getLast? = some seg ∧ 16 ∣ seg.memory)
    (hbytes : 16 ∣ num_bytes)
    (halloc : mm_stack_memory_allocate mm_stack num_bytes zero_mem = Except.ok out) :
    16 ∣ out.2.2 ∧ out.1.segment_size = mm_stack.segment_size ∧
      ∃ seg, out.1.segments.getLast? = some seg ∧ 16 ∣ seg.memory := by
  obtain ⟨seg, hseg, hmem⟩ := hlast
  have hne : mm_stack.segments ≠ [] := by
    intro h
    rw [h] at hseg
    cases hseg
  obtain ⟨init, seg', hseg'⟩ := mm_stack_segments_last _ hne
  have hs : seg' = seg := by
    rw [hseg', List.getLast?_append_cons, List.getLast?_singleton] at hseg
    exact Option.some.inj hseg
  subst hs
  rw [mm_stack_memory_allocate_spec _ _ _ init seg' hseg'] at halloc
  by_cases h1 : num_bytes > seg'.memory_available
  · rw [if_pos h1] at halloc
    by_cases h2 : num_bytes > mm_stack.segment_size
    · rw [if_pos h2] at halloc
      cases halloc
    · rw [if_neg h2] at halloc
      cases halloc
      refine ⟨by simp, rfl, _, List.getLast?_concat _, hbytes⟩
  · rw [if_neg h1] at halloc
    cases halloc
    exact ⟨hmem, rfl, _, List.getLast?_concat _, Dvd.dvd.add hmem hbytes⟩

/-- A request of at most `segment_size` bytes returns a block whenever the
stack has a segment. -/
theorem mm_stack_memory_allocate_ok (mm_stack : mm_stack_t) (num_bytes : Nat)
    (zero_mem : Bool) (hne : mm_stack.segments ≠ [])
    (hbytes : num_bytes ≤ mm_stack.segment_size) :
    ∃ out, mm_stack_memory_allocate mm_stack num_bytes zero_mem = Except.ok out ∧
      out.1.segment_size = mm_stack.segment_size ∧ out.1.segments ≠ [] := by
  obtain ⟨init, seg, hseg⟩ := mm_stack_segments_last _ hne
  rw [mm_stack_memory_allocate_spec _ _ _ init seg hseg]
  by_cases h1 : num_bytes > seg.memory_available
  · rw [if_pos h1, if_neg (by omega)]
    exact ⟨_, rfl, rfl, by simp⟩
  · rw [if_neg h1]
    exact ⟨_, rfl, rfl, by simp⟩

/-- The blocks of a sequence of allocations of multiples of 16 bytes, from a
last cursor at a multiple of 16. -/
theorem mm_stack_memory_allocate_all_aligned (sizes : List Nat) :
    ∀ (mm_stack : mm_stack_t) (out : mm_stack_t × List (Nat × Nat)),
      (∃ seg, mm_stack.segments.getLast? = some seg ∧ 16 ∣ seg.memory) →
      (∀ n ∈ sizes, 16 ∣ n) →
      mm_stack_memory_allocate_all mm_stack sizes = Except.ok out →
      ∀ block ∈ out.2, 16 ∣ block.2 := by
  induction sizes with
  | nil =>
    intro mm_stack out _ _ h block hb
    simp only [mm_stack_memory_allocate_all] at h
    cases h
    simp at hb
  | cons n sizes ih =>
    intro mm_stack out hlast hsizes h block hb
    simp only [mm_stack_memory_allocate_all] at h
    cases h1 : mm_stack_memory_allocate mm_stack n false with
    | error e =>
      rw [h1] at h
      cases h
    | ok r =>
      obtain ⟨s1, b1⟩ := r
      rw [h1] at h
      simp only at h
      obtain ⟨hb1, _, hlast1⟩ := mm_stack_memory_allocate_aligned_step mm_stack n false
        (s1, b1) hlast (hsizes n (by simp)) h1
      cases h2 : mm_stack_memory_allocate_all s1 sizes with
      | error e =>
        rw [h2] at h
        cases h
      | ok r2 =>
        obtain ⟨s2, bs⟩ := r2
        rw [h2] at h
        simp only at h
        cases h
        simp only [List.mem_cons] at hb
        rcases hb with hb | hb
        · rw [hb]
          exact hb1
        · exact ih s1 (s2, bs) hlast1 (fun m hm => hsizes m (by simp [hm])) h2 block hb

/-- A sequence of allocations of at most `segment_size` bytes each returns one
block for each size. -/
theorem mm_stack_memory_allocate_all_ok (sizes : List Nat) :
    ∀ (mm_stack : mm_stack_t), mm_stack.segments ≠ [] →
      (∀ n ∈ sizes, n ≤ mm_stack.segment_size) →
      ∃ out, mm_stack_memory_allocate_all mm_stack sizes = Except.ok out ∧
        out.2.length = sizes.length := by
  induction sizes with
  | nil =>
    intro mm_stack _ _
    exact ⟨_, rfl, rfl⟩
  | cons n sizes ih =>
    intro mm_stack hne hsizes
    obtain ⟨r, h1, hsz, hne1⟩ :=
      mm_stack_memory_allocate_ok mm_stack n false hne (hsizes n (by simp))
    obtain ⟨s1, b1⟩ := r
    obtain ⟨r2, h2, hlen⟩ := ih s1 hne1 (fun m hm => by
      have := hsizes m (by simp [hm])
      simp only at hsz
      omega)
    obtain ⟨s2, bs⟩ := r2
    refine ⟨(s2, b1 :: bs), ?_, by simpa using hlen⟩
    simp only [mm_stack_memory_allocate_all, h1, h2]

/-- C19 (amended): when the cursor of the last segment is at a multiple of 16
and every requested size is a multiple of 16, every block that a sequence of
calls of `mm_stack_memory_allocate` returns is at an offset from its segment
base that is a multiple of 16; and when no size exceeds `segment_size` the
sequence returns one block for each size. -/
theorem mm_stack_memory_allocate_aligned (mm_stack : mm_stack_t) (sizes : List Nat)
    (hlast : ∃ seg, mm_stack.segments.getLast? = some seg ∧ 16 ∣ seg.memory)
    (hsizes : ∀ n ∈ sizes, 16 ∣ n) :
    (∀ out, mm_stack_memory_allocate_all mm_stack sizes = Except.ok out →
      ∀ block ∈ out.2, 16 ∣ block.2) ∧
    ((∀ n ∈ sizes, n ≤ mm_stack.segment_size) →
      ∃ out, mm_stack_memory_allocate_all mm_stack sizes = Except.ok out ∧
        out.2.length = sizes.length) := by
  refine ⟨fun out h => mm_stack_memory_allocate_all_aligned sizes mm_stack out hlast hsizes h,
    fun hle => mm_stack_memory_allocate_all_ok sizes mm_stack ?_ hle⟩
  obtain ⟨seg, hseg, _⟩ := hlast
  intro h
  rw [h] at hseg
  cases hseg

theorem mm_stack_memory_allocate_aligned_witness :
    (∃ seg, (mm_stack_new 64).segments.getLast? = some seg ∧ 16 ∣ seg.memory) ∧
    (∀ n ∈ [16, 32, 48], 16 ∣ n) ∧
    (∀ n ∈ [16, 32, 48], n ≤ (mm_stack_new 64).segment_size) ∧
    mm_stack_memory_allocate_all (mm_stack_new 64) [16, 32, 48] =
      Except.ok
        ({ segment_size := 64
           segments := [{ memory := 48, memory_available := 16 },
             { memory := 48, memory_available := 16 }] },
          [(0, 0), (0, 16), (1, 0)]) ∧
    ((∀ out, mm_stack_memory_allocate_all (mm_stack_new 64) [16, 32, 48] = Except.ok out →
      ∀ block ∈ out.2, 16 ∣ block.2) ∧
    ((∀ n ∈ [16, 32, 48], n ≤ (mm_stack_new 64).segment_size) →
      ∃ out, mm_stack_memory_allocate_all (mm_stack_new 64) [16, 32, 48] = Except.ok out ∧
        out.2.length = [16, 32, 48].length)) :=
  ⟨⟨_, rfl, by decide⟩, by decide, by decide, by rfl,
    mm_stack_memory_allocate_aligned (mm_stack_new 64) [16, 32, 48] ⟨_, rfl, by decide⟩
      (by decide)⟩

/-- C19 (counterexample): two allocations of one byte from a new stack of
64-byte segments return the offsets 0 and 1 of the first segment, and 1 is not
a multiple of 16. -/
theorem mm_stack_memory_allocate_unaligned :
    mm_stack_memory_allocate_all (mm_stack_new 64) [1, 1] =
      Except.ok
        ({ segment_size := 64, segments := [{ memory := 2, memory_available := 62 }] },
          [(0, 0), (0, 1)]) ∧
    ¬ 16 ∣ 1 := by
  refine ⟨by rfl, by decide⟩
/-! ## mm_stack.c: freeing the stack -/

/-- A successful allocation keeps the segment size and leaves a segment. -/
theorem mm_stack_memory_allocate_segment_size (mm_stack : mm_stack_t) (num_bytes : Nat)
    (zero_mem : Bool) (out : mm_stack_t × (Nat × Nat))
    (h : mm_stack_memory_allocate mm_stack num_bytes zero_mem = Except.ok out) :
    out.1.segment_size = mm_stack.segment_size ∧ out.1.segments ≠ [] := by
  unfold mm_stack_memory_allocate at h
  split at h
  · cases h
  · simp only [mm_stack_add_segment] at h
    split_ifs at h <;> cases h <;> exact ⟨rfl, by simp⟩

/-- A sequence of allocations keeps the segment size and leaves a segment. -/
theorem mm_stack_memory_allocate_all_segment_size (sizes : List Nat) :
    ∀ (mm_stack : mm_stack_t) (out : mm_stack_t × List (Nat × Nat)),
      mm_stack.segments ≠ [] →
      mm_stack_memory_allocate_all mm_stack sizes = Except.ok out →
      out.1.segment_size = mm_stack.segment_size ∧ out.1.segments ≠ [] := by
  induction sizes with
  | nil =>
    intro mm_stack out hne h
    simp only [mm_stack_memory_allocate_all] at h
    cases h
    exact ⟨rfl, hne⟩
  | cons n sizes ih =>
    intro mm_stack out _ h
    simp only [mm_stack_memory_allocate_all] at h
    cases h1 : mm_stack_memory_allocate mm_stack n false with
    | error e =>
      rw [h1] at h
      cases h
    | ok r =>
      obtain ⟨s1, b1⟩ := r
      rw [h1] at h
      simp only at h
      cases h2 : mm_stack_memory_allocate_all s1 sizes with
      | error e =>
        rw [h2] at h
        cases h
      | ok r2 =>
        obtain ⟨s2, bs⟩ := r2
        rw [h2] at h
        simp only at h
        cases h
        have e1 := mm_stack_memory_allocate_segment_size mm_stack n false (s1, b1) h1
        have e2 := ih s1 (s2, bs) e1.2 h2
        simp only at e1 e2
        simp only
        exact ⟨by rw [e2.1, e1.1], e2.2⟩

/-- C21: after `mm_stack_free`, whatever sequence of allocations was made from
a new stack, the arena is in the state right after `mm_stack_new`: exactly one
segment, with its cursor at the base of its slab unit and `memory_available`
equal to `segment_size`; and the segments put back into the slab are exactly
those beyond the first (the positions `1 .. used-1`), each one once. -/
theorem mm_stack_free_resets (slab_size : Nat) (sizes : List Nat) (mm_stack : mm_stack_t)
    (blocks : List (Nat × Nat))
    (halloc : mm_stack_memory_allocate_all (mm_stack_new slab_size) sizes =
      Except.ok (mm_stack, blocks)) :
    mm_stack_free mm_stack = mm_stack_new slab_size ∧
    (mm_stack_free mm_stack).segments = [{ memory := 0, memory_available := slab_size }] ∧
    (mm_stack_free mm_stack).segment_size = slab_size ∧
    (∀ position, position ∈ mm_stack_free_slab_put mm_stack ↔
      1 ≤ position ∧ position < mm_stack.segments.length) ∧
    (mm_stack_free_slab_put mm_stack).Nodup ∧
    (mm_stack_free_slab_put mm_stack).length + (mm_stack_free mm_stack).segments.length =
      mm_stack.segments.length := by
  have h := mm_stack_memory_allocate_all_segment_size sizes _ _ (by simp [mm_stack_new]) halloc
  obtain ⟨hsize, hne⟩ := h
  simp only [mm_stack_new] at hsize
  have hlen : 1 ≤ mm_stack.segments.length := by
    rcases hs : mm_stack.segments with _ | ⟨a, l⟩
    · exact absurd hs hne
    · simp
  refine ⟨?_, ?_, ?_, ?_, ?_, ?_⟩
  · simp only [mm_stack_free, mm_stack_new, hsize]
  · simp only [mm_stack_free, hsize]
  · simp only [mm_stack_free, hsize]
  · intro position
    simp only [mm_stack_free_slab_put]
    obtain ⟨m, hm⟩ : ∃ m, mm_stack.segments.length = m + 1 := ⟨_, (Nat.sub_add_cancel hlen).symm⟩
    rw [hm, List.range_succ_eq_map, List.drop_one, List.tail_cons, List.mem_map]
    constructor
    · rintro ⟨a, ha, rfl⟩
      rw [List.mem_range] at ha
      omega
    · rintro ⟨h1, h2⟩
      exact ⟨position - 1, by rw [List.mem_range]; omega, by omega⟩
  · simp only [mm_stack_free_slab_put]
    exact List.Nodup.sublist (List.drop_sublist _ _) (List.nodup_range _)
  · simp only [mm_stack_free_slab_put, mm_stack_free, List.length_drop, List.length_range,
      List.length_singleton]
    omega

theorem mm_stack_free_resets_witness :
    mm_stack_memory_allocate_all (mm_stack_new 64) [16, 32, 48] =
      Except.ok
        ({ segment_size := 64
           segments := [{ memory := 48, memory_available := 16 },
             { memory := 48, memory_available := 16 }] },
          [(0, 0), (0, 16), (1, 0)]) ∧
    mm_stack_free_slab_put
      { segment_size := 64
        segments := [{ memory := 48, memory_available := 16 },
          { memory := 48, memory_available := 16 }] } = [1] ∧
    mm_stack_free
      { segment_size := 64
        segments := [{ memory := 48, memory_available := 16 },
          { memory := 48, memory_available := 16 }] } = mm_stack_new 64 :=
  ⟨by rfl, by rfl,
    (mm_stack_free_resets 64 [16, 32, 48]
      { segment_size := 64
        segments := [{ memory := 48, memory_available := 16 },
          { memory := 48, memory_available := 16 }] }
      [(0, 0), (0, 16), (1, 0)] (by rfl)).1⟩
/-! ## approximate_search_stepwise.c: the limit on exact matches -/

/-- C22: `approximate_search_stepwise_region_profile_limit_exact_matches`
returns, and it sets `candidates_limited = true` if and only if the profile has
exact matches, `min_reported_strata_nominal = 0` and `hi - lo >
max_reported_matches` for the first region; in that case it keeps `lo`, sets
`hi = lo + max_reported_matches` and `total_candidates = max_reported_matches`,
so that exactly `max_reported_matches` candidates remain; otherwise the regions
and `total_candidates` are unchanged.  `hi - lo` and `lo + max_reported_matches`
are `uint64_t` operations; they are the plain difference and sum when
`lo ≤ hi`. -/
theorem approximate_search_stepwise_region_profile_limit_exact_matches_spec
    (region_profile_has_exact_matches : asearch_region_profile_t → Bool)
    (search : approximate_search_t) (filtering_region : region_search_t)
    (regions : List region_search_t)
    (hregions : search.region_profile.filtering_region = filtering_region :: regions)
    (hlo : filtering_region.lo < 2 ^ 64) (hhi : filtering_region.hi < 2 ^ 64)
    (hmax : search.select_parameters_align.max_reported_matches < 2 ^ 64) :
    ∃ out, approximate_search_stepwise_region_profile_limit_exact_matches
        region_profile_has_exact_matches search = some out ∧
      out.select_parameters_align = search.select_parameters_align ∧
      (out.region_profile.candidates_limited = true ↔
        (region_profile_has_exact_matches
            { search.region_profile with candidates_limited := false } = true ∧
          search.select_parameters_align.min_reported_strata_nominal = 0 ∧
          sub64 filtering_region.hi filtering_region.lo >
            search.select_parameters_align.max_reported_matches)) ∧
      (out.region_profile.candidates_limited = true →
        ∃ limited, out.region_profile.filtering_region = limited :: regions ∧
          limited.lo = filtering_region.lo ∧
          limited.hi = (filtering_region.lo +
            search.select_parameters_align.max_reported_matches) % U64 ∧
          limited.begin = filtering_region.begin ∧ limited.end_ = filtering_region.end_ ∧
          sub64 limited.hi limited.lo = search.select_parameters_align.max_reported_matches ∧
          out.region_profile.total_candidates =
            search.select_parameters_align.max_reported_matches ∧
          (filtering_region.lo ≤ filtering_region.hi →
            sub64 filtering_region.hi filtering_region.lo =
              filtering_region.hi - filtering_region.lo ∧
            limited.hi = filtering_region.lo +
              search.select_parameters_align.max_reported_matches ∧
            limited.hi - limited.lo = search.select_parameters_align.max_reported_matches ∧
            limited.hi < filtering_region.hi)) ∧
      (out.region_profile.candidates_limited = false →
        out.region_profile.filtering_region = search.region_profile.filtering_region ∧
        out.region_profile.total_candidates = search.region_profile.total_candidates) := by
  unfold approximate_search_stepwise_region_profile_limit_exact_matches
  simp only [hregions]
  by_cases hex : region_profile_has_exact_matches
      { search.region_profile with candidates_limited := false } = true
  · have hex' := hex
    simp only [hregions] at hex'
    rw [if_pos hex']
    by_cases hlim : search.select_parameters_align.min_reported_strata_nominal = 0 ∧
        sub64 filtering_region.hi filtering_region.lo >
          search.select_parameters_align.max_reported_matches
    · rw [if_pos hlim]
      refine ⟨_, rfl, rfl, ?_, ?_, ?_⟩
      · simp only [true_iff]
        exact ⟨hex', hlim⟩
      · intro _
        refine ⟨_, rfl, rfl, rfl, rfl, rfl, ?_, rfl, ?_⟩
        · simp only [sub64, U64] at *
          omega
        · intro hle
          have hgt := hlim.2
          simp only [sub64, U64] at *
          omega
      · intro h
        simp at h
    · rw [if_neg hlim]
      refine ⟨_, rfl, rfl, ?_, ?_, ?_⟩
      · simp only [Bool.false_eq_true, false_iff]
        intro h
        exact hlim h.2
      · intro h
        simp at h
      · intro _
        exact ⟨hregions.symm ▸ rfl, rfl⟩
  · have hex' := hex
    simp only [hregions] at hex'
    rw [if_neg hex']
    refine ⟨_, rfl, rfl, ?_, ?_, ?_⟩
    · simp only [Bool.false_eq_true, false_iff]
      intro h
      exact hex' h.1
    · intro h
      simp at h
    · intro _
      exact ⟨hregions.symm ▸ rfl, rfl⟩

theorem approximate_search_stepwise_region_profile_limit_exact_matches_spec_witness :
    ∃ out, approximate_search_stepwise_region_profile_limit_exact_matches (fun _ => true)
        example_exact_search = some out ∧
      out.region_profile.candidates_limited = true ∧
      out.region_profile.total_candidates = 10 ∧
      out.region_profile.filtering_region.map (fun r => (r.lo, r.hi)) = [(0, 10)] :=
  match approximate_search_stepwise_region_profile_limit_exact_matches_spec (fun _ => true)
      example_exact_search
      { begin := 0, end_ := 4, type := region_type.region_standard, min := 0,
        hi := 1000, lo := 0 } [] rfl (by decide) (by decide) (by decide) with
  | ⟨out, h1, _, h3, h4, _⟩ =>
    have hl : out.region_profile.candidates_limited = true :=
      h3.2 ⟨rfl, rfl, by decide⟩
    match h4 hl with
    | ⟨limited, e1, e2, e3, _, _, _, e4, _⟩ =>
      ⟨out, h1, hl, e4, by rw [e1]; simp only [List.map, e2, e3]; decide⟩
/-! ## match_align.c: bridging the gap between two anchors -/

/-- C28: when the SWG alignment of the gap between two anchors fails
(`swg_align_match` leaves the score `SWG_SCORE_MIN`, or with
`force_swg_threshold` a score below `swg_threshold`) after adding elements to
the CIGAR vector, `match_align_swg_middle_region` returns `false`, restores the
CIGAR vector and `cigar_length` to their values before the call, and then
appends exactly a deletion of `key_chunk_length` (if positive) followed by an
insertion of `text_chunk_length` (if positive): the bridge consumes exactly
`key_chunk_length` characters of the key and `text_chunk_length` characters of
the text. -/
theorem match_align_swg_middle_region_bridges
    (swg_align_match : Nat → Nat → Nat → Nat → match_align_parameters_t → Bool → Bool →
      match_align_swg_t → match_align_swg_t)
    (s : match_align_swg_t) (align_parameters : match_align_parameters_t)
    (key_chunk_begin_offset key_chunk_length : Nat)
    (text_chunk_begin_offset text_chunk_length : Nat) (force_swg_threshold : Bool)
    (happend : s.cigar_vector <+:
      (swg_align_match key_chunk_begin_offset key_chunk_length text_chunk_begin_offset
        text_chunk_length align_parameters false false s).cigar_vector)
    (hlength : s.cigar_length + 2 < 2 ^ 64)
    (hfail :
      (swg_align_match key_chunk_begin_offset key_chunk_length text_chunk_begin_offset
        text_chunk_length align_parameters false false s).score = SWG_SCORE_MIN ∨
      (force_swg_threshold = true ∧
        (swg_align_match key_chunk_begin_offset key_chunk_length text_chunk_begin_offset
          text_chunk_length align_parameters false false s).score <
            align_parameters.swg_threshold)) :
    ∃ out bridge,
      match_align_swg_middle_region swg_align_match s align_parameters key_chunk_begin_offset
        key_chunk_length text_chunk_begin_offset text_chunk_length force_swg_threshold =
        (false, out) ∧
      bridge =
        (if key_chunk_length > 0 then
          [({ type := cigar_del, attributes := cigar_attr_none, length := key_chunk_length } :
            cigar_element_t)]
        else []) ++
        (if text_chunk_length > 0 then
          [({ type := cigar_ins, attributes := cigar_attr_none, length := text_chunk_length } :
            cigar_element_t)]
        else []) ∧
      out.cigar_vector = s.cigar_vector ++ bridge ∧
      out.cigar_length = s.cigar_length + bridge.length ∧
      cigar_read_total bridge = key_chunk_length ∧
      cigar_text_total bridge = text_chunk_length := by
  have htake : List.take s.cigar_vector.length
      (swg_align_match key_chunk_begin_offset key_chunk_length text_chunk_begin_offset
        text_chunk_length align_parameters false false s).cigar_vector = s.cigar_vector :=
    (List.prefix_iff_eq_take.mp happend).symm
  have hres : match_align_swg_middle_region swg_align_match s align_parameters
      key_chunk_begin_offset key_chunk_length text_chunk_begin_offset text_chunk_length
      force_swg_threshold =
      (false, match_align_swg_bride_gap
        { swg_align_match key_chunk_begin_offset key_chunk_length text_chunk_begin_offset
            text_chunk_length align_parameters false false s with
          cigar_length := s.cigar_length
          cigar_vector := s.cigar_vector } key_chunk_length text_chunk_length false) := by
    unfold match_align_swg_middle_region match_align_swg_region
    simp only
    rw [if_pos hfail, htake]
    rfl
  rw [hres]
  refine ⟨_, _, rfl, rfl, ?_, ?_, ?_, ?_⟩
  · simp only [match_align_swg_bride_gap, Bool.false_eq_true, if_false,
      matches_cigar_vector_append_deletion, matches_cigar_vector_append_insertion]
    by_cases hk : key_chunk_length > 0 <;> by_cases ht : text_chunk_length > 0 <;>
      simp [hk, ht]
  · simp only [match_align_swg_bride_gap, Bool.false_eq_true, if_false,
      matches_cigar_vector_append_deletion, matches_cigar_vector_append_insertion]
    have h1 : (s.cigar_length + 1) % U64 = s.cigar_length + 1 := by
      simp only [U64]; omega
    have h2 : (s.cigar_length + 1 + 1) % U64 = s.cigar_length + 1 + 1 := by
      simp only [U64]; omega
    by_cases hk : key_chunk_length > 0 <;> by_cases ht : text_chunk_length > 0 <;>
      simp [hk, ht, h1, h2]
  · by_cases hk : key_chunk_length > 0 <;> by_cases ht : text_chunk_length > 0 <;>
      simp [hk, ht, cigar_read_total, cigar_read_length] <;> omega
  · by_cases hk : key_chunk_length > 0 <;> by_cases ht : text_chunk_length > 0 <;>
      simp [hk, ht, cigar_text_total, cigar_text_length] <;> omega

theorem match_align_swg_middle_region_bridges_witness :
    ∃ out, match_align_swg_middle_region example_swg_align_match example_swg_state
        example_curation_parameters 5 2 5 3 false = (false, out) ∧
      out.cigar_vector =
        [{ type := cigar_match, attributes := cigar_attr_none, length := 5 },
         { type := cigar_del, attributes := cigar_attr_none, length := 2 },
         { type := cigar_ins, attributes := cigar_attr_none, length := 3 }] ∧
      out.cigar_length = 3 :=
  match match_align_swg_middle_region_bridges example_swg_align_match example_swg_state
      example_curation_parameters 5 2 5 3 false ⟨_, rfl⟩ (by decide) (Or.inl rfl) with
  | ⟨out, bridge, h1, h2, h3, h4, _, _⟩ =>
    ⟨out, h1, by rw [h3, h2]; rfl, by rw [h4, h2]; rfl⟩
/-! ## archive_search_pe.c: the paired-end controller -/

/-- The case `archive_search_pe_find_pairs`: it ends the search and stores the
sum of the per-end strata, or, when no pair was found and end/2 has not been
searched, it calls back the search of end/2. -/
theorem archive_search_paired_end_continue_find_pairs_spec {σ : Type}
    (routines : archive_search_pe_routines σ) (s : archive_search_pe_t σ) :
    ((archive_search_paired_end_continue_find_pairs routines s).archive_search_end1.pe_search_state
        = archive_search_pe_end ∧
      (archive_search_paired_end_continue_find_pairs routines s).paired_matches_max_complete_stratum
        = paired_matches_max_complete_stratum_sum routines
          (archive_search_paired_end_continue_find_pairs routines s).data ∧
      ∃ n, (archive_search_paired_end_continue_find_pairs routines s).events
          = s.events ++ [find_pairs n] ∧
        (n = 0 → s.archive_search_end2.pair_searched = true)) ∨
    ((archive_search_paired_end_continue_find_pairs routines s).archive_search_end1.pe_search_state
        = archive_search_pe_search_end2 ∧
      (archive_search_paired_end_continue_find_pairs routines s).events
        = s.events ++ [find_pairs 0, callback_search_end2] ∧
      s.archive_search_end2.pair_searched = false) := by
  unfold archive_search_paired_end_continue_find_pairs
  simp only
  generalize (if routines.matches_get_num_match_traces paired_end1 s.data > 0 ∧
      routines.matches_get_num_match_traces paired_end2 s.data > 0 then
      routines.paired_matches_find_discordant_pairs (routines.paired_matches_find_pairs s.data)
    else s.data) = d
  by_cases hcb : routines.paired_matches_get_num_maps d = 0 ∧
      s.archive_search_end2.pair_searched = false
  · rw [if_pos hcb]
    right
    exact ⟨rfl, by simp [hcb.1], hcb.2⟩
  · rw [if_neg hcb]
    left
    refine ⟨rfl, rfl, _, rfl, fun hn => ?_⟩
    by_contra hs
    exact hcb ⟨hn, by simpa using hs⟩

/-- The case `archive_search_pe_recovery` adds recovery extensions to the
record, keeps `pair_searched` of end/2, and goes on with the case
`archive_search_pe_find_pairs`. -/
theorem archive_search_paired_end_continue_recovery_spec {σ : Type}
    (routines : archive_search_pe_routines σ) (s : archive_search_pe_t σ) :
    ∃ s1 : archive_search_pe_t σ, ∃ recovery,
      archive_search_paired_end_continue_recovery routines s =
        archive_search_paired_end_continue_find_pairs routines s1 ∧
      s1.events = s.events ++ recovery ∧ archive_search_pe_recovery_events recovery ∧
      s1.archive_search_end2.pair_searched = s.archive_search_end2.pair_searched := by
  unfold archive_search_paired_end_continue_recovery
  simp only
  by_cases h1 : s.archive_search_end1.pair_extended = false ∧
      archive_search_paired_end_use_recovery_extension routines paired_end2 s.data = true
  · rw [if_pos h1]
    simp only
    split_ifs with h2
    · refine ⟨_, [extend_recovery paired_end2, extend_recovery paired_end1], rfl, by simp, ?_,
        rfl⟩
      intro e he
      simp only [List.mem_cons, List.mem_singleton, List.not_mem_nil, or_false] at he
      rcases he with he | he
      · exact ⟨_, he⟩
      · exact ⟨_, he⟩
    · refine ⟨_, [extend_recovery paired_end2], rfl, rfl, ?_, rfl⟩
      intro e he
      simp only [List.mem_singleton] at he
      exact ⟨_, he⟩
  · rw [if_neg h1]
    split_ifs with h2
    · refine ⟨_, [extend_recovery paired_end1], rfl, rfl, ?_, rfl⟩
      intro e he
      simp only [List.mem_singleton] at he
      exact ⟨_, he⟩
    · refine ⟨_, [], rfl, by simp, ?_, rfl⟩
      intro e he
      simp at he

/-- The case `archive_search_pe_search_end2` always ends the search: it runs the
full search of end/2 once, then the recovery extensions, and the case
`archive_search_pe_find_pairs` does not call back. -/
theorem archive_search_paired_end_continue_search_end2_spec {σ : Type}
    (routines : archive_search_pe_routines σ) (s : archive_search_pe_t σ) :
    (archive_search_paired_end_continue_search_end2 routines s).archive_search_end1.pe_search_state
        = archive_search_pe_end ∧
    (archive_search_paired_end_continue_search_end2 routines s).paired_matches_max_complete_stratum
        = paired_matches_max_complete_stratum_sum routines
          (archive_search_paired_end_continue_search_end2 routines s).data ∧
    ∃ recovery n, (archive_search_paired_end_continue_search_end2 routines s).events
        = s.events ++ [search_end2] ++ recovery ++ [find_pairs n] ∧
      archive_search_pe_recovery_events recovery := by
  unfold archive_search_paired_end_continue_search_end2
  simp only
  obtain ⟨s1, recovery, h1, h2, h3, h4⟩ :=
    archive_search_paired_end_continue_recovery_spec routines
      { s with
        data := routines.archive_select_matches paired_end2
          (routines.archive_search_finish_search paired_end2 s.data)
        archive_search_end2 :=
          { s.archive_search_end2 with
            pair_searched := true
            end_class := routines.matches_classify paired_end2
              (routines.archive_select_matches paired_end2
                (routines.archive_search_finish_search paired_end2 s.data)) }
        events := s.events ++ [search_end2] }
  rw [h1]
  simp only at h2 h4
  rcases archive_search_paired_end_continue_find_pairs_spec routines s1 with h | h
  · obtain ⟨e1, e2, n, e3, _⟩ := h
    exact ⟨e1, e2, recovery, n, by rw [e3, h2], h3⟩
  · rw [h4] at h
    exact absurd h.2.2 (by simp)

/-- From the state `archive_search_pe_recovery` the search ends, or the search
of end/2 is called back. -/
theorem archive_search_paired_end_continue_recovery_state {σ : Type}
    (routines : archive_search_pe_routines σ) (s : archive_search_pe_t σ) :
    ((archive_search_paired_end_continue_recovery routines s).archive_search_end1.pe_search_state
        = archive_search_pe_end ∧
      (archive_search_paired_end_continue_recovery routines s).paired_matches_max_complete_stratum
        = paired_matches_max_complete_stratum_sum routines
          (archive_search_paired_end_continue_recovery routines s).data) ∨
    (archive_search_paired_end_continue_recovery routines s).archive_search_end1.pe_search_state
        = archive_search_pe_search_end2 := by
  obtain ⟨s1, recovery, h1, _, _, _⟩ :=
    archive_search_paired_end_continue_recovery_spec routines s
  rw [h1]
  rcases archive_search_paired_end_continue_find_pairs_spec routines s1 with h | h
  · exact Or.inl ⟨h.1, h.2.1⟩
  · exact Or.inr h.1

/-- The case `archive_search_pe_search_end1`: after the full search of end/1,
either a shortcut extension finds matches and the state becomes
`archive_search_pe_find_pairs` with end/2 untouched, or the full search of
end/2 follows and the search ends. -/
theorem archive_search_paired_end_continue_search_end1_spec {σ : Type}
    (routines : archive_search_pe_routines σ) (s : archive_search_pe_t σ) :
    ((archive_search_paired_end_continue_search_end1 routines s).archive_search_end1.pe_search_state
        = archive_search_pe_find_pairs ∧
      (archive_search_paired_end_continue_search_end1 routines s).archive_search_end2
        = s.archive_search_end2 ∧
      ∃ k, 0 < k ∧ (archive_search_paired_end_continue_search_end1 routines s).events
        = s.events ++ [search_end1, extend_shortcut k]) ∨
    ((archive_search_paired_end_continue_search_end1 routines s).archive_search_end1.pe_search_state
        = archive_search_pe_end ∧
      (archive_search_paired_end_continue_search_end1 routines s).paired_matches_max_complete_stratum
        = paired_matches_max_complete_stratum_sum routines
          (archive_search_paired_end_continue_search_end1 routines s).data ∧
      ∃ shortcut recovery n,
        (archive_search_paired_end_continue_search_end1 routines s).events
          = s.events ++ [search_end1] ++ shortcut ++ [search_end2] ++ recovery ++
            [find_pairs n] ∧
        (shortcut = [] ∨ shortcut = [extend_shortcut 0]) ∧
        archive_search_pe_recovery_events recovery) := by
  unfold archive_search_paired_end_continue_search_end1
  simp only
  split_ifs with h1 h2
  · left
    exact ⟨rfl, rfl, _, h2, by simp⟩
  · right
    have h := archive_search_paired_end_continue_search_end2_spec routines
      { s with
        data := (routines.archive_search_paired_end_extend_matches paired_end2
          (routines.archive_select_matches paired_end1
            (routines.archive_search_finish_search paired_end1 s.data))).1
        archive_search_end1 :=
          { s.archive_search_end1 with
            pair_searched := true
            end_class := routines.matches_classify paired_end1
              (routines.archive_select_matches paired_end1
                (routines.archive_search_finish_search paired_end1 s.data))
            pair_extended := archive_search_paired_end_use_shortcut_extension routines
              paired_end1 (routines.archive_select_matches paired_end1
                (routines.archive_search_finish_search paired_end1 s.data))
            pair_extended_shortcut := true }
        events := s.events ++ [search_end1] ++
          [extend_shortcut (routines.archive_search_paired_end_extend_matches paired_end2
            (routines.archive_select_matches paired_end1
              (routines.archive_search_finish_search paired_end1 s.data))).2] }
    obtain ⟨e1, e2, recovery, n, e3, e4⟩ := h
    refine ⟨e1, e2, _, recovery, n, ?_, Or.inr rfl, e4⟩
    rw [e3]
    have hk : (routines.archive_search_paired_end_extend_matches paired_end2
        (routines.archive_select_matches paired_end1
          (routines.archive_search_finish_search paired_end1 s.data))).2 = 0 := by omega
    rw [hk]
  · right
    have h := archive_search_paired_end_continue_search_end2_spec routines
      { s with
        data := routines.archive_select_matches paired_end1
          (routines.archive_search_finish_search paired_end1 s.data)
        archive_search_end1 :=
          { s.archive_search_end1 with
            pair_searched := true
            end_class := routines.matches_classify paired_end1
              (routines.archive_select_matches paired_end1
                (routines.archive_search_finish_search paired_end1 s.data))
            pair_extended := archive_search_paired_end_use_shortcut_extension routines
              paired_end1 (routines.archive_select_matches paired_end1
                (routines.archive_search_finish_search paired_end1 s.data)) }
        events := s.events ++ [search_end1] }
    obtain ⟨e1, e2, recovery, n, e3, e4⟩ := h
    refine ⟨e1, e2, [], recovery, n, ?_, Or.inl rfl, e4⟩
    rw [e3]
    simp

/-- In the state `archive_search_pe_end` the loop does nothing. -/
theorem archive_search_paired_end_continue_end {σ : Type}
    (routines : archive_search_pe_routines σ) (fuel : Nat) (s : archive_search_pe_t σ)
    (h : s.archive_search_end1.pe_search_state = archive_search_pe_end) :
    archive_search_paired_end_continue routines fuel s = some s := by
  cases fuel <;> simp [archive_search_paired_end_continue, h]

/-- One iteration of the loop. -/
theorem archive_search_paired_end_continue_succ {σ : Type}
    (routines : archive_search_pe_routines σ) (fuel : Nat) (s s1 : archive_search_pe_t σ)
    (h : archive_search_paired_end_continue_switch routines s = some s1) :
    archive_search_paired_end_continue routines (fuel + 1) s =
      archive_search_paired_end_continue routines fuel s1 := by
  have hne : s.archive_search_end1.pe_search_state ≠ archive_search_pe_end := by
    intro he
    simp [archive_search_paired_end_continue_switch, he] at h
  simp [archive_search_paired_end_continue, hne, h]

/-- From the state `archive_search_pe_search_end2` the loop ends after one
iteration. -/
theorem archive_search_paired_end_continue_from_search_end2 {σ : Type}
    (routines : archive_search_pe_routines σ) (fuel : Nat) (s : archive_search_pe_t σ)
    (h : s.archive_search_end1.pe_search_state = archive_search_pe_search_end2) :
    archive_search_paired_end_continue routines (fuel + 1) s =
      some (archive_search_paired_end_continue_search_end2 routines s) := by
  rw [archive_search_paired_end_continue_succ routines fuel s
    (archive_search_paired_end_continue_search_end2 routines s)
    (by simp [archive_search_paired_end_continue_switch, h])]
  exact archive_search_paired_end_continue_end routines fuel _
    (archive_search_paired_end_continue_search_end2_spec routines s).1

/-- From the state `archive_search_pe_find_pairs` the loop ends after at most
two iterations. -/
theorem archive_search_paired_end_continue_from_find_pairs {σ : Type}
    (routines : archive_search_pe_routines σ) (fuel : Nat) (s : archive_search_pe_t σ)
    (h : s.archive_search_end1.pe_search_state = archive_search_pe_find_pairs) :
    (archive_search_paired_end_continue routines (fuel + 2) s =
        some (archive_search_paired_end_continue_find_pairs routines s) ∧
      (archive_search_paired_end_continue_find_pairs routines s).archive_search_end1.pe_search_state
        = archive_search_pe_end) ∨
    (archive_search_paired_end_continue routines (fuel + 2) s =
        some (archive_search_paired_end_continue_search_end2 routines
          (archive_search_paired_end_continue_find_pairs routines s)) ∧
      (archive_search_paired_end_continue_find_pairs routines s).archive_search_end1.pe_search_state
        = archive_search_pe_search_end2) := by
  rw [archive_search_paired_end_continue_succ routines (fuel + 1) s
    (archive_search_paired_end_continue_find_pairs routines s)
    (by simp [archive_search_paired_end_continue_switch, h])]
  rcases archive_search_paired_end_continue_find_pairs_spec routines s with h1 | h1
  · left
    exact ⟨archive_search_paired_end_continue_end routines _ _ h1.1, h1.1⟩
  · right
    exact ⟨archive_search_paired_end_continue_from_search_end2 routines fuel _ h1.1, h1.1⟩

/-- C23 (amended): when `archive_search_paired_end_continue` is called in a state
other than `archive_search_pe_end`, it reaches the state `archive_search_pe_end`
within three iterations of its loop, and then `paired_matches.max_complete_stratum`
is the sum, in `uint64_t`, of the two per-end values of `max_complete_stratum`
in which a per-end value of `ALL` counts as `0`. -/
theorem archive_search_paired_end_continue_max_complete_stratum {σ : Type}
    (routines : archive_search_pe_routines σ) (s : archive_search_pe_t σ)
    (hstate : s.archive_search_end1.pe_search_state ≠ archive_search_pe_end) :
    ∃ final, (∀ fuel, archive_search_paired_end_continue routines (fuel + 3) s = some final) ∧
      final.archive_search_end1.pe_search_state = archive_search_pe_end ∧
      final.paired_matches_max_complete_stratum =
        ((if routines.max_complete_stratum paired_end1 final.data ≠ ALL then
            routines.max_complete_stratum paired_end1 final.data else 0) +
          (if routines.max_complete_stratum paired_end2 final.data ≠ ALL then
            routines.max_complete_stratum paired_end2 final.data else 0)) % U64 := by
  -- every state that a case leaves is `end`, `find_pairs` or `search_end2`
  have hfp : ∀ s1 : archive_search_pe_t σ,
      s1.archive_search_end1.pe_search_state = archive_search_pe_find_pairs →
      ∃ final, (∀ fuel, archive_search_paired_end_continue routines (fuel + 2) s1 = some final) ∧
        final.archive_search_end1.pe_search_state = archive_search_pe_end ∧
        final.paired_matches_max_complete_stratum =
          paired_matches_max_complete_stratum_sum routines final.data := by
    intro s1 h1
    rcases archive_search_paired_end_continue_find_pairs_spec routines s1 with h | h
    · refine ⟨_, fun fuel => ?_, h.1, h.2.1⟩
      rcases archive_search_paired_end_continue_from_find_pairs routines fuel s1 h1 with h2 | h2
      · exact h2.1
      · rw [h.1] at h2
        exact absurd h2.2 (by decide)
    · have h3 := archive_search_paired_end_continue_search_end2_spec routines
        (archive_search_paired_end_continue_find_pairs routines s1)
      refine ⟨_, fun fuel => ?_, h3.1, h3.2.1⟩
      rcases archive_search_paired_end_continue_from_find_pairs routines fuel s1 h1 with h2 | h2
      · rw [h.1] at h2
        exact absurd h2.2 (by decide)
      · exact h2.1
  have hse2 : ∀ s1 : archive_search_pe_t σ,
      s1.archive_search_end1.pe_search_state = archive_search_pe_search_end2 →
      ∃ final, (∀ fuel, archive_search_paired_end_continue routines (fuel + 1) s1 = some final) ∧
        final.archive_search_end1.pe_search_state = archive_search_pe_end ∧
        final.paired_matches_max_complete_stratum =
          paired_matches_max_complete_stratum_sum routines final.data := by
    intro s1 h1
    have h3 := archive_search_paired_end_continue_search_end2_spec routines s1
    exact ⟨_, fun fuel => archive_search_paired_end_continue_from_search_end2 routines fuel s1 h1,
      h3.1, h3.2.1⟩
  have hany : ∀ s1 : archive_search_pe_t σ,
      archive_search_paired_end_continue_switch routines s = some s1 →
      ((s1.archive_search_end1.pe_search_state = archive_search_pe_end ∧
        s1.paired_matches_max_complete_stratum =
          paired_matches_max_complete_stratum_sum routines s1.data) ∨
        s1.archive_search_end1.pe_search_state = archive_search_pe_find_pairs ∨
        s1.archive_search_end1.pe_search_state = archive_search_pe_search_end2) →
      ∃ final, (∀ fuel, archive_search_paired_end_continue routines (fuel + 3) s = some final) ∧
        final.archive_search_end1.pe_search_state = archive_search_pe_end ∧
        final.paired_matches_max_complete_stratum =
          paired_matches_max_complete_stratum_sum routines final.data := by
    intro s1 hs1 hc
    rcases hc with hc | hc | hc
    · refine ⟨s1, fun fuel => ?_, hc.1, hc.2⟩
      rw [archive_search_paired_end_continue_succ routines (fuel + 2) s s1 hs1]
      exact archive_search_paired_end_continue_end routines _ _ hc.1
    · obtain ⟨final, hf, h1, h2⟩ := hfp s1 hc
      refine ⟨final, fun fuel => ?_, h1, h2⟩
      rw [archive_search_paired_end_continue_succ routines (fuel + 2) s s1 hs1]
      exact hf fuel
    · obtain ⟨final, hf, h1, h2⟩ := hse2 s1 hc
      refine ⟨final, fun fuel => ?_, h1, h2⟩
      rw [archive_search_paired_end_continue_succ routines (fuel + 2) s s1 hs1]
      exact hf (fuel + 1)
  have hmain : ∃ final,
      (∀ fuel, archive_search_paired_end_continue routines (fuel + 3) s = some final) ∧
      final.archive_search_end1.pe_search_state = archive_search_pe_end ∧
      final.paired_matches_max_complete_stratum =
        paired_matches_max_complete_stratum_sum routines final.data := by
    rcases hst : s.archive_search_end1.pe_search_state with _ | _ | _ | _ | _ | _
    · refine hany (archive_search_paired_end_continue_begin routines s)
        (by simp [archive_search_paired_end_continue_switch, hst]) ?_
      unfold archive_search_paired_end_continue_begin
      rcases archive_search_paired_end_continue_search_end1_spec routines _ with h | h
      · exact Or.inr (Or.inl h.1)
      · exact Or.inl ⟨h.1, h.2.1⟩
    · refine hany (archive_search_paired_end_continue_search_end1 routines s)
        (by simp [archive_search_paired_end_continue_switch, hst]) ?_
      rcases archive_search_paired_end_continue_search_end1_spec routines s with h | h
      · exact Or.inr (Or.inl h.1)
      · exact Or.inl ⟨h.1, h.2.1⟩
    · refine hany (archive_search_paired_end_continue_search_end2 routines s)
        (by simp [archive_search_paired_end_continue_switch, hst]) ?_
      have h := archive_search_paired_end_continue_search_end2_spec routines s
      exact Or.inl ⟨h.1, h.2.1⟩
    · refine hany (archive_search_paired_end_continue_recovery routines s)
        (by simp [archive_search_paired_end_continue_switch, hst]) ?_
      rcases archive_search_paired_end_continue_recovery_state routines s with h | h
      · exact Or.inl h
      · exact Or.inr (Or.inr h)
    · refine hany (archive_search_paired_end_continue_find_pairs routines s)
        (by simp [archive_search_paired_end_continue_switch, hst]) ?_
      rcases archive_search_paired_end_continue_find_pairs_spec routines s with h | h
      · exact Or.inl ⟨h.1, h.2.1⟩
      · exact Or.inr (Or.inr h.1)
    · exact absurd hst hstate
  obtain ⟨final, h1, h2, h3⟩ := hmain
  exact ⟨final, h1, h2, by rw [h3]; rfl⟩

/-- Started in the state `archive_search_pe_begin`, the loop ends within three
iterations, and the record of the run has one of three shapes: the full search
of both ends; a shortcut extension followed by a pairing that finds pairs; or a
shortcut extension, a pairing without pairs, and the call-back to the full
search of end/2. -/
theorem archive_search_paired_end_continue_runs {σ : Type}
    (routines : archive_search_pe_routines σ) (s : archive_search_pe_t σ)
    (hstate : s.archive_search_end1.pe_search_state = archive_search_pe_begin) :
    ∃ final, (∀ fuel, archive_search_paired_end_continue routines (fuel + 3) s = some final) ∧
      final.archive_search_end1.pe_search_state = archive_search_pe_end ∧
      ((∃ shortcut recovery n,
          final.events = s.events ++ [search_end1] ++ shortcut ++ [search_end2] ++ recovery ++
            [find_pairs n] ∧
          (shortcut = [] ∨ shortcut = [extend_shortcut 0]) ∧
          archive_search_pe_recovery_events recovery) ∨
        (∃ k n, 0 < k ∧ 0 < n ∧
          final.events = s.events ++ [search_end1, extend_shortcut k, find_pairs n]) ∨
        (∃ k recovery n, 0 < k ∧
          final.events = s.events ++
            [search_end1, extend_shortcut k, find_pairs 0, callback_search_end2, search_end2] ++
            recovery ++ [find_pairs n] ∧
          archive_search_pe_recovery_events recovery)) := by
  have hsw : archive_search_paired_end_continue_switch routines s =
      some (archive_search_paired_end_continue_begin routines s) := by
    simp [archive_search_paired_end_continue_switch, hstate]
  have hb : archive_search_paired_end_continue_begin routines s =
      archive_search_paired_end_continue_search_end1 routines
        { s with
          archive_search_end1 :=
            { s.archive_search_end1 with
              pair_searched := false, pair_extended := false, pair_extended_shortcut := false }
          archive_search_end2 :=
            { s.archive_search_end2 with pair_searched := false, pair_extended := false }
          data := routines.archive_search_reset paired_end2
            (routines.archive_search_reset paired_end1 s.data) } := rfl
  rcases archive_search_paired_end_continue_search_end1_spec routines
      { s with
        archive_search_end1 :=
          { s.archive_search_end1 with
            pair_searched := false, pair_extended := false, pair_extended_shortcut := false }
        archive_search_end2 :=
          { s.archive_search_end2 with pair_searched := false, pair_extended := false }
        data := routines.archive_search_reset paired_end2
          (routines.archive_search_reset paired_end1 s.data) } with h | h
  · rw [← hb] at h
    obtain ⟨h1, h2, k, hk, h3⟩ := h
    simp only at h3
    rcases archive_search_paired_end_continue_find_pairs_spec routines
        (archive_search_paired_end_continue_begin routines s) with h4 | h4
    · obtain ⟨e1, _, n, e3, e4⟩ := h4
      refine ⟨_, fun fuel => ?_, e1, Or.inr (Or.inl ⟨k, n, hk, ?_, ?_⟩)⟩
      · rw [archive_search_paired_end_continue_succ routines (fuel + 2) s _ hsw]
        rcases archive_search_paired_end_continue_from_find_pairs routines fuel _ h1 with h5 | h5
        · exact h5.1
        · rw [e1] at h5
          exact absurd h5.2 (by decide)
      · rcases Nat.eq_zero_or_pos n with hn | hn
        · have := e4 hn
          rw [h2] at this
          simp at this
        · exact hn
      · rw [e3, h3]
        simp
    · obtain ⟨e1, e2, _⟩ := h4
      obtain ⟨f1, _, recovery, n, f3, f4⟩ :=
        archive_search_paired_end_continue_search_end2_spec routines
          (archive_search_paired_end_continue_find_pairs routines
            (archive_search_paired_end_continue_begin routines s))
      refine ⟨_, fun fuel => ?_, f1, Or.inr (Or.inr ⟨k, recovery, n, hk, ?_, f4⟩)⟩
      · rw [archive_search_paired_end_continue_succ routines (fuel + 2) s _ hsw]
        rcases archive_search_paired_end_continue_from_find_pairs routines fuel _ h1 with h5 | h5
        · rw [e1] at h5
          exact absurd h5.2 (by decide)
        · exact h5.1
      · rw [f3, e2, h3]
        simp
  · rw [← hb] at h
    obtain ⟨h1, _, shortcut, recovery, n, h3, h4, h5⟩ := h
    refine ⟨_, fun fuel => ?_, h1, Or.inl ⟨shortcut, recovery, n, h3, h4, h5⟩⟩
    rw [archive_search_paired_end_continue_succ routines (fuel + 2) s _ hsw]
    exact archive_search_paired_end_continue_end routines _ _ h1

/-- A record of recovery extensions holds no search of end/2, no call-back and
no shortcut extension. -/
theorem archive_search_pe_recovery_events_count (recovery : List archive_search_pe_event_t)
    (h : archive_search_pe_recovery_events recovery) :
    recovery.count search_end2 = 0 ∧ recovery.count callback_search_end2 = 0 ∧
      search_end2 ∉ recovery ∧ ∀ k, extend_shortcut k ∉ recovery := by
  have h1 : search_end2 ∉ recovery := by
    intro hm
    obtain ⟨c, hc⟩ := h _ hm
    cases hc
  have h2 : callback_search_end2 ∉ recovery := by
    intro hm
    obtain ⟨c, hc⟩ := h _ hm
    cases hc
  refine ⟨List.count_eq_zero.mpr h1, List.count_eq_zero.mpr h2, h1, fun k hm => ?_⟩
  obtain ⟨c, hc⟩ := h _ hm
  cases hc

/-- C30: started in the state `archive_search_pe_begin`,
`archive_search_paired_end_continue` always terminates in the state
`archive_search_pe_end` (three iterations of its loop are enough); it goes back
from `find_pairs` to `search_end2` at most once and runs the full search of
end/2 at most once; and when the full search of end/2 runs after a shortcut
extension that found matches, it directly follows a pairing that produced zero
pairs and the call-back. -/
theorem archive_search_paired_end_continue_terminates {σ : Type}
    (routines : archive_search_pe_routines σ) (s : archive_search_pe_t σ)
    (hstate : s.archive_search_end1.pe_search_state = archive_search_pe_begin) :
    ∃ final run,
      (∀ fuel, archive_search_paired_end_continue routines (fuel + 3) s = some final) ∧
      final.archive_search_end1.pe_search_state = archive_search_pe_end ∧
      final.events = s.events ++ run ∧
      run.count search_end2 ≤ 1 ∧
      run.count callback_search_end2 ≤ 1 ∧
      (∀ k, 0 < k → extend_shortcut k ∈ run → search_end2 ∈ run →
        ∃ before after,
          run = before ++ [find_pairs 0, callback_search_end2, search_end2] ++ after ∧
          extend_shortcut k ∈ before ∧ search_end2 ∉ before ∧ search_end2 ∉ after) := by
  obtain ⟨final, hf, hend, hshape⟩ := archive_search_paired_end_continue_runs routines s hstate
  rcases hshape with ⟨shortcut, recovery, n, h1, h2, h3⟩ | ⟨k, n, hk, hn, h1⟩ |
    ⟨k, recovery, n, hk, h1, h3⟩
  · obtain ⟨c1, c2, c3, c4⟩ := archive_search_pe_recovery_events_count recovery h3
    refine ⟨final, [search_end1] ++ shortcut ++ [search_end2] ++ recovery ++ [find_pairs n],
      hf, hend, by rw [h1]; simp, ?_, ?_, ?_⟩
    · rcases h2 with h2 | h2 <;> subst h2 <;> simp [List.count_append, List.count_cons, c1]
    · rcases h2 with h2 | h2 <;> subst h2 <;> simp [List.count_append, List.count_cons, c2]
    · intro k hk hm _
      exfalso
      rcases h2 with h2 | h2 <;> subst h2 <;>
        simp only [List.mem_append, List.mem_singleton, List.mem_cons, List.not_mem_nil,
          or_false, List.nil_append, List.append_nil, reduceCtorEq, false_or,
          extend_shortcut.injEq] at hm
      · exact c4 k hm
      · rcases hm with hm | hm
        · omega
        · exact c4 k hm
  · refine ⟨final, [search_end1, extend_shortcut k, find_pairs n], hf, hend, h1, by simp,
      by simp, ?_⟩
    intro _ _ _ hm
    simp at hm
  · obtain ⟨c1, c2, c3, c4⟩ := archive_search_pe_recovery_events_count recovery h3
    refine ⟨final,
      [search_end1, extend_shortcut k, find_pairs 0, callback_search_end2, search_end2] ++
        recovery ++ [find_pairs n], hf, hend, by rw [h1]; simp, ?_, ?_, ?_⟩
    · simp [List.count_append, List.count_cons, c1]
    · simp [List.count_append, List.count_cons, c2]
    · intro k' hk' hm _
      refine ⟨[search_end1, extend_shortcut k], recovery ++ [find_pairs n], by simp, ?_,
        by simp, ?_⟩
      · simp only [List.mem_append, List.mem_singleton, List.mem_cons, List.not_mem_nil,
          or_false, reduceCtorEq, false_or, extend_shortcut.injEq] at hm
        rcases hm with hm | hm
        · simp [hm]
        · exact absurd hm (c4 k')
      · simp [c3]

theorem archive_search_paired_end_continue_max_complete_stratum_witness :
    ∃ final, (∀ fuel, archive_search_paired_end_continue (example_pe_routines 2 3) (fuel + 3)
        example_pe_search = some final) ∧
      final.archive_search_end1.pe_search_state = archive_search_pe_end ∧
      final.paired_matches_max_complete_stratum = 5 :=
  match archive_search_paired_end_continue_max_complete_stratum (example_pe_routines 2 3)
      example_pe_search (by decide) with
  | ⟨final, h1, h2, h3⟩ => ⟨final, h1, h2, by rw [h3]; rfl⟩

/-- Counterexample to C23 as stated: when end/1 has `max_complete_stratum = ALL`
and end/2 has `3`, the search ends with `paired_matches.max_complete_stratum
= 3`, which is not the sum of the two per-end values, neither as a natural
number nor as a `uint64_t`. -/
theorem archive_search_paired_end_continue_max_complete_stratum_all :
    (archive_search_paired_end_continue (example_pe_routines ALL 3) 3 example_pe_search).map
      (fun final => (final.archive_search_end1.pe_search_state,
        final.paired_matches_max_complete_stratum)) = some (archive_search_pe_end, 3) ∧
    3 ≠ ALL + 3 ∧ 3 ≠ (ALL + 3) % U64 := by
  refine ⟨by rfl, by decide, by decide⟩

theorem archive_search_paired_end_continue_terminates_witness :
    ∃ final run,
      (∀ fuel, archive_search_paired_end_continue (example_pe_routines 2 3) (fuel + 3)
        example_pe_search = some final) ∧
      final.archive_search_end1.pe_search_state = archive_search_pe_end ∧
      final.events = example_pe_search.events ++ run ∧
      run.count archive_search_pe_event_t.search_end2 ≤ 1 ∧
      run.count archive_search_pe_event_t.callback_search_end2 ≤ 1 :=
  match archive_search_paired_end_continue_terminates (example_pe_routines 2 3)
      example_pe_search rfl with
  | ⟨final, run, h1, h2, h3, h4, h5, _⟩ => ⟨final, run, h1, h2, h3, h4, h5⟩
/-! ## filtering_candidates_verify_buffered.c: retrieving the tile distances -/

/-- Once `global_distance` exceeds `max_error`, every tile that is left gets the
distance `ALIGN_DISTANCE_INF`. -/
theorem filtering_candidates_verify_buffered_retrieve_alignment_tiles_inf (max_error : Nat)
    (bpm_pattern_tiles : Nat → Nat) (get_result : Nat → Nat × Nat)
    (hinf : max_error < ALIGN_DISTANCE_INF) :
    ∀ (tiles : List alignment_tile_t) (tile_pos candidate_idx global_distance : Nat),
      global_distance > max_error →
      filtering_candidates_verify_buffered_retrieve_alignment_tiles max_error bpm_pattern_tiles
        get_result tiles tile_pos candidate_idx global_distance =
        (tiles.map (fun t => { t with distance := ALIGN_DISTANCE_INF }),
          if tiles = [] then global_distance else ALIGN_DISTANCE_INF)
  | [], _, _, _, _ => by simp [filtering_candidates_verify_buffered_retrieve_alignment_tiles]
  | t :: tiles, tile_pos, candidate_idx, global_distance, h => by
    unfold filtering_candidates_verify_buffered_retrieve_alignment_tiles
    rw [if_pos h]
    simp only
    rw [filtering_candidates_verify_buffered_retrieve_alignment_tiles_inf max_error
      bpm_pattern_tiles get_result hinf tiles _ _ _ hinf]
    simp

/-- The partial sums of the tile distances, one tile further. -/
theorem alignment_tile_distance_sum_succ (get_result : Nat → Nat × Nat)
    (candidate_idx i : Nat) (hidx : candidate_idx < U64) :
    alignment_tile_distance_sum get_result candidate_idx (i + 1) =
      (get_result candidate_idx).1 % U32 +
        alignment_tile_distance_sum get_result ((candidate_idx + 1) % U64) i := by
  unfold alignment_tile_distance_sum
  rw [Finset.sum_range_succ', Nat.add_comm]
  congr 1
  · simp only [alignment_tile_distance, Nat.add_zero, Nat.mod_eq_of_lt hidx]
  · apply Finset.sum_congr rfl
    intro j _
    simp only [alignment_tile_distance]
    congr 3
    rw [Nat.add_mod ((candidate_idx + 1) % U64), Nat.mod_mod, ← Nat.add_mod]
    congr 1
    omega

/-- The partial sums of the tile distances do not decrease. -/
theorem alignment_tile_distance_sum_mono (get_result : Nat → Nat × Nat)
    (candidate_idx i j : Nat) (h : i ≤ j) :
    alignment_tile_distance_sum get_result candidate_idx i ≤
      alignment_tile_distance_sum get_result candidate_idx j := by
  unfold alignment_tile_distance_sum
  exact Finset.sum_le_sum_of_subset (Finset.range_mono h)

/-- A partial sum of `i` tile distances is below `i * 2^32`. -/
theorem alignment_tile_distance_sum_le (get_result : Nat → Nat × Nat)
    (candidate_idx i : Nat) :
    alignment_tile_distance_sum get_result candidate_idx i ≤ i * (U32 - 1) := by
  unfold alignment_tile_distance_sum
  have h := Finset.sum_le_card_nsmul (Finset.range i)
    (fun j => alignment_tile_distance get_result candidate_idx j) (U32 - 1) (by
      intro j _
      simp only [alignment_tile_distance]
      have := Nat.mod_lt (get_result ((candidate_idx + j) % U64)).1 (show U32 > 0 by decide)
      omega)
  simpa using h

/-- The offsets that the loop writes for a tile whose distance is retrieved. -/
theorem alignment_tile_offsets (tile_offset tile_match_column tile_tall tile_distance : Nat)
    (hoff : tile_offset + U32 ≤ U64) :
    (tile_offset + BOUNDED_SUBTRACTION ((tile_match_column % U32 + 1) % U32)
        ((tile_tall + tile_distance) % U64) 0) % U64 ≤
      (tile_offset + (tile_match_column % U32 + 1) % U32) % U64 ∧
    (tile_offset + (tile_match_column % U32 + 1) % U32) % U64 -
      (tile_offset + BOUNDED_SUBTRACTION ((tile_match_column % U32 + 1) % U32)
        ((tile_tall + tile_distance) % U64) 0) % U64 ≤ tile_tall + tile_distance := by
  have he : (tile_match_column % U32 + 1) % U32 < U32 := Nat.mod_lt _ (by decide)
  have hx : (tile_tall + tile_distance) % U64 < U64 := Nat.mod_lt _ (by decide)
  have hx2 : (tile_tall + tile_distance) % U64 ≤ tile_tall + tile_distance := Nat.mod_le _ _
  generalize (tile_match_column % U32 + 1) % U32 = e at *
  generalize (tile_tall + tile_distance) % U64 = x at *
  unfold BOUNDED_SUBTRACTION
  rw [Nat.zero_add, Nat.mod_eq_of_lt hx]
  have h32 : U32 ≤ U64 := by decide
  by_cases h : e > x
  · rw [if_pos h, sub64_of_le e x (by omega) (by omega)]
    rw [Nat.mod_eq_of_lt (by omega), Nat.mod_eq_of_lt (by omega)]
    omega
  · rw [if_neg h]
    rw [Nat.mod_eq_of_lt (by omega), Nat.mod_eq_of_lt (by omega)]
    omega

/-- The loop "Traverse all tiles", tile by tile: a tile whose preceding partial sum
exceeds `max_error` gets the distance `ALIGN_DISTANCE_INF`, every other tile
gets its distance and its offsets, and the final `global_distance` is
`ALIGN_DISTANCE_INF` when some partial sum exceeds `max_error` and the sum of
all distances otherwise. -/
theorem filtering_candidates_verify_buffered_retrieve_alignment_tiles_spec (max_error : Nat)
    (bpm_pattern_tiles : Nat → Nat) (get_result : Nat → Nat × Nat)
    (hinf : max_error < ALIGN_DISTANCE_INF) :
    ∀ (tiles : List alignment_tile_t) (tile_pos candidate_idx global_distance : Nat),
      candidate_idx < U64 →
      global_distance + alignment_tile_distance_sum get_result candidate_idx tiles.length < U64 →
      (∀ t ∈ tiles, t.text_begin_offset + U32 ≤ U64) →
      (filtering_candidates_verify_buffered_retrieve_alignment_tiles max_error
          bpm_pattern_tiles get_result tiles tile_pos candidate_idx global_distance).1.length
        = tiles.length ∧
      (∀ i t,
        (filtering_candidates_verify_buffered_retrieve_alignment_tiles max_error
          bpm_pattern_tiles get_result tiles tile_pos candidate_idx global_distance).1[i]?
          = some t →
        if global_distance + alignment_tile_distance_sum get_result candidate_idx i > max_error
        then t.distance = ALIGN_DISTANCE_INF
        else t.distance = alignment_tile_distance get_result candidate_idx i ∧
          t.text_begin_offset ≤ t.text_end_offset ∧
          t.text_end_offset - t.text_begin_offset ≤
            bpm_pattern_tiles (tile_pos + i) +
              alignment_tile_distance get_result candidate_idx i) ∧
      (filtering_candidates_verify_buffered_retrieve_alignment_tiles max_error
          bpm_pattern_tiles get_result tiles tile_pos candidate_idx global_distance).2
        = if ∃ i, i < tiles.length ∧
            global_distance + alignment_tile_distance_sum get_result candidate_idx i > max_error
          then ALIGN_DISTANCE_INF
          else global_distance +
            alignment_tile_distance_sum get_result candidate_idx tiles.length
  | [], tile_pos, candidate_idx, global_distance, _, _, _ => by
    simp [filtering_candidates_verify_buffered_retrieve_alignment_tiles,
      alignment_tile_distance_sum]
  | tile :: tiles, tile_pos, candidate_idx, global_distance, hidx, hsum, hoff => by
    by_cases hgd : global_distance > max_error
    · rw [filtering_candidates_verify_buffered_retrieve_alignment_tiles_inf max_error
        bpm_pattern_tiles get_result hinf _ _ _ _ hgd]
      refine ⟨by simp, ?_, ?_⟩
      · intro i t ht
        rw [if_pos (by omega)]
        simp only [List.getElem?_map, Option.map_eq_some'] at ht
        obtain ⟨a, _, rfl⟩ := ht
        rfl
      · simp only [reduceCtorEq, if_false]
        rw [if_pos ⟨0, by simp, by simpa [alignment_tile_distance_sum] using hgd⟩]
    · unfold filtering_candidates_verify_buffered_retrieve_alignment_tiles
      rw [if_neg hgd]
      simp only
      have hd0 : alignment_tile_distance get_result candidate_idx 0 =
          (get_result candidate_idx).1 % U32 := by
        simp only [alignment_tile_distance, Nat.add_zero, Nat.mod_eq_of_lt hidx]
      have hsucc := fun i => alignment_tile_distance_sum_succ get_result candidate_idx i hidx
      have hdsucc : ∀ i, alignment_tile_distance get_result ((candidate_idx + 1) % U64) i =
          alignment_tile_distance get_result candidate_idx (i + 1) := by
        intro i
        simp only [alignment_tile_distance]
        congr 3
        rw [Nat.add_mod ((candidate_idx + 1) % U64), Nat.mod_mod, ← Nat.add_mod]
        congr 1
        omega
      have hsum' := hsum
      rw [List.length_cons, hsucc] at hsum'
      have hgd' : (global_distance + (get_result candidate_idx).1 % U32) % U64 =
          global_distance + (get_result candidate_idx).1 % U32 :=
        Nat.mod_eq_of_lt (by omega)
      rw [hgd']
      obtain ⟨ih1, ih2, ih3⟩ :=
        filtering_candidates_verify_buffered_retrieve_alignment_tiles_spec max_error
          bpm_pattern_tiles get_result hinf tiles (tile_pos + 1) ((candidate_idx + 1) % U64)
          (global_distance + (get_result candidate_idx).1 % U32)
          (Nat.mod_lt _ (by decide)) (by omega)
          (fun t ht => hoff t (List.mem_cons_of_mem _ ht))
      refine ⟨by simp [ih1], ?_, ?_⟩
      · intro i t ht
        rcases i with _ | i
        · simp only [List.getElem?_cons_zero, Option.some.injEq] at ht
          subst ht
          rw [if_neg (by simpa [alignment_tile_distance_sum] using hgd)]
          simp only [Nat.add_zero, hd0]
          refine ⟨trivial, ?_⟩
          exact alignment_tile_offsets tile.text_begin_offset (get_result candidate_idx).2
            (bpm_pattern_tiles tile_pos) ((get_result candidate_idx).1 % U32)
            (hoff tile (List.mem_cons_self _ _))
        · simp only [List.getElem?_cons_succ] at ht
          have h := ih2 i t ht
          rw [hsucc i, ← Nat.add_assoc, ← hdsucc i]
          rw [show tile_pos + (i + 1) = tile_pos + 1 + i by omega]
          exact h
      · rw [ih3]
        have hiff : (∃ i, i < tiles.length ∧
            global_distance + (get_result candidate_idx).1 % U32 +
              alignment_tile_distance_sum get_result ((candidate_idx + 1) % U64) i > max_error) ↔
            (∃ i, i < (tile :: tiles).length ∧
              global_distance + alignment_tile_distance_sum get_result candidate_idx i
                > max_error) := by
          constructor
          · rintro ⟨i, hi, h⟩
            refine ⟨i + 1, by simp [hi], ?_⟩
            rw [hsucc i]
            omega
          · rintro ⟨i, hi, h⟩
            rcases i with _ | i
            · simp [alignment_tile_distance_sum] at h
              omega
            · refine ⟨i, by simpa using hi, ?_⟩
              rw [hsucc i] at h
              omega
        by_cases hex : ∃ i, i < (tile :: tiles).length ∧
            global_distance + alignment_tile_distance_sum get_result candidate_idx i > max_error
        · rw [if_pos (hiff.mpr hex), if_pos hex]
        · rw [if_neg (fun h => hex (hiff.mp h)), if_neg hex, List.length_cons, hsucc]
          omega

/-- C29 (amended): in `filtering_candidates_verify_buffered_retrieve_alignment`,
for `max_error < ALIGN_DISTANCE_INF`, at most `2^32` tiles and tile offsets
that leave room for a 32-bit column, scanning the tiles in order: a tile whose
preceding partial sum of tile distances exceeds `max_error` gets the distance
`ALIGN_DISTANCE_INF`, as do all later tiles, and `distance_min_bound` becomes
`ALIGN_DISTANCE_INF`; if there is no such tile, `distance_min_bound` is the sum
of all tile distances and every tile has its distance,
`text_begin_offset ≤ text_end_offset` and
`text_end_offset - text_begin_offset ≤ tile length + tile distance`. -/
theorem filtering_candidates_verify_buffered_retrieve_alignment_spec (alignment : alignment_t)
    (max_error : Nat) (bpm_pattern_tiles : Nat → Nat) (get_result : Nat → Nat × Nat)
    (candidate_idx : Nat)
    (hinf : max_error < ALIGN_DISTANCE_INF) (hidx : candidate_idx < 2 ^ 64)
    (htiles : alignment.alignment_tiles.length ≤ 2 ^ 32)
    (hoff : ∀ t ∈ alignment.alignment_tiles, t.text_begin_offset + 2 ^ 32 ≤ 2 ^ 64) :
    (filtering_candidates_verify_buffered_retrieve_alignment alignment max_error
        bpm_pattern_tiles get_result candidate_idx).alignment_tiles.length
      = alignment.alignment_tiles.length ∧
    (∀ i j t, i ≤ j →
      alignment_tile_distance_sum get_result candidate_idx i > max_error →
      (filtering_candidates_verify_buffered_retrieve_alignment alignment max_error
        bpm_pattern_tiles get_result candidate_idx).alignment_tiles[j]? = some t →
      t.distance = ALIGN_DISTANCE_INF) ∧
    ((∃ i, i < alignment.alignment_tiles.length ∧
        alignment_tile_distance_sum get_result candidate_idx i > max_error) →
      (filtering_candidates_verify_buffered_retrieve_alignment alignment max_error
        bpm_pattern_tiles get_result candidate_idx).distance_min_bound = ALIGN_DISTANCE_INF) ∧
    ((∀ i, i < alignment.alignment_tiles.length →
        alignment_tile_distance_sum get_result candidate_idx i ≤ max_error) →
      (filtering_candidates_verify_buffered_retrieve_alignment alignment max_error
        bpm_pattern_tiles get_result candidate_idx).distance_min_bound =
        alignment_tile_distance_sum get_result candidate_idx alignment.alignment_tiles.length ∧
      ∀ i t,
        (filtering_candidates_verify_buffered_retrieve_alignment alignment max_error
          bpm_pattern_tiles get_result candidate_idx).alignment_tiles[i]? = some t →
        t.distance = alignment_tile_distance get_result candidate_idx i ∧
        t.text_begin_offset ≤ t.text_end_offset ∧
        t.text_end_offset - t.text_begin_offset ≤
          bpm_pattern_tiles i + alignment_tile_distance get_result candidate_idx i) := by
  have hsum : 0 + alignment_tile_distance_sum get_result candidate_idx
      alignment.alignment_tiles.length < U64 := by
    have h := alignment_tile_distance_sum_le get_result candidate_idx
      alignment.alignment_tiles.length
    have h2 : alignment.alignment_tiles.length * (U32 - 1) ≤ 2 ^ 32 * (U32 - 1) :=
      Nat.mul_le_mul_right _ htiles
    have h3 : 2 ^ 32 * (U32 - 1) < U64 := by decide
    omega
  obtain ⟨h1, h2, h3⟩ :=
    filtering_candidates_verify_buffered_retrieve_alignment_tiles_spec max_error
      bpm_pattern_tiles get_result hinf alignment.alignment_tiles 0 candidate_idx 0 hidx hsum
      hoff
  simp only [Nat.zero_add] at h2 h3
  unfold filtering_candidates_verify_buffered_retrieve_alignment
  simp only
  refine ⟨h1, ?_, ?_, ?_⟩
  · intro i j t hij hi ht
    have h := h2 j t ht
    rw [if_pos (by
      have := alignment_tile_distance_sum_mono get_result candidate_idx i j hij
      omega)] at h
    exact h
  · intro hex
    rw [h3, if_pos hex]
  · intro hall
    have hlen : ∀ i t,
        (filtering_candidates_verify_buffered_retrieve_alignment_tiles max_error
          bpm_pattern_tiles get_result alignment.alignment_tiles 0 candidate_idx 0).1[i]?
          = some t → i < alignment.alignment_tiles.length := by
      intro i t ht
      rw [← h1]
      by_contra hge
      rw [List.getElem?_eq_none (by omega)] at ht
      cases ht
    refine ⟨?_, ?_⟩
    · rw [h3, if_neg]
      rintro ⟨i, hi, h⟩
      have := hall i hi
      omega
    · intro i t ht
      have h := h2 i t ht
      rw [if_neg (by have := hall i (hlen i t ht); omega)] at h
      exact h

theorem filtering_candidates_verify_buffered_retrieve_alignment_spec_witness :
    5 < ALIGN_DISTANCE_INF ∧
    filtering_candidates_verify_buffered_retrieve_alignment example_alignment 3
      (fun _ => 4) example_gpu_buffer 0 =
      { alignment_tiles :=
          [{ distance := 2, text_begin_offset := 2, text_end_offset := 8 },
           { distance := 2, text_begin_offset := 12, text_end_offset := 18 },
           { distance := ALIGN_DISTANCE_INF, text_begin_offset := 20, text_end_offset := 0 }]
        distance_min_bound := ALIGN_DISTANCE_INF } ∧
    ((∃ i, i < example_alignment.alignment_tiles.length ∧
        alignment_tile_distance_sum example_gpu_buffer 0 i > 3) →
      (filtering_candidates_verify_buffered_retrieve_alignment example_alignment 3
        (fun _ => 4) example_gpu_buffer 0).distance_min_bound = ALIGN_DISTANCE_INF) :=
  ⟨by decide, by rfl,
    (filtering_candidates_verify_buffered_retrieve_alignment_spec example_alignment 3
      (fun _ => 4) example_gpu_buffer 0 (by decide) (by decide) (by decide)
      (by decide)).2.2.1⟩

/-- Counterexample to C29 as stated: a tile that starts at the text offset
`2^64 - 1` and whose match ends in column 0 gets `text_end_offset = 0` (the sum
wraps) and `text_begin_offset = 2^64 - 1`, although no partial sum of tile
distances exceeds `max_error`. -/
theorem filtering_candidates_verify_buffered_retrieve_alignment_wraps :
    filtering_candidates_verify_buffered_retrieve_alignment example_alignment_wrapping 3
      (fun _ => 4) (fun _ => (0, 0)) 0 =
      { alignment_tiles :=
          [{ distance := 0, text_begin_offset := 2 ^ 64 - 1, text_end_offset := 0 }]
        distance_min_bound := 0 } ∧
    ¬ (2 ^ 64 - 1 ≤ 0) := by
  refine ⟨by rfl, by decide⟩
/-! ## region_profile_adaptive.c: wildcards, zero candidates and cut-points -/

/-- The skipping loop stops at the leftmost symbol of the run of disallowed
symbols that ends at `key_position`. -/
theorem region_profile_generator_skip_disallowed_spec (key : List Nat)
    (allowed : Nat → Bool) :
    ∀ kp : Nat,
      region_profile_generator_skip_disallowed key allowed kp ≤ kp ∧
      (∀ i, region_profile_generator_skip_disallowed key allowed kp ≤ i → i < kp →
        allowed (key.getD i 0) = false) ∧
      (region_profile_generator_skip_disallowed key allowed kp = 0 ∨
        allowed (key.getD (region_profile_generator_skip_disallowed key allowed kp - 1) 0)
          = true)
  | 0 => by simp [region_profile_generator_skip_disallowed]
  | kp + 1 => by
    unfold region_profile_generator_skip_disallowed
    by_cases h : allowed (key.getD kp 0) = true
    · rw [if_neg (by rw [h]; simp)]
      refine ⟨le_rfl, fun i h1 h2 => by omega, Or.inr ?_⟩
      simpa using h
    · have h' : allowed (key.getD kp 0) = false := by simpa using h
      rw [if_pos (by rw [h']; rfl)]
      obtain ⟨ih1, ih2, ih3⟩ := region_profile_generator_skip_disallowed_spec key allowed kp
      refine ⟨by omega, fun i h1 h2 => ?_, ih3⟩
      by_cases hi : i = kp
      · rw [hi]; exact h'
      · exact ih2 i h1 (by omega)

/-- C26 (amended): when `region_profile_generate_adaptive` reads a disallowed
symbol at the key position `p`, it closes a region only if a cut-point is saved
(`last_cut ≠ 0`): then the region closed is `[p+1, end)` with the current
`(lo, hi)`; without a cut-point no region is closed.  In both cases it skips
the whole run of disallowed symbols and restarts, the next region's `end` being
the index of the leftmost symbol of that run. -/
theorem region_profile_generate_adaptive_iteration_disallowed
    (pm : region_profile_model_t) (g : region_profile_generator_t) (p : Nat)
    (hkp : g.key_position = p + 1)
    (hdis : g.allowed_enc (g.key.getD p 0) = false) :
    ∃ g', region_profile_generate_adaptive_iteration pm g = some g' ∧
      (g.last_cut ≠ 0 → ∃ r,
        g'.region_profile.filtering_region = g.region_profile.filtering_region ++ [r] ∧
        r.begin = p + 1 ∧ r.end_ = g.region_profile.current_region.end_ ∧
        r.lo = g.lo ∧ r.hi = g.hi) ∧
      (g.last_cut = 0 →
        g'.region_profile.filtering_region = g.region_profile.filtering_region) ∧
      g'.key_position ≤ p ∧
      (∀ i, g'.key_position ≤ i → i ≤ p → g.allowed_enc (g.key.getD i 0) = false) ∧
      (g'.key_position = 0 ∨ g.allowed_enc (g.key.getD (g'.key_position - 1) 0) = true) ∧
      g'.region_profile.current_region.end_ = g'.key_position ∧
      g'.last_cut = 0 ∧ g'.lo = 0 ∧ g'.hi = fm_index_get_length g.fm_index % U64 ∧
      g'.rank_mquery = rank_mquery_new := by
  obtain ⟨s1, s2, s3⟩ := region_profile_generator_skip_disallowed_spec g.key g.allowed_enc p
  have hall : ∀ i, region_profile_generator_skip_disallowed g.key g.allowed_enc p ≤ i → i ≤ p →
      g.allowed_enc (g.key.getD i 0) = false := by
    intro i h1 h2
    by_cases hi : i = p
    · rw [hi]; exact hdis
    · exact s2 i h1 (by omega)
  unfold region_profile_generate_adaptive_iteration
  simp only [hkp, Nat.add_sub_cancel, hdis, Bool.not_false, if_true]
  refine ⟨_, rfl, ?_, ?_, ?_⟩
  · intro hcut
    simp only [region_profile_generator_disallow_character, hcut, ne_eq, not_false_eq_true,
      if_true, region_profile_generator_restart, region_profile_generator_close_region]
    exact ⟨_, rfl, rfl, rfl, rfl, rfl⟩
  · intro hcut
    simp only [region_profile_generator_disallow_character, hcut, ne_eq, not_true_eq_false,
      if_false, region_profile_generator_restart]
  · by_cases hcut : g.last_cut = 0
    · simp only [region_profile_generator_disallow_character, hcut, ne_eq, not_true_eq_false,
        if_false, region_profile_generator_restart]
      exact ⟨s1, hall, s3, by simp⟩
    · simp only [region_profile_generator_disallow_character, hcut, ne_eq, not_false_eq_true,
        if_true, region_profile_generator_restart, region_profile_generator_close_region,
        Nat.add_sub_cancel]
      exact ⟨s1, hall, s3, by simp⟩

/-- What `region_profile_generator_add_character` keeps: the index and
`allow_zero_regions`; a cut-point that it leaves saved holds an interval with at
least one candidate; and when it closes no region, it leaves the interval, the
query, the profile and the position as they are, and the interval is not
empty. -/
theorem region_profile_generator_add_character_keep (g : region_profile_generator_t)
    (pm : region_profile_model_t) (r : Bool × region_profile_generator_t)
    (hr : region_profile_generator_add_character g pm = some r) :
    r.2.allow_zero_regions = g.allow_zero_regions ∧ r.2.fm_index = g.fm_index ∧
    ((g.last_cut ≠ 0 → 0 < sub64 g.hi_cut g.lo_cut) →
      (r.2.last_cut ≠ 0 → 0 < sub64 r.2.hi_cut r.2.lo_cut)) ∧
    (r.2.region_profile.filtering_region = g.region_profile.filtering_region →
      r.2.lo = g.lo ∧ r.2.hi = g.hi ∧ r.2.rank_mquery = g.rank_mquery ∧
      r.2.region_profile = g.region_profile ∧ r.2.key_position = g.key_position ∧
      sub64 g.hi g.lo ≠ 0) := by
  unfold region_profile_generator_add_character at hr
  simp only at hr
  split_ifs at hr with h1 h2 h3 h4 h5 h6 h7 h8 h9 <;>
    simp only [Option.some.injEq, reduceCtorEq] at hr <;>
    subst hr <;>
    simp [region_profile_generator_close_region,
      region_profile_generator_restart, region_profile_generator_save_cut_point] at * <;>
    omega

/-- One iteration of the scan keeps `allow_zero_regions`, and a cut-point that it
leaves saved holds an interval with at least one candidate. -/
theorem region_profile_generate_adaptive_iteration_cut (pm : region_profile_model_t)
    (g g' : region_profile_generator_t)
    (hcut : g.last_cut ≠ 0 → 0 < sub64 g.hi_cut g.lo_cut)
    (hg' : region_profile_generate_adaptive_iteration pm g = some g') :
    g'.allow_zero_regions = g.allow_zero_regions ∧
    (g'.last_cut ≠ 0 → 0 < sub64 g'.hi_cut g'.lo_cut) := by
  unfold region_profile_generate_adaptive_iteration at hg'
  simp only at hg'
  split at hg'
  · simp only [Option.some.injEq] at hg'
    subst hg'
    have hs := region_profile_generator_disallow_character_step
      { g with key_position := g.key_position - 1 } pm
    simp only at hs
    refine ⟨?_, fun h => absurd hs.2.2.2.2.2.2.1 h⟩
    simp only [region_profile_generator_disallow_character, region_profile_generator_restart]
    split <;> rfl
  · split at hg'
    · cases hg'
    · rename_i r hr
      simp only [Option.some.injEq] at hg'
      subst hg'
      obtain ⟨k1, _, k3, _⟩ := region_profile_generator_add_character_keep _ pm r hr
      have hq : ∀ (q : region_profile_generator_t) (c : Nat),
          (region_profile_query_character q c).allow_zero_regions = q.allow_zero_regions ∧
          (region_profile_query_character q c).last_cut = q.last_cut ∧
          (region_profile_query_character q c).hi_cut = q.hi_cut ∧
          (region_profile_query_character q c).lo_cut = q.lo_cut := by
        intro q c
        unfold region_profile_query_character
        split <;> simp
      obtain ⟨q1, q2, q3, q4⟩ := hq { g with key_position := g.key_position - 1 }
        (g.key.getD (g.key_position - 1) 0)
      refine ⟨k1.trans q1, k3 ?_⟩
      rw [q2, q3, q4]
      exact hcut

/-- In every state that the scan reaches from the initial state,
`allow_zero_regions` is the flag given, and a saved cut-point holds an interval
with at least one candidate. -/
theorem region_profile_generate_adaptive_iterate_cut (pm : region_profile_model_t) :
    ∀ (n : Nat) (g g' : region_profile_generator_t),
      (g.last_cut ≠ 0 → 0 < sub64 g.hi_cut g.lo_cut) →
      region_profile_generate_adaptive_iterate pm n g = some g' →
      g'.allow_zero_regions = g.allow_zero_regions ∧
      (g'.last_cut ≠ 0 → 0 < sub64 g'.hi_cut g'.lo_cut)
  | 0, g, g', hcut, hg' => by
    simp only [region_profile_generate_adaptive_iterate, Option.some.injEq] at hg'
    subst hg'
    exact ⟨rfl, hcut⟩
  | n + 1, g, g', hcut, hg' => by
    unfold region_profile_generate_adaptive_iterate at hg'
    split_ifs at hg' with hkp
    split at hg'
    · cases hg'
    · rename_i g1 hg1
      obtain ⟨a1, a2⟩ := region_profile_generate_adaptive_iteration_cut pm g g1 hcut hg1
      obtain ⟨b1, b2⟩ := region_profile_generate_adaptive_iterate_cut pm n g1 g' a2 hg'
      exact ⟨b1.trans a1, b2⟩

/-- C25: when the candidate count reaches 0 in
`region_profile_generator_add_character`, in a state that the scan of
`region_profile_generate_adaptive` reaches: if `allow_zero_regions` is true or
no cut-point exists, the region is closed at the current key position with the
empty interval; otherwise the region is closed at the saved cut position with
the cut's interval, which has at least one candidate, and scanning resumes from
the cut position. -/
theorem region_profile_generator_add_character_zero (fm_index : fm_index_t) (key : List Nat)
    (key_length : Nat) (allowed_enc : Nat → Bool) (allow_zero_regions : Bool)
    (pm : region_profile_model_t) (n : Nat) (g : region_profile_generator_t) (enc_char : Nat)
    (hreach : region_profile_generate_adaptive_iterate pm n
      (region_profile_generator_init fm_index key key_length allowed_enc allow_zero_regions)
        = some g)
    (hzero : sub64
      (region_profile_query_character { g with key_position := g.key_position - 1 } enc_char).hi
      (region_profile_query_character { g with key_position := g.key_position - 1 } enc_char).lo
        = 0) :
    ∃ g' r,
      region_profile_generator_add_character
        (region_profile_query_character { g with key_position := g.key_position - 1 } enc_char)
        pm = some (true, g') ∧
      g'.region_profile.filtering_region = g.region_profile.filtering_region ++ [r] ∧
      r.end_ = g.region_profile.current_region.end_ ∧
      g'.region_profile.current_region.end_ = g'.key_position ∧
      g'.last_cut = 0 ∧
      ((allow_zero_regions = true ∨ g.last_cut = 0) →
        r.begin = g.key_position - 1 ∧
        r.lo = (region_profile_query_character
          { g with key_position := g.key_position - 1 } enc_char).lo ∧
        r.hi = (region_profile_query_character
          { g with key_position := g.key_position - 1 } enc_char).hi ∧
        r.hi = r.lo ∧ sub64 r.hi r.lo = 0 ∧
        g'.key_position = g.key_position - 1) ∧
      (¬ (allow_zero_regions = true ∨ g.last_cut = 0) →
        r.begin = g.last_cut ∧ r.lo = g.lo_cut ∧ r.hi = g.hi_cut ∧
        0 < sub64 r.hi r.lo ∧
        g'.key_position = g.last_cut) := by
  obtain ⟨hazr, hcut⟩ := region_profile_generate_adaptive_iterate_cut pm n _ g
    (by simp [region_profile_generator_init, region_profile_generator_restart]) hreach
  have hazr' : g.allow_zero_regions = allow_zero_regions := by
    rw [hazr]
    simp [region_profile_generator_init, region_profile_generator_restart]
  have hq : ∀ (q : region_profile_generator_t) (c : Nat),
      (region_profile_query_character q c).allow_zero_regions = q.allow_zero_regions ∧
      (region_profile_query_character q c).last_cut = q.last_cut ∧
      (region_profile_query_character q c).hi_cut = q.hi_cut ∧
      (region_profile_query_character q c).lo_cut = q.lo_cut ∧
      (region_profile_query_character q c).key_position = q.key_position ∧
      (region_profile_query_character q c).region_profile = q.region_profile ∧
      (region_profile_query_character q c).lo < U64 ∧
      (region_profile_query_character q c).hi < U64 := by
    intro q c
    unfold region_profile_query_character
    split <;> simp [Nat.mod_lt _ (show U64 > 0 by decide)]
  obtain ⟨q1, q2, q3, q4, q5, q6, q7, q8⟩ := hq { g with key_position := g.key_position - 1 }
    enc_char
  generalize region_profile_query_character { g with key_position := g.key_position - 1 }
    enc_char = q at *
  simp only at q1 q2 q3 q4 q5 q6
  have heq : q.hi = q.lo := by
    simp only [sub64, U64] at hzero q7 q8
    omega
  unfold region_profile_generator_add_character
  simp only
  rw [if_neg (by omega), if_neg (by omega)]
  by_cases hz : allow_zero_regions = true ∨ g.last_cut = 0
  · rw [if_pos (by rw [q1, q2, hazr']; simpa using hz)]
    refine ⟨_,
      { q.region_profile.current_region with
        begin := q.key_position
        lo := q.lo
        hi := q.hi
        type := if decide (sub64 q.hi q.lo ≤ pm.region_type_th) then region_type.region_unique
          else region_type.region_standard }, rfl, ?_, ?_, ?_, ?_, ?_, ?_⟩
    · simp only [region_profile_generator_restart, region_profile_generator_close_region, q6]
    · simp only [region_profile_generator_close_region, q6]
    · simp only [region_profile_generator_restart, region_profile_generator_close_region]
    · simp only [region_profile_generator_restart, region_profile_generator_close_region]
    · intro _
      simp only [region_profile_generator_restart, region_profile_generator_close_region, q5]
      exact ⟨trivial, trivial, trivial, heq, hzero, trivial⟩
    · intro h
      exact absurd hz h
  · rw [if_neg (by rw [q1, q2, hazr']; simpa using hz)]
    refine ⟨_,
      { q.region_profile.current_region with
        begin := q.last_cut
        lo := q.lo_cut
        hi := q.hi_cut
        type := if decide (sub64 q.hi_cut q.lo_cut ≤ pm.region_type_th) then
          region_type.region_unique else region_type.region_standard }, rfl, ?_, ?_, ?_, ?_, ?_, ?_⟩
    · simp only [region_profile_generator_restart, region_profile_generator_close_region, q6]
    · simp only [region_profile_generator_close_region, q6]
    · simp only [region_profile_generator_restart, region_profile_generator_close_region]
    · simp only [region_profile_generator_restart, region_profile_generator_close_region]
    · intro h
      exact absurd h hz
    · intro _
      simp only [region_profile_generator_restart, region_profile_generator_close_region, q2,
        q3, q4]
      refine ⟨trivial, trivial, trivial, ?_, trivial⟩
      exact hcut (fun h0 => hz (Or.inr h0))

/-- With a cut-point saved and at most `region_th` candidates,
`region_profile_generator_add_character` closes a region, or it spends one of
the steps that are left and keeps a cut-point. -/
theorem region_profile_generator_add_character_spend (g : region_profile_generator_t)
    (pm : region_profile_model_t) (hdec : 0 < pm.dec_factor) (hcut : g.last_cut ≠ 0)
    (hcount : sub64 g.hi g.lo ≤ pm.region_th) :
    ∃ r, region_profile_generator_add_character g pm = some r ∧
      (r.2.region_profile.num_filtering_regions = g.region_profile.num_filtering_regions + 1 ∨
        (r.2.region_profile.num_filtering_regions = g.region_profile.num_filtering_regions ∧
          g.key_position ≠ 0 ∧ dec64 g.max_steps ≠ 0 ∧ r.2.max_steps = dec64 g.max_steps ∧
          r.2.last_cut ≠ 0 ∧ r.2.expected_count = g.expected_count / pm.dec_factor ∧
          r.2.key_position = g.key_position ∧ r.2.lo = g.lo ∧ r.2.hi = g.hi ∧
          r.2.fm_index = g.fm_index)) := by
  unfold region_profile_generator_add_character
  simp only
  split_ifs with h1 h2 h3 h4 h5 h6 h7 h8 h9 <;>
    first
    | omega
    | (refine ⟨_, rfl, ?_⟩
       simp [region_profile_generator_close_region, region_profile_generator_restart,
         region_profile_generator_save_cut_point, region_profile_t.num_filtering_regions] at *
       try omega)

/-! ## region_profile_adaptive.c: the whole-read region -/

/-- One iteration of the scan does not take a region away. -/
theorem region_profile_generate_adaptive_iteration_mono (pm : region_profile_model_t)
    (g g' : region_profile_generator_t)
    (hg' : region_profile_generate_adaptive_iteration pm g = some g') :
    g.region_profile.num_filtering_regions ≤ g'.region_profile.num_filtering_regions := by
  unfold region_profile_generate_adaptive_iteration at hg'
  simp only at hg'
  simp only [region_profile_t.num_filtering_regions]
  split at hg'
  · have hs := region_profile_generator_disallow_character_step
      { g with key_position := g.key_position - 1 } pm
    simp only at hs
    obtain ⟨_, _, _, _, _, _, _, h8⟩ := hs
    simp only [Option.some.injEq] at hg'
    subst hg'
    rcases h8 with ⟨_, h⟩ | ⟨_, r, h, _⟩
    · rw [h]
    · rw [h]; simp
  · have hqs := region_profile_query_character_step
      { g with key_position := g.key_position - 1 } (g.key.getD (g.key_position - 1) 0)
    simp only at hqs
    obtain ⟨_, _, _, _, _, q6, _⟩ := hqs
    split at hg'
    · exact absurd hg' (by simp)
    · rename_i r hr
      simp only [Option.some.injEq] at hg'
      subst hg'
      obtain ⟨⟨_, _, _, s4⟩, _⟩ := region_profile_generator_add_character_step _ pm r hr
      rw [q6] at s4
      rcases s4 with ⟨_, _, t3, _⟩ | ⟨c, r', _, t1, _⟩
      · rw [t3]
      · rw [t1]; simp

/-- The loop "Delimit regions" does not take a region away. -/
theorem region_profile_generate_adaptive_loop_mono (pm : region_profile_model_t)
    (max_regions : Nat) :
    ∀ (fuel : Nat) (g g' : region_profile_generator_t),
      region_profile_generate_adaptive_loop pm max_regions fuel g = some g' →
      g.region_profile.num_filtering_regions ≤ g'.region_profile.num_filtering_regions
  | 0, g, g', hg' => by
    unfold region_profile_generate_adaptive_loop at hg'
    split at hg'
    · exact absurd hg' (by simp)
    · simp only [Option.some.injEq] at hg'
      exact hg' ▸ le_rfl
  | fuel + 1, g, g', hg' => by
    unfold region_profile_generate_adaptive_loop at hg'
    by_cases hkp : g.key_position > 0
    · rw [if_pos hkp] at hg'
      by_cases hmax : g.region_profile.num_filtering_regions ≥ max_regions
      · rw [if_pos hmax] at hg'
        simp only [Option.some.injEq] at hg'
        exact hg' ▸ le_rfl
      · rw [if_neg hmax] at hg'
        split at hg'
        · exact absurd hg' (by simp)
        · rename_i g1 hg1
          have h1 := region_profile_generate_adaptive_iteration_mono pm g g1 hg1
          have h2 := region_profile_generate_adaptive_loop_mono pm max_regions fuel g1 g' hg'
          omega
    · rw [if_neg hkp] at hg'
      simp only [Option.some.injEq] at hg'
      exact hg' ▸ le_rfl

/-- One iteration of the scan on an allowed character that closes no region:
the query and the interval follow `region_profile_query_key`, and the interval
is not empty. -/
theorem region_profile_generate_adaptive_iteration_query (pm : region_profile_model_t)
    (fm_index : fm_index_t) (key : List Nat) (L : Nat) (allowed : Nat → Bool) (n : Nat)
    (g g' : region_profile_generator_t)
    (hfm : g.fm_index = fm_index) (hkey : g.key = key) (hal : g.allowed_enc = allowed)
    (hL : g.key_length = L) (hkp : g.key_position + n = L) (hpos : 0 < g.key_position)
    (hnone : g.region_profile.filtering_region = [])
    (hend : g.region_profile.current_region.end_ = L)
    (hq : (g.rank_mquery, g.lo, g.hi) = region_profile_query_key fm_index key L n)
    (hallowed : allowed (key.getD (g.key_position - 1) 0) = true)
    (hg' : region_profile_generate_adaptive_iteration pm g = some g')
    (hnone' : g'.region_profile.filtering_region = []) :
    g'.fm_index = fm_index ∧ g'.key = key ∧ g'.allowed_enc = allowed ∧ g'.key_length = L ∧
    g'.key_position + (n + 1) = L ∧
    g'.region_profile.current_region.end_ = L ∧
    (g'.rank_mquery, g'.lo, g'.hi) = region_profile_query_key fm_index key L (n + 1) ∧
    sub64 (region_profile_query_key fm_index key L (n + 1)).2.2
      (region_profile_query_key fm_index key L (n + 1)).2.1 ≠ 0 := by
  subst hfm hkey hal hL
  unfold region_profile_generate_adaptive_iteration at hg'
  simp only at hg'
  rw [hallowed] at hg'
  simp only [Bool.not_true, Bool.false_eq_true, if_false] at hg'
  have hqk : ∀ q : region_profile_generator_t, q.fm_index = g.fm_index →
      (q.rank_mquery, q.lo, q.hi) = region_profile_query_key g.fm_index g.key g.key_length n →
      ((region_profile_query_character q (g.key.getD (g.key_length - (n + 1)) 0)).rank_mquery,
        (region_profile_query_character q (g.key.getD (g.key_length - (n + 1)) 0)).lo,
        (region_profile_query_character q (g.key.getD (g.key_length - (n + 1)) 0)).hi)
        = region_profile_query_key g.fm_index g.key g.key_length (n + 1) := by
    intro q h1 h2
    have e1 : q.rank_mquery = (region_profile_query_key g.fm_index g.key g.key_length n).1 := by rw [← h2]
    have e2 : q.lo = (region_profile_query_key g.fm_index g.key g.key_length n).2.1 := by rw [← h2]
    have e3 : q.hi = (region_profile_query_key g.fm_index g.key g.key_length n).2.2 := by rw [← h2]
    conv_rhs => unfold region_profile_query_key
    unfold region_profile_query_character
    simp only [← e1, ← e2, ← e3, h1]
    split <;> rfl
  have hidx : g.key_position - 1 = g.key_length - (n + 1) := by omega
  have hle : g.key_length - (n + 1) + (n + 1) = g.key_length := by omega
  rw [hidx] at hg'
  have hqs := region_profile_query_character_step
    { g with key_position := g.key_length - (n + 1) } (g.key.getD (g.key_length - (n + 1)) 0)
  simp only at hqs
  obtain ⟨q1, q2, q3, _, q5, q6, _⟩ := hqs
  have hfmq : (region_profile_query_character { g with key_position := g.key_length - (n + 1) }
      (g.key.getD (g.key_length - (n + 1)) 0)).fm_index = g.fm_index := by
    unfold region_profile_query_character
    split <;> rfl
  have hk := hqk { g with key_position := g.key_length - (n + 1) } rfl hq
  generalize region_profile_query_character { g with key_position := g.key_length - (n + 1) }
    (g.key.getD (g.key_length - (n + 1)) 0) = q at *
  split at hg'
  · cases hg'
  · rename_i r hr
    simp only [Option.some.injEq] at hg'
    subst hg'
    obtain ⟨⟨s1, s2, s3, _⟩, _⟩ := region_profile_generator_add_character_step q pm r hr
    obtain ⟨_, k2, _, k4⟩ := region_profile_generator_add_character_keep q pm r hr
    obtain ⟨a1, a2, a3, a4, a5, a6⟩ := k4 (by rw [hnone', q6, hnone])
    refine ⟨k2.trans hfmq, s1.trans q1, s3.trans q3,
      s2.trans q2, by rw [a5, q5]; exact hle, by rw [a4, q6]; exact hend, ?_, ?_⟩
    · rw [a1, a2, a3]; exact hk
    · rw [← hk]
      exact a6

/-- When the loop "Delimit regions" ends without a region on a key without
disallowed symbols, with `max_regions ≥ 1`, it has scanned the whole key: the
interval is the one of `region_profile_query_key` for all `L` characters, and
no shorter suffix of the key had an empty interval. -/
theorem region_profile_generate_adaptive_loop_query (pm : region_profile_model_t)
    (max_regions : Nat) (hmax : 1 ≤ max_regions)
    (fm_index : fm_index_t) (key : List Nat) (L : Nat) (allowed : Nat → Bool)
    (hallowed : ∀ i, i < L → allowed (key.getD i 0) = true) :
    ∀ (fuel n : Nat) (g g' : region_profile_generator_t),
      g.fm_index = fm_index → g.key = key → g.allowed_enc = allowed → g.key_length = L →
      g.key_position + n = L →
      g.region_profile.filtering_region = [] →
      g.region_profile.current_region.end_ = L →
      (g.rank_mquery, g.lo, g.hi) = region_profile_query_key fm_index key L n →
      (∀ i, 1 ≤ i → i ≤ n →
        sub64 (region_profile_query_key fm_index key L i).2.2
          (region_profile_query_key fm_index key L i).2.1 ≠ 0) →
      region_profile_generate_adaptive_loop pm max_regions fuel g = some g' →
      g'.region_profile.filtering_region = [] →
      g'.key_length = L ∧ g'.region_profile.current_region.end_ = L ∧
      (g'.lo, g'.hi) = ((region_profile_query_key fm_index key L L).2.1,
        (region_profile_query_key fm_index key L L).2.2) ∧
      (∀ i, 1 ≤ i → i ≤ L →
        sub64 (region_profile_query_key fm_index key L i).2.2
          (region_profile_query_key fm_index key L i).2.1 ≠ 0)
  | 0, n, g, g', hfm, hkey, hal, hL, hkp, hnone, hend, hq, hne, hg', hnone' => by
    unfold region_profile_generate_adaptive_loop at hg'
    split at hg'
    · exact absurd hg' (by simp)
    · rename_i hc
      simp only [Option.some.injEq] at hg'
      subst hg'
      have h0 : g.key_position = 0 := by
        by_contra hpos
        apply hc
        refine ⟨by omega, ?_⟩
        simp only [region_profile_t.num_filtering_regions, hnone, List.length_nil]
        omega
      have hn : n = L := by omega
      subst hn
      refine ⟨hL, hend, ?_, hne⟩
      rw [← hq]
  | fuel + 1, n, g, g', hfm, hkey, hal, hL, hkp, hnone, hend, hq, hne, hg', hnone' => by
    unfold region_profile_generate_adaptive_loop at hg'
    by_cases hpos : g.key_position > 0
    · rw [if_pos hpos] at hg'
      rw [if_neg (by
        simp only [region_profile_t.num_filtering_regions, hnone, List.length_nil]
        omega)] at hg'
      split at hg'
      · exact absurd hg' (by simp)
      · rename_i g1 hg1
        have hm := region_profile_generate_adaptive_loop_mono pm max_regions fuel g1 g' hg'
        have hnone1 : g1.region_profile.filtering_region = [] := by
          simp only [region_profile_t.num_filtering_regions, hnone', List.length_nil] at hm
          exact List.length_eq_zero.mp (by omega)
        obtain ⟨t1, t2, t3, t4, t5, t6, t7, t8⟩ :=
          region_profile_generate_adaptive_iteration_query pm fm_index key L allowed n g g1
            hfm hkey hal hL hkp hpos hnone hend hq (hallowed _ (by omega)) hg1 hnone1
        refine region_profile_generate_adaptive_loop_query pm max_regions hmax fm_index key L
          allowed hallowed fuel (n + 1) g1 g' t1 t2 t3 t4 t5 hnone1 t6 t7 ?_ hg' hnone'
        intro i hi1 hi2
        by_cases hi : i = n + 1
        · rw [hi]; exact t8
        · exact hne i hi1 (by omega)
    · rw [if_neg hpos] at hg'
      simp only [Option.some.injEq] at hg'
      subst hg'
      have hn : n = L := by omega
      subst hn
      refine ⟨hL, hend, ?_, hne⟩
      rw [← hq]

/-- The query of `region_profile_query_key` holds the characters added while the
depth of the rank table was not reached. -/
theorem region_profile_query_key_level (fm_index : fm_index_t) (key : List Nat) (L : Nat) :
    ∀ n, rank_mquery_get_level (region_profile_query_key fm_index key L n).1
      = min n RANK_MTABLE_SEARCH_DEPTH
  | 0 => by simp [region_profile_query_key, rank_mquery_get_level, rank_mquery_new]
  | n + 1 => by
    have ih := region_profile_query_key_level fm_index key L n
    unfold region_profile_query_key
    simp only
    by_cases hex : rank_mquery_is_exhausted (region_profile_query_key fm_index key L n).1 = true
    · rw [if_pos hex]
      simp only [rank_mquery_is_exhausted, decide_eq_true_eq] at hex
      simp only
      omega
    · rw [if_neg hex]
      simp only [rank_mquery_is_exhausted, decide_eq_true_eq] at hex
      simp only [rank_mquery_get_level, rank_mquery_add_char, List.length_cons] at *
      omega

/-- The first loop of `fm_index_bsearch` builds the query of
`region_profile_query_key`. -/
theorem fm_index_bsearch_query_key (fm_index : fm_index_t) (key : List Nat) (L : Nat) :
    ∀ n, n ≤ L → n ≤ RANK_MTABLE_SEARCH_DEPTH →
      fm_index_bsearch_query key (L - n) (region_profile_query_key fm_index key L n).1
        = fm_index_bsearch_query key L rank_mquery_new
  | 0, _, _ => by simp [region_profile_query_key]
  | n + 1, h1, h2 => by
    rw [← fm_index_bsearch_query_key fm_index key L n (by omega) (by omega)]
    have hlev := region_profile_query_key_level fm_index key L n
    have hnex : ¬ rank_mquery_is_exhausted (region_profile_query_key fm_index key L n).1
        = true := by
      simp only [rank_mquery_is_exhausted, decide_eq_true_eq]
      omega
    have hL : L - n = (L - (n + 1)) + 1 := by omega
    conv_rhs => rw [hL, fm_index_bsearch_query, if_neg hnex]
    conv_lhs => rw [region_profile_query_key]
    simp only [if_neg hnex]

/-- The interval of `region_profile_query_key` holds `uint64_t` values with
`lo ≤ hi` when the index is well formed. -/
theorem region_profile_query_key_interval (fm_index : fm_index_t) (key : List Nat) (L : Nat)
    (hwf : fm_index_well_formed fm_index) :
    ∀ n, (region_profile_query_key fm_index key L n).2.1
        ≤ (region_profile_query_key fm_index key L n).2.2 ∧
      (region_profile_query_key fm_index key L n).2.1 < U64 ∧
      (region_profile_query_key fm_index key L n).2.2 < U64
  | 0 => by
    simp only [region_profile_query_key]
    exact ⟨Nat.zero_le _, by decide, Nat.mod_lt _ (by decide)⟩
  | n + 1 => by
    obtain ⟨ih1, ih2, ih3⟩ := region_profile_query_key_interval fm_index key L hwf n
    obtain ⟨w1, w2, w3⟩ := hwf
    unfold region_profile_query_key
    simp only
    split
    · simp only
      rw [Nat.mod_eq_of_lt (w3 _ _ ih2), Nat.mod_eq_of_lt (w3 _ _ ih3)]
      exact ⟨w2 _ _ _ ih1, w3 _ _ ih2, w3 _ _ ih3⟩
    · simp only
      have h := w1 (rank_mquery_add_char (region_profile_query_key fm_index key L n).1
        (key.getD (L - (n + 1)) 0)).chars
      rw [Nat.mod_eq_of_lt (by omega), Nat.mod_eq_of_lt h.2]
      exact ⟨h.1, by omega, h.2⟩

/-- While the depth of the rank table is not exceeded, the interval of
`region_profile_query_key` is the one fetched for its query. -/
theorem region_profile_query_key_fetch (fm_index : fm_index_t) (key : List Nat) (L : Nat)
    (hwf : fm_index_well_formed fm_index) (n : Nat) (h1 : 1 ≤ n)
    (h2 : n ≤ RANK_MTABLE_SEARCH_DEPTH) :
    fm_index.rank_table (region_profile_query_key fm_index key L n).1.chars =
      ((region_profile_query_key fm_index key L n).2.1,
        (region_profile_query_key fm_index key L n).2.2) := by
  obtain ⟨m, rfl⟩ : ∃ m, n = m + 1 := ⟨n - 1, by omega⟩
  have hlev := region_profile_query_key_level fm_index key L m
  have hnex : ¬ rank_mquery_is_exhausted (region_profile_query_key fm_index key L m).1
      = true := by
    simp only [rank_mquery_is_exhausted, decide_eq_true_eq]
    omega
  obtain ⟨w1, _, _⟩ := hwf
  unfold region_profile_query_key
  simp only [if_neg hnex]
  have h := w1 (rank_mquery_add_char (region_profile_query_key fm_index key L m).1
    (key.getD (L - (m + 1)) 0)).chars
  rw [Nat.mod_eq_of_lt (by omega), Nat.mod_eq_of_lt h.2]

/-- The second loop of `fm_index_bsearch` follows `region_profile_query_key` as
long as the interval is not empty. -/
theorem fm_index_bsearch_ranks_query_key (fm_index : fm_index_t) (key : List Nat) (L : Nat)
    (hwf : fm_index_well_formed fm_index) :
    ∀ m n, n + m = L → RANK_MTABLE_SEARCH_DEPTH ≤ n →
      (∀ i, n ≤ i → i < L →
        sub64 (region_profile_query_key fm_index key L i).2.2
          (region_profile_query_key fm_index key L i).2.1 ≠ 0) →
      fm_index_bsearch_ranks fm_index key m (region_profile_query_key fm_index key L n).2.1
        (region_profile_query_key fm_index key L n).2.2 =
        ((region_profile_query_key fm_index key L L).2.1,
          (region_profile_query_key fm_index key L L).2.2)
  | 0, n, hn, _, _ => by
    have : n = L := by omega
    subst this
    simp [fm_index_bsearch_ranks]
  | m + 1, n, hn, hd, hne => by
    obtain ⟨i1, i2, i3⟩ := region_profile_query_key_interval fm_index key L hwf n
    have hc := hne n le_rfl (by omega)
    have hgt : (region_profile_query_key fm_index key L n).2.2 >
        (region_profile_query_key fm_index key L n).2.1 := by
      simp only [sub64, U64] at hc i2 i3
      omega
    unfold fm_index_bsearch_ranks
    rw [if_pos hgt]
    simp only
    have ih := fm_index_bsearch_ranks_query_key fm_index key L hwf m (n + 1) (by omega)
      (by omega) (fun i h1 h2 => hne i (by omega) h2)
    rw [← ih]
    have hlev := region_profile_query_key_level fm_index key L n
    have hex : rank_mquery_is_exhausted (region_profile_query_key fm_index key L n).1
        = true := by
      simp only [rank_mquery_is_exhausted, decide_eq_true_eq]
      omega
    have hidx : L - (n + 1) = m := by omega
    conv_rhs => rw [region_profile_query_key]
    simp only [if_pos hex, hidx]
    rw [Nat.mod_eq_of_lt (hwf.2.2 _ _ i2), Nat.mod_eq_of_lt (hwf.2.2 _ _ i3)]

/-- On a well-formed index, `fm_index_bsearch` returns the interval of
`region_profile_query_key` for the whole key, when no shorter suffix of the key
has an empty interval. -/
theorem fm_index_bsearch_eq_query_key (fm_index : fm_index_t) (key : List Nat) (L : Nat)
    (hwf : fm_index_well_formed fm_index) (hL : 1 ≤ L)
    (hne : ∀ i, 1 ≤ i → i < L →
      sub64 (region_profile_query_key fm_index key L i).2.2
        (region_profile_query_key fm_index key L i).2.1 ≠ 0) :
    fm_index_bsearch fm_index key L =
      ((region_profile_query_key fm_index key L L).2.1,
        (region_profile_query_key fm_index key L L).2.2) := by
  unfold fm_index_bsearch
  simp only
  by_cases hle : L ≤ RANK_MTABLE_SEARCH_DEPTH
  · have hq := fm_index_bsearch_query_key fm_index key L L le_rfl hle
    rw [Nat.sub_self] at hq
    rw [← hq]
    simp only [fm_index_bsearch_query, or_true, if_true]
    exact region_profile_query_key_fetch fm_index key L hwf L hL hle
  · obtain ⟨d, hd⟩ : ∃ d, d = RANK_MTABLE_SEARCH_DEPTH := ⟨_, rfl⟩
    have hd1 : 1 ≤ d := by rw [hd]; decide
    have hq := fm_index_bsearch_query_key fm_index key L d (by omega) (by omega)
    rw [← hq]
    have hlev := region_profile_query_key_level fm_index key L d
    have hex : rank_mquery_is_exhausted (region_profile_query_key fm_index key L d).1
        = true := by
      simp only [rank_mquery_is_exhausted, decide_eq_true_eq]
      omega
    obtain ⟨m, hm⟩ : ∃ m, L - d = m + 1 := ⟨L - d - 1, by omega⟩
    rw [hm, fm_index_bsearch_query, if_pos hex]
    simp only
    have hf := region_profile_query_key_fetch fm_index key L hwf d hd1 (by omega)
    rw [hf]
    simp only
    have hc := hne d hd1 (by omega)
    obtain ⟨i1, i2, i3⟩ := region_profile_query_key_interval fm_index key L hwf d
    rw [if_neg (by
      intro h
      rcases h with h | h
      · rw [h] at hc
        simp [sub64, U64] at hc
        omega
      · omega)]
    exact fm_index_bsearch_ranks_query_key fm_index key L hwf (m + 1) d
      (by omega) (by omega) (fun i h1 h2 => hne i (by omega) h2)

/-- C27 (amended): if `region_profile_generate_adaptive`, called with
`max_regions ≥ 1` on a well-formed index, closes no region while scanning a read
of length `L ≥ 1` that contains no disallowed symbol, the resulting profile has
exactly one region, `[0, L)`, whose `(lo, hi)` is the interval that
`fm_index_bsearch` returns for the whole read, counted as one standard
region. -/
theorem region_profile_generate_adaptive_whole_read
    (extension : region_search_t → region_search_t)
    (fm_index : fm_index_t) (key : List Nat) (key_length : Nat) (allowed_enc : Nat → Bool)
    (profile_model : region_profile_model_t) (max_regions : Nat) (allow_zero_regions : Bool)
    (generator : region_profile_generator_t)
    (hlength : 1 ≤ key_length) (hmax : 1 ≤ max_regions)
    (hallowed : ∀ i, i < key_length → allowed_enc (key.getD i 0) = true)
    (hwf : fm_index_well_formed fm_index)
    (hloop : region_profile_generate_adaptive_loop profile_model max_regions
      ((key_length + 1) * (key_length + 1))
      (region_profile_generator_init fm_index key key_length allowed_enc allow_zero_regions)
        = some generator)
    (hnone : generator.region_profile.filtering_region = []) :
    ∃ out r, region_profile_generate_adaptive extension fm_index key key_length allowed_enc
        profile_model max_regions allow_zero_regions = some out ∧
      out.region_profile.filtering_region = [r] ∧
      r.begin = 0 ∧ r.end_ = key_length ∧
      (r.lo, r.hi) = fm_index_bsearch fm_index key key_length ∧
      out.region_profile.num_filtering_regions = 1 ∧
      out.region_profile.num_standard_regions = 1 := by
  obtain ⟨h1, h2, h3, h4⟩ := region_profile_generate_adaptive_loop_query profile_model
    max_regions hmax fm_index key key_length allowed_enc hallowed
    ((key_length + 1) * (key_length + 1)) 0
    (region_profile_generator_init fm_index key key_length allowed_enc allow_zero_regions)
    generator rfl rfl rfl rfl rfl rfl rfl rfl (fun i hi1 hi2 => by omega) hloop hnone
  have hb := fm_index_bsearch_eq_query_key fm_index key key_length hwf hlength
    (fun i hi1 hi2 => h4 i hi1 (by omega))
  unfold region_profile_generate_adaptive
  simp only [hloop]
  unfold region_profile_generator_close_profile
  simp only [region_profile_t.num_filtering_regions, hnone, List.length_nil, if_true, h2, h1]
  refine ⟨_, _, rfl, rfl, rfl, rfl, ?_, rfl, rfl⟩
  rw [hb, ← h3]

theorem region_profile_generate_adaptive_iteration_disallowed_witness :
    (example_scan_generator example_flat_index example_profile_model [4, 0]).key_position = 0 + 1 ∧
    (example_scan_generator example_flat_index example_profile_model [4, 0]).last_cut ≠ 0 ∧
    ∃ g' r, region_profile_generate_adaptive_iteration example_profile_model
        (example_scan_generator example_flat_index example_profile_model [4, 0]) = some g' ∧
      g'.region_profile.filtering_region =
        (example_scan_generator example_flat_index example_profile_model [4, 0]).region_profile.filtering_region
          ++ [r] ∧
      r.begin = 0 + 1 ∧ g'.key_position ≤ 0 :=
  ⟨by decide, by decide,
    match region_profile_generate_adaptive_iteration_disallowed example_profile_model
        (example_scan_generator example_flat_index example_profile_model [4, 0]) 0 (by decide) (by decide) with
    | ⟨g', h1, h2, _, h4, _⟩ =>
      match h2 (by decide) with
      | ⟨r, e1, e2, _⟩ => ⟨g', r, h1, e1, e2, h4⟩⟩

/-- Counterexample to C26 as stated: on the read `NA` with `region_th = 2`, the
scan consumes the allowed symbol `A` (the open region `[1, 2)` has the interval
`[0, 5)` and no cut-point, because five candidates are more than `region_th`),
then reads the disallowed symbol at position 0 and closes no region; the final
profile has no region. -/
theorem region_profile_generate_adaptive_iteration_disallowed_open_region :
    ((example_scan_generator example_flat_index example_tight_profile_model [4, 0]).key_position,
      (example_scan_generator example_flat_index example_tight_profile_model [4, 0]).region_profile.current_region.end_,
      (example_scan_generator example_flat_index example_tight_profile_model [4, 0]).lo,
      (example_scan_generator example_flat_index example_tight_profile_model [4, 0]).hi,
      (example_scan_generator example_flat_index example_tight_profile_model [4, 0]).last_cut) = (1, 2, 0, 5, 0) ∧
    (region_profile_generate_adaptive_iteration example_tight_profile_model
        (example_scan_generator example_flat_index example_tight_profile_model [4, 0])).map
      (fun g => (g.key_position, g.region_profile.filtering_region.length)) = some (0, 0) ∧
    (region_profile_generate_adaptive id example_flat_index [4, 0] 2
        (fun c => decide (c < 4)) example_tight_profile_model 10 false).map
      (fun g => g.region_profile.num_filtering_regions) = some 0 := by
  refine ⟨by decide, by decide, by decide⟩

theorem region_profile_generator_add_character_zero_witness :
    region_profile_generate_adaptive_iterate example_profile_model 1
      (region_profile_generator_init example_narrowing_index [0, 0, 0] 3
        (fun c => decide (c < 4)) false) =
      some (example_scan_generator example_narrowing_index example_profile_model [0, 0, 0]) ∧
    (example_scan_generator example_narrowing_index example_profile_model [0, 0, 0]).last_cut
      = 2 ∧
    ∃ g' r, region_profile_generator_add_character
        (region_profile_query_character
          { example_scan_generator example_narrowing_index example_profile_model [0, 0, 0] with
            key_position :=
              (example_scan_generator example_narrowing_index example_profile_model
                [0, 0, 0]).key_position - 1 } 0)
        example_profile_model = some (true, g') ∧
      g'.region_profile.filtering_region =
        (example_scan_generator example_narrowing_index example_profile_model
          [0, 0, 0]).region_profile.filtering_region ++ [r] ∧
      r.begin = 2 ∧ r.lo = 0 ∧ r.hi = 5 ∧ g'.key_position = 2 :=
  ⟨by rfl, by decide,
    match region_profile_generator_add_character_zero example_narrowing_index [0, 0, 0] 3
        (fun c => decide (c < 4)) false example_profile_model 1
        (example_scan_generator example_narrowing_index example_profile_model [0, 0, 0]) 0
        (by rfl) (by decide) with
    | ⟨g', r, h1, h2, _, _, _, _, h7⟩ =>
      match h7 (by decide) with
      | ⟨e1, e2, e3, _, e5⟩ =>
        ⟨g', r, h1, h2, by rw [e1]; decide, by rw [e2]; decide, by rw [e3]; decide,
          by rw [e5]; decide⟩⟩

/-- The index `example_flat_index` is well formed. -/
theorem example_flat_index_well_formed : fm_index_well_formed example_flat_index := by
  refine ⟨fun chars => ?_, fun c i j h => h, fun c i h => h⟩
  simp only [example_flat_index]
  decide

theorem region_profile_generate_adaptive_whole_read_witness :
    ∃ out r, region_profile_generate_adaptive id example_flat_index [0, 0, 0] 3
        (fun c => decide (c < 4)) example_tight_profile_model 10 false = some out ∧
      out.region_profile.filtering_region = [r] ∧
      r.begin = 0 ∧ r.end_ = 3 ∧
      (r.lo, r.hi) = fm_index_bsearch example_flat_index [0, 0, 0] 3 ∧
      out.region_profile.num_filtering_regions = 1 ∧
      out.region_profile.num_standard_regions = 1 :=
  region_profile_generate_adaptive_whole_read id example_flat_index [0, 0, 0] 3
    (fun c => decide (c < 4)) example_tight_profile_model 10 false
    ((region_profile_generate_adaptive_loop example_tight_profile_model 10 ((3 + 1) * (3 + 1))
      (region_profile_generator_init example_flat_index [0, 0, 0] 3
        (fun c => decide (c < 4)) false)).getD
      (region_profile_generator_init example_flat_index [0, 0, 0] 3
        (fun c => decide (c < 4)) false))
    (by decide) (by decide) (by decide) example_flat_index_well_formed (by rfl) (by decide)

/-- Counterexample to C27 as stated: with `max_regions = 0` the scan of the read
`AAA` closes no region (it ends before the first character), and the single
region `[0, 3)` of the profile has the interval `[0, 100)` of the whole index,
not the interval `[0, 5)` that the backward search of the read gives. -/
theorem region_profile_generate_adaptive_whole_read_cut_off :
    (region_profile_generate_adaptive_loop example_tight_profile_model 0 ((3 + 1) * (3 + 1))
        (region_profile_generator_init example_flat_index [0, 0, 0] 3
          (fun c => decide (c < 4)) false)).map
      (fun g => g.region_profile.filtering_region.length) = some 0 ∧
    (region_profile_generate_adaptive id example_flat_index [0, 0, 0] 3
        (fun c => decide (c < 4)) example_tight_profile_model 0 false).map
      (fun g => g.region_profile.filtering_region.map
        (fun r => (r.begin, r.end_, r.lo, r.hi))) = some [(0, 3, 0, 100)] ∧
    fm_index_bsearch example_flat_index [0, 0, 0] 3 = (0, 5) := by
  refine ⟨by decide, by decide, by decide⟩
/-! ## CIGAR curation: what it preserves (C34) -/

/-- C34, amended: on a CIGAR that covers fewer than `2^64` read characters
(the length of a match or a deletion, 1 for a mismatch, 0 for an insertion),
`match_align_curate_cigar` keeps the number of read characters that the CIGAR
covers, the curated `cigar_length` is at most the `cigar_length` of the input,
and `match_position` moves forward, in `uint64_t`, by the text characters (match
lengths, 1 per mismatch, insertion lengths) of the leading elements that were
trimmed, i.e. of the longest leading run of elements that
`match_align_curate_cigar_trim` accepts: by exactly that number when the sum
stays below `2^64`, and modulo `2^64` otherwise. -/
theorem match_align_curate_cigar_read_total (align_parameters : match_align_parameters_t)
    (cigar : List cigar_element_t) (match_position : Nat)
    (hfit : cigar_read_total cigar < U64) (hposition : match_position < U64) :
    cigar_read_total (match_align_curate_cigar align_parameters cigar match_position).1 =
      cigar_read_total cigar ∧
    (match_align_curate_cigar align_parameters cigar match_position).1.length ≤ cigar.length ∧
    (match_align_curate_cigar align_parameters cigar match_position).2 =
      (match_position +
        cigar_text_total (cigar.takeWhile (cigar_trimmable align_parameters))) % U64 ∧
    (match_position +
        cigar_text_total (cigar.takeWhile (cigar_trimmable align_parameters)) < U64 →
      (match_align_curate_cigar align_parameters cigar match_position).2 =
        match_position +
          cigar_text_total (cigar.takeWhile (cigar_trimmable align_parameters))) ∧
    (∀ e ∈ cigar.takeWhile (cigar_trimmable align_parameters),
      (match_align_curate_cigar_trim align_parameters e 0 none).1 = true) ∧
    (∀ e ∈ (cigar.dropWhile (cigar_trimmable align_parameters)).head?,
      (match_align_curate_cigar_trim align_parameters e 0 none).1 = false) := by
  rw [match_align_curate_cigar_eq]
  have htr := cigar_traverse_read_total align_parameters.left_gap_alignment _
    (cigar.dropWhile (cigar_trimmable align_parameters)) le_rfl
  generalize hT : cigar_traverse align_parameters.left_gap_alignment
    (cigar.dropWhile (cigar_trimmable align_parameters)) = T at htr
  have hTsplit : (T.reverse.takeWhile (cigar_trimmable align_parameters)) ++
      (T.reverse.dropWhile (cigar_trimmable align_parameters)) = T.reverse :=
    List.takeWhile_append_dropWhile _ _
  have hTtot : cigar_read_total (T.reverse.takeWhile (cigar_trimmable align_parameters)) +
      cigar_read_total (T.reverse.dropWhile (cigar_trimmable align_parameters)) =
      cigar_read_total T := by
    rw [← cigar_read_total_append, hTsplit, cigar_read_total_reverse]
  have hTlen : (T.reverse.takeWhile (cigar_trimmable align_parameters)).length +
      (T.reverse.dropWhile (cigar_trimmable align_parameters)).length = T.length := by
    rw [← List.length_append, hTsplit, List.length_reverse]
  have hCtot : cigar_read_total (cigar.takeWhile (cigar_trimmable align_parameters)) +
      cigar_read_total (cigar.dropWhile (cigar_trimmable align_parameters)) =
      cigar_read_total cigar := by
    rw [← cigar_read_total_append, List.takeWhile_append_dropWhile]
  have hClen : (cigar.takeWhile (cigar_trimmable align_parameters)).length +
      (cigar.dropWhile (cigar_trimmable align_parameters)).length = cigar.length := by
    rw [← List.length_append, List.takeWhile_append_dropWhile]
  have hA : cigar_read_total (cigar.takeWhile (cigar_trimmable align_parameters)) % U64 =
      cigar_read_total (cigar.takeWhile (cigar_trimmable align_parameters)) :=
    Nat.mod_eq_of_lt (by have := htr.1; omega)
  have hB : cigar_read_total (T.reverse.takeWhile (cigar_trimmable align_parameters)) % U64 =
      cigar_read_total (T.reverse.takeWhile (cigar_trimmable align_parameters)) :=
    Nat.mod_eq_of_lt (by have := htr.1; omega)
  have hp := cigar_trim_position_eq (cigar.takeWhile (cigar_trimmable align_parameters))
    match_position hposition
  refine ⟨?_, ?_, hp, fun hlt => ?_, ?_, ?_⟩
  · simp only [cigar_read_total_append, cigar_trim_of_read_total, cigar_read_total_reverse,
      hA, hB]
    have := htr.1
    omega
  · simp only [List.length_append, List.length_reverse, hA, hB]
    have h1 := cigar_trim_of_length_le (cigar.takeWhile (cigar_trimmable align_parameters))
    have h2 := cigar_trim_of_length_le
      (T.reverse.takeWhile (cigar_trimmable align_parameters))
    have := htr.2
    omega
  · simp only [hp]
    exact Nat.mod_eq_of_lt hlt
  · intro e he
    have := List.mem_takeWhile_imp he
    rw [match_align_curate_cigar_trim_eq, if_pos this]
  · intro e he
    rcases dropWhile_cases (cigar_trimmable align_parameters) cigar with h0 | ⟨h, t, h1, h2⟩
    · rw [h0] at he; simp at he
    · rw [h1] at he
      simp at he
      subst he
      rw [match_align_curate_cigar_trim_eq, if_neg (by rw [h2]; simp)]

/-- A witness of `match_align_curate_cigar_read_total` on `example_cigar` at the
match position 100: the curated CIGAR 3D(trim) 6M 2D 2I 5M 2D(trim) covers the
18 read characters of the input, and the match position moves by the 3 text
characters of the trimmed 2M 1X to 103. -/
theorem match_align_curate_cigar_read_total_witness :
    cigar_read_total example_cigar = 18 ∧
    cigar_read_total
      (match_align_curate_cigar example_curation_parameters example_cigar 100).1 =
      cigar_read_total example_cigar ∧
    (match_align_curate_cigar example_curation_parameters example_cigar 100).1.length ≤
      example_cigar.length ∧
    cigar_text_total (example_cigar.takeWhile (cigar_trimmable example_curation_parameters)) =
      3 ∧
    (match_align_curate_cigar example_curation_parameters example_cigar 100).2 = 103 ∧
    (match_align_curate_cigar example_curation_parameters example_cigar 100).2 =
      100 + cigar_text_total
        (example_cigar.takeWhile (cigar_trimmable example_curation_parameters)) :=
  ⟨by decide,
    (match_align_curate_cigar_read_total example_curation_parameters example_cigar 100
      (by decide) (by decide)).1,
    (match_align_curate_cigar_read_total example_curation_parameters example_cigar 100
      (by decide) (by decide)).2.1,
    by decide, by decide,
    (match_align_curate_cigar_read_total example_curation_parameters example_cigar 100
      (by decide) (by decide)).2.2.2.1 (by decide)⟩

/-- C34 as stated fails at the end of the `uint64_t` range: from the match
position `2^64 - 1`, curating 1X 50M trims the mismatch, which covers one text
character, and leaves the match position at `0`, not at `2^64`. -/
theorem match_align_curate_cigar_position_wraps :
    match_align_curate_cigar example_curation_parameters example_mismatch_first_cigar
        (2 ^ 64 - 1) =
      ([⟨cigar_del, cigar_attr_trim, 1⟩, ⟨cigar_match, cigar_attr_none, 50⟩], 0) ∧
    cigar_text_total
      (example_mismatch_first_cigar.takeWhile (cigar_trimmable example_curation_parameters)) =
      1 ∧
    (match_align_curate_cigar example_curation_parameters example_mismatch_first_cigar
        (2 ^ 64 - 1)).2 ≠
      (2 ^ 64 - 1) + cigar_text_total
        (example_mismatch_first_cigar.takeWhile
          (cigar_trimmable example_curation_parameters)) ∧
    match_align_curate_cigar example_curation_parameters example_mismatch_first_cigar 100 =
      ([⟨cigar_del, cigar_attr_trim, 1⟩, ⟨cigar_match, cigar_attr_none, 50⟩], 101) := by
  refine ⟨by decide, by decide, by decide, by decide⟩
/-! ## The comparators of the alignment regions (C40) -/

/-- The conversion to `int` keeps a value below `2^31`. -/
theorem int_of_uint64_small (x : Nat) (h : x < 2 ^ 31) : int_of_uint64 x = (x : Int) := by
  unfold int_of_uint64
  have h1 : x % 2 ^ 32 = x := Nat.mod_eq_of_lt (by omega)
  rw [h1, if_pos h]

/-- C40, amended: `match_alignment_region_cmp_text_position` is a valid
three-way comparison of `text_begin` whenever the two values differ by less than
`2^31`, and `match_alignment_region_key_cmp` is a valid three-way comparison of
`key_begin` (and its signed subtraction does not overflow) whenever both values
are below `2^31`. -/
theorem match_alignment_region_cmp_three_way (a b : match_alignment_region_t)
    (hta : a._text_begin < 2 ^ 64) (htb : b._text_begin < 2 ^ 64)
    (htext : a._text_begin < b._text_begin + 2 ^ 31 ∧ b._text_begin < a._text_begin + 2 ^ 31)
    (hka : a._key_begin < 2 ^ 31) (hkb : b._key_begin < 2 ^ 31) :
    (match_alignment_region_cmp_text_position a b < 0 ↔ a._text_begin < b._text_begin) ∧
    (match_alignment_region_cmp_text_position a b = 0 ↔ a._text_begin = b._text_begin) ∧
    (0 < match_alignment_region_cmp_text_position a b ↔ b._text_begin < a._text_begin) ∧
    ∃ r, match_alignment_region_key_cmp a b = some r ∧
      (r < 0 ↔ a._key_begin < b._key_begin) ∧
      (r = 0 ↔ a._key_begin = b._key_begin) ∧
      (0 < r ↔ b._key_begin < a._key_begin) := by
  obtain ⟨kA, tA⟩ := a
  obtain ⟨kB, tB⟩ := b
  simp only at hta htb htext hka hkb ⊢
  have hcmp : match_alignment_region_cmp_text_position ⟨kA, tA⟩ ⟨kB, tB⟩ =
      (tA : Int) - (tB : Int) := by
    unfold match_alignment_region_cmp_text_position int_of_uint64 sub64 U64
    simp only
    norm_num at hta htb htext ⊢
    split_ifs <;> omega
  have hkey : match_alignment_region_key_cmp ⟨kA, tA⟩ ⟨kB, tB⟩ =
      some ((kA : Int) - (kB : Int)) := by
    unfold match_alignment_region_key_cmp
    simp only [int_of_uint64_small kA hka, int_of_uint64_small kB hkb]
    rw [if_pos]
    norm_num at hka hkb ⊢
    omega
  rw [hcmp]
  refine ⟨by omega, by omega, by omega, _, hkey, by omega, by omega, by omega⟩

/-- A witness of `match_alignment_region_cmp_three_way`: the regions that begin
at key offsets 3 and 7 and at text offsets 1000 and 900. -/
theorem match_alignment_region_cmp_three_way_witness :
    match_alignment_region_cmp_text_position ⟨3, 1000⟩ ⟨7, 900⟩ = 100 ∧
    match_alignment_region_key_cmp ⟨3, 1000⟩ ⟨7, 900⟩ = some (-4) ∧
    (0 < match_alignment_region_cmp_text_position ⟨3, 1000⟩ ⟨7, 900⟩ ↔ 900 < 1000) ∧
    ∃ r, match_alignment_region_key_cmp ⟨3, 1000⟩ ⟨7, 900⟩ = some r ∧ (r < 0 ↔ 3 < 7) :=
  match match_alignment_region_cmp_three_way ⟨3, 1000⟩ ⟨7, 900⟩ (by norm_num) (by norm_num)
      (by norm_num) (by norm_num) (by norm_num) with
  | ⟨_, _, h3, r, hr, h4, _, _⟩ => ⟨by decide, by decide, h3, r, hr, h4⟩

/-- C40 as stated fails: for the regions that begin at text offsets `2^32` and
`0`, `match_alignment_region_cmp_text_position` returns `0` although the first
begins after the second, and for the regions that begin at key offsets `2^32`
and `0`, `match_alignment_region_key_cmp` returns `0` as well; for text offsets
`2^31` and `0` the result is negative. -/
theorem match_alignment_region_cmp_truncated :
    match_alignment_region_cmp_text_position ⟨0, 2 ^ 32⟩ ⟨0, 0⟩ = 0 ∧
    match_alignment_region_key_cmp ⟨2 ^ 32, 0⟩ ⟨0, 0⟩ = some 0 ∧
    match_alignment_region_cmp_text_position ⟨0, 2 ^ 31⟩ ⟨0, 0⟩ = -(2 ^ 31) ∧
    (0 : Nat) < 2 ^ 32 ∧ (2 : Nat) ^ 32 < 2 ^ 64 ∧ (0 : Nat) < 2 ^ 31 := by
  refine ⟨by decide, by decide, by decide, by norm_num, by norm_num, by norm_num⟩
/-! ## The Hamming alignment (C35) and the enabling test of the k-mer filter (C37) -/

/-- What the loop of `match_align_hamming` counts: the indices `i` of its range
at which `text[i]` is not allowed or differs from `key[i]`, the key being read at
the index of the text. -/
theorem match_align_hamming_loop_count (key text : List Nat) (allowed_enc : Nat → Bool) :
    ∀ (n i mismatches : Nat) (s : match_align_swg_t),
      mismatches + n < U64 →
      (match_align_hamming_loop key text allowed_enc n i mismatches s).1 =
        mismatches + (List.range' i n).countP (fun i =>
          !allowed_enc (text.getD i 0) || decide (text.getD i 0 ≠ key.getD i 0)) ∧
      (match_align_hamming_loop key text allowed_enc n i mismatches s).2.cigar_vector.length =
        s.cigar_vector.length + n
  | 0, i, m, s, _ => by simp [match_align_hamming_loop]
  | n + 1, i, m, s, h => by
    unfold match_align_hamming_loop
    simp only [List.range'_succ, List.countP_cons]
    have hiff : ((!allowed_enc (text.getD i 0)) = true ∨ text.getD i 0 ≠ key.getD i 0) ↔
        ((!allowed_enc (text.getD i 0) || decide (text.getD i 0 ≠ key.getD i 0)) = true) := by
      simp
    by_cases hc : (!allowed_enc (text.getD i 0)) = true ∨ text.getD i 0 ≠ key.getD i 0
    · rw [if_pos hc]
      have hm : (m + 1) % U64 = m + 1 := Nat.mod_eq_of_lt (by omega)
      rw [hm]
      have ih := match_align_hamming_loop_count key text allowed_enc n (i + 1) (m + 1)
        (matches_cigar_vector_append_mismatch s (text.getD i 0) cigar_attr_none) (by omega)
      rw [ih.1, ih.2, if_pos (hiff.mp hc)]
      simp only [matches_cigar_vector_append_mismatch, List.length_append,
        List.length_singleton]
      omega
    · rw [if_neg hc]
      have ih := match_align_hamming_loop_count key text allowed_enc n (i + 1) m
        (matches_cigar_vector_append_match s 1 cigar_attr_none) (by omega)
      rw [ih.1, ih.2, if_neg (fun hb => hc (hiff.mpr hb))]
      simp only [matches_cigar_vector_append_match, List.length_append,
        List.length_singleton]
      omega

/-- From the text offset 0 the loop of `match_align_hamming` counts what the
claim counts, and writes one CIGAR element for each key position. -/
theorem match_align_hamming_from_zero (align_input : match_align_input_t)
    (allowed_enc : Nat → Bool) (hbegin : align_input.text_offset_begin = 0)
    (hend : align_input.text_offset_end = align_input.key_length)
    (hlen : align_input.key_length < U64) :
    (match_align_hamming align_input allowed_enc).distance =
      match_align_hamming_mismatches align_input allowed_enc ∧
    (match_align_hamming align_input allowed_enc).cigar_vector.length =
      align_input.key_length := by
  unfold match_align_hamming match_align_hamming_mismatches
  have h := match_align_hamming_loop_count align_input.key align_input.text allowed_enc
    (align_input.text_offset_end - align_input.text_offset_begin)
    align_input.text_offset_begin 0 { cigar_vector := [], cigar_length := 0, score := 0 }
    (by rw [hbegin, hend]; simpa using hlen)
  simp only [hbegin, hend, Nat.sub_zero, Nat.zero_add, List.length_nil] at h ⊢
  rw [h.1, h.2, List.range_eq_range']
  exact ⟨rfl, rfl⟩

/-- C35 (code bug): for the key `AC` and the text `GAC` with
`text_offset_begin = 1` and `text_offset_end = 3 = text_offset_begin + key_length`
(all symbols allowed), the slice of the text from `text_offset_begin` is the key
itself, so the number of the claim is `0`; `match_align_hamming` compares
`text[i]` with `key[i]` for `i = 1, 2`, i.e. `A` with `C` and `C` with what lies
behind the key, and reports a distance of at least `1` whatever lies there
(`2` when the memory behind the key holds the code 0). -/
theorem match_align_hamming_offset :
    (∀ beyond : List Nat,
      match_align_hamming_mismatches (example_hamming_input beyond)
        (fun c => decide (c < 4)) = 0 ∧
      1 ≤ (match_align_hamming (example_hamming_input beyond)
        (fun c => decide (c < 4))).distance ∧
      (match_align_hamming (example_hamming_input beyond)
        (fun c => decide (c < 4))).distance =
        (match_align_hamming (example_hamming_input beyond)
          (fun c => decide (c < 4))).edit_distance) ∧
    (match_align_hamming (example_hamming_input []) (fun c => decide (c < 4))).distance = 2 ∧
    ((match_align_hamming (example_hamming_input []) (fun c => decide (c < 4))).cigar_vector.map
      (fun e => e.type)) = [cigar_mismatch, cigar_mismatch] := by
  refine ⟨fun beyond => ⟨?_, ?_, rfl⟩, by decide, by decide⟩
  · simp [match_align_hamming_mismatches, example_hamming_input, List.range_succ]
  · simp only [match_align_hamming, example_hamming_input, match_align_hamming_loop]
    simp
    split <;> simp [U64]

/-- With `effective_filtering_max_error = 0` the enabling test of
`kmer_counting_compile` divides by zero exactly when its first two tests
fail. -/
theorem kmer_counting_compile_zero (pattern : List Nat)
    (pattern_length num_non_canonical_bases : Nat) :
    kmer_counting_compile pattern pattern_length num_non_canonical_bases 0 =
      if num_non_canonical_bases > 0 ∨ pattern_length < KMER_COUNTING_LENGTH then
        some kmer_counting_disabled
      else none := by
  unfold kmer_counting_compile
  split_ifs <;> simp_all

/-- C37 (code bug): for the pattern of twelve `A` (no non-canonical base,
`pattern_length = 12 >= 5`) and `effective_filtering_max_error = 0`,
`kmer_counting_compile` evaluates `pattern_length / effective_filtering_max_error`
with the divisor zero, so it has no result; with one non-canonical base, or a
pattern of length 4, the test stops before the division and the filter is
disabled. -/
theorem kmer_counting_compile_exact_search :
    (kmer_counting_compile example_pattern_poly_a 12 0 0).isNone = true ∧
    (kmer_counting_compile example_pattern_poly_a 12 1 0).isSome = true ∧
    (kmer_counting_compile example_pattern_poly_a 4 0 0).isSome = true ∧
    (kmer_counting_compile example_pattern_poly_a 12 0 1).isSome = true := by
  refine ⟨?_, ?_, ?_, ?_⟩
  · rw [kmer_counting_compile_zero]; decide
  · rw [kmer_counting_compile_zero]; decide
  · rw [kmer_counting_compile_zero]; decide
  · simp [kmer_counting_compile, KMER_COUNTING_LENGTH, KMER_COUNTING_EFFECTIVE_THRESHOLD]
/-! ## The arena: accounting and disjoint blocks (C38) -/

/-- An allocation keeps the invariants of the arena and of its blocks in use,
the new block included. -/
theorem mm_stack_memory_allocate_blocks (mm_stack : mm_stack_t)
    (blocks : List mm_stack_block_t) (num_bytes : Nat) (zero_mem : Bool)
    (out : mm_stack_t × (Nat × Nat))
    (hinv : mm_stack_inv mm_stack) (hblocks : mm_stack_blocks_inv mm_stack blocks)
    (halloc : mm_stack_memory_allocate mm_stack num_bytes zero_mem = Except.ok out) :
    mm_stack_inv out.1 ∧
    mm_stack_blocks_inv out.1
      (blocks ++ [{ segment := out.2.1, offset := out.2.2, num_bytes := num_bytes }]) := by
  obtain ⟨hsize, hne, hall⟩ := hinv
  obtain ⟨init, seg, hseg⟩ := mm_stack_segments_last _ hne
  have hbytes : num_bytes ≤ mm_stack.segment_size := by
    by_contra hgt
    rw [mm_stack_memory_allocate_spec _ _ _ init seg hseg] at halloc
    have hlast := hall seg (by rw [hseg]; simp)
    rw [if_pos (by omega), if_pos (by omega)] at halloc
    exact absurd halloc (by simp)
  obtain ⟨out', hout', hinv'⟩ := mm_stack_memory_allocate_inv mm_stack num_bytes zero_mem
    ⟨hsize, hne, hall⟩ hbytes
  have heq : out' = out := by
    rw [hout'] at halloc
    exact Except.ok.inj halloc
  subst heq
  refine ⟨hinv', ?_⟩
  rw [mm_stack_memory_allocate_spec _ _ _ init seg hseg] at hout'
  obtain ⟨hb1, hb2⟩ := hblocks
  have hold : ∀ b ∈ blocks, b.segment < init.length ∨
      (b.segment = init.length ∧ b.offset + b.num_bytes ≤ seg.memory) := by
    intro b hb
    obtain ⟨s, hs, hle⟩ := hb1 b hb
    rw [hseg, List.getElem?_append] at hs
    by_cases hlt : b.segment < init.length
    · exact Or.inl hlt
    · rw [if_neg hlt] at hs
      right
      have h0 : b.segment - init.length = 0 := by
        by_contra hne0
        obtain ⟨k, hk⟩ := Nat.exists_eq_succ_of_ne_zero hne0
        rw [hk] at hs
        simp at hs
      rw [h0] at hs
      simp at hs
      subst hs
      exact ⟨by omega, hle⟩
  by_cases h1 : num_bytes > seg.memory_available
  · rw [if_pos h1, if_neg (by omega)] at hout'
    have ho := Except.ok.inj hout'
    subst ho
    refine ⟨?_, ?_⟩
    · intro b hb
      rcases List.mem_append.mp hb with hb | hb
      · obtain ⟨s, hs, hle⟩ := hb1 b hb
        refine ⟨s, ?_, hle⟩
        simp only
        rw [List.getElem?_append, if_pos, ← hseg]
        · exact hs
        · rcases hold b hb with h | ⟨h, _⟩ <;> simp <;> omega
      · simp only [List.mem_singleton] at hb
        subst hb
        refine ⟨{ memory := num_bytes
                  memory_available := sub64 mm_stack.segment_size num_bytes }, ?_, ?_⟩
        · simp only
          rw [List.append_assoc, List.getElem?_append, if_neg (by omega)]
          simp
        · simp
    · rw [List.pairwise_append]
      refine ⟨hb2, by simp, ?_⟩
      intro a ha b hb
      simp only [List.mem_singleton] at hb
      subst hb
      left
      simp only
      rcases hold a ha with h | ⟨h, _⟩ <;> omega
  · rw [if_neg h1] at hout'
    have ho := Except.ok.inj hout'
    subst ho
    refine ⟨?_, ?_⟩
    · intro b hb
      rcases List.mem_append.mp hb with hb | hb
      · obtain ⟨s, hs, hle⟩ := hb1 b hb
        simp only
        rcases hold b hb with h | ⟨h, h'⟩
        · refine ⟨s, ?_, hle⟩
          rw [hseg, List.getElem?_append, if_pos h] at hs
          rw [List.getElem?_append, if_pos h]
          exact hs
        · refine ⟨{ memory := seg.memory + num_bytes
                    memory_available := sub64 seg.memory_available num_bytes }, ?_, ?_⟩
          · rw [List.getElem?_append, if_neg (by omega), h]
            simp
          · simp only
            omega
      · simp only [List.mem_singleton] at hb
        subst hb
        refine ⟨{ memory := seg.memory + num_bytes
                  memory_available := sub64 seg.memory_available num_bytes }, ?_, ?_⟩
        · simp
        · simp
    · rw [List.pairwise_append]
      refine ⟨hb2, by simp, ?_⟩
      intro a ha b hb
      simp only [List.mem_singleton] at hb
      subst hb
      simp only [mm_stack_blocks_disjoint]
      rcases hold a ha with h | ⟨h, h'⟩
      · left; omega
      · right; left; exact h'

/-- `mm_stack_free` leaves the invariant of the arena, with no block in use. -/
theorem mm_stack_free_inv (mm_stack : mm_stack_t) (hinv : mm_stack_inv mm_stack) :
    mm_stack_inv (mm_stack_free mm_stack) ∧ mm_stack_blocks_inv (mm_stack_free mm_stack) [] := by
  refine ⟨⟨hinv.1, by simp [mm_stack_free], ?_⟩, by simp [mm_stack_blocks_inv]⟩
  intro s hs
  simp only [mm_stack_free, List.mem_singleton] at hs
  subst hs
  simp [mm_stack_free]

/-- Every sequence of calls keeps the invariants and the states reachable. -/
theorem mm_stack_run_inv :
    ∀ (ops : List mm_stack_op) (mm_stack : mm_stack_t) (blocks : List mm_stack_block_t)
      (out : mm_stack_t × List mm_stack_block_t),
      mm_stack_reachable mm_stack → mm_stack_blocks_inv mm_stack blocks →
      mm_stack_run mm_stack blocks ops = Except.ok out →
      mm_stack_reachable out.1 ∧ mm_stack_blocks_inv out.1 out.2
  | [], st, blocks, out, hr, hb, hrun => by
    simp only [mm_stack_run, Except.ok.injEq] at hrun
    subst hrun
    exact ⟨hr, hb⟩
  | mm_stack_op.allocate n z :: ops, st, blocks, out, hr, hb, hrun => by
    simp only [mm_stack_run] at hrun
    split at hrun
    · exact absurd hrun (by simp)
    · rename_i st' block halloc
      have h := mm_stack_memory_allocate_blocks st blocks n z (st', block)
        (mm_stack_reachable_inv st hr) hb halloc
      exact mm_stack_run_inv ops st' _ out
        (mm_stack_reachable.allocate st st' n z block hr halloc) h.2 hrun
  | mm_stack_op.free :: ops, st, blocks, out, hr, hb, hrun => by
    simp only [mm_stack_run] at hrun
    exact mm_stack_run_inv ops (mm_stack_free st) [] out (mm_stack_reachable.free st hr)
      (mm_stack_free_inv st (mm_stack_reachable_inv st hr)).2 hrun

/-- Every reachable arena state is the result of a sequence of calls from a
new stack. -/
theorem mm_stack_reachable_run (mm_stack : mm_stack_t) (h : mm_stack_reachable mm_stack) :
    ∃ slab_size ops blocks, slab_size < U64 ∧
      mm_stack_run (mm_stack_new slab_size) [] ops = Except.ok (mm_stack, blocks) := by
  have happ : ∀ (ops : List mm_stack_op) (op : mm_stack_op) (st : mm_stack_t)
      (bs : List mm_stack_block_t) (st' : mm_stack_t) (bs' : List mm_stack_block_t),
      mm_stack_run st bs ops = Except.ok (st', bs') →
      mm_stack_run st bs (ops ++ [op]) = mm_stack_run st' bs' [op] := by
    intro ops
    induction ops with
    | nil =>
      intro op st bs st' bs' hrun
      simp only [mm_stack_run, Except.ok.injEq, Prod.mk.injEq] at hrun
      obtain ⟨rfl, rfl⟩ := hrun
      rfl
    | cons o ops ih =>
      intro op st bs st' bs' hrun
      cases o with
      | allocate n z =>
        simp only [List.cons_append, mm_stack_run] at hrun ⊢
        split at hrun
        · exact absurd hrun (by simp)
        · rename_i st1 b1 h1
          exact ih op st1 _ st' bs' hrun
      | free =>
        simp only [List.cons_append, mm_stack_run] at hrun ⊢
        exact ih op _ _ st' bs' hrun
  induction h with
  | new slab_size hs => exact ⟨slab_size, [], [], hs, rfl⟩
  | allocate st st' n z block _ halloc ih =>
    obtain ⟨slab_size, ops, blocks, hs, hrun⟩ := ih
    refine ⟨slab_size, ops ++ [mm_stack_op.allocate n z],
      blocks ++ [{ segment := block.1, offset := block.2, num_bytes := n }], hs, ?_⟩
    rw [happ ops _ _ _ st blocks hrun]
    simp only [mm_stack_run, halloc]
  | free st _ ih =>
    obtain ⟨slab_size, ops, blocks, hs, hrun⟩ := ih
    refine ⟨slab_size, ops ++ [mm_stack_op.free], [], hs, ?_⟩
    rw [happ ops _ _ _ st blocks hrun]
    simp only [mm_stack_run]

/-- C38: in every state that a sequence of calls of `mm_stack_memory_allocate`
and `mm_stack_free` reaches from `mm_stack_new` (and every reachable state is
reached by such a sequence), every segment satisfies
`(cursor - segment base) + memory_available = segment_size`, and the blocks
returned by the allocations made since the last `mm_stack_free` are pairwise
disjoint, each lying entirely inside one segment of the arena. -/
theorem mm_stack_run_accounting (slab_size : Nat) (ops : List mm_stack_op)
    (mm_stack : mm_stack_t) (blocks : List mm_stack_block_t)
    (hslab : slab_size < 2 ^ 64)
    (hrun : mm_stack_run (mm_stack_new slab_size) [] ops = Except.ok (mm_stack, blocks)) :
    mm_stack_reachable mm_stack ∧
    (∀ s ∈ mm_stack.segments, s.memory + s.memory_available = mm_stack.segment_size) ∧
    blocks.Pairwise mm_stack_blocks_disjoint ∧
    (∀ b ∈ blocks, b.segment < mm_stack.segments.length ∧
      b.offset + b.num_bytes ≤ mm_stack.segment_size) ∧
    (∀ st, mm_stack_reachable st → ∃ slab_size' ops' blocks', slab_size' < 2 ^ 64 ∧
      mm_stack_run (mm_stack_new slab_size') [] ops' = Except.ok (st, blocks')) := by
  have h := mm_stack_run_inv ops (mm_stack_new slab_size) [] (mm_stack, blocks)
    (mm_stack_reachable.new slab_size hslab) (by simp [mm_stack_blocks_inv]) hrun
  have hinv := mm_stack_reachable_inv mm_stack h.1
  refine ⟨h.1, hinv.2.2, h.2.2, ?_, fun st hst => mm_stack_reachable_run st hst⟩
  intro b hb
  obtain ⟨s, hs, hle⟩ := h.2.1 b hb
  simp only at hs hle
  have hmem : s ∈ mm_stack.segments := List.mem_iff_getElem?.mpr ⟨b.segment, hs⟩
  have hsum := hinv.2.2 s hmem
  have hlt : b.segment < mm_stack.segments.length := by
    by_contra hge
    rw [List.getElem?_eq_none (by omega)] at hs
    exact absurd hs (by simp)
  exact ⟨hlt, by omega⟩

/-- The claim C38 on three allocations from a new arena of 64-byte segments. -/
theorem mm_stack_run_accounting_witness :
    mm_stack_run (mm_stack_new 64) [] example_mm_stack_ops =
      Except.ok (example_mm_stack_ops_state, example_mm_stack_ops_blocks) ∧
    (∀ s ∈ example_mm_stack_ops_state.segments,
      s.memory + s.memory_available = example_mm_stack_ops_state.segment_size) ∧
    example_mm_stack_ops_blocks.Pairwise mm_stack_blocks_disjoint ∧
    (∀ b ∈ example_mm_stack_ops_blocks,
      b.segment < example_mm_stack_ops_state.segments.length ∧
      b.offset + b.num_bytes ≤ example_mm_stack_ops_state.segment_size) :=
  ⟨by rfl,
    (mm_stack_run_accounting 64 example_mm_stack_ops example_mm_stack_ops_state
      example_mm_stack_ops_blocks (by decide) (by rfl)).2.1,
    (mm_stack_run_accounting 64 example_mm_stack_ops example_mm_stack_ops_state
      example_mm_stack_ops_blocks (by decide) (by rfl)).2.2.1,
    (mm_stack_run_accounting 64 example_mm_stack_ops example_mm_stack_ops_state
      example_mm_stack_ops_blocks (by decide) (by rfl)).2.2.2.1⟩
/-! ## The region profile: allowed symbols, counters, termination (C31, C32, C33) -/

/-- A property that every iteration of the scan keeps holds when the loop
"Delimit regions" returns. -/
theorem region_profile_generate_adaptive_loop_induct (pm : region_profile_model_t)
    (max_regions : Nat) (P : region_profile_generator_t → Prop)
    (hstep : ∀ g g', P g → 0 < g.key_position →
      region_profile_generate_adaptive_iteration pm g = some g' → P g') :
    ∀ (fuel : Nat) (g g' : region_profile_generator_t), P g →
      region_profile_generate_adaptive_loop pm max_regions fuel g = some g' → P g'
  | 0, g, g', hP, hg' => by
    unfold region_profile_generate_adaptive_loop at hg'
    split at hg'
    · exact absurd hg' (by simp)
    · simp only [Option.some.injEq] at hg'
      exact hg' ▸ hP
  | fuel + 1, g, g', hP, hg' => by
    unfold region_profile_generate_adaptive_loop at hg'
    by_cases hkp : g.key_position > 0
    · rw [if_pos hkp] at hg'
      by_cases hmax : g.region_profile.num_filtering_regions ≥ max_regions
      · rw [if_pos hmax] at hg'
        simp only [Option.some.injEq] at hg'
        exact hg' ▸ hP
      · rw [if_neg hmax] at hg'
        split at hg'
        · exact absurd hg' (by simp)
        · rename_i g1 hg1
          exact region_profile_generate_adaptive_loop_induct pm max_regions P hstep fuel g1 g'
            (hstep g g1 hP hkp hg1) hg'
    · rw [if_neg hkp] at hg'
      simp only [Option.some.injEq] at hg'
      exact hg' ▸ hP

/-- A property that every iteration of the scan keeps holds in every state that
the scan reaches. -/
theorem region_profile_generate_adaptive_iterate_induct (pm : region_profile_model_t)
    (P : region_profile_generator_t → Prop)
    (hstep : ∀ g g', P g → 0 < g.key_position →
      region_profile_generate_adaptive_iteration pm g = some g' → P g') :
    ∀ (n : Nat) (g g' : region_profile_generator_t), P g →
      region_profile_generate_adaptive_iterate pm n g = some g' → P g'
  | 0, g, g', hP, hg' => by
    simp only [region_profile_generate_adaptive_iterate, Option.some.injEq] at hg'
    exact hg' ▸ hP
  | n + 1, g, g', hP, hg' => by
    unfold region_profile_generate_adaptive_iterate at hg'
    split_ifs at hg' with hkp
    split at hg'
    · cases hg'
    · rename_i g1 hg1
      exact region_profile_generate_adaptive_iterate_induct pm P hstep n g1 g'
        (hstep g g1 hP hkp hg1) hg'

/-- When the loop "Delimit regions" returns, the scan is at the start of the key
or the cut-off on the number of regions has struck. -/
theorem region_profile_generate_adaptive_loop_exit (pm : region_profile_model_t)
    (max_regions : Nat) :
    ∀ (fuel : Nat) (g g' : region_profile_generator_t),
      region_profile_generate_adaptive_loop pm max_regions fuel g = some g' →
      g'.key_position = 0 ∨ g'.region_profile.num_filtering_regions ≥ max_regions
  | 0, g, g', hg' => by
    unfold region_profile_generate_adaptive_loop at hg'
    split at hg'
    · exact absurd hg' (by simp)
    · rename_i h
      simp only [Option.some.injEq] at hg'
      subst hg'
      by_cases hkp : g.key_position = 0
      · exact Or.inl hkp
      · right
        by_contra hlt
        exact h ⟨Nat.pos_of_ne_zero hkp, hlt⟩
  | fuel + 1, g, g', hg' => by
    unfold region_profile_generate_adaptive_loop at hg'
    by_cases hkp : g.key_position > 0
    · rw [if_pos hkp] at hg'
      by_cases hmax : g.region_profile.num_filtering_regions ≥ max_regions
      · rw [if_pos hmax] at hg'
        simp only [Option.some.injEq] at hg'
        exact Or.inr (hg' ▸ hmax)
      · rw [if_neg hmax] at hg'
        split at hg'
        · exact absurd hg' (by simp)
        · rename_i g1 hg1
          exact region_profile_generate_adaptive_loop_exit pm max_regions fuel g1 g' hg'
    · rw [if_neg hkp] at hg'
      simp only [Option.some.injEq] at hg'
      exact Or.inl (hg' ▸ (by omega))

/-- Every iteration of the scan keeps the symbols of the open region and of the
closed regions allowed. -/
theorem region_profile_generate_adaptive_iteration_allowed (key : List Nat) (L : Nat)
    (allowed : Nat → Bool) (pm : region_profile_model_t) (g g' : region_profile_generator_t)
    (hinv : generator_inv key L allowed g) (hall : generator_allowed_inv g)
    (hkp : 0 < g.key_position)
    (hg' : region_profile_generate_adaptive_iteration pm g = some g') :
    generator_allowed_inv g' := by
  have hinv' := hinv
  obtain ⟨hkey, hlen, hal, hke, heL, hcut, hord, hgap, hq⟩ := hinv'
  obtain ⟨hwin, hreg⟩ := hall
  unfold region_profile_generate_adaptive_iteration at hg'
  simp only at hg'
  split at hg'
  · -- wildcard
    have hs := region_profile_generator_disallow_character_step
      { g with key_position := g.key_position - 1 } pm
    simp only at hs
    obtain ⟨h1, h2, h3, h4, h5, h6, h7, h8⟩ := hs
    simp only [Option.some.injEq] at hg'
    subst hg'
    refine ⟨?_, ?_⟩
    · rw [h6]
      intro q hq1 hq2
      omega
    · rw [h1, h3]
      rcases h8 with ⟨_, h8⟩ | ⟨_, r, h8, hb, he⟩
      · rw [h8]; exact hreg
      · rw [h8]
        intro x hx
        rcases List.mem_append.mp hx with hx | hx
        · exact hreg x hx
        · simp only [List.mem_singleton] at hx
          subst hx
          rw [hb, he]
          intro q hq1 hq2
          exact hwin q (by omega) hq2
  · -- allowed character
    rename_i hallowed
    have hqs := region_profile_query_character_step
      { g with key_position := g.key_position - 1 }
      (g.key.getD (g.key_position - 1) 0)
    simp only at hqs
    obtain ⟨q1, q2, q3, q4, q5, q6, q7⟩ := hqs
    split at hg'
    · exact absurd hg' (by simp)
    · rename_i r hr
      simp only [Option.some.injEq] at hg'
      subst hg'
      obtain ⟨⟨s1, s2, s3, s4⟩, s5⟩ := region_profile_generator_add_character_step _ pm r hr
      rw [q5] at s4
      rw [q6, q7] at s4
      have hwin' : region_allowed g.key g.allowed_enc (g.key_position - 1)
          g.region_profile.current_region.end_ := by
        intro q hq1 hq2
        by_cases hqe : q = g.key_position - 1
        · subst hqe
          simpa using hallowed
        · exact hwin q (by omega) hq2
      unfold generator_allowed_inv
      rw [s1.trans q1, s3.trans q3]
      rcases s4 with ⟨t1, t2, t3, t4⟩ | ⟨c, r', hc, t1, t2, t3, t4, t5, t6⟩
      · rw [t1, t2, t3]
        exact ⟨hwin', hreg⟩
      · rw [t4, t5, t1]
        refine ⟨fun q hq1 hq2 => by omega, ?_⟩
        intro x hx
        rcases List.mem_append.mp hx with hx | hx
        · exact hreg x hx
        · simp only [List.mem_singleton] at hx
          subst hx
          rw [t2, t3]
          intro q hq1 hq2
          refine hwin' q ?_ hq2
          rcases hc with hc | ⟨hc, hne⟩
          · omega
          · have := (hcut hne).1
            omega

/-- Extending the last region by the identity leaves the profile as it is. -/
theorem region_profile_extend_last_region_id (rp : region_profile_t) :
    region_profile_extend_last_region id rp = rp := by
  unfold region_profile_extend_last_region
  split
  · rfl
  · rename_i last before hrev
    have h : rp.filtering_region = (last :: before).reverse := by
      rw [← hrev, List.reverse_reverse]
    simp only [id, Nat.min_self]
    cases rp
    simp only at h
    subst h
    rfl

/-- The initial state of the scan has no closed region and an empty open
region. -/
theorem region_profile_generator_init_allowed (fm_index : fm_index_t) (key : List Nat)
    (L : Nat) (allowed : Nat → Bool) (az : Bool) :
    generator_allowed_inv (region_profile_generator_init fm_index key L allowed az) := by
  refine ⟨?_, ?_⟩
  · intro q hq1 hq2
    simp only [region_profile_generator_init, region_profile_generator_restart] at hq1 hq2
    omega
  · intro r hr
    simp [region_profile_generator_init, region_profile_generator_restart,
      region_profile_clear] at hr

/-- Closing a region keeps the counters in agreement with the regions. -/
theorem region_profile_generator_close_region_counters (g : region_profile_generator_t)
    (pm : region_profile_model_t) (lo hi : Nat)
    (h : region_profile_counters_agree pm g.region_profile) :
    region_profile_counters_agree pm
      (region_profile_generator_close_region g pm lo hi).region_profile := by
  obtain ⟨h1, h2⟩ := h
  unfold region_profile_generator_close_region region_profile_counters_agree
  simp only [List.map_append, List.sum_append, List.map_cons, List.map_nil, List.sum_cons,
    List.sum_nil, Nat.add_zero, List.countP_append, List.countP_cons, List.countP_nil,
    Nat.zero_add, decide_eq_true_eq]
  refine ⟨?_, ?_⟩
  · rw [h1, Nat.mod_add_mod]
  · rw [h2]
    by_cases hu : sub64 hi lo ≤ pm.region_type_th
    · rw [if_pos hu, if_neg (by omega)]
      rfl
    · rw [if_neg hu, if_pos (by omega)]

/-- A restart does not touch the counters or the regions. -/
theorem region_profile_generator_restart_counters (g : region_profile_generator_t)
    (pm : region_profile_model_t) :
    region_profile_counters_agree pm (region_profile_generator_restart g).region_profile ↔
      region_profile_counters_agree pm g.region_profile := Iff.rfl

/-- Adding a character keeps the counters in agreement with the regions. -/
theorem region_profile_generator_add_character_counters (g : region_profile_generator_t)
    (pm : region_profile_model_t) (r : Bool × region_profile_generator_t)
    (hr : region_profile_generator_add_character g pm = some r)
    (h : region_profile_counters_agree pm g.region_profile) :
    region_profile_counters_agree pm r.2.region_profile := by
  unfold region_profile_generator_add_character at hr
  simp only at hr
  split_ifs at hr <;> simp only [Option.some.injEq] at hr <;> subst hr
  · exact h
  · exact (region_profile_generator_restart_counters _ pm).mpr
      (region_profile_generator_close_region_counters g pm _ _ h)
  · exact h
  · exact (region_profile_generator_restart_counters _ pm).mpr
      (region_profile_generator_close_region_counters _ pm _ _ h)
  · exact h
  · exact (region_profile_generator_restart_counters _ pm).mpr
      (region_profile_generator_close_region_counters _ pm _ _ h)
  · exact h
  · exact (region_profile_generator_restart_counters _ pm).mpr
      (region_profile_generator_close_region_counters g pm _ _ h)
  · exact (region_profile_generator_restart_counters _ pm).mpr
      (region_profile_generator_close_region_counters _ pm _ _ h)

/-- A wildcard keeps the counters in agreement with the regions. -/
theorem region_profile_generator_disallow_character_counters (g : region_profile_generator_t)
    (pm : region_profile_model_t) (h : region_profile_counters_agree pm g.region_profile) :
    region_profile_counters_agree pm
      (region_profile_generator_disallow_character g pm).2.region_profile := by
  unfold region_profile_generator_disallow_character
  simp only
  by_cases hc : g.last_cut ≠ 0
  · rw [if_pos hc]
    exact (region_profile_generator_restart_counters _ pm).mpr
      (region_profile_generator_close_region_counters
        { g with key_position := g.key_position + 1 } pm _ _ h)
  · rw [if_neg hc]
    exact h

/-- Every iteration of the scan keeps the counters in agreement with the
regions. -/
theorem region_profile_generate_adaptive_iteration_counters (pm : region_profile_model_t)
    (g g' : region_profile_generator_t)
    (h : region_profile_counters_agree pm g.region_profile)
    (hg' : region_profile_generate_adaptive_iteration pm g = some g') :
    region_profile_counters_agree pm g'.region_profile := by
  unfold region_profile_generate_adaptive_iteration at hg'
  simp only at hg'
  split at hg'
  · simp only [Option.some.injEq] at hg'
    subst hg'
    exact region_profile_generator_disallow_character_counters _ pm h
  · have hqs := region_profile_query_character_step
      { g with key_position := g.key_position - 1 }
      (g.key.getD (g.key_position - 1) 0)
    simp only at hqs
    obtain ⟨q1, q2, q3, q4, q5, q6, q7⟩ := hqs
    split at hg'
    · exact absurd hg' (by simp)
    · rename_i r hr
      simp only [Option.some.injEq] at hg'
      subst hg'
      exact region_profile_generator_add_character_counters _ pm r hr (by rw [q6]; exact h)

/-- What an iteration of the scan does to the open region: it keeps its end and
closes nothing, or restarts at a lower end (a wildcard without a cut-point), or
closes a non-empty region that ends where the open region ended and restarts
at or below its begin. -/
theorem region_profile_generate_adaptive_iteration_close (key : List Nat) (L : Nat)
    (allowed : Nat → Bool) (pm : region_profile_model_t) (g g' : region_profile_generator_t)
    (hinv : generator_inv key L allowed g) (hkp : 0 < g.key_position)
    (hg' : region_profile_generate_adaptive_iteration pm g = some g') :
    g'.region_profile.current_region.end_ ≤ g.region_profile.current_region.end_ ∧
    (g'.region_profile.filtering_region = g.region_profile.filtering_region ∨
      ∃ r, g'.region_profile.filtering_region = g.region_profile.filtering_region ++ [r] ∧
        r.end_ = g.region_profile.current_region.end_ ∧ r.begin < r.end_ ∧
        g'.region_profile.current_region.end_ ≤ r.begin ∧
        g'.key_position = g'.region_profile.current_region.end_ ∧
        g'.region_profile.current_region.end_ < g.region_profile.current_region.end_) := by
  have hinv' := hinv
  obtain ⟨hkey, hlen, hal, hke, heL, hcut, hord, hgap, hq⟩ := hinv'
  unfold region_profile_generate_adaptive_iteration at hg'
  simp only at hg'
  split at hg'
  · have hs := region_profile_generator_disallow_character_step
      { g with key_position := g.key_position - 1 } pm
    simp only at hs
    obtain ⟨h1, h2, h3, h4, h5, h6, h7, h8⟩ := hs
    simp only [Option.some.injEq] at hg'
    subst hg'
    refine ⟨by omega, ?_⟩
    rcases h8 with ⟨_, h8⟩ | ⟨_, r, h8, hb, he⟩
    · exact Or.inl h8
    · exact Or.inr ⟨r, h8, he, by omega, by omega, h6.symm, by omega⟩
  · have hqs := region_profile_query_character_step
      { g with key_position := g.key_position - 1 }
      (g.key.getD (g.key_position - 1) 0)
    simp only at hqs
    obtain ⟨q1, q2, q3, q4, q5, q6, q7⟩ := hqs
    split at hg'
    · exact absurd hg' (by simp)
    · rename_i r hr
      simp only [Option.some.injEq] at hg'
      subst hg'
      obtain ⟨⟨s1, s2, s3, s4⟩, s5⟩ := region_profile_generator_add_character_step _ pm r hr
      rw [q5] at s4
      rw [q6, q7] at s4
      rcases s4 with ⟨t1, t2, t3, t4⟩ | ⟨c, r', hc, t1, t2, t3, t4, t5, t6⟩
      · exact ⟨le_of_eq t2, Or.inl t3⟩
      · have hclt : c < g.region_profile.current_region.end_ := by
          rcases hc with hc | ⟨hc, hne⟩
          · rw [hc]; omega
          · rw [hc]; exact (hcut hne).2
        exact ⟨by omega, Or.inr ⟨r', t1, t3, by omega, by omega, by omega, by omega⟩⟩

/-- Every iteration of the limited scan moves `key_position` leftward. -/
theorem region_profile_generate_adaptive_limited_iteration_position
    (pm : region_profile_model_t) (m : Nat) (s : region_profile_generator_t × Nat)
    (hkp : 0 < s.1.key_position) :
    (region_profile_generate_adaptive_limited_iteration pm m s).1.key_position
      < s.1.key_position := by
  unfold region_profile_generate_adaptive_limited_iteration
  simp only
  split
  · have hs := region_profile_generator_disallow_character_step
      { s.1 with key_position := s.1.key_position - 1 } pm
    simp only at hs
    have := hs.2.2.2.2.1
    simp only
    omega
  · have hqs := region_profile_query_character_step
      { s.1 with key_position := s.1.key_position - 1 }
      (s.1.key.getD (s.1.key_position - 1) 0)
    simp only at hqs
    have q5 := hqs.2.2.2.2.1
    split
    · simp only [region_profile_generator_restart, region_profile_generator_close_region, q5]
      omega
    · simp only [q5]
      omega

/-- The loop of the limited scan returns, given one unit of fuel for every
position left. -/
theorem region_profile_generate_adaptive_limited_loop_total (pm : region_profile_model_t)
    (m : Nat) :
    ∀ (fuel : Nat) (s : region_profile_generator_t × Nat), s.1.key_position ≤ fuel →
      ∃ s', region_profile_generate_adaptive_limited_loop pm m fuel s = some s'
  | 0, s, h => by
    have h0 : ¬ s.1.key_position > 0 := by omega
    exact ⟨s, by simp [region_profile_generate_adaptive_limited_loop, h0]⟩
  | fuel + 1, s, h => by
    unfold region_profile_generate_adaptive_limited_loop
    by_cases hkp : s.1.key_position > 0
    · rw [if_pos hkp]
      have := region_profile_generate_adaptive_limited_iteration_position pm m s hkp
      exact region_profile_generate_adaptive_limited_loop_total pm m fuel _ (by omega)
    · rw [if_neg hkp]
      exact ⟨s, rfl⟩

/-- C31, amended: with `max_regions >= 1`, no region that
`region_profile_generate_adaptive` emits (before any extension of the last
region: zero-regions are not allowed, or the extension is the identity) contains
a disallowed symbol; and the function returns whenever `dec_factor > 0`. -/
theorem region_profile_generate_adaptive_regions_allowed
    (extension : region_search_t → region_search_t)
    (fm_index : fm_index_t) (key : List Nat) (key_length : Nat) (allowed_enc : Nat → Bool)
    (profile_model : region_profile_model_t) (max_regions : Nat) (allow_zero_regions : Bool)
    (hmax : 1 ≤ max_regions)
    (hext : allow_zero_regions = true → extension = id) :
    (0 < profile_model.dec_factor →
      (region_profile_generate_adaptive extension fm_index key key_length allowed_enc
        profile_model max_regions allow_zero_regions).isSome = true) ∧
    ∀ out, region_profile_generate_adaptive extension fm_index key key_length allowed_enc
        profile_model max_regions allow_zero_regions = some out →
      ∀ r ∈ out.region_profile.filtering_region, ∀ q, r.begin ≤ q → q < r.end_ →
        allowed_enc (key.getD q 0) = true := by
  refine ⟨region_profile_generate_adaptive_total extension fm_index key key_length allowed_enc
    profile_model max_regions allow_zero_regions, ?_⟩
  intro out hout
  unfold region_profile_generate_adaptive at hout
  simp only at hout
  split at hout
  · exact absurd hout (by simp)
  · rename_i g hg
    simp only [Option.some.injEq] at hout
    subst hout
    have hP := region_profile_generate_adaptive_loop_induct profile_model max_regions
      (fun g => generator_inv key key_length allowed_enc g ∧ generator_allowed_inv g)
      (fun g g' hP hkp hg' =>
        ⟨(region_profile_generate_adaptive_iteration_inv key key_length allowed_enc
            profile_model g g' hP.1 hkp hg').1,
          region_profile_generate_adaptive_iteration_allowed key key_length allowed_enc
            profile_model g g' hP.1 hP.2 hkp hg'⟩)
      _ _ g
      ⟨(region_profile_generator_init_inv fm_index key key_length allowed_enc
          allow_zero_regions).1,
        region_profile_generator_init_allowed fm_index key key_length allowed_enc
          allow_zero_regions⟩ hg
    have hexit := region_profile_generate_adaptive_loop_exit profile_model max_regions _ _ g hg
    obtain ⟨⟨hkey, hlen, hal, _⟩, hwin, hreg⟩ := hP
    have haz := region_profile_generate_adaptive_loop_induct profile_model max_regions
      (fun g => (g.last_cut ≠ 0 → 0 < sub64 g.hi_cut g.lo_cut) ∧
        g.allow_zero_regions = allow_zero_regions)
      (fun g g' hP _ hg' =>
        ⟨(region_profile_generate_adaptive_iteration_cut profile_model g g' hP.1 hg').2,
          (region_profile_generate_adaptive_iteration_cut profile_model g g' hP.1 hg').1.trans
            hP.2⟩)
      _ _ g ⟨fun h => absurd rfl h, rfl⟩ hg
    rw [hkey, hal] at hwin hreg
    intro r hr
    unfold region_profile_generator_close_profile at hr
    simp only at hr
    by_cases h0 : g.region_profile.num_filtering_regions = 0
    · rw [if_pos h0] at hr
      split_ifs at hr with hend
      · simp only [List.mem_singleton] at hr
        subst hr
        simp only
        have hkp : g.key_position = 0 := by
          rcases hexit with h | h
          · exact h
          · omega
        intro q hq1 hq2
        exact hwin q (by omega) hq2
      · simp at hr
    · rw [if_neg h0] at hr
      have hsame : (if g.allow_zero_regions = true then
          region_profile_extend_last_region extension g.region_profile
          else g.region_profile) = g.region_profile := by
        split_ifs with haz'
        · rw [hext (haz.2 ▸ haz'), region_profile_extend_last_region_id]
        · rfl
      simp only [hsame] at hr
      exact hreg r hr

/-- A witness of `region_profile_generate_adaptive_regions_allowed`: the read
`AAANAAAA` with at most 10 regions. -/
theorem region_profile_generate_adaptive_regions_allowed_witness :
    ∃ out, region_profile_generate_adaptive id example_flat_index [0, 0, 0, 4, 0, 0, 0, 0] 8
        (fun c => decide (c < 4)) example_profile_model 10 true = some out ∧
      out.region_profile.filtering_region ≠ [] ∧
      ∀ r ∈ out.region_profile.filtering_region, ∀ q, r.begin ≤ q → q < r.end_ →
        (fun c => decide (c < 4)) (([0, 0, 0, 4, 0, 0, 0, 0] : List Nat).getD q 0) = true :=
  ⟨(region_profile_generate_adaptive id example_flat_index [0, 0, 0, 4, 0, 0, 0, 0] 8
        (fun c => decide (c < 4)) example_profile_model 10 true).getD
      (region_profile_generator_init example_flat_index [] 0 (fun _ => false) false),
    by rfl, by decide,
    (region_profile_generate_adaptive_regions_allowed id example_flat_index
      [0, 0, 0, 4, 0, 0, 0, 0] 8 (fun c => decide (c < 4)) example_profile_model 10 true
      (by decide) (fun _ => rfl)).2 _ (by rfl)⟩

/-- C31 as stated fails for `max_regions = 0`: the scan of the read `ANA` ends
before its first character, and the profile holds the region `[0, 3)`, whose
position 1 holds the disallowed symbol `N`. -/
theorem region_profile_generate_adaptive_regions_allowed_cut_off :
    (region_profile_generate_adaptive id example_flat_index [0, 4, 0] 3
        (fun c => decide (c < 4)) example_profile_model 0 false).map
      (fun g => g.region_profile.filtering_region.map (fun r => (r.begin, r.end_))) =
      some [(0, 3)] ∧
    (0 ≤ 1 ∧ 1 < 3) ∧
    (fun c => decide (c < 4)) (([0, 4, 0] : List Nat).getD 1 0) = false := by
  refine ⟨by rfl, by decide, by decide⟩

/-- C33, amended: after `region_profile_generate_adaptive` with
`allow_zero_regions = false`, whenever the scan has closed a region or has met a
disallowed symbol (so that the profile is not the whole-read region that
`region_profile_generator_close_profile` installs), the profile holds the regions
that the scan closed and its counters agree with them: `total_candidates` is the
sum, in `uint64_t`, of `hi - lo` over the regions (the plain sum when that is
below `2^64`), and `num_standard_regions` is the number of regions whose
`hi - lo` exceeds `region_type_th`. -/
theorem region_profile_generate_adaptive_counters
    (extension : region_search_t → region_search_t)
    (fm_index : fm_index_t) (key : List Nat) (key_length : Nat) (allowed_enc : Nat → Bool)
    (profile_model : region_profile_model_t) (max_regions : Nat)
    (g : region_profile_generator_t)
    (hloop : region_profile_generate_adaptive_loop profile_model max_regions
      ((key_length + 1) * (key_length + 1))
      (region_profile_generator_init fm_index key key_length allowed_enc false) = some g)
    (hscan : g.region_profile.filtering_region ≠ [] ∨
      g.region_profile.current_region.end_ ≠ key_length) :
    ∃ out, region_profile_generate_adaptive extension fm_index key key_length allowed_enc
        profile_model max_regions false = some out ∧
      out.region_profile.filtering_region = g.region_profile.filtering_region ∧
      region_profile_counters_agree profile_model out.region_profile ∧
      ((out.region_profile.filtering_region.map (fun r => sub64 r.hi r.lo)).sum < 2 ^ 64 →
        out.region_profile.total_candidates =
          (out.region_profile.filtering_region.map (fun r => sub64 r.hi r.lo)).sum) ∧
      (∀ r ∈ out.region_profile.filtering_region, r.lo ≤ r.hi → r.hi < 2 ^ 64 →
        sub64 r.hi r.lo = r.hi - r.lo) := by
  have hP := region_profile_generate_adaptive_loop_induct profile_model max_regions
    (fun g => generator_inv key key_length allowed_enc g ∧
      region_profile_counters_agree profile_model g.region_profile ∧
      ((g.last_cut ≠ 0 → 0 < sub64 g.hi_cut g.lo_cut) ∧ g.allow_zero_regions = false))
    (fun g g' hP hkp hg' =>
      ⟨(region_profile_generate_adaptive_iteration_inv key key_length allowed_enc
          profile_model g g' hP.1 hkp hg').1,
        region_profile_generate_adaptive_iteration_counters profile_model g g' hP.2.1 hg',
        (region_profile_generate_adaptive_iteration_cut profile_model g g' hP.2.2.1 hg').2,
        (region_profile_generate_adaptive_iteration_cut profile_model g g' hP.2.2.1 hg').1.trans
          hP.2.2.2⟩)
    _ _ g
    ⟨(region_profile_generator_init_inv fm_index key key_length allowed_enc false).1,
      ⟨rfl, rfl⟩, fun h => absurd rfl h, rfl⟩ hloop
  obtain ⟨⟨hkey, hlen, _⟩, ⟨hc1, hc2⟩, _, haz⟩ := hP
  have hout : region_profile_generate_adaptive extension fm_index key key_length allowed_enc
      profile_model max_regions false =
      some (region_profile_generator_close_profile extension g profile_model) := by
    simp only [region_profile_generate_adaptive, hloop]
  have hclose : (region_profile_generator_close_profile extension g
        profile_model).region_profile.filtering_region = g.region_profile.filtering_region ∧
      (region_profile_generator_close_profile extension g
        profile_model).region_profile.total_candidates = g.region_profile.total_candidates ∧
      (region_profile_generator_close_profile extension g
        profile_model).region_profile.num_standard_regions =
          g.region_profile.num_standard_regions := by
    unfold region_profile_generator_close_profile
    simp only
    by_cases h0 : g.region_profile.num_filtering_regions = 0
    · have hnil : g.region_profile.filtering_region = [] := List.length_eq_zero.mp h0
      rw [if_pos h0, if_neg (by
        rcases hscan with h | h
        · exact absurd hnil h
        · rw [hlen]; exact h)]
      refine ⟨hnil.symm, rfl, ?_⟩
      simp only
      rw [hc2, hnil]
      rfl
    · rw [if_neg h0]
      simp [haz]
  obtain ⟨e1, e2, e3⟩ := hclose
  refine ⟨_, hout, e1, ⟨?_, ?_⟩, ?_, ?_⟩
  · rw [e1, e2]; exact hc1
  · rw [e1, e3]; exact hc2
  · intro hlt
    rw [e2, hc1, e1]
    rw [e1] at hlt
    exact Nat.mod_eq_of_lt hlt
  · intro r _ hle hhi
    exact sub64_of_le r.hi r.lo hle hhi

/-- A witness of `region_profile_generate_adaptive_counters`: the read
`AAANAAAA`, whose scan closes six regions of 5 candidates each. -/
theorem region_profile_generate_adaptive_counters_witness :
    ∃ out, region_profile_generate_adaptive id example_flat_index [0, 0, 0, 4, 0, 0, 0, 0] 8
        (fun c => decide (c < 4)) example_profile_model 10 false = some out ∧
      out.region_profile.filtering_region.map (fun r => (r.begin, r.end_, r.lo, r.hi)) =
        [(7, 8, 0, 5), (6, 7, 0, 5), (5, 6, 0, 5), (4, 5, 0, 5), (2, 3, 0, 5), (0, 2, 0, 5)] ∧
      out.region_profile.total_candidates = 30 ∧
      out.region_profile.num_standard_regions = 6 ∧
      region_profile_counters_agree example_profile_model out.region_profile := by
  obtain ⟨out, h1, _, h3, _, _⟩ := region_profile_generate_adaptive_counters id
    example_flat_index [0, 0, 0, 4, 0, 0, 0, 0] 8 (fun c => decide (c < 4))
    example_profile_model 10
    ((region_profile_generate_adaptive_loop example_profile_model 10 ((8 + 1) * (8 + 1))
      (region_profile_generator_init example_flat_index [0, 0, 0, 4, 0, 0, 0, 0] 8
        (fun c => decide (c < 4)) false)).getD
      (region_profile_generator_init example_flat_index [] 0 (fun _ => false) false))
    (by rfl) (by decide)
  have h := h1
  rw [show region_profile_generate_adaptive id example_flat_index [0, 0, 0, 4, 0, 0, 0, 0] 8
    (fun c => decide (c < 4)) example_profile_model 10 false = some
      ((region_profile_generate_adaptive id example_flat_index [0, 0, 0, 4, 0, 0, 0, 0] 8
        (fun c => decide (c < 4)) example_profile_model 10 false).getD
      (region_profile_generator_init example_flat_index [] 0 (fun _ => false) false))
    from by rfl] at h
  have heq := Option.some.inj h
  refine ⟨out, h1, ?_, ?_, ?_, h3⟩
  · rw [← heq]; decide
  · rw [← heq]; decide
  · rw [← heq]; decide

/-- C33 as stated fails for the whole-read region: the scan of the read `AAA`
with `region_th = 2` closes no region (every interval has 5 candidates), the
profile is the region `[0, 3)` with `(lo, hi) = (0, 5)`, `total_candidates` is
`0` and not `5`; `num_standard_regions` is set to `1` also for the model with
`region_type_th = 7`, in which no region has more than `region_type_th`
candidates. -/
theorem region_profile_generate_adaptive_counters_whole_read :
    (region_profile_generate_adaptive id example_flat_index [0, 0, 0] 3
        (fun c => decide (c < 4)) example_tight_profile_model 10 false).map
      (fun g => (g.region_profile.filtering_region.map (fun r => (r.begin, r.end_, r.lo, r.hi)),
        g.region_profile.total_candidates, g.region_profile.num_standard_regions)) =
      some ([(0, 3, 0, 5)], 0, 1) ∧
    sub64 5 0 = 5 ∧ (0 : Nat) ≠ 5 ∧
    (region_profile_generate_adaptive id example_flat_index [0, 0, 0] 3
        (fun c => decide (c < 4)) example_wide_type_profile_model 10 false).map
      (fun g => (g.region_profile.filtering_region.map (fun r => (r.begin, r.end_, r.lo, r.hi)),
        g.region_profile.num_standard_regions,
        g.region_profile.filtering_region.countP
          (fun r => decide (sub64 r.hi r.lo > example_wide_type_profile_model.region_type_th)))) =
      some ([(0, 3, 0, 5)], 1, 0) := by
  refine ⟨by rfl, by decide, by decide, by rfl⟩

/-- C32, amended: `region_profile_generate_adaptive` returns for every read,
every rank oracle and every profile model with `dec_factor > 0` (`max_steps = 0`
included), and `region_profile_generate_adaptive_limited` returns for every
profile model whenever `min_regions > 0`.  In every state that the adaptive scan
reaches, an iteration that returns never raises the end of the region under
construction, and when it closes a region the new end is strictly below the old
one (the region closed is non-empty, ends at the old end, and the scan restarts
at or below its begin), so the measure `end * (L + 1) + key_position`
decreases although `key_position` may move back up to a cut-point; every
iteration of the limited scan moves `key_position` leftward. -/
theorem region_profile_generate_adaptive_terminates
    (extension : region_search_t → region_search_t)
    (fm_index : fm_index_t) (key : List Nat) (key_length : Nat) (allowed_enc : Nat → Bool)
    (profile_model : region_profile_model_t) (max_regions min_regions : Nat)
    (allow_zero_regions : Bool) :
    (0 < profile_model.dec_factor →
      (region_profile_generate_adaptive extension fm_index key key_length allowed_enc
        profile_model max_regions allow_zero_regions).isSome = true) ∧
    (0 < min_regions →
      (region_profile_generate_adaptive_limited extension fm_index key key_length allowed_enc
        profile_model min_regions).isSome = true) ∧
    (∀ n g g',
      region_profile_generate_adaptive_iterate profile_model n
        (region_profile_generator_init fm_index key key_length allowed_enc allow_zero_regions)
          = some g →
      0 < g.key_position →
      region_profile_generate_adaptive_iteration profile_model g = some g' →
      g'.region_profile.current_region.end_ ≤ g.region_profile.current_region.end_ ∧
      (g'.region_profile.filtering_region = g.region_profile.filtering_region ∨
        ∃ r, g'.region_profile.filtering_region = g.region_profile.filtering_region ++ [r] ∧
          r.end_ = g.region_profile.current_region.end_ ∧ r.begin < r.end_ ∧
          g'.region_profile.current_region.end_ ≤ r.begin ∧
          g'.key_position = g'.region_profile.current_region.end_ ∧
          g'.region_profile.current_region.end_ < g.region_profile.current_region.end_) ∧
      g'.region_profile.current_region.end_ * (key_length + 1) + g'.key_position <
        g.region_profile.current_region.end_ * (key_length + 1) + g.key_position) ∧
    (∀ max_region_length s, 0 < s.1.key_position →
      (region_profile_generate_adaptive_limited_iteration profile_model max_region_length
        s).1.key_position < s.1.key_position) := by
  refine ⟨region_profile_generate_adaptive_total extension fm_index key key_length allowed_enc
    profile_model max_regions allow_zero_regions, ?_, ?_, ?_⟩
  · intro hmin
    unfold region_profile_generate_adaptive_limited
    rw [if_neg (by omega)]
    simp only
    obtain ⟨s', hs'⟩ := region_profile_generate_adaptive_limited_loop_total profile_model
      (key_length / min_regions) key_length
      (region_profile_generator_restart
        (region_profile_generator_init fm_index key key_length allowed_enc true), 0)
      (by simp [region_profile_generator_restart, region_profile_generator_init])
    rw [hs']
    rfl
  · intro n g g' hreach hkp hg'
    have hinv := region_profile_generate_adaptive_iterate_induct profile_model
      (fun g => generator_inv key key_length allowed_enc g)
      (fun g g' hP hkp hg' =>
        (region_profile_generate_adaptive_iteration_inv key key_length allowed_enc
          profile_model g g' hP hkp hg').1)
      n _ g
      (region_profile_generator_init_inv fm_index key key_length allowed_enc
        allow_zero_regions).1 hreach
    have h1 := region_profile_generate_adaptive_iteration_close key key_length allowed_enc
      profile_model g g' hinv hkp hg'
    have h2 := (region_profile_generate_adaptive_iteration_inv key key_length allowed_enc
      profile_model g g' hinv hkp hg').2
    exact ⟨h1.1, h1.2, h2⟩
  · intro m s hkp
    exact region_profile_generate_adaptive_limited_iteration_position profile_model m s hkp

/-- A witness of `region_profile_generate_adaptive_terminates` with
`max_steps = 0`: both builders return on the read `AAANAAAA`. -/
theorem region_profile_generate_adaptive_terminates_witness :
    (region_profile_generate_adaptive id example_flat_index [0, 0, 0, 4, 0, 0, 0, 0] 8
      (fun c => decide (c < 4)) example_zero_steps_profile_model 10 false).isSome = true ∧
    (region_profile_generate_adaptive_limited id example_flat_index [0, 0, 0, 4, 0, 0, 0, 0] 8
      (fun c => decide (c < 4)) example_zero_steps_profile_model 3).isSome = true :=
  ⟨(region_profile_generate_adaptive_terminates id example_flat_index
      [0, 0, 0, 4, 0, 0, 0, 0] 8 (fun c => decide (c < 4)) example_zero_steps_profile_model
      10 3 false).1 (by decide),
    (region_profile_generate_adaptive_terminates id example_flat_index
      [0, 0, 0, 4, 0, 0, 0, 0] 8 (fun c => decide (c < 4)) example_zero_steps_profile_model
      10 3 false).2.1 (by decide)⟩

/-- C32 as stated fails for a profile model with `dec_factor = 0`: on the read
`AAA` the first iteration saves a cut-point (5 candidates, `region_th = 10`), and
in the second `region_profile_generator_add_character` evaluates
`expected_count /= 0`, so the iteration, and with it
`region_profile_generate_adaptive`, has no result. -/
theorem region_profile_generate_adaptive_zero_factor :
    (region_profile_generate_adaptive_iterate example_zero_factor_profile_model 1
        (region_profile_generator_init example_flat_index [0, 0, 0] 3
          (fun c => decide (c < 4)) false)).map
      (fun g => (g.key_position, g.last_cut, g.lo, g.hi)) = some (2, 2, 0, 5) ∧
    (region_profile_generate_adaptive_iteration example_zero_factor_profile_model
      (example_scan_generator example_flat_index example_zero_factor_profile_model
        [0, 0, 0])).isNone = true ∧
    (region_profile_generator_add_character
      (region_profile_query_character
        { example_scan_generator example_flat_index example_zero_factor_profile_model
            [0, 0, 0] with key_position := 1 } 0)
      example_zero_factor_profile_model).isNone = true ∧
    (region_profile_generate_adaptive id example_flat_index [0, 0, 0] 3
      (fun c => decide (c < 4)) example_zero_factor_profile_model 10 false).isNone = true := by
  refine ⟨by rfl, by rfl, by rfl, by rfl⟩
/-! ## The k-mer filter: the indices at which the text is read (C36) -/

/-- The counting steps do not move the two positions. -/
theorem kmer_counting_filter_increment_pos (kmer_count_pattern : Nat → Nat) (text : List Nat)
    (s : kmer_filter_state) :
    (kmer_counting_filter_increment kmer_count_pattern text s).end_pos = s.end_pos ∧
    (kmer_counting_filter_increment kmer_count_pattern text s).begin_pos = s.begin_pos := by
  unfold kmer_counting_filter_increment
  simp only
  split <;> exact ⟨rfl, rfl⟩

/-- The step that decrements a count does not move the two positions. -/
theorem kmer_counting_filter_decrement_pos (kmer_count_pattern : Nat → Nat) (text : List Nat)
    (s : kmer_filter_state) :
    (kmer_counting_filter_decrement kmer_count_pattern text s).end_pos = s.end_pos ∧
    (kmer_counting_filter_decrement kmer_count_pattern text s).begin_pos = s.begin_pos := by
  unfold kmer_counting_filter_decrement
  simp only
  split <;> exact ⟨rfl, rfl⟩

/-- The initial fill of the first count advances `end_pos` by its iterations and
reads the indices it passes. -/
theorem kmer_counting_filter_fill_end_pos (text : List Nat) :
    ∀ (n : Nat) (s : kmer_filter_state),
      (kmer_counting_filter_fill_end text n s).end_pos = s.end_pos + n ∧
      (kmer_counting_filter_fill_end text n s).begin_pos = s.begin_pos ∧
      ∀ i ∈ kmer_counting_filter_fill_end_reads text n s, i < s.end_pos + n
  | 0, s => by simp [kmer_counting_filter_fill_end, kmer_counting_filter_fill_end_reads]
  | n + 1, s => by
    have ih := kmer_counting_filter_fill_end_pos text n
      { s with
        end_pos := s.end_pos + 1
        kmers_left := dec64 s.kmers_left
        kmer_idx_end := KMER_COUNTING_ADD_INDEX__MASK s.kmer_idx_end (text.getD s.end_pos 0) }
    simp only at ih
    unfold kmer_counting_filter_fill_end kmer_counting_filter_fill_end_reads
    refine ⟨by rw [ih.1]; omega, ih.2.1, ?_⟩
    intro i hi
    rcases List.mem_cons.mp hi with rfl | hi
    · omega
    · have := ih.2.2 i hi
      omega

/-- The first counting loop advances `end_pos` by its iterations when it runs to
its end. -/
theorem kmer_counting_filter_load_pos (kmer_count_pattern : Nat → Nat) (text : List Nat)
    (kmers_required : Nat) :
    ∀ (n : Nat) (s s2 : kmer_filter_state),
      kmer_counting_filter_load kmer_count_pattern text kmers_required n s = Sum.inr s2 →
      s2.end_pos = s.end_pos + n ∧ s2.begin_pos = s.begin_pos
  | 0, s, s2, h => by
    simp only [kmer_counting_filter_load, Sum.inr.injEq] at h
    subst h
    exact ⟨rfl, rfl⟩
  | n + 1, s, s2, h => by
    have hp := kmer_counting_filter_increment_pos kmer_count_pattern text s
    unfold kmer_counting_filter_load at h
    simp only at h
    split_ifs at h
    have ih := kmer_counting_filter_load_pos kmer_count_pattern text kmers_required n _ s2 h
    simp only [hp.1, hp.2] at ih
    exact ⟨by omega, ih.2⟩

/-- The first counting loop reads indices below `end_pos` advanced by its
iterations only. -/
theorem kmer_counting_filter_load_reads_lt (kmer_count_pattern : Nat → Nat) (text : List Nat)
    (kmers_required : Nat) :
    ∀ (n : Nat) (s : kmer_filter_state) (B : Nat), s.end_pos + n ≤ B →
      ∀ i ∈ kmer_counting_filter_load_reads kmer_count_pattern text kmers_required n s, i < B
  | 0, s, B, _, i, hi => by simp [kmer_counting_filter_load_reads] at hi
  | n + 1, s, B, hB, i, hi => by
    have hp := kmer_counting_filter_increment_pos kmer_count_pattern text s
    unfold kmer_counting_filter_load_reads at hi
    simp only [List.mem_cons] at hi
    rcases hi with rfl | hi
    · omega
    · split_ifs at hi
      · simp at hi
      · simp at hi
      · refine kmer_counting_filter_load_reads_lt kmer_count_pattern text kmers_required n _ B
          ?_ i hi
        simp only [hp.1]
        omega

/-- The initial fill of the sliding window advances `begin_pos` by its
iterations and reads the indices it passes. -/
theorem kmer_counting_filter_fill_begin_pos (text : List Nat) :
    ∀ (n : Nat) (s : kmer_filter_state),
      (kmer_counting_filter_fill_begin text n s).begin_pos = s.begin_pos + n ∧
      (kmer_counting_filter_fill_begin text n s).end_pos = s.end_pos ∧
      ∀ i ∈ kmer_counting_filter_fill_begin_reads text n s, i < s.begin_pos + n
  | 0, s => by simp [kmer_counting_filter_fill_begin, kmer_counting_filter_fill_begin_reads]
  | n + 1, s => by
    have ih := kmer_counting_filter_fill_begin_pos text n
      { s with
        begin_pos := s.begin_pos + 1
        kmer_idx_begin := KMER_COUNTING_ADD_INDEX s.kmer_idx_begin (text.getD s.begin_pos 0) }
    simp only at ih
    unfold kmer_counting_filter_fill_begin kmer_counting_filter_fill_begin_reads
    refine ⟨by rw [ih.1]; omega, ih.2.1, ?_⟩
    intro i hi
    rcases List.mem_cons.mp hi with rfl | hi
    · omega
    · have := ih.2.2 i hi
      omega

/-- The sliding-window loop reads indices below the two positions advanced by
its iterations only. -/
theorem kmer_counting_filter_slide_reads_lt (kmer_count_pattern : Nat → Nat)
    (text : List Nat) (kmers_required : Nat) :
    ∀ (n : Nat) (s : kmer_filter_state) (B : Nat), s.begin_pos + n ≤ B → s.end_pos + n ≤ B →
      ∀ i ∈ kmer_counting_filter_slide_reads kmer_count_pattern text kmers_required n s, i < B
  | 0, s, B, _, _, i, hi => by simp [kmer_counting_filter_slide_reads] at hi
  | n + 1, s, B, hb, he, i, hi => by
    have hd := kmer_counting_filter_decrement_pos kmer_count_pattern text s
    have hp := kmer_counting_filter_increment_pos kmer_count_pattern text
      (kmer_counting_filter_decrement kmer_count_pattern text s)
    unfold kmer_counting_filter_slide_reads at hi
    simp only [List.mem_cons] at hi
    rcases hi with rfl | rfl | hi
    · omega
    · omega
    · split_ifs at hi
      · simp at hi
      · simp at hi
      · refine kmer_counting_filter_slide_reads_lt kmer_count_pattern text kmers_required n _ B
          ?_ ?_ i hi
        · simp only [hp.2, hd.2]
          omega
        · simp only [hp.1, hd.1]
          omega

/-- The reads of the filter from a state with both positions at 0, for a text of
at least 4 characters and a pattern of at least 5. -/
theorem kmer_counting_filter_reads_from (kmer_count_pattern : Nat → Nat) (text : List Nat)
    (text_length pattern_length kmers_required : Nat) (s0 : kmer_filter_state)
    (hL : 5 ≤ pattern_length) (htext : 4 ≤ text_length)
    (he : s0.end_pos = 0) (hb : s0.begin_pos = 0) :
    ∀ i ∈ kmer_counting_filter_fill_end_reads text 4 s0 ++
        kmer_counting_filter_load_reads kmer_count_pattern text kmers_required
          (min text_length pattern_length - (kmer_counting_filter_fill_end text 4 s0).end_pos)
          (kmer_counting_filter_fill_end text 4 s0) ++
        (match kmer_counting_filter_load kmer_count_pattern text kmers_required
            (min text_length pattern_length - (kmer_counting_filter_fill_end text 4 s0).end_pos)
            (kmer_counting_filter_fill_end text 4 s0) with
        | Sum.inl _ => []
        | Sum.inr s2 =>
          if s2.kmers_in_text ≥ kmers_required then []
          else if min text_length pattern_length = text_length then []
          else
            kmer_counting_filter_fill_begin_reads text 4 s2 ++
              kmer_counting_filter_slide_reads kmer_count_pattern text kmers_required
                (text_length - (kmer_counting_filter_fill_begin text 4 s2).end_pos)
                (kmer_counting_filter_fill_begin text 4 s2)),
      i < text_length := by
  intro i hi
  obtain ⟨f1, f2, f3⟩ := kmer_counting_filter_fill_end_pos text 4 s0
  rw [he] at f1 f3
  rw [hb] at f2
  rw [f1] at hi
  have hminle : min text_length pattern_length ≤ text_length := Nat.min_le_left _ _
  have hmin : 4 ≤ min text_length pattern_length := by
    rw [Nat.le_min]; omega
  rcases List.mem_append.mp hi with hi | hi
  · rcases List.mem_append.mp hi with hi | hi
    · have := f3 i hi
      omega
    · exact kmer_counting_filter_load_reads_lt kmer_count_pattern text kmers_required _ _
        text_length (by rw [f1]; omega) i hi
  · split at hi
    · simp at hi
    · rename_i s2 hs2
      obtain ⟨p1, p2⟩ := kmer_counting_filter_load_pos kmer_count_pattern text kmers_required
        _ _ s2 hs2
      rw [f1] at p1
      rw [f2] at p2
      split_ifs at hi with hreq hchunk
      · simp at hi
      · simp at hi
      · have hlt : pattern_length < text_length := by
          by_contra hge
          exact hchunk (Nat.min_eq_left (by omega))
        have hmin' : min text_length pattern_length = pattern_length :=
          Nat.min_eq_right (by omega)
        rw [hmin'] at p1
        obtain ⟨b1, b2, b3⟩ := kmer_counting_filter_fill_begin_pos text 4 s2
        rcases List.mem_append.mp hi with hi | hi
        · have := b3 i hi
          omega
        · exact kmer_counting_filter_slide_reads_lt kmer_count_pattern text kmers_required
            _ _ text_length (by rw [b1, b2]; omega) (by rw [b2]; omega) i hi

/-- For a text of at least 4 characters, a filter with a pattern of at least 5
characters reads the text inside its `text_length` characters only. -/
theorem kmer_counting_filter_reads_inside (kmer_counting : kmer_counting_t) (text : List Nat)
    (text_length max_error : Nat) (hL : 5 ≤ kmer_counting.pattern_length)
    (htext : 4 ≤ text_length) :
    ∀ i ∈ kmer_counting_filter_reads kmer_counting text text_length max_error,
      i < text_length := by
  intro i hi
  unfold kmer_counting_filter_reads at hi
  by_cases hen : (!kmer_counting.enabled) = true
  · rw [if_pos hen] at hi
    simp at hi
  · rw [if_neg hen] at hi
    dsimp only at hi
    by_cases herr : mul64 KMER_COUNTING_LENGTH max_error ≥
        sub64 kmer_counting.pattern_length (KMER_COUNTING_LENGTH - 1)
    · rw [if_pos herr] at hi
      simp at hi
    · rw [if_neg herr] at hi
      exact kmer_counting_filter_reads_from kmer_counting.kmer_count_pattern text text_length
        kmer_counting.pattern_length _ _ hL htext rfl rfl i hi

/-- C36 (code bug): the filter compiled for a pattern of 12 symbols, given a
text of 3 characters (`text_length = 3`) and `max_error = 1`, reads `text[0]`,
`text[1]`, `text[2]` and `text[3]` in its initial fill: the index 3 is not below
`text_length`; and for the empty text (`text_length = 0`) it reads the same four
indices.  (For `text_length >= 4` all reads are inside the text.) -/
theorem kmer_counting_filter_reads_short_text :
    example_kmer_counting.enabled = true ∧
    kmer_counting_filter_reads example_kmer_counting [0, 1, 2] 3 1 = [0, 1, 2, 3] ∧
    ¬ (3 < 3) ∧
    kmer_counting_filter example_kmer_counting [0, 1, 2] 3 1 = ALIGN_DISTANCE_INF ∧
    kmer_counting_filter_reads example_kmer_counting [] 0 1 = [0, 1, 2, 3] ∧
    (∀ (text : List Nat) (text_length max_error : Nat), 4 ≤ text_length →
      ∀ i ∈ kmer_counting_filter_reads example_kmer_counting text text_length max_error,
        i < text_length) := by
  refine ⟨by rfl, by rfl, by decide, by rfl, by rfl, ?_⟩
  intro text text_length max_error h4
  exact kmer_counting_filter_reads_inside example_kmer_counting text text_length max_error
    (by decide) h4
/-! ## The builder of the packed text: the order inside a block (C39) -/

/-- The bits of the mask that a symbol gets. -/
theorem cdna_bitwise_mask_testBit (b : Bool) (i : Nat) :
    (if b then (2 : Nat) ^ 63 else 0).testBit i = (b && decide (63 = i)) := by
  cases b
  · simp
  · simp only [if_true, Bool.true_and, Nat.testBit_two_pow]

/-- Writing the bit of the next symbol and shifting keeps the layer in the state
of a partial block. -/
theorem cdna_bitwise_layer_partial_step (w : Nat) (f : Nat → Bool) (k : Nat)
    (h : cdna_bitwise_layer_partial w f k) (hk : k < 63) :
    cdna_bitwise_layer_partial ((w ||| (if f k then 2 ^ 63 else 0)) >>> 1) f (k + 1) := by
  intro i
  rw [Nat.testBit_shiftRight, Nat.testBit_or, h (1 + i), cdna_bitwise_mask_testBit]
  rcases Nat.lt_trichotomy i 62 with hi | hi | hi
  · have e : 1 + i + k - 63 = i + (k + 1) - 63 := by omega
    rw [e, decide_eq_false (show ¬ (63 = 1 + i) by omega), Bool.and_false, Bool.or_false]
    by_cases hc : 63 ≤ i + (k + 1)
    · rw [decide_eq_true (show 63 ≤ 1 + i + k ∧ 1 + i < 63 by omega),
        decide_eq_true (show 63 ≤ i + (k + 1) ∧ i < 63 by omega)]
    · rw [decide_eq_false (show ¬ (63 ≤ 1 + i + k ∧ 1 + i < 63) by omega),
        decide_eq_false (show ¬ (63 ≤ i + (k + 1) ∧ i < 63) by omega)]
  · subst hi
    have e : 62 + (k + 1) - 63 = k := by omega
    rw [e, decide_eq_false (show ¬ (63 ≤ 1 + 62 + k ∧ 1 + 62 < 63) by omega),
      decide_eq_true (show 63 ≤ 62 + (k + 1) ∧ 62 < 63 by omega),
      decide_eq_true (show 63 = 1 + 62 by omega)]
    simp
  · rw [decide_eq_false (show ¬ (63 = 1 + i) by omega),
      decide_eq_false (show ¬ (63 ≤ 1 + i + k ∧ 1 + i < 63) by omega),
      decide_eq_false (show ¬ (63 ≤ i + (k + 1) ∧ i < 63) by omega)]
    simp

/-- Writing the bit of the 64th symbol completes the layer word of a full
block. -/
theorem cdna_bitwise_layer_partial_full (w : Nat) (f : Nat → Bool)
    (h : cdna_bitwise_layer_partial w f 63) :
    cdna_bitwise_layer_block (w ||| (if f 63 then 2 ^ 63 else 0)) f 64 := by
  intro i
  rw [Nat.testBit_or, h i, cdna_bitwise_mask_testBit]
  rcases Nat.lt_trichotomy i 63 with hi | hi | hi
  · have e : i + 63 - 63 = i := by omega
    rw [e, decide_eq_false (show ¬ (63 = i) by omega),
      decide_eq_true (show 63 ≤ i + 63 ∧ i < 63 by omega),
      decide_eq_true (show i < 64 by omega), decide_eq_false (show ¬ (64 ≤ i) by omega)]
    simp
  · subst hi
    rw [decide_eq_false (show ¬ (63 ≤ 63 + 63 ∧ 63 < 63) by omega),
      decide_eq_true (show 63 = 63 from rfl), decide_eq_true (show 63 < 64 by omega),
      decide_eq_false (show ¬ (64 ≤ 63) by omega)]
    simp
  · rw [decide_eq_false (show ¬ (63 = i) by omega),
      decide_eq_false (show ¬ (63 ≤ i + 63 ∧ i < 63) by omega),
      decide_eq_false (show ¬ (i < 64) by omega)]
    simp

/-- Writing the padding code once turns a partial block into a padded one. -/
theorem cdna_bitwise_layer_padded_first (w : Nat) (f : Nat → Bool) (k : Nat)
    (h : cdna_bitwise_layer_partial w f k) :
    cdna_bitwise_layer_padded (w ||| 2 ^ 63) f k 0 := by
  intro i
  rw [Nat.testBit_or, h i, Nat.testBit_two_pow]
  rcases Nat.lt_trichotomy i 63 with hi | hi | hi
  · have e : i + 0 + k - 63 = i + k - 63 := by omega
    rw [e, decide_eq_false (show ¬ (63 = i) by omega),
      decide_eq_false (show ¬ (63 ≤ i + 0 ∧ i ≤ 63) by omega)]
    by_cases hc : 63 ≤ i + k
    · rw [decide_eq_true (show 63 ≤ i + k ∧ i < 63 by omega),
        decide_eq_true (show 63 ≤ i + 0 + k ∧ i + 0 < 63 by omega)]
      simp
    · rw [decide_eq_false (show ¬ (63 ≤ i + k ∧ i < 63) by omega),
        decide_eq_false (show ¬ (63 ≤ i + 0 + k ∧ i + 0 < 63) by omega)]
      simp
  · subst hi
    rw [decide_eq_true (show 63 = 63 from rfl),
      decide_eq_true (show 63 ≤ 63 + 0 ∧ 63 ≤ 63 by omega)]
    simp
  · rw [decide_eq_false (show ¬ (63 = i) by omega),
      decide_eq_false (show ¬ (63 ≤ i + 0 ∧ i ≤ 63) by omega),
      decide_eq_false (show ¬ (63 ≤ i + k ∧ i < 63) by omega),
      decide_eq_false (show ¬ (63 ≤ i + 0 + k ∧ i + 0 < 63) by omega)]
    simp

/-- Shifting and writing the padding code once more keeps a padded block
padded. -/
theorem cdna_bitwise_layer_padded_step (w : Nat) (f : Nat → Bool) (k m : Nat)
    (h : cdna_bitwise_layer_padded w f k m) :
    cdna_bitwise_layer_padded ((w >>> 1) ||| 2 ^ 63) f k (m + 1) := by
  intro i
  rw [Nat.testBit_or, Nat.testBit_shiftRight, h (1 + i), Nat.testBit_two_pow]
  rcases Nat.lt_trichotomy i 63 with hi | hi | hi
  · have e : 1 + i + m + k - 63 = i + (m + 1) + k - 63 := by omega
    rw [e, decide_eq_false (show ¬ (63 = i) by omega), Bool.or_false]
    by_cases hc : 63 ≤ i + (m + 1)
    · rw [decide_eq_true (show 63 ≤ 1 + i + m ∧ 1 + i ≤ 63 by omega),
        decide_eq_true (show 63 ≤ i + (m + 1) ∧ i ≤ 63 by omega)]
      simp
    · rw [decide_eq_false (show ¬ (63 ≤ 1 + i + m ∧ 1 + i ≤ 63) by omega),
        decide_eq_false (show ¬ (63 ≤ i + (m + 1) ∧ i ≤ 63) by omega)]
      by_cases hd : 63 ≤ i + (m + 1) + k
      · rw [decide_eq_true (show 63 ≤ 1 + i + m + k ∧ 1 + i + m < 63 by omega),
          decide_eq_true (show 63 ≤ i + (m + 1) + k ∧ i + (m + 1) < 63 by omega)]
      · rw [decide_eq_false (show ¬ (63 ≤ 1 + i + m + k ∧ 1 + i + m < 63) by omega),
          decide_eq_false (show ¬ (63 ≤ i + (m + 1) + k ∧ i + (m + 1) < 63) by omega)]
  · subst hi
    rw [decide_eq_true (show 63 = 63 from rfl),
      decide_eq_true (show 63 ≤ 63 + (m + 1) ∧ 63 ≤ 63 by omega)]
    simp
  · rw [decide_eq_false (show ¬ (63 = i) by omega),
      decide_eq_false (show ¬ (63 ≤ 1 + i + m ∧ 1 + i ≤ 63) by omega),
      decide_eq_false (show ¬ (63 ≤ 1 + i + m + k ∧ 1 + i + m < 63) by omega),
      decide_eq_false (show ¬ (63 ≤ i + (m + 1) ∧ i ≤ 63) by omega),
      decide_eq_false (show ¬ (63 ≤ i + (m + 1) + k ∧ i + (m + 1) < 63) by omega)]
    simp

/-- A block padded up to 64 positions is the layer word. -/
theorem cdna_bitwise_layer_padded_full (w : Nat) (f : Nat → Bool) (k m : Nat)
    (h : cdna_bitwise_layer_padded w f k m) (hkm : k + m = 63) :
    cdna_bitwise_layer_block w f k := by
  intro i
  rw [h i]
  by_cases hi : i < 64
  · by_cases hki : k ≤ i
    · rw [decide_eq_true (show 63 ≤ i + m ∧ i ≤ 63 by omega), decide_eq_true hi,
        decide_eq_true hki]
      simp
    · have e : i + m + k - 63 = i := by omega
      rw [e, decide_eq_false (show ¬ (63 ≤ i + m ∧ i ≤ 63) by omega),
        decide_eq_true (show 63 ≤ i + m + k ∧ i + m < 63 by omega), decide_eq_true hi,
        decide_eq_false hki]
      simp
  · rw [decide_eq_false (show ¬ (63 ≤ i + m ∧ i ≤ 63) by omega),
      decide_eq_false (show ¬ (63 ≤ i + m + k ∧ i + m < 63) by omega), decide_eq_false hi]
    simp

/-- A layer word is a 64-bit value. -/
theorem cdna_bitwise_layer_block_lt (w : Nat) (f : Nat → Bool) (k : Nat)
    (h : cdna_bitwise_layer_block w f k) : w < 2 ^ 64 := by
  apply Nat.lt_pow_two_of_testBit
  intro i hi
  rw [h i, decide_eq_false (show ¬ (i < 64) by omega)]
  simp

/-- What the `switch` of `cdna_bitwise_text_builder_add_char` does for a valid
symbol, layer by layer. -/
theorem cdna_bitwise_text_builder_write_char_layers (t : cdna_bitwise_text_builder_t)
    (c : Nat) (hc : c ≤ 6) :
    cdna_bitwise_text_builder_write_char t c =
      some { t with
        layer_0 := t.layer_0 |||
          (if cdna_bitwise_text_builder_layer_bit 0 c then 2 ^ 63 else 0)
        layer_1 := t.layer_1 |||
          (if cdna_bitwise_text_builder_layer_bit 1 c then 2 ^ 63 else 0)
        layer_2 := t.layer_2 |||
          (if cdna_bitwise_text_builder_layer_bit 2 c then 2 ^ 63 else 0) } := by
  have h : c = 0 ∨ c = 1 ∨ c = 2 ∨ c = 3 ∨ c = 4 ∨ c = 5 ∨ c = 6 := by omega
  rcases h with h | h | h | h | h | h | h <;> subst h <;>
    simp [cdna_bitwise_text_builder_write_char, cdna_bitwise_text_builder_layer_bit,
      cdna_bitwise_text_builder_new, ENC_DNA_CHAR_A, ENC_DNA_CHAR_C, ENC_DNA_CHAR_G,
      ENC_DNA_CHAR_T, ENC_DNA_CHAR_N, ENC_DNA_CHAR_SEP, ENC_DNA_CHAR_JUMP,
      CDNA_BITWISE_WRITE_LAST_MASK]

/-- Adding a valid symbol to a block that stays open: the symbol is written and
the layers are shifted. -/
theorem cdna_bitwise_text_builder_add_char_open (t : cdna_bitwise_text_builder_t)
    (c : Nat) (hc : c ≤ 6) (hpos : t.position_mod64 < 63) :
    cdna_bitwise_text_builder_add_char t c =
      some { t with
        layer_0 := (t.layer_0 |||
          (if cdna_bitwise_text_builder_layer_bit 0 c then 2 ^ 63 else 0)) >>> 1
        layer_1 := (t.layer_1 |||
          (if cdna_bitwise_text_builder_layer_bit 1 c then 2 ^ 63 else 0)) >>> 1
        layer_2 := (t.layer_2 |||
          (if cdna_bitwise_text_builder_layer_bit 2 c then 2 ^ 63 else 0)) >>> 1
        position_mod64 := t.position_mod64 + 1 } := by
  unfold cdna_bitwise_text_builder_add_char
  rw [cdna_bitwise_text_builder_write_char_layers t c hc]
  have h1 : (t.position_mod64 + 1) % U64 = t.position_mod64 + 1 :=
    Nat.mod_eq_of_lt (by unfold U64; omega)
  simp only [h1, CDNA_BITWISE_BLOCK_CHARS]
  rw [if_neg (by omega)]

/-- Adding the 64th valid symbol of a block: the symbol is written and the block
is flushed. -/
theorem cdna_bitwise_text_builder_add_char_full (t : cdna_bitwise_text_builder_t)
    (c : Nat) (hc : c ≤ 6) (hpos : t.position_mod64 = 63) :
    cdna_bitwise_text_builder_add_char t c =
      some { layer_0 := 0, layer_1 := 0, layer_2 := 0, position_mod64 := 0
             written := t.written ++
               [t.layer_0 ||| (if cdna_bitwise_text_builder_layer_bit 0 c then 2 ^ 63 else 0),
                t.layer_1 ||| (if cdna_bitwise_text_builder_layer_bit 1 c then 2 ^ 63 else 0)]
             sparse_bitmap_builder := t.sparse_bitmap_builder ++
               [if t.layer_2 |||
                    (if cdna_bitwise_text_builder_layer_bit 2 c then 2 ^ 63 else 0) = 0
                then none
                else some (t.layer_2 |||
                  (if cdna_bitwise_text_builder_layer_bit 2 c then 2 ^ 63 else 0))] } := by
  unfold cdna_bitwise_text_builder_add_char
  rw [cdna_bitwise_text_builder_write_char_layers t c hc]
  have h1 : (t.position_mod64 + 1) % U64 = 64 := by
    rw [hpos]; rfl
  simp only [h1, CDNA_BITWISE_BLOCK_CHARS, if_true, cdna_bitwise_text_builder_flush]

/-- A sequence of additions splits at any point. -/
theorem cdna_bitwise_text_builder_add_chars_append :
    ∀ (a b : List Nat) (t t' : cdna_bitwise_text_builder_t),
      cdna_bitwise_text_builder_add_chars t a = some t' →
      cdna_bitwise_text_builder_add_chars t (a ++ b) =
        cdna_bitwise_text_builder_add_chars t' b
  | [], b, t, t', h => by
    simp only [cdna_bitwise_text_builder_add_chars, Option.some.injEq] at h
    subst h
    rfl
  | c :: a, b, t, t', h => by
    simp only [List.cons_append, cdna_bitwise_text_builder_add_chars] at h ⊢
    split at h
    · exact absurd h (by simp)
    · rename_i t1 h1
      exact cdna_bitwise_text_builder_add_chars_append a b t1 t' h

/-- Adding symbols to a block that stays open keeps each layer in the state of a
partial block, and writes nothing. -/
theorem cdna_bitwise_text_builder_add_chars_partial (f0 f1 f2 : Nat → Bool) :
    ∀ (rest : List Nat) (t : cdna_bitwise_text_builder_t) (k : Nat),
      k + rest.length ≤ 63 → t.position_mod64 = k →
      cdna_bitwise_layer_partial t.layer_0 f0 k →
      cdna_bitwise_layer_partial t.layer_1 f1 k →
      cdna_bitwise_layer_partial t.layer_2 f2 k →
      (∀ p, p < rest.length →
        f0 (k + p) = cdna_bitwise_text_builder_layer_bit 0 (rest.getD p 0) ∧
        f1 (k + p) = cdna_bitwise_text_builder_layer_bit 1 (rest.getD p 0) ∧
        f2 (k + p) = cdna_bitwise_text_builder_layer_bit 2 (rest.getD p 0)) →
      (∀ c ∈ rest, c ≤ 6) →
      ∃ t', cdna_bitwise_text_builder_add_chars t rest = some t' ∧
        t'.position_mod64 = k + rest.length ∧
        cdna_bitwise_layer_partial t'.layer_0 f0 (k + rest.length) ∧
        cdna_bitwise_layer_partial t'.layer_1 f1 (k + rest.length) ∧
        cdna_bitwise_layer_partial t'.layer_2 f2 (k + rest.length) ∧
        t'.written = t.written ∧ t'.sparse_bitmap_builder = t.sparse_bitmap_builder
  | [], t, k, _, hpos, h0, h1, h2, _, _ =>
    ⟨t, rfl, by simpa using hpos, by simpa using h0, by simpa using h1, by simpa using h2,
      rfl, rfl⟩
  | c :: rest, t, k, hk, hpos, h0, h1, h2, hf, hv => by
    have hc : c ≤ 6 := hv c (List.mem_cons_self _ _)
    have hfc := hf 0 (by simp)
    simp only [Nat.add_zero, List.getD_cons_zero] at hfc
    simp only [List.length_cons] at hk
    have hstep := cdna_bitwise_text_builder_add_char_open t c hc (by omega)
    simp only [cdna_bitwise_text_builder_add_chars, hstep]
    have ih := cdna_bitwise_text_builder_add_chars_partial f0 f1 f2 rest
      { t with
        layer_0 := (t.layer_0 |||
          (if cdna_bitwise_text_builder_layer_bit 0 c then 2 ^ 63 else 0)) >>> 1
        layer_1 := (t.layer_1 |||
          (if cdna_bitwise_text_builder_layer_bit 1 c then 2 ^ 63 else 0)) >>> 1
        layer_2 := (t.layer_2 |||
          (if cdna_bitwise_text_builder_layer_bit 2 c then 2 ^ 63 else 0)) >>> 1
        position_mod64 := t.position_mod64 + 1 } (k + 1) (by omega) (by simp [hpos])
      (by rw [← hfc.1]; exact cdna_bitwise_layer_partial_step _ f0 k h0 (by omega))
      (by rw [← hfc.2.1]; exact cdna_bitwise_layer_partial_step _ f1 k h1 (by omega))
      (by rw [← hfc.2.2]; exact cdna_bitwise_layer_partial_step _ f2 k h2 (by omega))
      (fun p hp => by
        have := hf (p + 1) (by simp; omega)
        simp only [List.getD_cons_succ] at this
        rw [show k + 1 + p = k + (p + 1) by omega]
        exact this)
      (fun x hx => hv x (List.mem_cons_of_mem _ hx))
    obtain ⟨t', e1, e2, e3, e4, e5, e6, e7⟩ := ih
    refine ⟨t', e1, ?_, ?_, ?_, ?_, e6, e7⟩
    · rw [e2]; simp only [List.length_cons]; omega
    · rw [show k + (c :: rest).length = k + 1 + rest.length by simp only [List.length_cons]; omega]
      exact e3
    · rw [show k + (c :: rest).length = k + 1 + rest.length by simp only [List.length_cons]; omega]
      exact e4
    · rw [show k + (c :: rest).length = k + 1 + rest.length by simp only [List.length_cons]; omega]
      exact e5

/-- The padding loop returns with `position_mod64 = 64`, writes nothing, and
leaves each layer as the layer word of the block. -/
theorem cdna_bitwise_text_builder_close_padding_spec (f0 f1 f2 : Nat → Bool) (k : Nat) :
    ∀ (fuel : Nat) (t : cdna_bitwise_text_builder_t) (m : Nat),
      k + m ≤ 63 → 63 ≤ k + m + fuel → t.position_mod64 = k + 1 + m →
      cdna_bitwise_layer_padded t.layer_0 f0 k m →
      cdna_bitwise_layer_padded t.layer_1 f1 k m →
      cdna_bitwise_layer_padded t.layer_2 f2 k m →
      ∃ t', cdna_bitwise_text_builder_close_padding fuel t = some t' ∧
        t'.position_mod64 = 64 ∧
        cdna_bitwise_layer_block t'.layer_0 f0 k ∧
        cdna_bitwise_layer_block t'.layer_1 f1 k ∧
        cdna_bitwise_layer_block t'.layer_2 f2 k ∧
        t'.written = t.written ∧ t'.sparse_bitmap_builder = t.sparse_bitmap_builder
  | 0, t, m, hkm, hfuel, hpos, h0, h1, h2 => by
    have hm : k + m = 63 := by omega
    refine ⟨t, ?_, by omega, cdna_bitwise_layer_padded_full _ f0 k m h0 hm,
      cdna_bitwise_layer_padded_full _ f1 k m h1 hm,
      cdna_bitwise_layer_padded_full _ f2 k m h2 hm, rfl, rfl⟩
    simp only [cdna_bitwise_text_builder_close_padding, CDNA_BITWISE_BLOCK_CHARS]
    rw [if_neg (by omega)]
  | fuel + 1, t, m, hkm, hfuel, hpos, h0, h1, h2 => by
    unfold cdna_bitwise_text_builder_close_padding
    simp only [CDNA_BITWISE_BLOCK_CHARS, CDNA_BITWISE_WRITE_LAST_MASK]
    by_cases hm : k + m = 63
    · rw [if_neg (by omega)]
      exact ⟨t, rfl, by omega, cdna_bitwise_layer_padded_full _ f0 k m h0 hm,
        cdna_bitwise_layer_padded_full _ f1 k m h1 hm,
        cdna_bitwise_layer_padded_full _ f2 k m h2 hm, rfl, rfl⟩
    · rw [if_pos (by omega)]
      have hp : (t.position_mod64 + 1) % U64 = k + 1 + (m + 1) := by
        rw [hpos]
        exact Nat.mod_eq_of_lt (by unfold U64; omega)
      obtain ⟨t', e1, e2, e3, e4, e5, e6, e7⟩ :=
        cdna_bitwise_text_builder_close_padding_spec f0 f1 f2 k fuel
          { t with
            layer_0 := (t.layer_0 >>> 1) ||| 2 ^ 63
            layer_1 := (t.layer_1 >>> 1) ||| 2 ^ 63
            layer_2 := (t.layer_2 >>> 1) ||| 2 ^ 63
            position_mod64 := (t.position_mod64 + 1) % U64 } (m + 1) (by omega) (by omega) hp
          (cdna_bitwise_layer_padded_step _ f0 k m h0)
          (cdna_bitwise_layer_padded_step _ f1 k m h1)
          (cdna_bitwise_layer_padded_step _ f2 k m h2)
      exact ⟨t', e1, e2, e3, e4, e5, e6, e7⟩

/-- Adding the symbols that complete a block of 64 writes the layer words of the
block and leaves an empty block. -/
theorem cdna_bitwise_text_builder_add_chars_full (f0 f1 f2 : Nat → Bool) :
    ∀ (rest : List Nat) (t : cdna_bitwise_text_builder_t) (k : Nat),
      k + rest.length = 64 → 1 ≤ rest.length → t.position_mod64 = k →
      cdna_bitwise_layer_partial t.layer_0 f0 k →
      cdna_bitwise_layer_partial t.layer_1 f1 k →
      cdna_bitwise_layer_partial t.layer_2 f2 k →
      (∀ p, p < rest.length →
        f0 (k + p) = cdna_bitwise_text_builder_layer_bit 0 (rest.getD p 0) ∧
        f1 (k + p) = cdna_bitwise_text_builder_layer_bit 1 (rest.getD p 0) ∧
        f2 (k + p) = cdna_bitwise_text_builder_layer_bit 2 (rest.getD p 0)) →
      (∀ c ∈ rest, c ≤ 6) →
      ∃ t' w0 w1 w2, cdna_bitwise_text_builder_add_chars t rest = some t' ∧
        t'.layer_0 = 0 ∧ t'.layer_1 = 0 ∧ t'.layer_2 = 0 ∧ t'.position_mod64 = 0 ∧
        t'.written = t.written ++ [w0, w1] ∧
        t'.sparse_bitmap_builder =
          t.sparse_bitmap_builder ++ [if w2 = 0 then none else some w2] ∧
        cdna_bitwise_layer_block w0 f0 64 ∧ cdna_bitwise_layer_block w1 f1 64 ∧
        cdna_bitwise_layer_block w2 f2 64
  | [], _, _, _, h1, _, _, _, _, _, _ => by simp at h1
  | [c], t, k, hk, _, hpos, h0, h1, h2, hf, hv => by
    have hc : c ≤ 6 := hv c (List.mem_cons_self _ _)
    have hk63 : k = 63 := by simpa using hk
    subst hk63
    have hfc := hf 0 (by simp)
    simp only [Nat.add_zero, List.getD_cons_zero] at hfc
    have hstep := cdna_bitwise_text_builder_add_char_full t c hc hpos
    have hadd : cdna_bitwise_text_builder_add_chars t [c] =
        cdna_bitwise_text_builder_add_char t c := by
      simp only [cdna_bitwise_text_builder_add_chars, hstep]
    refine ⟨_, _, _, _, hadd.trans hstep, rfl, rfl, rfl, rfl, rfl, rfl, ?_, ?_, ?_⟩
    · rw [← hfc.1]; exact cdna_bitwise_layer_partial_full _ f0 h0
    · rw [← hfc.2.1]; exact cdna_bitwise_layer_partial_full _ f1 h1
    · rw [← hfc.2.2]; exact cdna_bitwise_layer_partial_full _ f2 h2
  | c :: c2 :: rest, t, k, hk, _, hpos, h0, h1, h2, hf, hv => by
    have hc : c ≤ 6 := hv c (List.mem_cons_self _ _)
    have hfc := hf 0 (by simp)
    simp only [Nat.add_zero, List.getD_cons_zero] at hfc
    simp only [List.length_cons] at hk
    have hstep := cdna_bitwise_text_builder_add_char_open t c hc (by omega)
    have ih := cdna_bitwise_text_builder_add_chars_full f0 f1 f2 (c2 :: rest)
      { t with
        layer_0 := (t.layer_0 |||
          (if cdna_bitwise_text_builder_layer_bit 0 c then 2 ^ 63 else 0)) >>> 1
        layer_1 := (t.layer_1 |||
          (if cdna_bitwise_text_builder_layer_bit 1 c then 2 ^ 63 else 0)) >>> 1
        layer_2 := (t.layer_2 |||
          (if cdna_bitwise_text_builder_layer_bit 2 c then 2 ^ 63 else 0)) >>> 1
        position_mod64 := t.position_mod64 + 1 } (k + 1)
      (by simp only [List.length_cons]; omega) (by simp) (by simp [hpos])
      (by rw [← hfc.1]; exact cdna_bitwise_layer_partial_step _ f0 k h0 (by omega))
      (by rw [← hfc.2.1]; exact cdna_bitwise_layer_partial_step _ f1 k h1 (by omega))
      (by rw [← hfc.2.2]; exact cdna_bitwise_layer_partial_step _ f2 k h2 (by omega))
      (fun p hp => by
        have := hf (p + 1) (by simp only [List.length_cons] at hp ⊢; omega)
        simp only [List.getD_cons_succ] at this
        rw [show k + 1 + p = k + (p + 1) by omega]
        exact this)
      (fun x hx => hv x (List.mem_cons_of_mem _ hx))
    obtain ⟨t', w0, w1, w2, e1, e2⟩ := ih
    refine ⟨t', w0, w1, w2, ?_, e2⟩
    rw [← e1]
    conv_lhs => unfold cdna_bitwise_text_builder_add_chars
    rw [hstep]

/-- An empty layer is the layer of a partial block with no symbol. -/
theorem cdna_bitwise_layer_partial_zero (f : Nat → Bool) : cdna_bitwise_layer_partial 0 f 0 := by
  intro i
  rw [Nat.zero_testBit, decide_eq_false (show ¬ (63 ≤ i + 0 ∧ i < 63) by omega)]
  rfl

/-- Closing a builder whose block holds `k` symbols (`1 <= k <= 63`) pads the
block, writes its layer words and leaves an empty block. -/
theorem cdna_bitwise_text_builder_close_partial (f0 f1 f2 : Nat → Bool)
    (t : cdna_bitwise_text_builder_t) (k : Nat) (hk1 : 1 ≤ k) (hk : k ≤ 63)
    (hpos : t.position_mod64 = k)
    (h0 : cdna_bitwise_layer_partial t.layer_0 f0 k)
    (h1 : cdna_bitwise_layer_partial t.layer_1 f1 k)
    (h2 : cdna_bitwise_layer_partial t.layer_2 f2 k) :
    ∃ t' w0 w1 w2, cdna_bitwise_text_builder_close t = some t' ∧
      t'.layer_0 = 0 ∧ t'.layer_1 = 0 ∧ t'.layer_2 = 0 ∧ t'.position_mod64 = 0 ∧
      t'.written = t.written ++ [w0, w1] ∧
      t'.sparse_bitmap_builder =
        t.sparse_bitmap_builder ++ [if w2 = 0 then none else some w2] ∧
      cdna_bitwise_layer_block w0 f0 k ∧ cdna_bitwise_layer_block w1 f1 k ∧
      cdna_bitwise_layer_block w2 f2 k := by
  have hp : (t.position_mod64 + 1) % U64 = k + 1 + 0 := by
    rw [hpos]
    exact Nat.mod_eq_of_lt (by unfold U64; omega)
  obtain ⟨t2, e1, e2, e3, e4, e5, e6, e7⟩ :=
    cdna_bitwise_text_builder_close_padding_spec f0 f1 f2 k 64
      { t with
        layer_2 := t.layer_2 ||| 2 ^ 63
        layer_1 := t.layer_1 ||| 2 ^ 63
        layer_0 := t.layer_0 ||| 2 ^ 63
        position_mod64 := (t.position_mod64 + 1) % U64 } 0 (by omega) (by omega) hp
      (cdna_bitwise_layer_padded_first _ f0 k h0)
      (cdna_bitwise_layer_padded_first _ f1 k h1)
      (cdna_bitwise_layer_padded_first _ f2 k h2)
  refine ⟨cdna_bitwise_text_builder_flush t2, t2.layer_0, t2.layer_1, t2.layer_2, ?_, rfl, rfl,
    rfl, rfl, ?_, ?_, e3, e4, e5⟩
  · unfold cdna_bitwise_text_builder_close
    rw [if_pos (by omega)]
    simp only [CDNA_BITWISE_WRITE_LAST_MASK, CDNA_BITWISE_BLOCK_CHARS]
    rw [e1]
  · simp only [cdna_bitwise_text_builder_flush]
    rw [e6]
  · simp only [cdna_bitwise_text_builder_flush]
    rw [e7]

/-- Closing a builder whose block is empty does nothing. -/
theorem cdna_bitwise_text_builder_close_empty (t : cdna_bitwise_text_builder_t)
    (hpos : t.position_mod64 = 0) : cdna_bitwise_text_builder_close t = some t := by
  unfold cdna_bitwise_text_builder_close
  rw [if_neg (by omega)]

/-- The consequences of the description of a layer word that the claim names. -/
theorem cdna_bitwise_layer_block_bits (w : Nat) (f : Nat → Bool) (k : Nat)
    (h : cdna_bitwise_layer_block w f k) (hk : k ≤ 64) :
    (∀ p, p < k → w.testBit p = f p) ∧ (∀ p, k ≤ p → p < 64 → w.testBit p = true) ∧
      w < 2 ^ 64 := by
  refine ⟨?_, ?_, cdna_bitwise_layer_block_lt w f k h⟩
  · intro p hp
    rw [h p, decide_eq_true (show p < 64 by omega), decide_eq_false (show ¬ (k ≤ p) by omega)]
    simp
  · intro p hp1 hp2
    rw [h p, decide_eq_true hp2, decide_eq_true hp1]
    simp

/-- What the addition of the 64th symbol of a block leaves. -/
theorem cdna_bitwise_text_builder_add_char_full_count (t : cdna_bitwise_text_builder_t)
    (c : Nat) (hc : c ≤ 6) (hpos : t.position_mod64 = 63) :
    ∃ t1 w0 w1, cdna_bitwise_text_builder_add_char t c = some t1 ∧
      t1.position_mod64 = 0 ∧ t1.layer_0 = 0 ∧ t1.layer_1 = 0 ∧ t1.layer_2 = 0 ∧
      t1.written = t.written ++ [w0, w1] ∧
      t1.sparse_bitmap_builder.length = t.sparse_bitmap_builder.length + 1 :=
  ⟨_, _, _, cdna_bitwise_text_builder_add_char_full t c hc hpos, rfl, rfl, rfl, rfl, rfl,
    by simp⟩

/-- What the addition of a symbol to a block that stays open leaves. -/
theorem cdna_bitwise_text_builder_add_char_open_count (t : cdna_bitwise_text_builder_t)
    (c : Nat) (hc : c ≤ 6) (hpos : t.position_mod64 < 63) :
    ∃ t1, cdna_bitwise_text_builder_add_char t c = some t1 ∧
      t1.position_mod64 = t.position_mod64 + 1 ∧ t1.written = t.written ∧
      t1.sparse_bitmap_builder = t.sparse_bitmap_builder :=
  ⟨_, cdna_bitwise_text_builder_add_char_open t c hc hpos, rfl, rfl, rfl⟩

/-- The number of words that a sequence of additions writes, and the state of
the block it leaves. -/
theorem cdna_bitwise_text_builder_add_chars_count :
    ∀ (rest : List Nat) (t : cdna_bitwise_text_builder_t),
      t.position_mod64 < 64 → (∀ c ∈ rest, c ≤ 6) →
      (t.position_mod64 = 0 → t.layer_0 = 0 ∧ t.layer_1 = 0 ∧ t.layer_2 = 0) →
      ∃ t' more, cdna_bitwise_text_builder_add_chars t rest = some t' ∧
        t'.position_mod64 = (t.position_mod64 + rest.length) % 64 ∧
        t'.written = t.written ++ more ∧
        more.length = 2 * ((t.position_mod64 + rest.length) / 64) ∧
        t'.sparse_bitmap_builder.length =
          t.sparse_bitmap_builder.length + (t.position_mod64 + rest.length) / 64 ∧
        (t'.position_mod64 = 0 → t'.layer_0 = 0 ∧ t'.layer_1 = 0 ∧ t'.layer_2 = 0)
  | [], t, hpos, _, hz => by
    refine ⟨t, [], rfl, ?_, by simp, ?_, ?_, hz⟩
    · simp only [List.length_nil, Nat.add_zero]
      exact (Nat.mod_eq_of_lt hpos).symm
    · simp only [List.length_nil, Nat.add_zero]
      omega
    · simp only [List.length_nil, Nat.add_zero]
      omega
  | c :: rest, t, hpos, hv, hz => by
    have hc : c ≤ 6 := hv c (List.mem_cons_self _ _)
    by_cases h63 : t.position_mod64 = 63
    · obtain ⟨t1, w0, w1, hstep, p1, z0, z1, z2, hw, hs⟩ :=
        cdna_bitwise_text_builder_add_char_full_count t c hc h63
      obtain ⟨t', more, e1, e2, e3, e4, e5, e6⟩ :=
        cdna_bitwise_text_builder_add_chars_count rest t1 (by omega)
          (fun x hx => hv x (List.mem_cons_of_mem _ hx)) (fun _ => ⟨z0, z1, z2⟩)
      refine ⟨t', [w0, w1] ++ more, ?_, ?_, ?_, ?_, ?_, e6⟩
      · simp only [cdna_bitwise_text_builder_add_chars, hstep]
        exact e1
      · rw [e2, p1]
        simp only [List.length_cons, h63]
        omega
      · rw [e3, hw]
        simp only [List.append_assoc]
      · simp only [List.length_append, List.length_cons, List.length_nil, e4, h63, p1]
        omega
      · rw [e5, hs, p1]
        simp only [List.length_cons, h63]
        omega
    · obtain ⟨t1, hstep, p1, hw, hs⟩ :=
        cdna_bitwise_text_builder_add_char_open_count t c hc (by omega)
      obtain ⟨t', more, e1, e2, e3, e4, e5, e6⟩ :=
        cdna_bitwise_text_builder_add_chars_count rest t1 (by omega)
          (fun x hx => hv x (List.mem_cons_of_mem _ hx))
          (fun h0 => absurd h0 (by omega))
      refine ⟨t', more, ?_, ?_, ?_, ?_, ?_, e6⟩
      · simp only [cdna_bitwise_text_builder_add_chars, hstep]
        exact e1
      · rw [e2, p1]
        simp only [List.length_cons]
        congr 1
        omega
      · rw [e3, hw]
      · rw [e4, p1]
        simp only [List.length_cons]
        congr 2
        omega
      · rw [e5, hs, p1]
        simp only [List.length_cons]
        congr 2
        omega

/-- Closing a builder whose block is not full returns, writes one pair of words
when the block holds a symbol, and leaves an empty block. -/
theorem cdna_bitwise_text_builder_close_count (t : cdna_bitwise_text_builder_t)
    (hpos : t.position_mod64 < 64)
    (hz : t.position_mod64 = 0 → t.layer_0 = 0 ∧ t.layer_1 = 0 ∧ t.layer_2 = 0) :
    ∃ t' more, cdna_bitwise_text_builder_close t = some t' ∧
      t'.layer_0 = 0 ∧ t'.layer_1 = 0 ∧ t'.layer_2 = 0 ∧ t'.position_mod64 = 0 ∧
      t'.written = t.written ++ more ∧
      more.length = (if t.position_mod64 > 0 then 2 else 0) ∧
      t'.sparse_bitmap_builder.length =
        t.sparse_bitmap_builder.length + (if t.position_mod64 > 0 then 1 else 0) := by
  by_cases h0 : t.position_mod64 = 0
  · obtain ⟨z0, z1, z2⟩ := hz h0
    refine ⟨t, [], cdna_bitwise_text_builder_close_empty t h0, z0, z1, z2, h0, by simp, ?_, ?_⟩
    · rw [if_neg (by omega)]; rfl
    · rw [if_neg (by omega)]; rfl
  · have hp : (t.position_mod64 + 1) % U64 = t.position_mod64 + 1 :=
      Nat.mod_eq_of_lt (by unfold U64; omega)
    have hpad : ∀ (fuel : Nat) (s : cdna_bitwise_text_builder_t),
        s.position_mod64 ≤ 64 → 64 ≤ s.position_mod64 + fuel →
        ∃ s', cdna_bitwise_text_builder_close_padding fuel s = some s' ∧
          s'.written = s.written ∧ s'.sparse_bitmap_builder = s.sparse_bitmap_builder := by
      intro fuel
      induction fuel with
      | zero =>
        intro s h1 h2
        refine ⟨s, ?_, rfl, rfl⟩
        simp only [cdna_bitwise_text_builder_close_padding, CDNA_BITWISE_BLOCK_CHARS]
        rw [if_neg (by omega)]
      | succ fuel ih =>
        intro s h1 h2
        unfold cdna_bitwise_text_builder_close_padding
        simp only [CDNA_BITWISE_BLOCK_CHARS]
        by_cases h64 : s.position_mod64 = 64
        · rw [if_neg (by omega)]
          exact ⟨s, rfl, rfl, rfl⟩
        · rw [if_pos h64]
          have hs : (s.position_mod64 + 1) % U64 = s.position_mod64 + 1 :=
            Nat.mod_eq_of_lt (by unfold U64; omega)
          obtain ⟨s', e1, e2, e3⟩ := ih
            { s with
              layer_0 := (s.layer_0 >>> 1) ||| CDNA_BITWISE_WRITE_LAST_MASK
              layer_1 := (s.layer_1 >>> 1) ||| CDNA_BITWISE_WRITE_LAST_MASK
              layer_2 := (s.layer_2 >>> 1) ||| CDNA_BITWISE_WRITE_LAST_MASK
              position_mod64 := (s.position_mod64 + 1) % U64 }
            (by simp only [hs]; omega) (by simp only [hs]; omega)
          exact ⟨s', e1, e2, e3⟩
    obtain ⟨s', e1, e2, e3⟩ := hpad 64
      { t with
        layer_2 := t.layer_2 ||| CDNA_BITWISE_WRITE_LAST_MASK
        layer_1 := t.layer_1 ||| CDNA_BITWISE_WRITE_LAST_MASK
        layer_0 := t.layer_0 ||| CDNA_BITWISE_WRITE_LAST_MASK
        position_mod64 := (t.position_mod64 + 1) % U64 }
      (by simp only [hp]; omega) (by omega)
    refine ⟨cdna_bitwise_text_builder_flush s', [s'.layer_0, s'.layer_1], ?_, rfl, rfl, rfl,
      rfl, ?_, ?_, ?_⟩
    · unfold cdna_bitwise_text_builder_close
      rw [if_pos (by omega)]
      simp only [CDNA_BITWISE_BLOCK_CHARS]
      rw [e1]
    · simp only [cdna_bitwise_text_builder_flush]
      rw [e2]
    · rw [if_pos (by omega)]; rfl
    · simp only [cdna_bitwise_text_builder_flush, List.length_append, List.length_cons,
        List.length_nil]
      rw [e3, if_pos (by omega)]

/-- The header that `cdna_bitwise_text_builder_new` writes, for a text length
that fits `uint64_t`. -/
theorem cdna_bitwise_text_builder_new_written (text_length : Nat) (h : text_length < 2 ^ 64) :
    (cdna_bitwise_text_builder_new text_length).written =
      [text_length, 16 * ((text_length + 63) / 64)] := by
  have h1 : mul64 ((text_length + 63) / 64) 2 = (text_length + 63) / 64 * 2 :=
    mul64_of_lt _ _ (by unfold U64; omega)
  have h2 : mul64 ((text_length + 63) / 64 * 2) 8 = (text_length + 63) / 64 * 2 * 8 :=
    mul64_of_lt _ _ (by unfold U64; omega)
  have h3 : text_length % U64 = text_length := Nat.mod_eq_of_lt (by unfold U64; omega)
  simp only [cdna_bitwise_text_builder_new, h1, h2, h3]
  congr 2
  omega

/-- The block of a builder after `block` has been added to an empty block and
the block has been written. -/
theorem cdna_bitwise_text_builder_block (cdna_text : cdna_bitwise_text_builder_t)
    (block : List Nat) (hpos : cdna_text.position_mod64 = 0)
    (h0 : cdna_text.layer_0 = 0) (h1 : cdna_text.layer_1 = 0) (h2 : cdna_text.layer_2 = 0)
    (hk1 : 1 ≤ block.length) (hk : block.length ≤ 64) (hvalid : ∀ c ∈ block, c ≤ 6) :
    ∃ filled closed w0 w1 w2,
      cdna_bitwise_text_builder_add_chars cdna_text block = some filled ∧
      cdna_bitwise_text_builder_close filled = some closed ∧
      (block.length = 64 → closed = filled) ∧
      (block.length < 64 → filled.written = cdna_text.written ∧
        filled.sparse_bitmap_builder = cdna_text.sparse_bitmap_builder) ∧
      closed.layer_0 = 0 ∧ closed.layer_1 = 0 ∧ closed.layer_2 = 0 ∧
      closed.position_mod64 = 0 ∧
      closed.written = cdna_text.written ++ [w0, w1] ∧
      closed.sparse_bitmap_builder =
        cdna_text.sparse_bitmap_builder ++ [if w2 = 0 then none else some w2] ∧
      cdna_bitwise_layer_block w0
        (fun p => cdna_bitwise_text_builder_layer_bit 0 (block.getD p 0)) block.length ∧
      cdna_bitwise_layer_block w1
        (fun p => cdna_bitwise_text_builder_layer_bit 1 (block.getD p 0)) block.length ∧
      cdna_bitwise_layer_block w2
        (fun p => cdna_bitwise_text_builder_layer_bit 2 (block.getD p 0)) block.length := by
  have hz0 : cdna_bitwise_layer_partial cdna_text.layer_0
      (fun p => cdna_bitwise_text_builder_layer_bit 0 (block.getD p 0)) 0 := by
    rw [h0]; exact cdna_bitwise_layer_partial_zero _
  have hz1 : cdna_bitwise_layer_partial cdna_text.layer_1
      (fun p => cdna_bitwise_text_builder_layer_bit 1 (block.getD p 0)) 0 := by
    rw [h1]; exact cdna_bitwise_layer_partial_zero _
  have hz2 : cdna_bitwise_layer_partial cdna_text.layer_2
      (fun p => cdna_bitwise_text_builder_layer_bit 2 (block.getD p 0)) 0 := by
    rw [h2]; exact cdna_bitwise_layer_partial_zero _
  have hf : ∀ p, p < block.length →
      (fun p => cdna_bitwise_text_builder_layer_bit 0 (block.getD p 0)) (0 + p) =
        cdna_bitwise_text_builder_layer_bit 0 (block.getD p 0) ∧
      (fun p => cdna_bitwise_text_builder_layer_bit 1 (block.getD p 0)) (0 + p) =
        cdna_bitwise_text_builder_layer_bit 1 (block.getD p 0) ∧
      (fun p => cdna_bitwise_text_builder_layer_bit 2 (block.getD p 0)) (0 + p) =
        cdna_bitwise_text_builder_layer_bit 2 (block.getD p 0) := by
    intro p _
    simp only [Nat.zero_add, and_self]
  by_cases h64 : block.length = 64
  · obtain ⟨t', w0, w1, w2, e1, z0, z1, z2, p0, ew, es, b0, b1, b2⟩ :=
      cdna_bitwise_text_builder_add_chars_full _ _ _ block cdna_text 0 (by omega) hk1 hpos
        hz0 hz1 hz2 hf hvalid
    rw [h64]
    exact ⟨t', t', w0, w1, w2, e1, cdna_bitwise_text_builder_close_empty t' p0, fun _ => rfl,
      fun h => absurd h (by omega), z0, z1, z2, p0, ew, es, b0, b1, b2⟩
  · obtain ⟨t', e1, p1, l0, l1, l2, ew, es⟩ :=
      cdna_bitwise_text_builder_add_chars_partial _ _ _ block cdna_text 0 (by omega) hpos
        hz0 hz1 hz2 hf hvalid
    rw [Nat.zero_add] at p1 l0 l1 l2
    obtain ⟨t2, w0, w1, w2, c1, z0, z1, z2, p0, cw, cs, b0, b1, b2⟩ :=
      cdna_bitwise_text_builder_close_partial _ _ _ t' block.length hk1 (by omega) p1 l0 l1 l2
    refine ⟨t', t2, w0, w1, w2, e1, c1, fun h => absurd h h64, fun _ => ⟨ew, es⟩, z0, z1, z2,
      p0, ?_, ?_, b0, b1, b2⟩
    · rw [cw, ew]
    · rw [cs, es]

/-- The words written for a whole text: after the symbols of `text` have been
added to a new builder and the builder has been closed. -/
theorem cdna_bitwise_text_builder_text_count (text : List Nat)
    (hlen : text.length < 2 ^ 64) (hvalid : ∀ c ∈ text, c ≤ 6) :
    ∃ filled closed words,
      cdna_bitwise_text_builder_add_chars (cdna_bitwise_text_builder_new text.length) text =
        some filled ∧
      cdna_bitwise_text_builder_close filled = some closed ∧
      closed.written = [text.length, 16 * ((text.length + 63) / 64)] ++ words ∧
      words.length = 2 * ((text.length + 63) / 64) ∧
      closed.sparse_bitmap_builder.length = (text.length + 63) / 64 ∧
      closed.layer_0 = 0 ∧ closed.layer_1 = 0 ∧ closed.layer_2 = 0 ∧
      closed.position_mod64 = 0 := by
  obtain ⟨t', more, e1, e2, e3, e4, e5, e6⟩ :=
    cdna_bitwise_text_builder_add_chars_count text (cdna_bitwise_text_builder_new text.length)
      (by simp [cdna_bitwise_text_builder_new]) hvalid (fun _ => ⟨rfl, rfl, rfl⟩)
  have hp0 : (cdna_bitwise_text_builder_new text.length).position_mod64 = 0 := rfl
  have hs0 : (cdna_bitwise_text_builder_new text.length).sparse_bitmap_builder.length = 0 := rfl
  rw [hp0, Nat.zero_add] at e2 e4 e5
  rw [hs0, Nat.zero_add] at e5
  rw [cdna_bitwise_text_builder_new_written text.length hlen] at e3
  obtain ⟨t2, more2, c1, z0, z1, z2, p0, cw, cl, cs⟩ :=
    cdna_bitwise_text_builder_close_count t' (by rw [e2]; exact Nat.mod_lt _ (by omega)) e6
  refine ⟨t', t2, more ++ more2, e1, c1, ?_, ?_, ?_, z0, z1, z2, p0⟩
  · rw [cw, e3, List.append_assoc]
  · rw [List.length_append, e4, cl, e2]
    split <;> omega
  · rw [cs, e5, e2]
    split <;> omega

/-- C39: the packed-text builder keeps text order inside each block of
64 symbols.  When the symbols of `block` (from 1 to 64 of them, all valid) are
added to a builder whose block is empty, and the builder is closed, both steps
return; with 64 symbols the block is written by the 64th addition and the close
changes nothing, with fewer nothing is written before the close.  One pair
`(w0, w1)` of layer words is appended to the written words and the third layer
word `w2` to the sparse bitmap (as an absent word when it is zero); bit `p` of
each layer word is the bit that `cdna_bitwise_text_builder_add_char` writes into
that layer for the symbol `p` of the block, for every `p` below the number of
symbols; the positions from that number up to 63 are set in all three layers
(the padding code); the words fit 64 bits; and the layers and `position_mod64`
of the builder are 0 afterwards.  After the symbols of a whole text, of a length
that fits `uint64_t`, have been added to a new builder and the builder has been
closed, the written words are the header (the text length and a text size of
`16 * ceil(length / 64)` bytes) followed by exactly `2 * ceil(length / 64)`
layer words of 8 bytes, that is `ceil(length / 64)` pairs, and the sparse bitmap
has received `ceil(length / 64)` words. -/
theorem cdna_bitwise_text_builder_block_order (cdna_text : cdna_bitwise_text_builder_t)
    (block text : List Nat)
    (hempty : cdna_text.position_mod64 = 0 ∧ cdna_text.layer_0 = 0 ∧
      cdna_text.layer_1 = 0 ∧ cdna_text.layer_2 = 0)
    (hblock : 1 ≤ block.length ∧ block.length ≤ 64)
    (hvalid : ∀ c ∈ block ++ text, c ≤ ENC_DNA_CHAR_JUMP)
    (hlen : text.length < 2 ^ 64) :
    (∃ filled closed w0 w1 w2,
      cdna_bitwise_text_builder_add_chars cdna_text block = some filled ∧
      cdna_bitwise_text_builder_close filled = some closed ∧
      (block.length = 64 → closed = filled) ∧
      (block.length < 64 → filled.written = cdna_text.written ∧
        filled.sparse_bitmap_builder = cdna_text.sparse_bitmap_builder) ∧
      closed.written = cdna_text.written ++ [w0, w1] ∧
      closed.sparse_bitmap_builder =
        cdna_text.sparse_bitmap_builder ++ [if w2 = 0 then none else some w2] ∧
      (∀ p, p < block.length →
        w0.testBit p = cdna_bitwise_text_builder_layer_bit 0 (block.getD p 0) ∧
        w1.testBit p = cdna_bitwise_text_builder_layer_bit 1 (block.getD p 0) ∧
        w2.testBit p = cdna_bitwise_text_builder_layer_bit 2 (block.getD p 0)) ∧
      (∀ p, block.length ≤ p → p < 64 →
        w0.testBit p = true ∧ w1.testBit p = true ∧ w2.testBit p = true) ∧
      w0 < 2 ^ 64 ∧ w1 < 2 ^ 64 ∧ w2 < 2 ^ 64 ∧
      closed.layer_0 = 0 ∧ closed.layer_1 = 0 ∧ closed.layer_2 = 0 ∧
      closed.position_mod64 = 0) ∧
    (∃ filled closed words,
      cdna_bitwise_text_builder_add_chars (cdna_bitwise_text_builder_new text.length) text =
        some filled ∧
      cdna_bitwise_text_builder_close filled = some closed ∧
      closed.written = [text.length, 16 * ((text.length + 63) / 64)] ++ words ∧
      words.length = 2 * ((text.length + 63) / 64) ∧
      closed.sparse_bitmap_builder.length = (text.length + 63) / 64 ∧
      closed.layer_0 = 0 ∧ closed.layer_1 = 0 ∧ closed.layer_2 = 0 ∧
      closed.position_mod64 = 0) := by
  have hv1 : ∀ c ∈ block, c ≤ 6 := fun c hc => hvalid c (List.mem_append_left _ hc)
  have hv2 : ∀ c ∈ text, c ≤ 6 := fun c hc => hvalid c (List.mem_append_right _ hc)
  refine ⟨?_, cdna_bitwise_text_builder_text_count text hlen hv2⟩
  obtain ⟨filled, closed, w0, w1, w2, e1, e2, e3, e4, z0, z1, z2, p0, ew, es, b0, b1, b2⟩ :=
    cdna_bitwise_text_builder_block cdna_text block hempty.1 hempty.2.1 hempty.2.2.1
      hempty.2.2.2 hblock.1 hblock.2 hv1
  obtain ⟨a0, c0, d0⟩ := cdna_bitwise_layer_block_bits w0 _ _ b0 hblock.2
  obtain ⟨a1, c1, d1⟩ := cdna_bitwise_layer_block_bits w1 _ _ b1 hblock.2
  obtain ⟨a2, c2, d2⟩ := cdna_bitwise_layer_block_bits w2 _ _ b2 hblock.2
  exact ⟨filled, closed, w0, w1, w2, e1, e2, e3, e4, ew, es,
    fun p hp => ⟨a0 p hp, a1 p hp, a2 p hp⟩,
    fun p hp1 hp2 => ⟨c0 p hp1 hp2, c1 p hp1 hp2, c2 p hp1 hp2⟩, d0, d1, d2, z0, z1, z2, p0⟩

/-- The claim C39 on the block `A C N` and the text `A C N`: the layer words are
`2^64 - 6`, `2^64 - 8` and `2^64 - 4`, and one pair of words follows the header
`3, 16`. -/
theorem cdna_bitwise_text_builder_block_order_witness :
    (cdna_bitwise_text_builder_add_chars (cdna_bitwise_text_builder_new 3)
        example_cdna_block).bind cdna_bitwise_text_builder_close =
      some { layer_0 := 0, layer_1 := 0, layer_2 := 0, position_mod64 := 0
             written := [3, 16, 2 ^ 64 - 8 + 2, 2 ^ 64 - 8]
             sparse_bitmap_builder := [some (2 ^ 64 - 8 + 4)] } ∧
    ∃ (filled closed : cdna_bitwise_text_builder_t) (w0 w1 w2 : Nat),
      cdna_bitwise_text_builder_add_chars (cdna_bitwise_text_builder_new 3)
        example_cdna_block = some filled ∧
      cdna_bitwise_text_builder_close filled = some closed ∧
      closed.written = [3, 16] ++ [w0, w1] ∧
      (∀ p, p < 3 →
        w0.testBit p = cdna_bitwise_text_builder_layer_bit 0 (example_cdna_block.getD p 0) ∧
        w1.testBit p = cdna_bitwise_text_builder_layer_bit 1 (example_cdna_block.getD p 0) ∧
        w2.testBit p = cdna_bitwise_text_builder_layer_bit 2 (example_cdna_block.getD p 0)) ∧
      (∀ p, 3 ≤ p → p < 64 →
        w0.testBit p = true ∧ w1.testBit p = true ∧ w2.testBit p = true) := by
  refine ⟨by decide, ?_⟩
  obtain ⟨⟨filled, closed, w0, w1, w2, e1, e2, _, _, ew, _, hb, hp, _⟩, _⟩ :=
    cdna_bitwise_text_builder_block_order (cdna_bitwise_text_builder_new 3) example_cdna_block
      example_cdna_block ⟨rfl, rfl, rfl, rfl⟩ ⟨by decide, by decide⟩ (by decide) (by decide)
  exact ⟨filled, closed, w0, w1, w2, e1, e2, ew, hb, hp⟩
/-! ## region_profile_adaptive.c: the steps that follow a cut-point (C24) -/

/-- On a well-formed index that narrows, a rank query keeps the interval in
order and does not raise the number of candidates. -/
theorem region_profile_query_character_narrowing (g : region_profile_generator_t) (c : Nat)
    (hwf : fm_index_well_formed g.fm_index) (hnarrow : fm_index_narrowing g.fm_index)
    (hinv : generator_narrowing_inv g) :
    generator_narrowing_inv (region_profile_query_character g c) ∧
    sub64 (region_profile_query_character g c).hi (region_profile_query_character g c).lo ≤
      sub64 g.hi g.lo ∧
    (region_profile_query_character g c).fm_index = g.fm_index := by
  obtain ⟨hlo, hhi, htab⟩ := hinv
  obtain ⟨w1, w2, w3⟩ := hwf
  obtain ⟨_, n1, n2⟩ := hnarrow
  have hcnt : sub64 g.hi g.lo = g.hi - g.lo := sub64_of_le g.hi g.lo hlo hhi
  unfold region_profile_query_character
  by_cases hex : rank_mquery_is_exhausted g.rank_mquery = true
  · rw [if_pos hex]
    have h1 : g.fm_index.bwt c g.lo ≤ g.fm_index.bwt c g.hi := w2 c g.lo g.hi hlo
    have h2 : g.fm_index.bwt c g.hi < U64 := w3 c g.hi hhi
    have h3 : g.fm_index.bwt c g.lo % U64 = g.fm_index.bwt c g.lo :=
      Nat.mod_eq_of_lt (lt_of_le_of_lt h1 h2)
    have h4 : g.fm_index.bwt c g.hi % U64 = g.fm_index.bwt c g.hi := Nat.mod_eq_of_lt h2
    have h5 := n2 c g.lo g.hi hlo
    refine ⟨⟨?_, ?_, ?_⟩, ?_, rfl⟩
    · simp only [h3, h4]; exact h1
    · simp only [h4]; exact h2
    · intro hne
      simp only [hex] at hne
      exact absurd hne (by simp)
    · simp only [h3, h4]
      rw [sub64_of_le _ _ h1 h2, hcnt]
      exact h5
  · have hex' : rank_mquery_is_exhausted g.rank_mquery = false := by simpa using hex
    rw [if_neg hex]
    have ht := w1 (c :: g.rank_mquery.chars)
    have h3 : (g.fm_index.rank_table (c :: g.rank_mquery.chars)).1 % U64 =
        (g.fm_index.rank_table (c :: g.rank_mquery.chars)).1 :=
      Nat.mod_eq_of_lt (lt_of_le_of_lt ht.1 ht.2)
    have h4 : (g.fm_index.rank_table (c :: g.rank_mquery.chars)).2 % U64 =
        (g.fm_index.rank_table (c :: g.rank_mquery.chars)).2 := Nat.mod_eq_of_lt ht.2
    have h5 := n1 c g.rank_mquery.chars
    have h6 := htab hex'
    refine ⟨⟨?_, ?_, ?_⟩, ?_, rfl⟩
    · simp only [rank_mquery_add_char, h3, h4]; exact ht.1
    · simp only [rank_mquery_add_char, h4]; exact ht.2
    · intro _
      simp only [rank_mquery_add_char, h3, h4]
      exact le_rfl
    · simp only [rank_mquery_add_char, h3, h4]
      rw [sub64_of_le _ _ ht.1 ht.2, hcnt]
      omega

/-- On a well-formed index that narrows, a restart leaves an interval in order
that has all the candidates of the empty query. -/
theorem region_profile_generator_restart_narrowing (g : region_profile_generator_t)
    (hnarrow : fm_index_narrowing g.fm_index) :
    generator_narrowing_inv (region_profile_generator_restart g) ∧
    (region_profile_generator_restart g).fm_index = g.fm_index := by
  have hU : 0 < U64 := by unfold U64; omega
  refine ⟨⟨Nat.zero_le _, Nat.mod_lt _ hU, fun _ => ?_⟩, rfl⟩
  simp only [region_profile_generator_restart, rank_mquery_new, Nat.sub_zero]
  exact hnarrow.1

/-- Whatever `region_profile_generator_add_character` returns keeps the index,
and its interval is that of the generator or that of a restart. -/
theorem region_profile_generator_add_character_narrowing (g : region_profile_generator_t)
    (pm : region_profile_model_t) (r : Bool × region_profile_generator_t)
    (hnarrow : fm_index_narrowing g.fm_index) (hinv : generator_narrowing_inv g)
    (hr : region_profile_generator_add_character g pm = some r) :
    generator_narrowing_inv r.2 ∧ r.2.fm_index = g.fm_index := by
  have hrestart : ∀ q : region_profile_generator_t, q.fm_index = g.fm_index →
      generator_narrowing_inv (region_profile_generator_restart q) ∧
      (region_profile_generator_restart q).fm_index = g.fm_index := by
    intro q hq
    have := region_profile_generator_restart_narrowing q (by rw [hq]; exact hnarrow)
    exact ⟨this.1, this.2.trans hq⟩
  have hkeep : ∀ q : region_profile_generator_t, q.fm_index = g.fm_index → q.lo = g.lo →
      q.hi = g.hi → q.rank_mquery = g.rank_mquery →
      generator_narrowing_inv q ∧ q.fm_index = g.fm_index := by
    intro q h1 h2 h3 h4
    refine ⟨?_, h1⟩
    unfold generator_narrowing_inv
    rw [h1, h2, h3, h4]
    exact hinv
  unfold region_profile_generator_add_character at hr
  simp only at hr
  split_ifs at hr with h1 h2 h3 h4 h5 h6 h7 h8 h9 <;>
    simp only [Option.some.injEq, reduceCtorEq] at hr <;>
    subst hr <;>
    first
    | exact hrestart _ rfl
    | exact hkeep _ rfl rfl rfl rfl

/-- One iteration of the scan keeps the index and the order of the interval. -/
theorem region_profile_generate_adaptive_iteration_narrowing (pm : region_profile_model_t)
    (fm_index : fm_index_t) (hwf : fm_index_well_formed fm_index)
    (hnarrow : fm_index_narrowing fm_index) (g g' : region_profile_generator_t)
    (hP : g.fm_index = fm_index ∧ generator_narrowing_inv g)
    (hg' : region_profile_generate_adaptive_iteration pm g = some g') :
    g'.fm_index = fm_index ∧ generator_narrowing_inv g' := by
  obtain ⟨hfm, hinv⟩ := hP
  unfold region_profile_generate_adaptive_iteration at hg'
  simp only at hg'
  split at hg'
  · simp only [Option.some.injEq] at hg'
    subst hg'
    unfold region_profile_generator_disallow_character
    simp only
    split_ifs with hc
    · have := region_profile_generator_restart_narrowing
        { ({ region_profile_generator_close_region
              { { g with key_position := g.key_position - 1 } with
                key_position := g.key_position - 1 + 1 } pm g.lo g.hi with
            key_position := g.key_position - 1 + 1 - 1 } : region_profile_generator_t) with
          key_position := region_profile_generator_skip_disallowed g.key g.allowed_enc
            (g.key_position - 1 + 1 - 1) }
        (by
          simp only [region_profile_generator_close_region]
          rw [hfm]; exact hnarrow)
      exact ⟨this.2.trans (by simp only [region_profile_generator_close_region]; exact hfm),
        this.1⟩
    · have := region_profile_generator_restart_narrowing
        { { g with key_position := g.key_position - 1 } with
          key_position := region_profile_generator_skip_disallowed g.key g.allowed_enc
            (g.key_position - 1) }
        (by rw [hfm]; exact hnarrow)
      exact ⟨this.2.trans hfm, this.1⟩
  · have hq := region_profile_query_character_narrowing
      { g with key_position := g.key_position - 1 } (g.key.getD (g.key_position - 1) 0)
      (by rw [hfm]; exact hwf) (by rw [hfm]; exact hnarrow) hinv
    split at hg'
    · exact absurd hg' (by simp)
    · rename_i r hr
      simp only [Option.some.injEq] at hg'
      subst hg'
      have := region_profile_generator_add_character_narrowing _ pm r
        (by rw [hq.2.2]; simp only; rw [hfm]; exact hnarrow) hq.1 hr
      exact ⟨this.2.trans (hq.2.2.trans hfm), this.1⟩

/-- Every state that the scan reaches from the initial state keeps the index and
the order of the interval. -/
theorem region_profile_generate_adaptive_iterate_narrowing (pm : region_profile_model_t)
    (fm_index : fm_index_t) (key : List Nat) (key_length : Nat) (allowed_enc : Nat → Bool)
    (allow_zero_regions : Bool) (hwf : fm_index_well_formed fm_index)
    (hnarrow : fm_index_narrowing fm_index) (n : Nat) (g : region_profile_generator_t)
    (hreach : region_profile_generate_adaptive_iterate pm n
      (region_profile_generator_init fm_index key key_length allowed_enc allow_zero_regions) =
        some g) :
    g.fm_index = fm_index ∧ generator_narrowing_inv g := by
  refine region_profile_generate_adaptive_iterate_induct pm
    (fun g => g.fm_index = fm_index ∧ generator_narrowing_inv g)
    (fun g g' hP _ hg' =>
      region_profile_generate_adaptive_iteration_narrowing pm fm_index hwf hnarrow g g' hP hg')
    n _ g ?_ hreach
  have := region_profile_generator_restart_narrowing
    { region_profile := region_profile_clear
      begin_position := 0, last_cut := 0, lo_cut := 0, hi_cut := 0
      expected_count := 0, max_steps := 0
      fm_index := fm_index, key := key, key_length := key_length
      allowed_enc := allowed_enc, allow_zero_regions := allow_zero_regions
      key_position := key_length
      rank_mquery := rank_mquery_new, lo := 0, hi := 0
      rank_queries := 0 } hnarrow
  exact ⟨this.2, this.1⟩

/-- With a cut-point saved and at most `region_th` candidates, on a well-formed
index that narrows, one iteration of the scan closes a region, or it spends one
of the steps that are left. -/
theorem region_profile_generate_adaptive_iteration_spend (pm : region_profile_model_t)
    (g : region_profile_generator_t) (hdec : 0 < pm.dec_factor) (hcut : g.last_cut ≠ 0)
    (hwf : fm_index_well_formed g.fm_index) (hnarrow : fm_index_narrowing g.fm_index)
    (hinv : generator_narrowing_inv g)
    (hcount : sub64 g.hi g.lo ≤ pm.region_th) :
    ∃ g', region_profile_generate_adaptive_iteration pm g = some g' ∧
      g'.fm_index = g.fm_index ∧ generator_narrowing_inv g' ∧
      (g'.region_profile.num_filtering_regions = g.region_profile.num_filtering_regions + 1 ∨
        (g'.region_profile.num_filtering_regions = g.region_profile.num_filtering_regions ∧
          dec64 g.max_steps ≠ 0 ∧ g'.max_steps = dec64 g.max_steps ∧
          g'.last_cut ≠ 0 ∧ g'.expected_count = g.expected_count / pm.dec_factor ∧
          g'.key_position = g.key_position - 1 ∧ 0 < g'.key_position ∧
          sub64 g'.hi g'.lo ≤ pm.region_th)) := by
  have hiter : ∀ g', region_profile_generate_adaptive_iteration pm g = some g' →
      g'.fm_index = g.fm_index ∧ generator_narrowing_inv g' := fun g' hg' =>
    region_profile_generate_adaptive_iteration_narrowing pm g.fm_index hwf hnarrow g g'
      ⟨rfl, hinv⟩ hg'
  have hmain : ∃ g', region_profile_generate_adaptive_iteration pm g = some g' ∧
      (g'.region_profile.num_filtering_regions = g.region_profile.num_filtering_regions + 1 ∨
        (g'.region_profile.num_filtering_regions = g.region_profile.num_filtering_regions ∧
          dec64 g.max_steps ≠ 0 ∧ g'.max_steps = dec64 g.max_steps ∧
          g'.last_cut ≠ 0 ∧ g'.expected_count = g.expected_count / pm.dec_factor ∧
          g'.key_position = g.key_position - 1 ∧ 0 < g'.key_position ∧
          sub64 g'.hi g'.lo ≤ pm.region_th)) := by
    unfold region_profile_generate_adaptive_iteration
    simp only
    split
    · refine ⟨_, rfl, Or.inl ?_⟩
      have hs := region_profile_generator_disallow_character_step
        { g with key_position := g.key_position - 1 } pm
      simp only at hs
      rcases hs.2.2.2.2.2.2.2 with ⟨h0, _⟩ | ⟨_, r, hr, _⟩
      · exact absurd h0 hcut
      · simp only [region_profile_t.num_filtering_regions, hr, List.length_append,
          List.length_singleton]
    · have hq : ∀ (q : region_profile_generator_t) (c : Nat),
          (region_profile_query_character q c).last_cut = q.last_cut ∧
          (region_profile_query_character q c).max_steps = q.max_steps ∧
          (region_profile_query_character q c).expected_count = q.expected_count ∧
          (region_profile_query_character q c).key_position = q.key_position ∧
          (region_profile_query_character q c).region_profile = q.region_profile := by
        intro q c
        unfold region_profile_query_character
        split <;> simp
      obtain ⟨q2, q3, q4, q5, q6⟩ := hq { g with key_position := g.key_position - 1 }
        (g.key.getD (g.key_position - 1) 0)
      have hc : sub64
          (region_profile_query_character { g with key_position := g.key_position - 1 }
            (g.key.getD (g.key_position - 1) 0)).hi
          (region_profile_query_character { g with key_position := g.key_position - 1 }
            (g.key.getD (g.key_position - 1) 0)).lo ≤ pm.region_th :=
        (region_profile_query_character_narrowing
          { g with key_position := g.key_position - 1 } (g.key.getD (g.key_position - 1) 0)
          hwf hnarrow hinv).2.1.trans hcount
      generalize region_profile_query_character { g with key_position := g.key_position - 1 }
        (g.key.getD (g.key_position - 1) 0) = q at *
      simp only at q2 q3 q4 q5 q6
      obtain ⟨r, hr, h⟩ := region_profile_generator_add_character_spend q pm hdec
        (by rw [q2]; exact hcut) hc
      rw [hr]
      refine ⟨_, rfl, ?_⟩
      rw [q6] at h
      rcases h with h | ⟨h1, h2, h3, h4, h5, h6, h7, h8, h9, _⟩
      · exact Or.inl h
      · exact Or.inr ⟨h1, by rw [← q3]; exact h3, by rw [h4, q3], h5, by rw [h6, q4],
          by rw [h7, q5], by rw [h7]; omega, by rw [h8, h9]; exact hc⟩
  obtain ⟨g', hg', h⟩ := hmain
  exact ⟨g', hg', (hiter g' hg').1, (hiter g' hg').2, h⟩

/-- Once a cut-point is saved, on a well-formed index that narrows, the scan
closes a region within the steps that are left. -/
theorem region_profile_generate_adaptive_iterate_max_steps (pm : region_profile_model_t)
    (fm_index : fm_index_t) (hdec : 0 < pm.dec_factor)
    (hwf : fm_index_well_formed fm_index) (hnarrow : fm_index_narrowing fm_index) :
    ∀ (m : Nat) (g : region_profile_generator_t), g.fm_index = fm_index →
      generator_narrowing_inv g → g.last_cut ≠ 0 →
      g.max_steps = m + 1 → m + 1 < U64 → 0 < g.key_position →
      sub64 g.hi g.lo ≤ pm.region_th →
      ∃ j g', 1 ≤ j ∧ j ≤ m + 1 ∧
        region_profile_generate_adaptive_iterate pm j g = some g' ∧
        g'.region_profile.num_filtering_regions
          = g.region_profile.num_filtering_regions + 1 ∧
        ∀ i, i < j → ∃ gi, region_profile_generate_adaptive_iterate pm i g = some gi ∧
          gi.region_profile.num_filtering_regions = g.region_profile.num_filtering_regions ∧
          gi.max_steps + i = m + 1 ∧
          gi.expected_count = g.expected_count / pm.dec_factor ^ i ∧
          gi.key_position + i = g.key_position ∧ gi.last_cut ≠ 0 ∧
          sub64 gi.hi gi.lo ≤ pm.region_th := by
  intro m
  induction m with
  | zero =>
    intro g hfm hinv hcut hsteps h64 hkp hcount
    obtain ⟨g', hg', _, _, h⟩ := region_profile_generate_adaptive_iteration_spend pm g hdec hcut
      (by rw [hfm]; exact hwf) (by rw [hfm]; exact hnarrow) hinv hcount
    rcases h with h | ⟨_, h2, _⟩
    · refine ⟨1, g', le_rfl, le_rfl, ?_, h, ?_⟩
      · simp [region_profile_generate_adaptive_iterate, hkp, hg']
      · intro i hi
        have hi0 : i = 0 := by omega
        subst hi0
        exact ⟨g, rfl, rfl, by omega, by simp, by omega, hcut, hcount⟩
    · exfalso
      apply h2
      rw [hsteps]
      decide
  | succ m ih =>
    intro g hfm hinv hcut hsteps h64 hkp hcount
    obtain ⟨g1, hg1, hfm1, hinv1, h⟩ := region_profile_generate_adaptive_iteration_spend pm g
      hdec hcut (by rw [hfm]; exact hwf) (by rw [hfm]; exact hnarrow) hinv hcount
    have hzero : ∀ i, i < 1 → ∃ gi, region_profile_generate_adaptive_iterate pm i g = some gi ∧
        gi.region_profile.num_filtering_regions = g.region_profile.num_filtering_regions ∧
        gi.max_steps + i = m + 1 + 1 ∧
        gi.expected_count = g.expected_count / pm.dec_factor ^ i ∧
        gi.key_position + i = g.key_position ∧ gi.last_cut ≠ 0 ∧
        sub64 gi.hi gi.lo ≤ pm.region_th := by
      intro i hi
      have hi0 : i = 0 := by omega
      subst hi0
      exact ⟨g, rfl, rfl, by omega, by simp, by omega, hcut, hcount⟩
    rcases h with h | ⟨h1, h2, h3, h4, h5, h6, h7, h8⟩
    · refine ⟨1, g1, le_rfl, by omega, ?_, h, hzero⟩
      simp [region_profile_generate_adaptive_iterate, hkp, hg1]
    · have hm : dec64 g.max_steps = m + 1 := by
        rw [hsteps]
        simp only [dec64, sub64, U64] at *
        omega
      obtain ⟨j, g', j1, j2, j3, j4, j5⟩ := ih g1 (hfm1.trans hfm) hinv1 h4 (by rw [h3, hm])
        (by omega) h7 h8
      refine ⟨j + 1, g', by omega, by omega, ?_, by rw [j4, h1], ?_⟩
      · simp only [region_profile_generate_adaptive_iterate, hkp, if_true, hg1]
        exact j3
      · intro i hi
        rcases i with _ | i
        · exact hzero 0 (by omega)
        · obtain ⟨gi, e1, e2, e3, e4, e5, e6, e7⟩ := j5 i (by omega)
          refine ⟨gi, ?_, by rw [e2, h1], by omega, ?_, by omega, e6, e7⟩
          · simp only [region_profile_generate_adaptive_iterate, hkp, if_true, hg1]
            exact e1
          · rw [e4, h5, Nat.div_div_eq_div_mul, pow_succ, Nat.mul_comm]

/-- A longer pattern occurs at most as often: every suffix that starts with
`c :: w` is followed by a suffix that starts with `w`. -/
theorem occurrences_cons_le (c : Nat) (w : List Nat) :
    ∀ ref : List Nat,
      occurrences ref (c :: w) + (if w.isPrefixOf ref = true then 1 else 0) ≤ occurrences ref w
  | [] => by
    cases w <;> simp [occurrences, List.isPrefixOf]
  | x :: r => by
    have ih := occurrences_cons_le c w r
    have h1 : occurrences (x :: r) (c :: w) =
        (if (c == x && w.isPrefixOf r) = true then 1 else 0) + occurrences r (c :: w) := by
      simp only [occurrences, List.tails_cons, List.filter_cons, List.isPrefixOf]
      split_ifs <;> simp <;> omega
    have h2 : occurrences (x :: r) w =
        (if w.isPrefixOf (x :: r) = true then 1 else 0) + occurrences r w := by
      simp only [occurrences, List.tails_cons, List.filter_cons]
      split_ifs <;> simp <;> omega
    rw [h1, h2]
    have h3 : (if (c == x && w.isPrefixOf r) = true then 1 else 0) ≤
        (if w.isPrefixOf r = true then 1 else 0) := by
      by_cases hw : w.isPrefixOf r = true
      · rw [if_pos hw]; split_ifs <;> omega
      · have hw' : w.isPrefixOf r = false := Bool.eq_false_iff.mpr hw
        rw [hw']
        simp
    omega

/-- The rank at a later row is larger by at most the number of rows between. -/
theorem bwt_erank_of_step (ref : List Nat) (c i j : Nat) (h : i ≤ j) :
    bwt_erank_of ref c i ≤ bwt_erank_of ref c j ∧
    bwt_erank_of ref c j - bwt_erank_of ref c i ≤ j - i := by
  obtain ⟨k, rfl⟩ : ∃ k, j = i + k := ⟨j - i, by omega⟩
  have hsplit : ((bwt_of ref).take (i + k)).count (some c) =
      ((bwt_of ref).take i).count (some c) +
        (((bwt_of ref).drop i).take k).count (some c) := by
    rw [List.take_add, List.count_append]
  have hle : (((bwt_of ref).drop i).take k).count (some c) ≤ k :=
    (List.count_le_length _ _).trans (by rw [List.length_take]; exact Nat.min_le_left _ _)
  simp only [bwt_erank_of, hsplit]
  constructor <;> omega

/-- The FM-index of a reference that is not too long is well formed and
narrows. -/
theorem reference_fm_index_narrowing (ref : List Nat) (hlen : ref.length + 1 < 2 ^ 62) :
    fm_index_well_formed (reference_fm_index ref) ∧
    fm_index_narrowing (reference_fm_index ref) := by
  have htails : ref.tails.length = ref.length + 1 := List.length_tails ref
  have hfilter : ∀ p : List Nat → Bool, (ref.tails.filter p).length ≤ ref.length + 1 := by
    intro p
    rw [← htails]
    exact List.length_filter_le _ _
  have hbwt : (bwt_of ref).length = ref.length + 1 := by
    simp only [bwt_of, List.length_map]
    rw [(sorted_suffixes_perm ref).length_eq, htails]
  have hcountP : ∀ c, ref.countP (fun x => decide (x < c)) ≤ ref.length :=
    fun c => List.countP_le_length _
  refine ⟨⟨fun chars => ?_, fun c i j h => (bwt_erank_of_step ref c i j h).1, fun c i _ => ?_⟩,
    ?_, fun c chars => ?_, fun c i j h => (bwt_erank_of_step ref c i j h).2⟩
  · simp only [reference_fm_index, sa_interval, occurrences]
    have h1 := hfilter (fun t => lex_lt t chars)
    have h2 := hfilter (fun t => chars.isPrefixOf t)
    unfold U64
    omega
  · simp only [reference_fm_index, bwt_erank_of]
    have h1 := hcountP c
    have h2 : ((bwt_of ref).take i).count (some c) ≤ ref.length + 1 := by
      refine (List.count_le_length _ _).trans ?_
      rw [List.length_take, hbwt]
      exact Nat.min_le_right _ _
    unfold U64
    omega
  · simp only [reference_fm_index, sa_interval, fm_index_get_length, Nat.add_sub_cancel_left]
    have h2 := hfilter (fun t => ([] : List Nat).isPrefixOf t)
    rw [Nat.mod_eq_of_lt (by unfold U64; omega)]
    exact h2
  · simp only [reference_fm_index, sa_interval, Nat.add_sub_cancel_left]
    have := occurrences_cons_le c chars ref
    omega

/-- C24: in `region_profile_generator_add_character` with `dec_factor > 0`:
(1) the first cut-point is saved at a position other than 0 when the count is in
`(0, region_th]`, with the expected count set to the count and `max_steps`
steps to go; (2) at each further step with a count in `(0, region_th]` the
expected count is divided by `dec_factor`, the cut-point is refreshed exactly
when `count ≤ expected_count` or `count ≤ region_type_th`, one step is spent,
and when no step is left the region is closed with `begin` equal to the most
recently saved cut position and `(lo, hi)` equal to the interval saved at that
cut; (3) in every state that the scan reaches on a well-formed index whose
intervals only narrow (as those of the FM-index of a text do), once a cut-point
is saved with at least one step to go, the scan closes the region within that
many further characters, and until then the count stays at or below
`region_th`, a step is spent at each character and the expected count is the
first count divided by `dec_factor` once per step. -/
theorem region_profile_generator_add_character_max_steps (pm : region_profile_model_t)
    (fm_index : fm_index_t) (key : List Nat) (key_length : Nat) (allowed_enc : Nat → Bool)
    (allow_zero_regions : Bool) (n : Nat) (g : region_profile_generator_t)
    (hdec : 0 < pm.dec_factor)
    (hwf : fm_index_well_formed fm_index) (hnarrow : fm_index_narrowing fm_index)
    (hreach : region_profile_generate_adaptive_iterate pm n
      (region_profile_generator_init fm_index key key_length allowed_enc allow_zero_regions) =
        some g)
    (hcut : g.last_cut ≠ 0) (hsteps : 1 ≤ g.max_steps) (hsteps64 : g.max_steps < 2 ^ 64)
    (hkp : 0 < g.key_position) (hcount : sub64 g.hi g.lo ≤ pm.region_th) :
    (∀ q : region_profile_generator_t, q.last_cut = 0 → 0 < sub64 q.hi q.lo →
      sub64 q.hi q.lo ≤ pm.region_th → q.key_position ≠ 0 →
      region_profile_generator_add_character q pm =
        some (false,
          { q with
            last_cut := q.key_position, lo_cut := q.lo, hi_cut := q.hi
            expected_count := sub64 q.hi q.lo, max_steps := pm.max_steps })) ∧
    (∀ q : region_profile_generator_t, q.last_cut ≠ 0 → 0 < sub64 q.hi q.lo →
      sub64 q.hi q.lo ≤ pm.region_th → q.key_position ≠ 0 →
      ∃ closed g', region_profile_generator_add_character q pm = some (closed, g') ∧
        (closed = true ↔ dec64 q.max_steps = 0) ∧
        (closed = false →
          g'.expected_count = q.expected_count / pm.dec_factor ∧
          g'.max_steps = dec64 q.max_steps ∧
          g'.region_profile.filtering_region = q.region_profile.filtering_region ∧
          (g'.last_cut, g'.lo_cut, g'.hi_cut) =
            if sub64 q.hi q.lo ≤ q.expected_count / pm.dec_factor ∨
                sub64 q.hi q.lo ≤ pm.region_type_th then (q.key_position, q.lo, q.hi)
            else (q.last_cut, q.lo_cut, q.hi_cut)) ∧
        (closed = true → ∃ r,
          g'.region_profile.filtering_region = q.region_profile.filtering_region ++ [r] ∧
          r.end_ = q.region_profile.current_region.end_ ∧
          (r.begin, r.lo, r.hi) =
            (if sub64 q.hi q.lo ≤ q.expected_count / pm.dec_factor ∨
                sub64 q.hi q.lo ≤ pm.region_type_th then (q.key_position, q.lo, q.hi)
            else (q.last_cut, q.lo_cut, q.hi_cut)) ∧
          g'.key_position = r.begin)) ∧
    (∃ j g', 1 ≤ j ∧ j ≤ g.max_steps ∧
      region_profile_generate_adaptive_iterate pm j g = some g' ∧
      g'.region_profile.num_filtering_regions = g.region_profile.num_filtering_regions + 1 ∧
      ∀ i, i < j → ∃ gi, region_profile_generate_adaptive_iterate pm i g = some gi ∧
        gi.region_profile.num_filtering_regions = g.region_profile.num_filtering_regions ∧
        gi.max_steps + i = g.max_steps ∧
        gi.expected_count = g.expected_count / pm.dec_factor ^ i ∧
        gi.key_position + i = g.key_position ∧ gi.last_cut ≠ 0 ∧
        sub64 gi.hi gi.lo ≤ pm.region_th) := by
  refine ⟨?_, ?_, ?_⟩
  · intro q h0 h1 h2 h3
    unfold region_profile_generator_add_character
    simp only
    rw [if_neg (by omega), if_pos h1, if_neg h3, if_pos h0]
    rfl
  · intro q h0 h1 h2 h3
    unfold region_profile_generator_add_character
    simp only
    rw [if_neg (by omega), if_pos h1, if_neg h3, if_neg h0, if_neg (by omega)]
    by_cases hr : sub64 q.hi q.lo ≤ q.expected_count / pm.dec_factor ∨
        sub64 q.hi q.lo ≤ pm.region_type_th
    · rw [if_pos hr, if_pos hr]
      by_cases hm : dec64 q.max_steps = 0
      · rw [if_pos (by simpa [region_profile_generator_save_cut_point] using hm)]
        refine ⟨_, _, rfl, by simp [hm], by simp, fun _ => ?_⟩
        exact ⟨_, rfl, rfl, rfl, rfl⟩
      · rw [if_neg (by simpa [region_profile_generator_save_cut_point] using hm)]
        refine ⟨_, _, rfl, by simp [hm], fun _ => ?_, by simp⟩
        exact ⟨rfl, rfl, rfl, rfl⟩
    · rw [if_neg hr, if_neg hr]
      by_cases hm : dec64 q.max_steps = 0
      · rw [if_pos (by simpa using hm)]
        refine ⟨_, _, rfl, by simp [hm], by simp, fun _ => ?_⟩
        exact ⟨_, rfl, rfl, rfl, rfl⟩
      · rw [if_neg (by simpa using hm)]
        refine ⟨_, _, rfl, by simp [hm], fun _ => ?_, by simp⟩
        exact ⟨rfl, rfl, rfl, rfl⟩
  · obtain ⟨hfm, hinv⟩ := region_profile_generate_adaptive_iterate_narrowing pm fm_index key
      key_length allowed_enc allow_zero_regions hwf hnarrow n g hreach
    obtain ⟨m, hm⟩ : ∃ m, g.max_steps = m + 1 := ⟨g.max_steps - 1, by omega⟩
    rw [hm]
    exact region_profile_generate_adaptive_iterate_max_steps pm fm_index hdec hwf hnarrow m g
      hfm hinv hcut hm (by rw [← hm]; exact hsteps64) hkp hcount

/-- A witness of `region_profile_generator_add_character_max_steps` on the
FM-index of the text `CACACACACA`: the scan of the read `ACACA` with
`max_steps = 2` saves its first cut-point at its first character (5 candidates),
and closes the region two characters later. -/
theorem region_profile_generator_add_character_max_steps_witness :
    (example_scan_generator (reference_fm_index example_repeat_reference)
      example_two_steps_profile_model [0, 1, 0, 1, 0]).last_cut = 4 ∧
    (example_scan_generator (reference_fm_index example_repeat_reference)
      example_two_steps_profile_model [0, 1, 0, 1, 0]).max_steps = 2 ∧
    (region_profile_generate_adaptive_iterate example_two_steps_profile_model 2
        (example_scan_generator (reference_fm_index example_repeat_reference)
          example_two_steps_profile_model [0, 1, 0, 1, 0])).map
      (fun g => g.region_profile.filtering_region.map (fun r => (r.begin, r.end_, r.lo, r.hi))) =
      some [(4, 5, 1, 6)] ∧
    ∃ j g', 1 ≤ j ∧
      j ≤ (example_scan_generator (reference_fm_index example_repeat_reference)
        example_two_steps_profile_model [0, 1, 0, 1, 0]).max_steps ∧
      region_profile_generate_adaptive_iterate example_two_steps_profile_model j
        (example_scan_generator (reference_fm_index example_repeat_reference)
          example_two_steps_profile_model [0, 1, 0, 1, 0]) = some g' ∧
      g'.region_profile.num_filtering_regions =
        (example_scan_generator (reference_fm_index example_repeat_reference)
          example_two_steps_profile_model
          [0, 1, 0, 1, 0]).region_profile.num_filtering_regions + 1 :=
  ⟨by decide, by decide, by decide,
    match (region_profile_generator_add_character_max_steps example_two_steps_profile_model
        (reference_fm_index example_repeat_reference) [0, 1, 0, 1, 0] 5
        (fun c => decide (c < 4)) false 1
        (example_scan_generator (reference_fm_index example_repeat_reference)
          example_two_steps_profile_model [0, 1, 0, 1, 0])
        (by decide)
        (reference_fm_index_narrowing example_repeat_reference (by decide)).1
        (reference_fm_index_narrowing example_repeat_reference (by decide)).2
        (by rfl) (by decide) (by decide) (by decide) (by decide) (by decide)).2.2 with
    | ⟨j, g', h1, h2, h3, h4, _⟩ => ⟨j, g', h1, h2, h3, h4⟩⟩
end Gem
